import Mathlib

/-!
# Zerginator: a bitboard engine for a 5-file by 8-rank chess variant

Shallow embedding of the Go sources (`globals/constants.go`,
`bitoperations/bit_operations.go`, `board/attacks.go`, `board/hashing.go`,
`board/board.go`, `board/moves.go`) and theorems about them.

Conventions of the embedding.

* A Go `uint64` is a `Nat` below `2 ^ 64`; every operation that can leave that
  range in Go (left shift, negation, multiplication) is followed by an explicit
  `% 2 ^ 64`.
* A Go `int` that can be negative in the source (`EnPassantSquare`, the result of
  `GetLeastSignificantBitIndex`, loop counters that run below zero) is an `Int`.
* Go arrays are functions from the index; an access outside the array, a shift by
  a negative count and an index past the end of a string are runtime panics and
  are modelled by `none` in the functions that can reach them.
* Loops run on a fuel argument that bounds the number of iterations the source can
  make (64 bits in a word, 8 ranks on the board).
-/

namespace Zerginator

/-! ## `globals/constants.go` -/

abbrev WHITE : Nat := 0
abbrev BLACK : Nat := 1
abbrev BOTH : Nat := 2

abbrev ROOK : Nat := 0
abbrev BISHOP : Nat := 1

abbrev WhitePawn : Nat := 0
abbrev WhiteKnight : Nat := 1
abbrev WhiteBishop : Nat := 2
abbrev WhiteRook : Nat := 3
abbrev WhiteKing : Nat := 4
abbrev BlackPawn : Nat := 5
abbrev NoPiece : Nat := 6

abbrev AllMoves : Nat := 0
abbrev OnlyCaptures : Nat := 1

abbrev A8 : Nat := 0
abbrev A7 : Nat := 5
abbrev E7 : Nat := 9
abbrev A2 : Nat := 30
abbrev E2 : Nat := 34
abbrev A1 : Nat := 35
abbrev E1 : Nat := 39
abbrev NoSquare : Nat := 40

def NotAFile : Nat := 1064043510750
def NotEFile : Nat := 532021755375
def NotDEFile : Nat := 248276819175
def NotABFile : Nat := 993107276700

/-- Bitboard40Mask is `(1 << 40) - 1`. -/
def Bitboard40Mask : Nat := 2 ^ 40 - 1

/-- The size of a machine word: Go `uint64` arithmetic is arithmetic modulo this. -/
abbrev U64 : Nat := 2 ^ 64

/-- Left shift of a `uint64` by a non-negative count (bits shifted out are lost). -/
def shl64 (x n : Nat) : Nat := (x <<< n) % U64

/-! ## `bitoperations/bit_operations.go` -/

/-- GetBit: `(bitBoard >> square) & 1`. -/
def GetBit (bitBoard square : Nat) : Nat := (bitBoard >>> square) &&& 1

/-- SetBit: `*bitBoard |= 1 << square; *bitBoard &= Bitboard40Mask`. -/
def SetBit (bitBoard square : Nat) : Nat :=
  (bitBoard ||| shl64 1 square) &&& Bitboard40Mask

/-- PopBit: flips the bit only when it is set. -/
def PopBit (bitBoard square : Nat) : Nat :=
  if GetBit bitBoard square = 1 then bitBoard ^^^ shl64 1 square else bitBoard

/-- The loop of CountBits: `for bitBoard != 0 { count++; bitBoard &= bitBoard - 1 }`. -/
def CountBitsLoop : Nat → Nat → Nat → Nat
  | 0, _, count => count
  | fuel + 1, bitBoard, count =>
    if bitBoard ≠ 0 then CountBitsLoop fuel (bitBoard &&& (bitBoard - 1)) (count + 1)
    else count

/-- CountBits: Kernighan's loop; a 64-bit word needs at most 64 rounds. -/
def CountBits (bitBoard : Nat) : Nat := CountBitsLoop 64 bitBoard 0

/-- GetLeastSignificantBitIndex: `CountBits((b & -b) - 1)` for `b != 0`, else `-1`. -/
def GetLeastSignificantBitIndex (bitBoard : Nat) : Int :=
  if bitBoard ≠ 0 then
    ((CountBits (((bitBoard &&& ((U64 - bitBoard) % U64)) + (U64 - 1)) % U64) : Nat) : Int)
  else -1

/-! ## `board/moves.go`: the packed move -/

/-- EncodeMove: the seven fields OR-ed together at their bit offsets. -/
def EncodeMove (source target piece promotedPiece capturedPiece doublePawnPush enPassant : Nat) :
    Nat :=
  (source ||| target <<< 6 ||| piece <<< 12 ||| promotedPiece <<< 15 ||| capturedPiece <<< 18
    ||| doublePawnPush <<< 21 ||| enPassant <<< 22) % U64

def GetMoveSource (move : Nat) : Nat := move &&& 0x3f
def GetMoveTarget (move : Nat) : Nat := (move &&& 0xfc0) >>> 6
def GetMovePiece (move : Nat) : Nat := (move &&& 0x7000) >>> 12
def GetMovePromotedPiece (move : Nat) : Nat := (move &&& 0x38000) >>> 15
def GetMoveCapturedPiece (move : Nat) : Nat := (move &&& 0x1C0000) >>> 18
def GetMoveDoublePawnPush (move : Nat) : Nat := (move &&& 0x200000) >>> 21
def GetMoveEnPassant (move : Nat) : Nat := (move &&& 0x400000) >>> 22

/-! ## `board/attacks.go`: leaper attacks -/

/-- MaskPawnAttacks: the squares a pawn of `side` on `square` attacks. -/
def MaskPawnAttacks (side square : Nat) : Nat :=
  let bitboard := SetBit 0 square
  let attacks : Nat :=
    if side = WHITE then
      let a1 := if (bitboard >>> 4) &&& NotAFile ≠ 0 then bitboard >>> 4 else 0
      let a2 := if (bitboard >>> 6) &&& NotEFile ≠ 0 then a1 ||| bitboard >>> 6 else a1
      a2
    else
      let a1 := if shl64 bitboard 4 &&& NotEFile ≠ 0 then shl64 bitboard 4 else 0
      let a2 := if shl64 bitboard 6 &&& NotAFile ≠ 0 then a1 ||| shl64 bitboard 6 else a1
      a2
  attacks &&& Bitboard40Mask

/-- One guarded step of a leaper mask: `if shifted & fileMask != 0 { attacks |= shifted }`. -/
def orIf (attacks shifted fileMask : Nat) : Nat :=
  if shifted &&& fileMask ≠ 0 then attacks ||| shifted else attacks

/-- MaskKnightAttacks: the eight knight offsets with their file-exclusion masks. -/
def MaskKnightAttacks (square : Nat) : Nat :=
  let bitboard := SetBit 0 square
  let attacks := orIf 0 (bitboard >>> 11) NotEFile
  let attacks := orIf attacks (bitboard >>> 9) NotAFile
  let attacks := orIf attacks (bitboard >>> 7) NotDEFile
  let attacks := orIf attacks (bitboard >>> 3) NotABFile
  let attacks := orIf attacks (shl64 bitboard 11) NotAFile
  let attacks := orIf attacks (shl64 bitboard 9) NotEFile
  let attacks := orIf attacks (shl64 bitboard 7) NotABFile
  let attacks := orIf attacks (shl64 bitboard 3) NotDEFile
  attacks &&& Bitboard40Mask

/-- MaskKingAttacks: the eight king offsets; the two vertical ones carry no file mask. -/
def MaskKingAttacks (square : Nat) : Nat :=
  let bitboard := SetBit 0 square
  let attacks := orIf 0 (bitboard >>> 1) NotEFile
  let attacks := orIf attacks (bitboard >>> 4) NotAFile
  let attacks := if bitboard >>> 5 ≠ 0 then attacks ||| bitboard >>> 5 else attacks
  let attacks := orIf attacks (bitboard >>> 6) NotEFile
  let attacks := orIf attacks (shl64 bitboard 1) NotAFile
  let attacks := orIf attacks (shl64 bitboard 4) NotEFile
  let attacks := if shl64 bitboard 5 ≠ 0 then attacks ||| shl64 bitboard 5 else attacks
  let attacks := orIf attacks (shl64 bitboard 6) NotAFile
  attacks &&& Bitboard40Mask

/-- The table `PawnAttacks [2][40]uint64` after InitLeapersAttacks; `none` is an index
outside the array. -/
def PawnAttacks (side square : Nat) : Option Nat :=
  if side < 2 ∧ square < 40 then some (MaskPawnAttacks side square) else none

/-- The table `KnightAttacks [40]uint64` after InitLeapersAttacks. -/
def KnightAttacks (square : Nat) : Option Nat :=
  if square < 40 then some (MaskKnightAttacks square) else none

/-- The table `KingAttacks [40]uint64` after InitLeapersAttacks. -/
def KingAttacks (square : Nat) : Option Nat :=
  if square < 40 then some (MaskKingAttacks square) else none

/-! ## `board/attacks.go`: slider attacks -/

/-- One ray loop of the slider functions,
`for r, f := r0, f0; cond(r, f); r, f = r+dr, f+df { attacks |= 1 << (r*5+f); ... }`,
which leaves the loop at the first square of `block` when `stop` is set (the on-the-fly
generators) and never when it is not (the mask generators). A ray has at most 8 squares. -/
def rayLoop (cond : Int → Int → Bool) (dr df : Int) (stop : Bool) (block : Nat) :
    Nat → Int → Int → Nat → Nat
  | 0, _, _, attacks => attacks
  | fuel + 1, r, f, attacks =>
    if cond r f then
      let attacks := attacks ||| shl64 1 (r * 5 + f).toNat
      if stop ∧ shl64 1 (r * 5 + f).toNat &&& block ≠ 0 then attacks
      else rayLoop cond dr df stop block fuel (r + dr) (f + df) attacks
    else attacks

/-- MaskBishopAttacks: the diagonals without the board edge. -/
def MaskBishopAttacks (square : Nat) : Nat :=
  let targetRank : Int := square / 5
  let targetFile : Int := square % 5
  let attacks := rayLoop (fun r f => r ≤ 6 ∧ f ≤ 3) 1 1 false 0 8 (targetRank + 1) (targetFile + 1) 0
  let attacks :=
    rayLoop (fun r f => r ≥ 1 ∧ f ≤ 3) (-1) 1 false 0 8 (targetRank - 1) (targetFile + 1) attacks
  let attacks :=
    rayLoop (fun r f => r ≤ 6 ∧ f ≥ 1) 1 (-1) false 0 8 (targetRank + 1) (targetFile - 1) attacks
  let attacks :=
    rayLoop (fun r f => r ≥ 1 ∧ f ≥ 1) (-1) (-1) false 0 8 (targetRank - 1) (targetFile - 1) attacks
  attacks &&& Bitboard40Mask

/-- MaskRookAttacks: the rank and the file without the board edge. -/
def MaskRookAttacks (square : Nat) : Nat :=
  let targetRank : Int := square / 5
  let targetFile : Int := square % 5
  let attacks := rayLoop (fun r _ => r ≤ 6) 1 0 false 0 8 (targetRank + 1) targetFile 0
  let attacks := rayLoop (fun r _ => r ≥ 1) (-1) 0 false 0 8 (targetRank - 1) targetFile attacks
  let attacks := rayLoop (fun _ f => f ≤ 3) 0 1 false 0 8 targetRank (targetFile + 1) attacks
  let attacks := rayLoop (fun _ f => f ≥ 1) 0 (-1) false 0 8 targetRank (targetFile - 1) attacks
  attacks &&& Bitboard40Mask

/-- BishopAttacksOnTheFly: each diagonal up to and including the first blocker. -/
def BishopAttacksOnTheFly (square block : Nat) : Nat :=
  let targetRank : Int := square / 5
  let targetFile : Int := square % 5
  let attacks :=
    rayLoop (fun r f => r ≤ 7 ∧ f ≤ 4) 1 1 true block 8 (targetRank + 1) (targetFile + 1) 0
  let attacks :=
    rayLoop (fun r f => r ≥ 0 ∧ f ≤ 4) (-1) 1 true block 8 (targetRank - 1) (targetFile + 1) attacks
  let attacks :=
    rayLoop (fun r f => r ≤ 7 ∧ f ≥ 0) 1 (-1) true block 8 (targetRank + 1) (targetFile - 1) attacks
  let attacks :=
    rayLoop (fun r f => r ≥ 0 ∧ f ≥ 0) (-1) (-1) true block 8 (targetRank - 1) (targetFile - 1)
      attacks
  attacks &&& Bitboard40Mask

/-- RookAttacksOnTheFly: the rank and the file up to and including the first blocker. -/
def RookAttacksOnTheFly (square block : Nat) : Nat :=
  let targetRank : Int := square / 5
  let targetFile : Int := square % 5
  let attacks := rayLoop (fun r _ => r ≤ 7) 1 0 true block 8 (targetRank + 1) targetFile 0
  let attacks := rayLoop (fun r _ => r ≥ 0) (-1) 0 true block 8 (targetRank - 1) targetFile attacks
  let attacks := rayLoop (fun _ f => f ≤ 4) 0 1 true block 8 targetRank (targetFile + 1) attacks
  let attacks := rayLoop (fun _ f => f ≥ 0) 0 (-1) true block 8 targetRank (targetFile - 1) attacks
  attacks &&& Bitboard40Mask

/-- BishopRelevantOccupancyCount: relevant occupancy bits of every square. -/
def BishopRelevantOccupancyCount : List Nat :=
  [3, 2, 2, 2, 3,
   3, 2, 2, 2, 3,
   4, 3, 4, 3, 4,
   5, 4, 4, 4, 5,
   5, 4, 4, 4, 5,
   4, 3, 4, 3, 4,
   3, 2, 2, 2, 3,
   3, 2, 2, 2, 3]

/-- RookRelevantOccupancyCount: relevant occupancy bits of every square. -/
def RookRelevantOccupancyCount : List Nat :=
  [9, 8, 8, 8, 9,
   8, 7, 7, 7, 8,
   8, 7, 7, 7, 8,
   8, 7, 7, 7, 8,
   8, 7, 7, 7, 8,
   8, 7, 7, 7, 8,
   8, 7, 7, 7, 8,
   9, 8, 8, 8, 9]

/-- RookMagicNumbers as compiled into the source. -/
def RookMagicNumbers : List Nat :=
  [
   0x400804082801400, 0xa0081028000084d, 0x240800c0400420a0, 0x402004040000092,
   0x800a04400204082, 0x20480100000890, 0x10201008000030, 0x20404040482000,
   0x340200404420001, 0x2160048090020201, 0x421002004400040, 0x80801008000806,
   0x4421020040041044, 0xc80844020000600, 0x4002480900000, 0x8020081100600000,
   0x100482010000001, 0x4080204104042000, 0x8140100804000000, 0x8408200120880300,
   0x40100240110a000c, 0x120804081001904, 0x20204080160000, 0xc0408040400101,
   0x420044020001020, 0x40040210000a00b, 0x8050101080800, 0x882081080022010,
   0x208200420190800, 0xc008448800800185, 0x4010480a0000080, 0x2100810500004c1,
   0x2008080810400620, 0x431010480040000, 0x8048a40000080, 0x8804002800002,
   0x10010080408000, 0x10020202040a004, 0x8020200400800001, 0x11048082002040]

/-- BishopMagicNumbers as compiled into the source. -/
def BishopMagicNumbers : List Nat :=
  [
   0x25c080804200101, 0x895284800000b20, 0x24a040000000442, 0x30c000080408000,
   0x48200004002020, 0x8110888004010, 0x1404640080008810, 0xccc01088b5106,
   0x6822020000500, 0x80b1428200040040, 0x110222100083402, 0x10010b501000001,
   0x80108900002020, 0x481143100060020, 0x4084314800000000, 0x80c8104240048100,
   0x84008100021000, 0x44008a05000100, 0x480c910801c210, 0xe440801080008602,
   0x208201010800004, 0x109089020020100, 0x200208400540a80, 0x2088408240206206,
   0x424080811414000, 0x30c20c40440000, 0x6000108091020900, 0x4010822040018008,
   0x3212888242040002, 0x809001002034c, 0x60008d2020043210, 0x830404b40c350241,
   0x8801854800842, 0x8021320600810, 0x14e0200041004, 0x501259044204a0,
   0x84a4400840, 0x9c0028130025001, 0x80000108c001010, 0x4329c40856000904]

/-- The loop of SetOccupancy: bit `i` of `index` decides whether the `i`-th square of the
attack mask (in ascending order) is occupied. -/
def SetOccupancyLoop (index : Nat) : Nat → Nat → Nat → Nat → Nat
  | 0, _, _, occupancy => occupancy
  | n + 1, i, attackMask, occupancy =>
    let square := (GetLeastSignificantBitIndex attackMask).toNat
    let attackMask := PopBit attackMask square
    let occupancy := if index &&& (1 <<< i) ≠ 0 then occupancy ||| shl64 1 square else occupancy
    SetOccupancyLoop index n (i + 1) attackMask occupancy

/-- SetOccupancy: the occupancy subset of `attackMask` numbered `index`. The callers pass
`maskBitCount = CountBits attackMask`, so the mask never runs empty inside the loop. -/
def SetOccupancy (index maskBitCount attackMask : Nat) : Nat :=
  SetOccupancyLoop index maskBitCount 0 attackMask 0 &&& Bitboard40Mask

/-- The magic index `(occupancy * magic) >> (64 - relevantBits)` in `uint64` arithmetic. -/
def magicIndex (occupancy magic relevantBits : Nat) : Nat :=
  (occupancy * magic % U64) >>> (64 - relevantBits)

/-- The inner loop of InitSlidersAttacks for one square: for `index = i, i+1, ...` (`n` of
them) write the on-the-fly attack set of the `index`-th occupancy at its magic index. -/
def InitSlidersLoop (isBishop square relevantBitCount attackMask : Nat) :
    Nat → Nat → (Nat → Nat) → (Nat → Nat)
  | 0, _, table => table
  | n + 1, index, table =>
    let occupancy := SetOccupancy index relevantBitCount attackMask
    let table : Nat → Nat :=
      if isBishop = BISHOP then
        let mi := magicIndex occupancy (BishopMagicNumbers.getD square 0)
          (BishopRelevantOccupancyCount.getD square 0)
        fun j => if j = mi then BishopAttacksOnTheFly square occupancy else table j
      else
        let mi := magicIndex occupancy (RookMagicNumbers.getD square 0)
          (RookRelevantOccupancyCount.getD square 0)
        fun j => if j = mi then RookAttacksOnTheFly square occupancy else table j
    InitSlidersLoop isBishop square relevantBitCount attackMask n (index + 1) table

/-- The row of `square` in the attack table that `InitSlidersAttacks(isBishop)` fills
(`BishopAttacks[square]` or `RookAttacks[square]`), starting from the zeroed array. -/
def InitSlidersAttacks (isBishop square : Nat) : Nat → Nat :=
  let attackMask := if isBishop = BISHOP then MaskBishopAttacks square else MaskRookAttacks square
  let relevantBitCount := CountBits attackMask
  InitSlidersLoop isBishop square relevantBitCount attackMask (1 <<< relevantBitCount) 0
    (fun _ => 0)

/-- GetBishopAttacks: the magic lookup; `none` when `square` is outside the 40-entry
tables. -/
def GetBishopAttacks (square occupancy : Nat) : Option Nat :=
  if square < 40 then
    let occupancy := occupancy &&& MaskBishopAttacks square
    let occupancy := occupancy * BishopMagicNumbers.getD square 0 % U64
    let occupancy := occupancy >>> (64 - BishopRelevantOccupancyCount.getD square 0)
    some (InitSlidersAttacks BISHOP square occupancy)
  else none

/-- GetRookAttacks: the magic lookup; `none` when `square` is outside the 40-entry
tables. -/
def GetRookAttacks (square occupancy : Nat) : Option Nat :=
  if square < 40 then
    let occupancy := occupancy &&& MaskRookAttacks square
    let occupancy := occupancy * RookMagicNumbers.getD square 0 % U64
    let occupancy := occupancy >>> (64 - RookRelevantOccupancyCount.getD square 0)
    some (InitSlidersAttacks ROOK square occupancy)
  else none

/-! ## `board/magics.go` and `board/hashing.go`: the Zobrist keys -/

/-- GetRandomUInt32: one xorshift step on the 32-bit state. -/
def xorshift32 (number : Nat) : Nat :=
  let number := number ^^^ (number <<< 13) % 2 ^ 32
  let number := number ^^^ number >>> 17
  number ^^^ (number <<< 5) % 2 ^ 32

/-- The state of the generator after `n` calls of GetRandomUInt32 from the seed that
InitRandomKeys sets. -/
def randomState : Nat → Nat
  | 0 => 1804289383
  | n + 1 => xorshift32 (randomState n)

/-- The `k`-th value (counting from 0) that GetRandomUInt64 returns after the seed is
set: the low 16 bits of four consecutive 32-bit numbers. -/
def GetRandomUInt64 (k : Nat) : Nat :=
  (randomState (4 * k + 1) &&& 0xFFFF) ||| (randomState (4 * k + 2) &&& 0xFFFF) <<< 16
    ||| (randomState (4 * k + 3) &&& 0xFFFF) <<< 32 ||| (randomState (4 * k + 4) &&& 0xFFFF) <<< 48

/-- PieceKeys `[6][40]uint64` after InitRandomKeys: drawn piece by piece, square by
square. -/
def PieceKeys (piece square : Nat) : Option Nat :=
  if piece < 6 ∧ square < 40 then some (GetRandomUInt64 (piece * 40 + square)) else none

/-- EnPassantKeys `[40]uint64` after InitRandomKeys: drawn after the 240 piece keys. The
index is a Go `int`. -/
def EnPassantKeys (square : Int) : Option Nat :=
  if 0 ≤ square ∧ square < 40 then some (GetRandomUInt64 (240 + square.toNat)) else none

/-- SideKey: the last key drawn by InitRandomKeys. -/
def SideKey : Nat := GetRandomUInt64 280

/-! ## The position state (`globals/constants.go`, `board/moves.go`) -/

/-- MoveRecord: what MakeMove saves for UnMakeMove. -/
structure MoveRecord where
  move : Nat
  enPassantSquare : Int
  sideToMove : Nat
  occupancies : Nat → Nat
  hashKey : Nat

/-- The process-wide position state: `Bitboards [6]uint64`, `Occupancies [3]uint64`,
`SideToMove`, `EnPassantSquare`, `HashKey`, the repetition table with its index, and
`MoveStack` (a slice: the last element is the top). -/
structure Position where
  Bitboards : Nat → Nat
  Occupancies : Nat → Nat
  SideToMove : Nat
  EnPassantSquare : Int
  HashKey : Nat
  RepetitionTable : Nat → Nat
  RepetitionIndex : Int
  MoveStack : List MoveRecord

/-- The state of the globals when the program starts: everything zero, no en-passant
square, an empty move stack. -/
def initialPosition : Position where
  Bitboards := fun _ => 0
  Occupancies := fun _ => 0
  SideToMove := 0
  EnPassantSquare := NoSquare
  HashKey := 0
  RepetitionTable := fun _ => 0
  RepetitionIndex := 0
  MoveStack := []

/-- Assignment to one element of a Go array. -/
def setAt (arr : Nat → Nat) (i v : Nat) : Nat → Nat := fun j => if j = i then v else arr j

/-! ## `board/hashing.go` -/

/-- The inner loop of GeneratePositionKey for one piece: XOR the key of every set square
into `finalKey`. -/
def hashPieceLoop (piece : Nat) : Nat → Nat → Nat → Option Nat
  | 0, _, finalKey => some finalKey
  | fuel + 1, bitboard, finalKey =>
    if bitboard ≠ 0 then
      let square := (GetLeastSignificantBitIndex bitboard).toNat
      match PieceKeys piece square with
      | none => none
      | some k => hashPieceLoop piece fuel (PopBit bitboard square) (finalKey ^^^ k)
    else some finalKey

/-- The outer loop of GeneratePositionKey over the pieces `piece, piece+1, ...` (`n` of
them). -/
def hashPiecesLoop (bitboards : Nat → Nat) : Nat → Nat → Nat → Option Nat
  | 0, _, finalKey => some finalKey
  | n + 1, piece, finalKey =>
    match hashPieceLoop piece 64 (bitboards piece) finalKey with
    | none => none
    | some k => hashPiecesLoop bitboards n (piece + 1) k

/-- GeneratePositionKey: the Zobrist key of the position computed from scratch. -/
def GeneratePositionKey (s : Position) : Option Nat :=
  match hashPiecesLoop s.Bitboards 6 WhitePawn 0 with
  | none => none
  | some finalKey =>
    let withEp : Option Nat :=
      if s.EnPassantSquare ≠ NoSquare then
        (EnPassantKeys s.EnPassantSquare).map (fun k => finalKey ^^^ k)
      else some finalKey
    withEp.map (fun finalKey => if s.SideToMove = BLACK then finalKey ^^^ SideKey else finalKey)

/-! ## `board/board.go`: ParseFEN -/

/-- The bytes of a string of ASCII characters (for those the UTF-8 bytes that Go indexes
are the code points). -/
def bytesOf (fen : String) : List Nat := fen.toList.map Char.toNat

/-- ConvertAsciiToConstants: a Go map, so a letter that is no key yields the zero value
`WhitePawn`. -/
def ConvertAsciiToConstants (ch : Nat) : Nat :=
  if ch = 80 then WhitePawn       -- 'P'
  else if ch = 78 then WhiteKnight -- 'N'
  else if ch = 66 then WhiteBishop -- 'B'
  else if ch = 82 then WhiteRook   -- 'R'
  else if ch = 75 then WhiteKing   -- 'K'
  else if ch = 112 then BlackPawn  -- 'p'
  else 0

/-- The loop over the files of one rank in ParseFEN. A letter sets a bit and takes one
file, a digit `d` moves on by `d` files (`file += d - 1` and the loop's `file++`), any
other byte is left in place while the file advances. Returns the bitboards and `idx`. -/
def parseRankLoop (fen : List Nat) (rank : Nat) :
    Nat → Nat → Nat → (Nat → Nat) → (Nat → Nat) × Nat
  | 0, _, idx, bitboards => (bitboards, idx)
  | fuel + 1, file, idx, bitboards =>
    if file < 5 then
      if idx ≥ fen.length then (bitboards, idx)
      else
        let ch := fen.getD idx 0
        let square := rank * 5 + file
        if (97 ≤ ch ∧ ch ≤ 122) ∨ (65 ≤ ch ∧ ch ≤ 90) then
          let piece := ConvertAsciiToConstants ch
          parseRankLoop fen rank fuel (file + 1) (idx + 1)
            (setAt bitboards piece (SetBit (bitboards piece) square))
        else if 48 ≤ ch ∧ ch ≤ 57 then
          parseRankLoop fen rank fuel (file + (ch - 48)) (idx + 1) bitboards
        else parseRankLoop fen rank fuel (file + 1) idx bitboards
    else (bitboards, idx)

/-- The loop over the ranks `rank, rank+1, ...` (`n` of them) in ParseFEN, with the skip
of the rank separator. -/
def parseRanksLoop (fen : List Nat) : Nat → Nat → Nat → (Nat → Nat) → (Nat → Nat) × Nat
  | 0, _, idx, bitboards => (bitboards, idx)
  | n + 1, rank, idx, bitboards =>
    let (bitboards, idx) := parseRankLoop fen rank (fen.length + 6) 0 idx bitboards
    let idx := if idx < fen.length ∧ fen.getD idx 0 = 47 then idx + 1 else idx
    parseRanksLoop fen n (rank + 1) idx bitboards

/-- ParseFEN: resets the board, reads the placement, the side to move and the en-passant
square, derives the occupancies and the hash key. `none` is an index past the end of the
string (or a key lookup outside its table). -/
def ParseFEN (fen : List Nat) (s : Position) : Option Position :=
  let (bitboards, idx) := parseRanksLoop fen 8 0 0 (fun _ => 0)
  let idx := idx + 1
  match fen.get? idx with
  | none => none
  | some c =>
    let side := if c = 119 then WHITE else if c = 98 then BLACK else WHITE
    let idx := idx + 2
    match fen.get? idx with
    | none => none
    | some c =>
      let ep : Option Int :=
        if c ≠ 45 then
          match fen.get? (idx + 1) with
          | none => none
          | some d =>
            let file : Int := ((c + 256 - 97) % 256 : Nat)
            let rank : Int := 8 - (((d + 256 - 48) % 256 : Nat) : Int)
            some (rank * 5 + file)
        else some NoSquare
      match ep with
      | none => none
      | some ep =>
        let white := bitboards WhitePawn ||| bitboards WhiteKnight ||| bitboards WhiteBishop
          ||| bitboards WhiteRook ||| bitboards WhiteKing
        let black := bitboards BlackPawn
        let s1 : Position :=
          { s with
            Bitboards := bitboards
            Occupancies := fun i =>
              if i = WHITE then white else if i = BLACK then black
              else if i = BOTH then white ||| black else 0
            SideToMove := side
            EnPassantSquare := ep
            RepetitionIndex := 0
            RepetitionTable := fun _ => 0 }
        (GeneratePositionKey s1).map (fun k => { s1 with HashKey := k })

/-! ## `board/moves.go`: GenerateMoves -/

/-- A loop `for bitboard != 0 { sq := GetLeastSignificantBitIndex(bitboard); body(sq);
PopBit(&bitboard, sq) }`; the result is the moves the bodies add, in order, or `none`
when a body panics. A word has at most 64 bits to pop. -/
def forBits (body : Nat → Option (List Nat)) : Nat → Nat → Option (List Nat)
  | 0, _ => some []
  | fuel + 1, bitboard =>
    if bitboard ≠ 0 then
      let square := (GetLeastSignificantBitIndex bitboard).toNat
      match body square with
      | none => none
      | some ms =>
        match forBits body fuel (PopBit bitboard square) with
        | none => none
        | some rest => some (ms ++ rest)
    else some []

/-- The four promotion pieces, `for i := WhiteKnight; i <= WhiteKing; i++`. -/
def promotionPieces : List Nat := [WhiteKnight, WhiteBishop, WhiteRook, WhiteKing]

/-- The body of the White pawn loop for the pawn on `sourceSquare`. -/
def whitePawnMoves (s : Position) (sourceSquare : Nat) : Option (List Nat) :=
  let piece := WhitePawn
  let targetSquare : Int := (sourceSquare : Int) - 5
  let quiet : List Nat :=
    if ¬ (targetSquare < A8) ∧ GetBit (s.Occupancies BOTH) targetSquare.toNat = 0 then
      if sourceSquare ≥ A7 ∧ sourceSquare ≤ E7 then
        promotionPieces.map (fun i => EncodeMove sourceSquare targetSquare.toNat piece i NoPiece 0 0)
      else
        EncodeMove sourceSquare targetSquare.toNat piece NoPiece NoPiece 0 0 ::
          (if sourceSquare ≥ A2 ∧ sourceSquare ≤ E2
              ∧ GetBit (s.Occupancies BOTH) (targetSquare - 5).toNat = 0 then
            [EncodeMove sourceSquare (targetSquare - 5).toNat piece NoPiece NoPiece 1 0]
          else [])
    else []
  match PawnAttacks s.SideToMove sourceSquare with
  | none => none
  | some pa =>
    let attacks := pa &&& s.Occupancies BLACK
    match forBits (fun targetSquare =>
        if sourceSquare ≥ A7 ∧ sourceSquare ≤ E7 then
          some (promotionPieces.map
            (fun i => EncodeMove sourceSquare targetSquare piece i BlackPawn 0 0))
        else some [EncodeMove sourceSquare targetSquare piece NoPiece BlackPawn 0 0]) 64 attacks with
    | none => none
    | some captures => some (quiet ++ captures)

/-- The body shared by the White knight, king, bishop and rook loops once the attack set
of the piece on `sourceSquare` is known: every attacked square not held by White is a
quiet move when Black does not hold it and a capture of a Black pawn when it does. -/
def whitePieceMoves (s : Position) (piece sourceSquare : Nat) (attackSet : Option Nat) :
    Option (List Nat) :=
  match attackSet with
  | none => none
  | some a =>
    let attacks := a &&& (U64 - 1 - s.Occupancies WHITE)
    forBits (fun targetSquare =>
      if GetBit (s.Occupancies BLACK) targetSquare = 0 then
        some [EncodeMove sourceSquare targetSquare piece NoPiece NoPiece 0 0]
      else some [EncodeMove sourceSquare targetSquare piece NoPiece BlackPawn 0 0]) 64 attacks

/-- The scan `for p := WhitePawn; p <= WhiteKing; p++` for the White piece on
`targetSquare`; 7 when there is none. -/
def capturedWhitePiece (bitboards : Nat → Nat) (targetSquare : Nat) : Nat :=
  if GetBit (bitboards WhitePawn) targetSquare = 1 then WhitePawn
  else if GetBit (bitboards WhiteKnight) targetSquare = 1 then WhiteKnight
  else if GetBit (bitboards WhiteBishop) targetSquare = 1 then WhiteBishop
  else if GetBit (bitboards WhiteRook) targetSquare = 1 then WhiteRook
  else if GetBit (bitboards WhiteKing) targetSquare = 1 then WhiteKing
  else 7

/-- The body of the Black pawn loop for the pawn on `sourceSquare`. -/
def blackPawnMoves (s : Position) (sourceSquare : Nat) : Option (List Nat) :=
  let piece := BlackPawn
  let targetSquare := sourceSquare + 5
  let quiet : List Nat :=
    if ¬ (targetSquare > E1) ∧ GetBit (s.Occupancies BOTH) targetSquare = 0 then
      [EncodeMove sourceSquare targetSquare piece NoPiece NoPiece 0 0]
    else []
  match PawnAttacks s.SideToMove sourceSquare with
  | none => none
  | some pa =>
    let attacks := pa &&& s.Occupancies WHITE
    match forBits (fun targetSquare =>
        some [EncodeMove sourceSquare targetSquare piece NoPiece
          (capturedWhitePiece s.Bitboards targetSquare) 0 0]) 64 attacks with
    | none => none
    | some captures =>
      if s.EnPassantSquare ≠ NoSquare then
        if s.EnPassantSquare < 0 then none
        else
          let enPassantAttacks := pa &&& shl64 1 s.EnPassantSquare.toNat
          if enPassantAttacks ≠ 0 then
            if s.EnPassantSquare - 5 < 0 then none
            else if shl64 1 (s.EnPassantSquare - 5).toNat &&& s.Bitboards WhitePawn ≠ 0 then
              let targetEnPassantSquare := (GetLeastSignificantBitIndex enPassantAttacks).toNat
              some (quiet ++ captures
                ++ [EncodeMove sourceSquare targetEnPassantSquare piece NoPiece WhitePawn 0 1])
            else some (quiet ++ captures)
          else some (quiet ++ captures)
      else some (quiet ++ captures)

/-- The body of `for piece := WhitePawn; piece <= BlackPawn; piece++` in GenerateMoves. -/
def generatePieceMoves (s : Position) (piece : Nat) : Option (List Nat) :=
  let bitboard := s.Bitboards piece
  if s.SideToMove = WHITE then
    if piece = WhitePawn then forBits (whitePawnMoves s) 64 bitboard
    else if piece = WhiteKnight then
      forBits (fun sq => whitePieceMoves s piece sq (KnightAttacks sq)) 64 bitboard
    else if piece = WhiteKing then
      forBits (fun sq => whitePieceMoves s piece sq (KingAttacks sq)) 64 bitboard
    else if piece = WhiteBishop then
      forBits (fun sq => whitePieceMoves s piece sq (GetBishopAttacks sq (s.Occupancies BOTH)))
        64 bitboard
    else if piece = WhiteRook then
      forBits (fun sq => whitePieceMoves s piece sq (GetRookAttacks sq (s.Occupancies BOTH)))
        64 bitboard
    else some []
  else
    if piece = BlackPawn then forBits (blackPawnMoves s) 64 bitboard
    else some []

/-- The loop over the pieces `piece, piece+1, ...` (`n` of them) in GenerateMoves. -/
def generateMovesLoop (s : Position) : Nat → Nat → Option (List Nat)
  | 0, _ => some []
  | n + 1, piece =>
    match generatePieceMoves s piece with
    | none => none
    | some ms =>
      match generateMovesLoop s n (piece + 1) with
      | none => none
      | some rest => some (ms ++ rest)

/-- GenerateMoves: the pseudo-legal moves of the side to move, in the order the source
adds them. The move list holds 256 moves: AddMove past its end is a panic, which is the
case exactly when more than 256 moves are added in all. -/
def GenerateMoves (s : Position) : Option (List Nat) :=
  match generateMovesLoop s 6 WhitePawn with
  | none => none
  | some moves => if moves.length ≤ 256 then some moves else none

/-! ## `board/moves.go`: MakeMove and UnMakeMove -/

/-- The occupancies as MakeMove recomputes them from the piece bitboards. -/
def recomputeOccupancies (bitboards : Nat → Nat) : Nat → Nat :=
  let white := 0 ||| bitboards WhitePawn ||| bitboards WhiteKnight ||| bitboards WhiteBishop
    ||| bitboards WhiteRook ||| bitboards WhiteKing
  let black := 0 ||| bitboards BlackPawn
  fun i =>
    if i = WHITE then white else if i = BLACK then black
    else if i = BOTH then 0 ||| (white ||| black) else 0

/-- The `AllMoves` branch of MakeMove. `none` is a runtime panic: a piece index outside
`Bitboards`, a square outside the key tables, or a negative shift count. -/
def makeMoveAll (move : Nat) (s : Position) : Option Position :=
  let sourceSquare := GetMoveSource move
  let targetSquare := GetMoveTarget move
  let piece := GetMovePiece move
  let promotedPiece := GetMovePromotedPiece move
  let doublePawnPush := GetMoveDoublePawnPush move
  let capturedPiece := GetMoveCapturedPiece move
  let enPassant := GetMoveEnPassant move
  let stack := s.MoveStack ++
    [{ move := move, enPassantSquare := s.EnPassantSquare, sideToMove := s.SideToMove,
       occupancies := s.Occupancies, hashKey := s.HashKey }]
  if piece ≥ 6 then none else
  -- move the piece
  let bb := setAt s.Bitboards piece (PopBit (s.Bitboards piece) sourceSquare)
  let bb := setAt bb piece (SetBit (bb piece) targetSquare)
  match PieceKeys piece sourceSquare, PieceKeys piece targetSquare with
  | some kSource, some kTarget =>
    let hash := s.HashKey ^^^ kSource
    let hash := hash ^^^ kTarget
    -- the captured piece
    let afterCapture : Option ((Nat → Nat) × Nat) :=
      if capturedPiece ≠ NoPiece then
        if capturedPiece ≥ 6 then none
        else if GetBit (bb capturedPiece) targetSquare = 1 then
          (PieceKeys capturedPiece targetSquare).map (fun k =>
            (setAt bb capturedPiece (PopBit (bb capturedPiece) targetSquare), hash ^^^ k))
        else some (bb, hash)
      else some (bb, hash)
    match afterCapture with
    | none => none
    | some (bb, hash) =>
      -- the promotion
      let afterPromotion : Option ((Nat → Nat) × Nat) :=
        if promotedPiece ≤ WhiteKing ∧ promotedPiece ≥ WhiteKnight then
          let bb1 := setAt bb piece (PopBit (bb piece) targetSquare)
          match PieceKeys promotedPiece targetSquare with
          | none => none
          | some k =>
            some (setAt bb1 promotedPiece (SetBit (bb1 promotedPiece) targetSquare),
              hash ^^^ kTarget ^^^ k)
        else some (bb, hash)
      match afterPromotion with
      | none => none
      | some (bb, hash) =>
        -- the en-passant capture
        let afterEnPassant : Option ((Nat → Nat) × Nat) :=
          if enPassant ≠ 0 ∧ s.SideToMove = BLACK then
            if targetSquare < 5 then none
            else
              match PieceKeys WhitePawn (targetSquare - 5) with
              | none => none
              | some k =>
                some (setAt bb WhitePawn (PopBit (bb WhitePawn) (targetSquare - 5)), hash ^^^ k)
          else some (bb, hash)
        match afterEnPassant with
        | none => none
        | some (bb, hash) =>
          -- the en-passant square
          let hashOld : Option Nat :=
            if s.EnPassantSquare ≠ NoSquare then
              (EnPassantKeys s.EnPassantSquare).map (fun k => hash ^^^ k)
            else some hash
          match hashOld with
          | none => none
          | some hash =>
            let afterPush : Option (Int × Nat) :=
              if doublePawnPush ≠ 0 ∧ s.SideToMove = WHITE then
                (EnPassantKeys ((targetSquare : Int) + 5)).map (fun k =>
                  ((targetSquare : Int) + 5, hash ^^^ k))
              else some ((NoSquare : Int), hash)
            match afterPush with
            | none => none
            | some (ep, hash) =>
              some
                { s with
                  MoveStack := stack
                  Bitboards := bb
                  Occupancies := recomputeOccupancies bb
                  EnPassantSquare := ep
                  SideToMove := s.SideToMove ^^^ 1
                  HashKey := hash ^^^ SideKey }
  | _, _ => none

/-- MakeMove: returns the Go result (1 = made, 0 = not made) and the new state. With
`OnlyCaptures` a move is made only when its captured piece is one of the six pieces. -/
def MakeMove (move moveFlag : Nat) (s : Position) : Option (Nat × Position) :=
  if moveFlag = AllMoves then (makeMoveAll move s).map (fun s1 => (1, s1))
  else
    let capturedPiece := GetMoveCapturedPiece move
    if capturedPiece ≤ BlackPawn ∧ capturedPiece ≥ WhitePawn then
      (makeMoveAll move s).map (fun s1 => (1, s1))
    else some (0, s)

/-- UnMakeMove: pops the last record and reverses the move. `none` is a runtime panic: an
empty stack, a piece index outside `Bitboards`, a negative shift count. -/
def UnMakeMove (s : Position) : Option Position :=
  match s.MoveStack.getLast? with
  | none => none
  | some rec =>
    let move := rec.move
    let capturedPiece := GetMoveCapturedPiece move
    let sourceSquare := GetMoveSource move
    let targetSquare := GetMoveTarget move
    let piece := GetMovePiece move
    let promotedPiece := GetMovePromotedPiece move
    let enPassant := GetMoveEnPassant move
    if piece ≥ 6 then none else
    let bb :=
      if promotedPiece ≤ WhiteKing ∧ promotedPiece ≥ WhiteKnight then
        let bb1 := setAt s.Bitboards promotedPiece (PopBit (s.Bitboards promotedPiece) targetSquare)
        setAt bb1 piece (SetBit (bb1 piece) sourceSquare)
      else
        let bb1 := setAt s.Bitboards piece (PopBit (s.Bitboards piece) targetSquare)
        setAt bb1 piece (SetBit (bb1 piece) sourceSquare)
    let restored : Option (Nat → Nat) :=
      if capturedPiece ≠ NoPiece then
        if enPassant ≠ 0 then
          if rec.sideToMove = BLACK then
            if targetSquare < 5 then none
            else some (setAt bb WhitePawn (SetBit (bb WhitePawn) (targetSquare - 5)))
          else some bb
        else if capturedPiece ≥ 6 then none
        else some (setAt bb capturedPiece (SetBit (bb capturedPiece) targetSquare))
      else some bb
    restored.map (fun bb =>
      { s with
        MoveStack := s.MoveStack.dropLast
        SideToMove := rec.sideToMove
        EnPassantSquare := rec.enPassantSquare
        Occupancies := rec.occupancies
        HashKey := rec.hashKey
        Bitboards := bb })

/-! ## `board/moves.go`: PerftDriver -/

/-- The counters `NodesVisited` and `LeafNodesVisited` next to the position. -/
structure PerftState where
  pos : Position
  NodesVisited : Nat
  LeafNodesVisited : Nat

/-- The `for i := 0; i < moveList.Count; i++` loop of PerftDriver over the remaining
moves, with `recurse` standing for `PerftDriver(depth - 1)`. -/
def perftMovesLoop (recurse : PerftState → Option PerftState) :
    List Nat → PerftState → Option PerftState
  | [], st => some st
  | move :: rest, st =>
    match MakeMove move AllMoves st.pos with
    | none => none
    | some (made, pos1) =>
      if made = 0 then perftMovesLoop recurse rest { st with pos := pos1 }
      else
        match recurse { st with pos := pos1 } with
        | none => none
        | some st1 =>
          match UnMakeMove st1.pos with
          | none => none
          | some pos2 => perftMovesLoop recurse rest { st1 with pos := pos2 }

/-- PerftDriver: counts the nodes and the leaves of the move tree below the position, to
`depth` plies. -/
def PerftDriver : Nat → PerftState → Option PerftState
  | 0, st =>
    some { st with NodesVisited := st.NodesVisited + 1,
                   LeafNodesVisited := st.LeafNodesVisited + 1 }
  | depth + 1, st =>
    let st := { st with NodesVisited := st.NodesVisited + 1 }
    match GenerateMoves st.pos with
    | none => none
    | some moveList => perftMovesLoop (PerftDriver depth) moveList st

/-- FenDebugStartPosition, the canonical starting position. -/
def FenDebugStartPosition : String := "ppppp/ppppp/ppppp/5/5/5/PPPPP/RNK1B w -"

/-- The leaf count of PerftDriver from the position a FEN describes. -/
def perftLeaves (fen : String) (depth : Nat) : Option Nat :=
  match ParseFEN (bytesOf fen) initialPosition with
  | none => none
  | some pos =>
    (PerftDriver depth { pos := pos, NodesVisited := 0, LeafNodesVisited := 0 }).map
      (fun st => st.LeafNodesVisited)

/-- The squares of a bitboard in ascending order (specification of the bit loops). -/
def bitList (x : Nat) : List Nat := (List.range 64).filter (fun i => x.testBit i)

/-- `i` is the index of the least significant set bit of `x`. -/
def IsLowest (x i : Nat) : Prop := x.testBit i = true ∧ ∀ j, j < i → x.testBit j = false

/-- Specification of `forBits`: the bodies run over a list of squares. -/
def flatMapOpt (body : Nat → Option (List Nat)) : List Nat → Option (List Nat)
  | [] => some []
  | a :: as =>
    match body a with
    | none => none
    | some ms =>
      match flatMapOpt body as with
      | none => none
      | some rest => some (ms ++ rest)

/-- The attack set GenerateMoves looks up for a White piece other than the pawn. -/
def whiteAttackSet (s : Position) (piece sq : Nat) : Option Nat :=
  if piece = WhiteKnight then KnightAttacks sq
  else if piece = WhiteKing then KingAttacks sq
  else if piece = WhiteBishop then GetBishopAttacks sq (s.Occupancies BOTH)
  else GetRookAttacks sq (s.Occupancies BOTH)

/-- The moves GenerateMoves emits for a position, kind by kind, as the source decides
them (no consistency of the position is assumed here). -/
inductive Gen (s : Position) : Nat → Prop
  | whitePush (src : Nat) : s.SideToMove = WHITE → (s.Bitboards WhitePawn).testBit src = true →
      src < 40 → 10 ≤ src → (s.Occupancies BOTH).testBit (src - 5) = false →
      Gen s (EncodeMove src (src - 5) WhitePawn NoPiece NoPiece 0 0)
  | whitePushPromo (src pr : Nat) : s.SideToMove = WHITE →
      (s.Bitboards WhitePawn).testBit src = true → 5 ≤ src → src ≤ 9 →
      (s.Occupancies BOTH).testBit (src - 5) = false → pr ∈ promotionPieces →
      Gen s (EncodeMove src (src - 5) WhitePawn pr NoPiece 0 0)
  | whiteDouble (src : Nat) : s.SideToMove = WHITE →
      (s.Bitboards WhitePawn).testBit src = true → 30 ≤ src → src ≤ 34 →
      (s.Occupancies BOTH).testBit (src - 5) = false →
      (s.Occupancies BOTH).testBit (src - 10) = false →
      Gen s (EncodeMove src (src - 10) WhitePawn NoPiece NoPiece 1 0)
  | whitePawnCapture (src tgt : Nat) : s.SideToMove = WHITE →
      (s.Bitboards WhitePawn).testBit src = true → src < 40 → ¬ (5 ≤ src ∧ src ≤ 9) →
      (MaskPawnAttacks WHITE src &&& s.Occupancies BLACK).testBit tgt = true →
      Gen s (EncodeMove src tgt WhitePawn NoPiece BlackPawn 0 0)
  | whitePawnCapturePromo (src tgt pr : Nat) : s.SideToMove = WHITE →
      (s.Bitboards WhitePawn).testBit src = true → 5 ≤ src → src ≤ 9 →
      (MaskPawnAttacks WHITE src &&& s.Occupancies BLACK).testBit tgt = true →
      pr ∈ promotionPieces →
      Gen s (EncodeMove src tgt WhitePawn pr BlackPawn 0 0)
  | whitePieceQuiet (piece src tgt a : Nat) : s.SideToMove = WHITE →
      1 ≤ piece → piece ≤ 4 → (s.Bitboards piece).testBit src = true →
      whiteAttackSet s piece src = some a →
      (a &&& (U64 - 1 - s.Occupancies WHITE)).testBit tgt = true →
      (s.Occupancies BLACK).testBit tgt = false →
      Gen s (EncodeMove src tgt piece NoPiece NoPiece 0 0)
  | whitePieceCapture (piece src tgt a : Nat) : s.SideToMove = WHITE →
      1 ≤ piece → piece ≤ 4 → (s.Bitboards piece).testBit src = true →
      whiteAttackSet s piece src = some a →
      (a &&& (U64 - 1 - s.Occupancies WHITE)).testBit tgt = true →
      (s.Occupancies BLACK).testBit tgt = true →
      Gen s (EncodeMove src tgt piece NoPiece BlackPawn 0 0)
  | blackPush (src : Nat) : s.SideToMove = BLACK →
      (s.Bitboards BlackPawn).testBit src = true → src + 5 ≤ 39 →
      (s.Occupancies BOTH).testBit (src + 5) = false →
      Gen s (EncodeMove src (src + 5) BlackPawn NoPiece NoPiece 0 0)
  | blackCapture (src tgt : Nat) : s.SideToMove = BLACK →
      (s.Bitboards BlackPawn).testBit src = true → src < 40 →
      (MaskPawnAttacks BLACK src &&& s.Occupancies WHITE).testBit tgt = true →
      Gen s (EncodeMove src tgt BlackPawn NoPiece (capturedWhitePiece s.Bitboards tgt) 0 0)
  | blackEnPassant (src : Nat) : s.SideToMove = BLACK →
      (s.Bitboards BlackPawn).testBit src = true → src < 40 →
      s.EnPassantSquare ≠ NoSquare → 5 ≤ s.EnPassantSquare →
      (MaskPawnAttacks BLACK src).testBit s.EnPassantSquare.toNat = true →
      (s.Bitboards WhitePawn).testBit (s.EnPassantSquare.toNat - 5) = true →
      Gen s (EncodeMove src s.EnPassantSquare.toNat BlackPawn NoPiece WhitePawn 0 1)

/-- A consistent position: the piece bitboards lie inside the low 40 bits and are pairwise
disjoint, the occupancies are derived from them, and the en-passant square is either
NoSquare or an empty square among 25..29. -/
def Consistent (s : Position) : Prop :=
  (∀ p, p < 6 → s.Bitboards p < 2 ^ 40)
  ∧ (∀ p, p < 6 → ∀ q, q < 6 → p ≠ q → s.Bitboards p &&& s.Bitboards q = 0)
  ∧ s.Occupancies WHITE = (s.Bitboards WhitePawn ||| s.Bitboards WhiteKnight
      ||| s.Bitboards WhiteBishop ||| s.Bitboards WhiteRook ||| s.Bitboards WhiteKing)
  ∧ s.Occupancies BLACK = s.Bitboards BlackPawn
  ∧ s.Occupancies BOTH = (s.Occupancies WHITE ||| s.Occupancies BLACK)
  ∧ (s.EnPassantSquare = NoSquare
      ∨ (25 ≤ s.EnPassantSquare ∧ s.EnPassantSquare ≤ 29
          ∧ (s.Occupancies BOTH).testBit s.EnPassantSquare.toNat = false))

instance (s : Position) : Decidable (Consistent s) := by
  unfold Consistent; infer_instance

/-- The shapes a generated move takes on a consistent position, as far as MakeMove and
UnMakeMove can tell them apart: the fields of the move and what stands on its squares. -/
inductive Shape (s : Position) : Nat → Nat → Nat → Nat → Nat → Nat → Nat → Prop
  | quiet (src tgt piece : Nat) : src < 40 → tgt < 40 → piece < 6 →
      (s.Bitboards piece).testBit src = true → (s.Occupancies BOTH).testBit tgt = false →
      Shape s src tgt piece NoPiece NoPiece 0 0
  | double (src : Nat) : s.SideToMove = WHITE → 30 ≤ src → src ≤ 34 →
      (s.Bitboards WhitePawn).testBit src = true →
      (s.Occupancies BOTH).testBit (src - 5) = false →
      (s.Occupancies BOTH).testBit (src - 10) = false →
      Shape s src (src - 10) WhitePawn NoPiece NoPiece 1 0
  | capture (src tgt piece cap : Nat) : src < 40 → tgt < 40 → piece < 6 → cap < 6 →
      cap ≠ piece → (s.Bitboards piece).testBit src = true →
      (s.Bitboards cap).testBit tgt = true →
      Shape s src tgt piece NoPiece cap 0 0
  | promo (src tgt pr : Nat) : src < 40 → tgt < 40 → 1 ≤ pr → pr ≤ 4 →
      (s.Bitboards WhitePawn).testBit src = true → (s.Occupancies BOTH).testBit tgt = false →
      Shape s src tgt WhitePawn pr NoPiece 0 0
  | promoCapture (src tgt pr : Nat) : src < 40 → tgt < 40 → 1 ≤ pr → pr ≤ 4 →
      (s.Bitboards WhitePawn).testBit src = true → (s.Bitboards BlackPawn).testBit tgt = true →
      Shape s src tgt WhitePawn pr BlackPawn 0 0
  | enPassant (src tgt : Nat) : s.SideToMove = BLACK → src < 40 → tgt < 40 → 5 ≤ tgt →
      s.EnPassantSquare = (tgt : Int) →
      (s.Bitboards BlackPawn).testBit src = true → (s.Occupancies BOTH).testBit tgt = false →
      (s.Bitboards WhitePawn).testBit (tgt - 5) = true →
      Shape s src tgt BlackPawn NoPiece WhitePawn 0 1

/-- The Zobrist key of a piece on a square (0 outside the table). -/
def pieceKey (piece sq : Nat) : Nat := (PieceKeys piece sq).getD 0

/-- The Zobrist key of an en-passant square; 0 for NoSquare. -/
def epKey (ep : Int) : Nat := if ep ≠ NoSquare then (EnPassantKeys ep).getD 0 else 0

/-- The record MakeMove pushes. -/
def recordOf (move : Nat) (s : Position) : MoveRecord :=
  { move := move, enPassantSquare := s.EnPassantSquare, sideToMove := s.SideToMove,
    occupancies := s.Occupancies, hashKey := s.HashKey }

/-- The state MakeMove leaves, given the new bitboards, en-passant square and hash key. -/
def madeState (move : Nat) (s : Position) (bb : Nat → Nat) (ep : Int) (hash : Nat) : Position :=
  { s with
    MoveStack := s.MoveStack ++ [recordOf move s]
    Bitboards := bb
    Occupancies := recomputeOccupancies bb
    EnPassantSquare := ep
    SideToMove := s.SideToMove ^^^ 1
    HashKey := hash }

/-- The bitboards UnMakeMove rebuilds from those of the state it is called on: the part
of UnMakeMove that is not a copy from the record. -/
def unmakeBitboards (move side : Nat) (bitboards : Nat → Nat) : Option (Nat → Nat) :=
  let capturedPiece := GetMoveCapturedPiece move
  let sourceSquare := GetMoveSource move
  let targetSquare := GetMoveTarget move
  let piece := GetMovePiece move
  let promotedPiece := GetMovePromotedPiece move
  let enPassant := GetMoveEnPassant move
  if piece ≥ 6 then none else
  let bb :=
    if promotedPiece ≤ WhiteKing ∧ promotedPiece ≥ WhiteKnight then
      let bb1 := setAt bitboards promotedPiece (PopBit (bitboards promotedPiece) targetSquare)
      setAt bb1 piece (SetBit (bb1 piece) sourceSquare)
    else
      let bb1 := setAt bitboards piece (PopBit (bitboards piece) targetSquare)
      setAt bb1 piece (SetBit (bb1 piece) sourceSquare)
  if capturedPiece ≠ NoPiece then
    if enPassant ≠ 0 then
      if side = BLACK then
        if targetSquare < 5 then none
        else some (setAt bb WhitePawn (SetBit (bb WhitePawn) (targetSquare - 5)))
      else some bb
    else if capturedPiece ≥ 6 then none
    else some (setAt bb capturedPiece (SetBit (bb capturedPiece) targetSquare))
  else some bb

/-- The position parsed from FenDebugStartPosition at program start. -/
def startPosition : Position :=
  (ParseFEN (bytesOf FenDebugStartPosition) initialPosition).getD initialPosition

/-- No bit at index 40 or above in any of the six piece bitboards. -/
def Bounded40 (f : Nat → Nat) : Prop := ∀ p, p < 6 → f p < 2 ^ 40

/-- No square holds two pieces: the six piece bitboards are pairwise disjoint. -/
def Disj (f : Nat → Nat) : Prop :=
  ∀ p q i, p < 6 → q < 6 → p ≠ q → (f p).testBit i = true → (f q).testBit i = false

/-- The invariant of the placement loops of ParseFEN: the bitboards are bounded and
disjoint and hold no bit at square `n` or above. -/
def ParseInv (bb : Nat → Nat) (n : Nat) : Prop :=
  Bounded40 bb ∧ Disj bb ∧ ∀ p, p < 6 → ∀ i, n ≤ i → (bb p).testBit i = false

/-- The 40-bit discipline on a position: no piece bitboard and no occupancy has a bit at
index 40 or above. -/
def Within40 (s : Position) : Prop :=
  (∀ p, p < 6 → s.Bitboards p < 2 ^ 40) ∧ (∀ i, i < 3 → s.Occupancies i < 2 ^ 40)

instance (s : Position) : Decidable (Within40 s) := by
  unfold Within40; infer_instance

/-- The occupancy invariant: the White occupancy is the OR of the five White piece
bitboards, the Black occupancy is the BlackPawn bitboard, the joint occupancy is their
OR, and the White and Black occupancies share no square. -/
def OccupancyInvariant (s : Position) : Prop :=
  s.Occupancies WHITE = (s.Bitboards WhitePawn ||| s.Bitboards WhiteKnight
      ||| s.Bitboards WhiteBishop ||| s.Bitboards WhiteRook ||| s.Bitboards WhiteKing)
  ∧ s.Occupancies BLACK = s.Bitboards BlackPawn
  ∧ s.Occupancies BOTH = (s.Occupancies WHITE ||| s.Occupancies BLACK)
  ∧ s.Occupancies WHITE &&& s.Occupancies BLACK = 0

/-- XOR of `g 0, ..., g (n-1)`. -/
def foldXor (n : Nat) (g : Nat → Nat) : Nat := (List.range n).foldl (fun acc i => acc ^^^ g i) 0

/-- XOR of the keys of the squares of one piece bitboard. -/
def xorKeys (piece x : Nat) : Nat :=
  foldXor 64 (fun i => if x.testBit i then pieceKey piece i else 0)

/-- XOR of the piece-square keys of all six bitboards. -/
def boardHash (bb : Nat → Nat) : Nat := foldXor 6 (fun p => xorKeys p (bb p))

/-- The Zobrist key of a position from scratch, as a formula: piece-square keys, the
en-passant key, and the side key when Black is to move. -/
def zobrist (bb : Nat → Nat) (ep : Int) (side : Nat) : Nat :=
  boardHash bb ^^^ epKey ep ^^^ (if side = BLACK then SideKey else 0)

/-- The prepared en-passant scenario: White pawn on c5, Black pawn on b5, White to move,
en-passant square b6. -/
def FenEnPassantScenario : String := "5/5/5/1pP2/5/5/5/5 w b6"

/-- The position ParseFEN leaves for FenEnPassantScenario. -/
def enPassantScenario : Position :=
  (ParseFEN (bytesOf FenEnPassantScenario) initialPosition).getD initialPosition

/-- A position with a Black en-passant capture: White pawn on a4, Black pawn on b4, Black
to move, en-passant square a3. -/
def FenBlackEnPassant : String := "5/5/5/5/Pp3/5/5/5 b a3"

/-- The position ParseFEN leaves for FenBlackEnPassant. -/
def blackEnPassantPosition : Position :=
  (ParseFEN (bytesOf FenBlackEnPassant) initialPosition).getD initialPosition

/-- The loop of IsTerminalPosition over the squares `square, square+1, ...` (`n` of them):
true when one of them holds a Black pawn. -/
def terminalScan (blackPawns : Nat) : Nat → Nat → Bool
  | 0, _ => false
  | n + 1, square =>
    if GetBit blackPawns square = 1 then true else terminalScan blackPawns n (square + 1)

/-- IsTerminalPosition: a Black pawn on one of the squares A1..E1, or no White piece, or no
Black piece. -/
def IsTerminalPosition (s : Position) : Bool :=
  if terminalScan (s.Bitboards BlackPawn) (E1 + 1 - A1) A1 then true
  else if s.Occupancies WHITE = 0 then true
  else if s.Occupancies BLACK = 0 then true
  else false

/-! ## `ai/move_ordering.go`: the transposition table -/

/-- The value ProbeTranspositionTable returns when the table has nothing to offer. -/
abbrev noHashEntry : Int := 10000000

/-- The number of slots of the transposition table. -/
abbrev hashSize : Nat := 0x400000

abbrev HashFlagExact : Int := 0
abbrev HashFlagAlpha : Int := 1
abbrev HashFlagBeta : Int := 2

/-- One slot of the transposition table. -/
structure taggedHashEntry where
  key : Nat
  depth : Int
  flags : Int
  value : Int
  bestMove : Nat

/-- ProbeTranspositionTable, called with a non-nil pointer: `bestMove` is what the pointer
holds at the call, the result is the returned value and what the pointer holds after. -/
def ProbeTranspositionTable (transpositionTable : Nat → taggedHashEntry) (hashKey : Nat)
    (bestMove : Nat) (depth alpha beta : Int) : Int × Nat :=
  let hashEntry := transpositionTable (hashKey % hashSize)
  if hashEntry.key = hashKey then
    let bestMove := hashEntry.bestMove
    if hashEntry.depth ≥ depth then
      if hashEntry.flags = HashFlagExact then (hashEntry.value, bestMove)
      else if hashEntry.flags = HashFlagAlpha then
        if hashEntry.value ≤ alpha then (alpha, bestMove) else (noHashEntry, bestMove)
      else if hashEntry.flags = HashFlagBeta then
        if hashEntry.value ≥ beta then (beta, bestMove) else (noHashEntry, bestMove)
      else (noHashEntry, bestMove)
    else (noHashEntry, bestMove)
  else (noHashEntry, bestMove)

/-- RecordHash: overwrites the slot the hash key addresses. -/
def RecordHash (transpositionTable : Nat → taggedHashEntry) (hashKey : Nat) (bestMove : Nat)
    (depth value hashFlag : Int) : Nat → taggedHashEntry :=
  fun i =>
    if i = hashKey % hashSize then
      { key := hashKey, depth := depth, flags := hashFlag, value := value, bestMove := bestMove }
    else transpositionTable i

/-- A position with a single Black pawn on a2 and Black to move. -/
def FenBlackPawnA2 : String := "5/5/5/5/5/5/p4/5 b -"

/-- The position ParseFEN leaves for FenBlackPawnA2. -/
def blackPawnA2Position : Position :=
  (ParseFEN (bytesOf FenBlackPawnA2) initialPosition).getD initialPosition

/-! ## `globals/constants.go`: the evaluation tables -/

/-- MaterialValues: a Go map, so a key outside 0..5 yields 0. -/
def MaterialValues (piece : Nat) : Int :=
  if piece = WhitePawn then 100
  else if piece = WhiteKnight then 300
  else if piece = WhiteBishop then 350
  else if piece = WhiteRook then 500
  else if piece = WhiteKing then 400
  else if piece = BlackPawn then -100
  else 0

def PawnPositionalValues : List Int :=
  [90, 90, 90, 90, 90,
   30, 30, 40, 30, 30,
   20, 20, 30, 20, 20,
   10, 10, 20, 10, 10,
   5, 10, 20, 10, 5,
   0, 0, 5, 0, 0,
   0, 0, 0, 0, 0,
   0, 0, 0, 0, 0]

def KnightPositionalValues : List Int :=
  [-5, 0, 0, 0, -5,
   -5, 0, 5, 0, -5,
   -5, 5, 10, 5, -5,
   -5, 20, 30, 20, -5,
   -5, 20, 30, 20, -5,
   -5, 5, 10, 5, -5,
   -5, 0, 0, 0, -5,
   -5, -5, -5, -5, -5]

def BishopPositionalValues : List Int :=
  [0, 0, 0, 0, 0,
   0, 0, 0, 0, 0,
   0, 10, 10, 10, 0,
   0, 10, 20, 10, 0,
   0, 10, 20, 10, 0,
   0, 5, 5, 5, 0,
   0, 10, 10, 10, 0,
   -10, -10, -10, -10, -10]

def RookPositionalValues : List Int :=
  [50, 50, 50, 50, 50,
   50, 50, 50, 50, 50,
   0, 10, 20, 10, 0,
   0, 10, 20, 10, 0,
   0, 10, 20, 10, 0,
   0, 10, 20, 10, 0,
   0, 10, 20, 10, 0,
   0, 0, 20, 0, 0]

def KingPositionalValues : List Int :=
  [0, 0, 0, 0, 0,
   0, 5, 5, 5, 0,
   0, 5, 10, 5, 0,
   0, 10, 20, 10, 0,
   0, 10, 20, 10, 0,
   0, 5, 10, 5, 0,
   0, 5, -5, 5, 0,
   -15, -15, -15, -15, -15]

def GetRankFromSquare : List Nat :=
  [7, 7, 7, 7, 7,
   6, 6, 6, 6, 6,
   5, 5, 5, 5, 5,
   4, 4, 4, 4, 4,
   3, 3, 3, 3, 3,
   2, 2, 2, 2, 2,
   1, 1, 1, 1, 1,
   0, 0, 0, 0, 0]

/-- MirrorSquare: the square on the same file with the ranks reversed. -/
def MirrorSquare : List Nat :=
  [35, 36, 37, 38, 39,
   30, 31, 32, 33, 34,
   25, 26, 27, 28, 29,
   20, 21, 22, 23, 24,
   15, 16, 17, 18, 19,
   10, 11, 12, 13, 14,
   5, 6, 7, 8, 9,
   0, 1, 2, 3, 4]

abbrev DoublePawnPenalty : Int := -10
abbrev IsolatedPawnPenalty : Int := -10
abbrev SemiOpenFileScore : Int := 10
abbrev OpenFileScore : Int := 15

def PassedPawnBonus : List Int := [0, 5, 10, 20, 35, 60, 100, 200]

/-! ## `ai/evaluation.go`: the pawn masks -/

/-- SetFileRankMask: the squares of file `fileNumber` and, on the other files, those of
rank `rankNumber`; -1 stands for no file or no rank. -/
def SetFileRankMask (fileNumber rankNumber : Int) : Nat :=
  (List.range 8).foldl (fun (mask : Nat) (rank : Nat) =>
    (List.range 5).foldl (fun (mask : Nat) (file : Nat) =>
      let square := rank * 5 + file
      if -1 ≠ fileNumber ∧ (file : Int) = fileNumber then SetBit mask square
      else if -1 ≠ rankNumber ∧ (rank : Int) = rankNumber then SetBit mask square
      else mask) mask) 0

/-- FileMasks as InitPawnEvaluationMasks fills it: `none` outside the 40 squares. -/
def FileMasks (square : Nat) : Option Nat :=
  if square < 40 then some (0 ||| SetFileRankMask ((square % 5 : Nat) : Int) (-1)) else none

/-- RankMasks as InitPawnEvaluationMasks fills it. -/
def RankMasks (square : Nat) : Option Nat :=
  if square < 40 then some (0 ||| SetFileRankMask (-1) ((square / 5 : Nat) : Int)) else none

/-- IsolatedMasks as InitPawnEvaluationMasks fills it: the two neighbour files. -/
def IsolatedMasks (square : Nat) : Option Nat :=
  if square < 40 then
    some ((0 ||| SetFileRankMask (((square % 5 : Nat) : Int) - 1) (-1))
      ||| SetFileRankMask (((square % 5 : Nat) : Int) + 1) (-1))
  else none

/-- The loops `mask &= ^RankMasks[squareOf i]` of InitPawnEvaluationMasks for
`i, i+1, ...` (`n` of them). -/
def clearRanks (squareOf : Nat → Nat) : Nat → Nat → Nat → Option Nat
  | 0, _, mask => some mask
  | n + 1, i, mask =>
    match RankMasks (squareOf i) with
    | none => none
    | some r => clearRanks squareOf n (i + 1) (mask &&& (U64 - 1 - r))

/-- BlackPassedMasks as InitPawnEvaluationMasks fills it. -/
def BlackPassedMasks (square : Nat) : Option Nat :=
  if square < 40 then
    let rank := square / 5
    let file := square % 5
    let mask := 0 ||| SetFileRankMask ((file : Int) - 1) (rank : Int)
    let mask := mask ||| SetFileRankMask (file : Int) (rank : Int)
    let mask := mask ||| SetFileRankMask ((file : Int) + 1) (rank : Int)
    clearRanks (fun i => i * 5 + file) (rank + 1) 0 mask
  else none

/-- WhitePassedMasks as InitPawnEvaluationMasks fills it. -/
def WhitePassedMasks (square : Nat) : Option Nat :=
  if square < 40 then
    let rank := square / 5
    let file := square % 5
    let mask := 0 ||| SetFileRankMask ((file : Int) - 1) (-1)
    let mask := mask ||| SetFileRankMask (file : Int) (-1)
    let mask := mask ||| SetFileRankMask ((file : Int) + 1) (-1)
    clearRanks (fun i => (7 - i) * 5 + file) (8 - rank) 0 mask
  else none

/-! ## `ai/evaluation.go`: EvaluatePosition -/

/-- The body of the loops of EvaluatePosition for the piece `p` on `square`: the new
score. `none` is an index outside a table. The sums stay far inside the range of a Go
`int`, so no wrap-around is modelled. -/
def evaluateSquare (bitboards occupancies : Nat → Nat) (p square : Nat) (score : Int) :
    Option Int := do
  let score := score + MaterialValues p
  if p = WhitePawn then
    let score := score + (← PawnPositionalValues.get? square)
    let doublePawns := CountBits (bitboards WhitePawn &&& (← FileMasks square))
    let score := if doublePawns > 1 then score + DoublePawnPenalty * doublePawns else score
    let score :=
      if bitboards WhitePawn &&& (← IsolatedMasks square) = 0 then score + IsolatedPawnPenalty
      else score
    if (← WhitePassedMasks square) &&& bitboards BlackPawn = 0 then
      some (score + (← PassedPawnBonus.get? (← GetRankFromSquare.get? square)))
    else some score
  else if p = WhiteKnight then
    some (score + (← KnightPositionalValues.get? square))
  else if p = WhiteBishop then
    let score := score + (← BishopPositionalValues.get? square)
    some (score + CountBits (← GetBishopAttacks square (occupancies BOTH)))
  else if p = WhiteRook then
    let score := score + (← RookPositionalValues.get? square)
    let fileMask ← FileMasks square
    let score := if bitboards WhitePawn &&& fileMask = 0 then score + SemiOpenFileScore else score
    let score :=
      if (bitboards WhitePawn ||| bitboards BlackPawn) &&& fileMask = 0 then score + OpenFileScore
      else score
    some score
  else if p = WhiteKing then
    some (score + (← KingPositionalValues.get? square))
  else if p = BlackPawn then
    let score := score - (← PawnPositionalValues.get? (← MirrorSquare.get? square))
    let doublePawns := CountBits (bitboards BlackPawn &&& (← FileMasks square))
    let score := if doublePawns > 1 then score - DoublePawnPenalty * doublePawns else score
    let score :=
      if bitboards BlackPawn &&& (← IsolatedMasks square) = 0 then score - IsolatedPawnPenalty
      else score
    let score := if square ≥ A1 ∧ square ≤ E1 then score - 50000 else score
    if (← BlackPassedMasks square) &&& bitboards WhitePawn = 0 then
      some (score - (← PassedPawnBonus.get? (← GetRankFromSquare.get? (← MirrorSquare.get? square))))
    else some score
  else some score

/-- The loop `for bitboard != 0` of EvaluatePosition for one piece. -/
def evaluatePieceLoop (bitboards occupancies : Nat → Nat) (p : Nat) : Nat → Nat → Int → Option Int
  | 0, _, score => some score
  | fuel + 1, bitboard, score =>
    if bitboard ≠ 0 then
      let square := (GetLeastSignificantBitIndex bitboard).toNat
      match evaluateSquare bitboards occupancies p square score with
      | none => none
      | some score => evaluatePieceLoop bitboards occupancies p fuel (PopBit bitboard square) score
    else some score

/-- The loop of EvaluatePosition over the pieces `p, p+1, ...` (`n` of them). -/
def evaluatePiecesLoop (bitboards occupancies : Nat → Nat) : Nat → Nat → Int → Option Int
  | 0, _, score => some score
  | n + 1, p, score =>
    match evaluatePieceLoop bitboards occupancies p 64 (bitboards p) score with
    | none => none
    | some score => evaluatePiecesLoop bitboards occupancies n (p + 1) score

/-- EvaluatePosition: the score of the position from the point of view of the side to
move. -/
def EvaluatePosition (s : Position) : Option Int :=
  match evaluatePiecesLoop s.Bitboards s.Occupancies 6 WhitePawn 0 with
  | none => none
  | some score =>
    let score := if s.Occupancies WHITE = 0 then score - 50000 else score
    let score := if s.Occupancies BLACK = 0 then score + 50000 else score
    let score := if s.SideToMove = BLACK then score * -1 else score
    some score

/-- The image of a bitboard under MirrorSquare. -/
def mirrorBitboard (x : Nat) : Nat :=
  (List.range 40).foldl (fun acc sq =>
    if x.testBit sq then acc ||| 2 ^ (MirrorSquare.getD sq 0) else acc) 0

/-- A position that holds only pawns, with the occupancies derived from them. -/
def pawnPosition (whitePawns blackPawns side : Nat) : Position :=
  { initialPosition with
    Bitboards := fun p => if p = WhitePawn then whitePawns else if p = BlackPawn then blackPawns else 0
    Occupancies := fun i =>
      if i = WHITE then whitePawns else if i = BLACK then blackPawns
      else if i = BOTH then whitePawns ||| blackPawns else 0
    SideToMove := side }


/-- What EvaluatePosition adds to the score for a White pawn on `sq`, given the White and
the Black pawn bitboards. -/
def whitePawnValue (wp bp sq : Nat) : Int :=
  100 + PawnPositionalValues.getD sq 0
    + (if CountBits (wp &&& (FileMasks sq).getD 0) > 1
        then DoublePawnPenalty * (CountBits (wp &&& (FileMasks sq).getD 0) : Int) else 0)
    + (if wp &&& (IsolatedMasks sq).getD 0 = 0 then IsolatedPawnPenalty else 0)
    + (if (WhitePassedMasks sq).getD 0 &&& bp = 0
        then PassedPawnBonus.getD (GetRankFromSquare.getD sq 0) 0 else 0)

/-- What EvaluatePosition adds to the score for a Black pawn on `sq`, given the White and
the Black pawn bitboards. -/
def blackPawnValue (wp bp sq : Nat) : Int :=
  -100 - PawnPositionalValues.getD (MirrorSquare.getD sq 0) 0
    - (if CountBits (bp &&& (FileMasks sq).getD 0) > 1
        then DoublePawnPenalty * (CountBits (bp &&& (FileMasks sq).getD 0) : Int) else 0)
    - (if bp &&& (IsolatedMasks sq).getD 0 = 0 then IsolatedPawnPenalty else 0)
    - (if sq ≥ A1 ∧ sq ≤ E1 then 50000 else 0)
    - (if (BlackPassedMasks sq).getD 0 &&& wp = 0
        then PassedPawnBonus.getD (GetRankFromSquare.getD (MirrorSquare.getD sq 0) 0) 0 else 0)

/-- The position with a lone White king on a1. -/
def FenLoneKing : String := "5/5/5/5/5/5/5/K4 w -"

/-- The position ParseFEN leaves for FenLoneKing. -/
def loneKingPosition : Position :=
  (ParseFEN (bytesOf FenLoneKing) initialPosition).getD initialPosition

/-- What the body of the loops of EvaluatePosition adds to the score for the piece `p` on
`sq` (0 when it panics). -/
def squareValue (bitboards occupancies : Nat → Nat) (p sq : Nat) : Int :=
  (evaluateSquare bitboards occupancies p sq 0).getD 0

/-- The sum that the loops of EvaluatePosition build: over the six pieces, over the
squares of each bitboard. -/
def materialSum (bitboards occupancies : Nat → Nat) : Int :=
  ((List.range 6).map (fun p =>
    ((bitList (bitboards p)).map (squareValue bitboards occupancies p)).sum)).sum

/-! ## Well-formed FEN strings -/

/-- One item of a row of a FEN: a piece letter or a digit for a run of empty squares. -/
inductive FenItem where
  | piece (p : Nat)
  | gap (d : Nat)

/-- The letter of a piece: P, N, B, R, K, p. -/
def pieceLetter (p : Nat) : Nat :=
  if p = WhitePawn then 80
  else if p = WhiteKnight then 78
  else if p = WhiteBishop then 66
  else if p = WhiteRook then 82
  else if p = WhiteKing then 75
  else 112

/-- The byte of an item: the letter, or the digit `0` + d. -/
def FenItem.byte : FenItem → Nat
  | FenItem.piece p => pieceLetter p
  | FenItem.gap d => 48 + d

/-- The number of files an item describes. -/
def FenItem.width : FenItem → Nat
  | FenItem.piece _ => 1
  | FenItem.gap d => d

/-- The squares an item describes: the piece, or `d` empty squares. -/
def FenItem.cells : FenItem → List (Option Nat)
  | FenItem.piece p => [some p]
  | FenItem.gap d => List.replicate d none

/-- A letter from PNBRKp or a digit 1..5. -/
def FenItem.Valid : FenItem → Prop
  | FenItem.piece p => p < 6
  | FenItem.gap d => 1 ≤ d ∧ d ≤ 5

/-- The number of files a row describes. -/
def rowWidth (row : List FenItem) : Nat := (row.map FenItem.width).sum

/-- The bytes of a row. -/
def rowBytes (row : List FenItem) : List Nat := row.map FenItem.byte

/-- The squares of a row, file by file. -/
def rowCells : List FenItem → List (Option Nat)
  | [] => []
  | item :: row => item.cells ++ rowCells row

/-- The bytes of the rows, separated by `/`. -/
def rowsBytes : List (List FenItem) → List Nat
  | [] => []
  | [row] => rowBytes row
  | row :: rows => rowBytes row ++ 47 :: rowsBytes rows

/-- The squares of the rows, from the top row down. -/
def boardCells : List (List FenItem) → List (Option Nat)
  | [] => []
  | row :: rows => rowCells row ++ boardCells rows

/-- Rows of valid items that describe exactly 5 files each. -/
def WellFormedRows (rows : List (List FenItem)) : Prop :=
  ∀ row, row ∈ rows → (∀ item, item ∈ row → item.Valid) ∧ rowWidth row = 5

/-- The en-passant field: `-`, or a file letter a..e (file 0..4) and a rank digit. -/
def epBytes : Option (Nat × Nat) → List Nat
  | none => [45]
  | some (file, rank) => [97 + file, 48 + rank]

/-- The bytes of a FEN: the rows, a space, `w` or `b`, a space, the en-passant field. -/
def fenBytes (rows : List (List FenItem)) (blackToMove : Bool) (ep : Option (Nat × Nat)) :
    List Nat :=
  rowsBytes rows ++ ([32, if blackToMove then 98 else 119, 32] ++ epBytes ep)

/-- The bitboards hold exactly the pieces of the squares read so far. -/
def CellInv (bb : Nat → Nat) (cells : List (Option Nat)) : Prop :=
  ∀ p, p < 6 → ∀ i, (bb p).testBit i = decide (cells.get? i = some (some p))

/-- The rows of FenBlackEnPassant. -/
def blackEnPassantRows : List (List FenItem) :=
  [[FenItem.gap 5], [FenItem.gap 5], [FenItem.gap 5], [FenItem.gap 5],
   [FenItem.piece WhitePawn, FenItem.piece BlackPawn, FenItem.gap 3],
   [FenItem.gap 5], [FenItem.gap 5], [FenItem.gap 5]]

instance (item : FenItem) : Decidable item.Valid := by
  cases item <;> unfold FenItem.Valid <;> infer_instance

instance (rows : List (List FenItem)) : Decidable (WellFormedRows rows) := by
  unfold WellFormedRows; infer_instance

/-- The en-passant square an en-passant field stands for. -/
def epSquare : Option (Nat × Nat) → Int
  | none => (NoSquare : Int)
  | some (file, rank) => (((8 - rank) * 5 + file : Nat) : Int)

/-! ## `ai/search.go` and `ai/move_ordering.go`: the search -/

abbrev MaxPly : Int := 64
abbrev FullDepthMoves : Int := 4
abbrev ReductionLimit : Int := 3

/-- The result of an operation on Go `int`s: wrap-around modulo 2^64 into the signed
range. -/
def wrapInt (x : Int) : Int := (x + 2 ^ 63) % 2 ^ 64 - 2 ^ 63

/-- The conversion `int(x)` of a `uint64`. -/
def toInt64 (x : Nat) : Int := if x < 2 ^ 63 then (x : Int) else (x : Int) - 2 ^ 64

/-- The conversion `uint64(x)` of an `int`. -/
def toUint64 (x : Int) : Nat := (x % 2 ^ 64).toNat

def MvvLvaScores : List (List Int) :=
  [[104, 204, 304, 404, 504, 104, 204, 304, 404, 504],
   [103, 203, 303, 403, 503, 103, 203, 203, 403, 503],
   [102, 202, 302, 402, 502, 102, 303, 302, 402, 502],
   [101, 201, 301, 401, 501, 101, 401, 401, 401, 501],
   [100, 200, 300, 400, 500, 104, 503, 502, 400, 500],
   [104, 204, 304, 404, 504, 104, 202, 303, 404, 504]]

/-- The globals the search works on: the position (with the repetition table), `Ply`,
`NodesVisited`, the principal-variation tables `PVLength [64]int` and
`PVTable [64][64]uint64` with their flags, `KillerMoves [2][64]uint64`,
`HistoryHeuristic [6][40]uint64`, the transposition table and `BestMove`. -/
structure SearchState where
  pos : Position
  Ply : Int
  NodesVisited : Int
  FollowPV : Bool
  ScorePV : Bool
  PVLength : Nat → Int
  PVTable : Nat → Nat → Nat
  KillerMoves : Nat → Nat → Nat
  HistoryHeuristic : Nat → Nat → Nat
  transpositionTable : Nat → taggedHashEntry
  BestMove : Nat

/-- Assignment to one element of a two-dimensional Go array. -/
def setAt2 (arr : Nat → Nat → Nat) (i j v : Nat) : Nat → Nat → Nat :=
  fun a b => if a = i ∧ b = j then v else arr a b

/-- Assignment to one element of a Go array of `int`. -/
def setAtInt (arr : Nat → Int) (i : Nat) (v : Int) : Nat → Int :=
  fun j => if j = i then v else arr j

/-- The loop of IsRepetition over `i, i+1, ...` (`n` of them); `none` is an index outside
the 10000 entries of RepetitionTable. -/
def isRepetitionLoop (table : Nat → Nat) (hashKey : Nat) : Nat → Nat → Option Bool
  | 0, _ => some false
  | n + 1, i =>
    if i ≥ 10000 then none
    else if table i = hashKey then some true
    else isRepetitionLoop table hashKey n (i + 1)

/-- IsRepetition: does an earlier entry of the repetition table hold the current key? -/
def IsRepetition (s : Position) : Option Bool :=
  isRepetitionLoop s.RepetitionTable s.HashKey s.RepetitionIndex.toNat 0

/-- ScoreMove: the ordering score of a move; finding the principal-variation move clears
ScorePV. `none` is an index outside a table. -/
def ScoreMove (move : Nat) (st : SearchState) : Option (Int × SearchState) :=
  let pvHit : Option Bool :=
    if st.ScorePV then
      if 0 ≤ st.Ply ∧ st.Ply < 64 then some (decide (st.PVTable 0 st.Ply.toNat = move)) else none
    else some false
  match pvHit with
  | none => none
  | some true => some (20000, { st with ScorePV := false })
  | some false =>
    if GetMoveCapturedPiece move ≥ WhitePawn ∧ GetMoveCapturedPiece move ≤ BlackPawn then
      match MvvLvaScores.get? (GetMovePiece move) with
      | none => none
      | some row =>
        match row.get? (GetMoveCapturedPiece move) with
        | none => none
        | some v => some (v + 10000, st)
    else
      if 0 ≤ st.Ply ∧ st.Ply < 64 then
        if st.KillerMoves 0 st.Ply.toNat = move then some (9000, st)
        else if st.KillerMoves 1 st.Ply.toNat = move then some (8000, st)
        else if GetMovePiece move < 6 ∧ GetMoveTarget move < 40 then
          some (toInt64 (st.HistoryHeuristic (GetMovePiece move) (GetMoveTarget move)), st)
        else none
      else none

/-- EnablePVScore: the loop over the moves. -/
def enablePVScoreLoop : List Nat → SearchState → Option SearchState
  | [], st => some st
  | move :: rest, st =>
    if 0 ≤ st.Ply ∧ st.Ply < 64 then
      if st.PVTable 0 st.Ply.toNat = move then
        enablePVScoreLoop rest { st with ScorePV := true, FollowPV := true }
      else enablePVScoreLoop rest st
    else none

/-- EnablePVScore: is the principal-variation move among the moves? -/
def EnablePVScore (moveList : List Nat) (st : SearchState) : Option SearchState :=
  enablePVScoreLoop moveList { st with FollowPV := false }

/-- The first loop of OrderMoves: the score of every move, paired with the move. -/
def scoreMovesLoop (bestMove : Nat) : List Nat → SearchState → Option (List (Int × Nat) × SearchState)
  | [], st => some ([], st)
  | move :: rest, st =>
    if bestMove = move then
      match scoreMovesLoop bestMove rest st with
      | none => none
      | some (scored, st) => some ((30000, move) :: scored, st)
    else
      match ScoreMove move st with
      | none => none
      | some (score, st) =>
        match scoreMovesLoop bestMove rest st with
        | none => none
        | some (scored, st) => some ((score, move) :: scored, st)

/-- One pass `for j := 0; j < n; j++` of the bubble sort of OrderMoves over the scores and
the moves (kept in step, so a list of pairs): the list and whether a swap happened. -/
def bubblePass : Nat → List (Int × Nat) → List (Int × Nat) × Bool
  | n + 1, a :: b :: rest =>
    if a.1 < b.1 then
      (b :: (bubblePass n (a :: rest)).1, true)
    else
      (a :: (bubblePass n (b :: rest)).1, (bubblePass n (b :: rest)).2)
  | _, l => (l, false)

/-- The outer loop of the bubble sort: `k` rounds left, the next pass makes `n`
comparisons. -/
def bubbleSort : Nat → Nat → List (Int × Nat) → List (Int × Nat)
  | 0, _, l => l
  | k + 1, n, l =>
    if (bubblePass n l).2 then bubbleSort k (n - 1) (bubblePass n l).1
    else (bubblePass n l).1

/-- OrderMoves: sorts the moves by descending score (the move equal to `bestMove`
first). -/
def OrderMoves (moveList : List Nat) (bestMove : Nat) (st : SearchState) :
    Option (List Nat × SearchState) :=
  match scoreMovesLoop bestMove moveList st with
  | none => none
  | some (scored, st) =>
    some ((bubbleSort moveList.length (moveList.length - 1) scored).map Prod.snd, st)

/-- The statements `Ply++; RepetitionIndex++; RepetitionTable[RepetitionIndex] = HashKey`
that precede every move of the search. -/
def enterPly (st : SearchState) : Option SearchState :=
  let index := st.pos.RepetitionIndex + 1
  if 0 ≤ index ∧ index < 10000 then
    some { st with
      Ply := st.Ply + 1
      pos := { st.pos with
        RepetitionIndex := index
        RepetitionTable := setAt st.pos.RepetitionTable index.toNat st.pos.HashKey } }
  else none

/-- The statements `Ply--; RepetitionIndex--` that follow every move of the search. -/
def leavePly (st : SearchState) : SearchState :=
  { st with
    Ply := st.Ply - 1
    pos := { st.pos with RepetitionIndex := st.pos.RepetitionIndex - 1 } }

/-- The loop over the moves of quiescence, with `recurse` standing for the recursive
call. -/
def quiescenceLoop (recurse : Int → Int → SearchState → Option (Int × SearchState))
    (beta : Int) : List Nat → Int → SearchState → Option (Int × SearchState)
  | [], alpha, st => some (alpha, st)
  | move :: rest, alpha, st =>
    match enterPly st with
    | none => none
    | some st =>
      match MakeMove move OnlyCaptures st.pos with
      | none => none
      | some (made, pos1) =>
        if made = 0 then quiescenceLoop recurse beta rest alpha (leavePly { st with pos := pos1 })
        else
          match recurse (wrapInt (-beta)) (wrapInt (-alpha)) { st with pos := pos1 } with
          | none => none
          | some (v, st) =>
            let alpha := max alpha (wrapInt (-v))
            match UnMakeMove st.pos with
            | none => none
            | some pos2 =>
              let st := leavePly { st with pos := pos2 }
              if beta ≤ alpha then some (beta, st)
              else quiescenceLoop recurse beta rest alpha st

/-- The search of the captures at the horizon. With `fuel = 0` the recursion depth is used
up (`none`, like a panic). -/
def quiescence : Nat → Int → Int → SearchState → Option (Int × SearchState)
  | 0, _, _, _ => none
  | fuel + 1, alpha, beta, st =>
    let st := { st with NodesVisited := wrapInt (st.NodesVisited + 1) }
    if st.Ply > MaxPly - 1 ∨ IsTerminalPosition st.pos = true then
      (EvaluatePosition st.pos).map (fun v => (v, st))
    else
      match EvaluatePosition st.pos with
      | none => none
      | some evaluation =>
        if evaluation ≥ beta then some (beta, st)
        else
          let alpha := if evaluation > alpha then evaluation else alpha
          match GenerateMoves st.pos with
          | none => none
          | some children =>
            match OrderMoves children 0 st with
            | none => none
            | some (children, st) => quiescenceLoop (quiescence fuel) beta children alpha st

/-- The null-move block of negamax: the result is the score of the reduced search and the
state after RestoreBoard. -/
def nullMove (recurse : Int → Int → Int → SearchState → Option (Int × SearchState))
    (depth beta : Int) (st : SearchState) : Option (Int × SearchState) :=
  let saved := st.pos
  let hashKey : Option Nat :=
    if st.pos.EnPassantSquare ≠ NoSquare then
      (EnPassantKeys st.pos.EnPassantSquare).map (fun k => st.pos.HashKey ^^^ k)
    else some st.pos.HashKey
  match hashKey with
  | none => none
  | some hashKey =>
    let st := { st with
      pos := { st.pos with
        EnPassantSquare := NoSquare
        SideToMove := st.pos.SideToMove ^^^ 1
        HashKey := hashKey ^^^ SideKey } }
    match enterPly st with
    | none => none
    | some st =>
      match recurse (wrapInt (wrapInt (depth - 1) - 2)) (wrapInt (-beta))
          (wrapInt (wrapInt (-beta) + 1)) st with
      | none => none
      | some (v, st) =>
        let st := { st with
          pos := { st.pos with
            Bitboards := saved.Bitboards
            Occupancies := saved.Occupancies
            SideToMove := saved.SideToMove
            EnPassantSquare := saved.EnPassantSquare
            HashKey := saved.HashKey } }
        some (wrapInt (-v), leavePly st)

/-- The score of one child in negamax: full window for the first move, late-move reduction
and the principal-variation re-searches for the others. -/
def searchChild (recurse : Int → Int → Int → SearchState → Option (Int × SearchState))
    (depth alpha beta movesSearched : Int) (st : SearchState) : Option (Int × SearchState) :=
  if movesSearched = 0 then
    (recurse (wrapInt (depth - 1)) (wrapInt (-beta)) (wrapInt (-alpha)) st).map
      (fun r => (wrapInt (-r.1), r.2))
  else
    let reduced : Option (Int × SearchState) :=
      if movesSearched ≥ FullDepthMoves ∧ depth ≥ ReductionLimit then
        (recurse (wrapInt (depth - 2)) (wrapInt (wrapInt (-alpha) - 1)) (wrapInt (-alpha)) st).map
          (fun r => (wrapInt (-r.1), r.2))
      else some (wrapInt (alpha + 1), st)
    match reduced with
    | none => none
    | some (score, st) =>
      if score > alpha then
        match recurse (wrapInt (depth - 1)) (wrapInt (wrapInt (-alpha) - 1)) (wrapInt (-alpha)) st with
        | none => none
        | some (v, st) =>
          let score := wrapInt (-v)
          if score > alpha ∧ score < beta then
            (recurse (wrapInt (depth - 1)) (wrapInt (-beta)) (wrapInt (-alpha)) st).map
              (fun r => (wrapInt (-r.1), r.2))
          else some (score, st)
      else some (score, st)

/-- The loop `for nextPly := Ply+1; nextPly < PVLength[Ply+1]; nextPly++` that copies the
line of the deeper ply (`n` rounds are left at most). -/
def copyPVLoop (ply : Nat) : Nat → Nat → SearchState → Option SearchState
  | 0, _, st => some st
  | n + 1, nextPly, st =>
    if (nextPly : Int) < st.PVLength (ply + 1) then
      if nextPly < 64 then
        copyPVLoop ply n (nextPly + 1)
          { st with PVTable := setAt2 st.PVTable ply nextPly (st.PVTable (ply + 1) nextPly) }
      else none
    else some st

/-- What negamax does when a child raises alpha: the history heuristic for a quiet move
and the update of the principal variation. -/
def raiseAlpha (move : Nat) (depth : Int) (st : SearchState) : Option SearchState :=
  let history : Option (Nat → Nat → Nat) :=
    if GetMoveCapturedPiece move = NoPiece then
      if GetMovePiece move < 6 ∧ GetMoveTarget move < 40 then
        some (setAt2 st.HistoryHeuristic (GetMovePiece move) (GetMoveTarget move)
          ((st.HistoryHeuristic (GetMovePiece move) (GetMoveTarget move)
            + toUint64 depth * toUint64 depth % U64) % U64))
      else none
    else some st.HistoryHeuristic
  match history with
  | none => none
  | some history =>
    if 0 ≤ st.Ply ∧ st.Ply + 1 < 64 then
      let ply := st.Ply.toNat
      let st := { st with
        HistoryHeuristic := history
        PVTable := setAt2 st.PVTable ply ply move }
      match copyPVLoop ply 64 (ply + 1) st with
      | none => none
      | some st => some { st with PVLength := setAtInt st.PVLength ply (st.PVLength (ply + 1)) }
    else none

/-- The beta cutoff of negamax: the table entry and the killer moves. -/
def betaCutoff (move bestMove : Nat) (depth value : Int) (st : SearchState) : Option SearchState :=
  let st := { st with
    transpositionTable :=
      RecordHash st.transpositionTable st.pos.HashKey bestMove depth value HashFlagBeta }
  if GetMoveCapturedPiece move = NoPiece then
    if 0 ≤ st.Ply ∧ st.Ply < 64 then
      let ply := st.Ply.toNat
      let killers := setAt2 st.KillerMoves 1 ply (st.KillerMoves 0 ply)
      some { st with KillerMoves := setAt2 killers 0 ply move }
    else none
  else some st

/-- The loop over the children of negamax, with what follows it; `recurse` stands for the
recursive call. -/
def negamaxLoop (recurse : Int → Int → Int → SearchState → Option (Int × SearchState))
    (depth beta : Int) :
    List Nat → Int → Int → Int → Int → Int → Nat → SearchState → Option (Int × SearchState)
  | [], _, value, _, legalMoves, hashFlag, bestMove, st =>
    if legalMoves = 0 then some (0, st)
    else
      some (value, { st with
        transpositionTable :=
          RecordHash st.transpositionTable st.pos.HashKey bestMove depth value hashFlag })
  | move :: rest, alpha, value, movesSearched, legalMoves, hashFlag, bestMove, st =>
    match enterPly st with
    | none => none
    | some st =>
      match MakeMove move AllMoves st.pos with
      | none => none
      | some (made, pos1) =>
        if made = 0 then
          negamaxLoop recurse depth beta rest alpha value movesSearched legalMoves hashFlag
            bestMove (leavePly { st with pos := pos1 })
        else
          let legalMoves := wrapInt (legalMoves + 1)
          match searchChild recurse depth alpha beta movesSearched { st with pos := pos1 } with
          | none => none
          | some (score, st) =>
            let value := max value score
            match UnMakeMove st.pos with
            | none => none
            | some pos2 =>
              let st := leavePly { st with pos := pos2 }
              let movesSearched := wrapInt (movesSearched + 1)
              if value > alpha then
                match raiseAlpha move depth st with
                | none => none
                | some st =>
                  if beta ≤ value then
                    (betaCutoff move move depth value st).map (fun st => (beta, st))
                  else
                    negamaxLoop recurse depth beta rest value value movesSearched legalMoves
                      HashFlagExact move st
              else
                negamaxLoop recurse depth beta rest alpha value movesSearched legalMoves hashFlag
                  bestMove st

/-- The part of negamax after the early returns: the null move, the generation and
ordering of the children, and the loop. -/
def negamaxBody (recurse : Int → Int → Int → SearchState → Option (Int × SearchState))
    (depth alpha beta : Int) (bestMove : Nat) (st : SearchState) : Option (Int × SearchState) :=
  let st := { st with NodesVisited := wrapInt (st.NodesVisited + 1) }
  let afterNull : Option (Bool × SearchState) :=
    if depth ≥ 3 ∧ st.Ply ≠ 0 then
      (nullMove recurse depth beta st).map (fun r => (decide (r.1 ≥ beta), r.2))
    else some (false, st)
  match afterNull with
  | none => none
  | some (cut, st) =>
    if cut then some (beta, st)
    else
      match GenerateMoves st.pos with
      | none => none
      | some children =>
        let afterPV : Option SearchState :=
          if st.FollowPV then EnablePVScore children st else some st
        match afterPV with
        | none => none
        | some st =>
          match OrderMoves children bestMove st with
          | none => none
          | some (children, st) =>
            negamaxLoop recurse depth beta children alpha (-100000) 0 0 HashFlagAlpha bestMove st

/-- The search to the given depth with alpha-beta pruning. With `fuel = 0` the recursion
depth is used up (`none`, like a panic). -/
def negamax : Nat → Int → Int → Int → SearchState → Option (Int × SearchState)
  | 0, _, _, _, _ => none
  | fuel + 1, depth, alpha, beta, st =>
    if 0 ≤ st.Ply ∧ st.Ply < 64 then
      let st := { st with PVLength := setAtInt st.PVLength st.Ply.toNat st.Ply }
      let probe := ProbeTranspositionTable st.transpositionTable st.pos.HashKey 0 depth alpha beta
      let score := probe.1
      let bestMove := probe.2
      let repetition : Option Bool := if st.Ply ≠ 0 then IsRepetition st.pos else some false
      match repetition with
      | none => none
      | some repetition =>
        if repetition then some (0, st)
        else if st.Ply ≠ 0 ∧ score ≠ noHashEntry ∧ wrapInt (beta - alpha) > 1 then some (score, st)
        else if score ≠ noHashEntry ∧ st.Ply ≥ 1 then some (score, st)
        else if depth ≤ 0 then quiescence fuel alpha beta st
        else if st.Ply > MaxPly - 1 ∨ IsTerminalPosition st.pos = true then
          (EvaluatePosition st.pos).map (fun v => (v, st))
        else negamaxBody (negamax fuel) depth alpha beta bestMove st
    else none

/-- PrintMove indexes SquareToCoord with the source and the target square. -/
def printMoveOk (move : Nat) : Bool := decide (GetMoveSource move < 40 ∧ GetMoveTarget move < 40)

/-- The loop that prints the principal variation in SearchPosition: for `i, i+1, ...`
below `PVLength[0]` (`n` rounds are left at most); `false` is a panic. -/
def printPVLoop (st : SearchState) : Nat → Nat → Bool
  | 0, _ => true
  | n + 1, i =>
    if (i : Int) < st.PVLength 0 then
      if i < 64 then
        if printMoveOk (st.PVTable 0 i) then printPVLoop st n (i + 1) else false
      else false
    else true

/-- The iterative-deepening loop of SearchPosition for `d, d+1, ...` (`n` of them). -/
def deepeningLoop (fuel : Nat) : Nat → Int → Int → Int → SearchState → Option SearchState
  | 0, _, _, _, st => some st
  | n + 1, d, alpha, beta, st =>
    let st := { st with FollowPV := true }
    match negamax fuel d alpha beta st with
    | none => none
    | some (v, st) =>
      let value := wrapInt (-v)
      let research : Option (Int × SearchState) :=
        if value ≤ alpha ∨ value ≥ beta then
          (negamax fuel d (-50000) 50000 st).map (fun r => (wrapInt (-r.1), r.2))
        else some (value, st)
      match research with
      | none => none
      | some (value, st) =>
        if printPVLoop st 65 0 then
          deepeningLoop fuel n (wrapInt (d + 1)) (wrapInt (value - 50)) (wrapInt (value + 50)) st
        else none

/-- SearchPosition: iterative deepening to `depth`, then BestMove is the first move of the
principal variation if GenerateMoves produces it, and the first ordered move otherwise.
`fuel` bounds the recursion depth of every call of negamax. -/
def SearchPosition (fuel : Nat) (depth : Int) (st : SearchState) : Option SearchState :=
  let st := { st with
    FollowPV := false
    ScorePV := false
    Ply := 0
    NodesVisited := -1
    KillerMoves := fun _ _ => 0
    HistoryHeuristic := fun _ _ => 0
    PVTable := fun _ _ => 0
    PVLength := fun _ => 0 }
  match deepeningLoop fuel depth.toNat 1 (-50000) 50000 st with
  | none => none
  | some st =>
    let st := { st with BestMove := st.PVTable 0 0 }
    match GenerateMoves st.pos with
    | none => none
    | some moveList =>
      match OrderMoves moveList 0 st with
      | none => none
      | some (moveList, st) =>
        let isLegal := decide (st.BestMove ∈ moveList)
        let st :=
          if ¬ isLegal ∧ moveList.length > 0 then { st with BestMove := moveList.headD 0 } else st
        if printMoveOk st.BestMove then some st else none

/-- The state of the search globals at program start around a position. -/
def initialSearchState (pos : Position) : SearchState where
  pos := pos
  Ply := 0
  NodesVisited := 0
  FollowPV := false
  ScorePV := false
  PVLength := fun _ => 0
  PVTable := fun _ _ => 0
  KillerMoves := fun _ _ => 0
  HistoryHeuristic := fun _ _ => 0
  transpositionTable := fun _ => ⟨0, 0, 0, 0, 0⟩
  BestMove := 0

/-- The position fields the search has to restore, apart from the repetition index: the
piece bitboards, the occupancies, the side to move, the en-passant square, the hash key
and the move stack. -/
def CoreEq (a b : Position) : Prop :=
  b.Bitboards = a.Bitboards ∧ b.Occupancies = a.Occupancies ∧ b.SideToMove = a.SideToMove
    ∧ b.EnPassantSquare = a.EnPassantSquare ∧ b.HashKey = a.HashKey ∧ b.MoveStack = a.MoveStack

/-- The state after the search against the state at entry: the position fields of CoreEq,
RepetitionIndex and Ply are as they were. -/
def Frame (a b : SearchState) : Prop :=
  CoreEq a.pos b.pos ∧ b.pos.RepetitionIndex = a.pos.RepetitionIndex ∧ b.Ply = a.Ply

/-- A step of the search that leaves the position and Ply untouched. -/
def Kept (a b : SearchState) : Prop := b.pos = a.pos ∧ b.Ply = a.Ply

/-- The recursive call of quiescence restores the position. -/
def QFrame (recurse : Int → Int → SearchState → Option (Int × SearchState)) : Prop :=
  ∀ alpha beta st v st1, Consistent st.pos → recurse alpha beta st = some (v, st1) → Frame st st1

/-- The recursive call of negamax restores the position. -/
def NFrame (recurse : Int → Int → Int → SearchState → Option (Int × SearchState)) : Prop :=
  ∀ depth alpha beta st v st1, Consistent st.pos →
    recurse depth alpha beta st = some (v, st1) → Frame st st1

/-- A position for the search: White pawn on a2, Black pawn on e7, White to move. -/
def FenTwoPawns : String := "5/4p/5/5/5/5/P4/5 w -"

/-- The position ParseFEN leaves for FenTwoPawns. -/
def twoPawnsPosition : Position :=
  (ParseFEN (bytesOf FenTwoPawns) initialPosition).getD initialPosition

/-- The state `b` holds the position of the state `a`: the piece bitboards, the
occupancies, the side to move, the en-passant square, the hash key, Ply, RepetitionIndex
and the move stack are equal. -/
def Restored (a b : SearchState) : Prop :=
  b.pos.Bitboards = a.pos.Bitboards ∧ b.pos.Occupancies = a.pos.Occupancies
    ∧ b.pos.SideToMove = a.pos.SideToMove ∧ b.pos.EnPassantSquare = a.pos.EnPassantSquare
    ∧ b.pos.HashKey = a.pos.HashKey ∧ b.Ply = a.Ply
    ∧ b.pos.RepetitionIndex = a.pos.RepetitionIndex ∧ b.pos.MoveStack = a.pos.MoveStack

/-- A position with a capture: White pawn on c4, Black pawn on b5, White to move. -/
def FenPawnCapture : String := "5/5/5/1p3/2P2/5/5/5 w -"

/-- The position ParseFEN leaves for FenPawnCapture. -/
def pawnCapturePosition : Position :=
  (ParseFEN (bytesOf FenPawnCapture) initialPosition).getD initialPosition

/-! ## Evaluation helpers

The definitions below compute the same values as the embedded functions above on
consistent positions, in fewer reduction steps; each is proved equal to what it stands for
in the theorems part. -/

/-- Evaluates `x` before passing it on. -/
def forceNat {α : Type} (x : Nat) (k : Nat → α) : α :=
  match x with
  | 0 => k 0
  | n + 1 => k (Nat.succ n)

/-- The lowest set bit of a 64-bit word, `b & -b`. -/
def lowBit (x : Nat) : Nat :=
  Nat.land x (Nat.mod (Nat.sub 18446744073709551616 x) 18446744073709551616)

/-- GetLeastSignificantBitIndex, asked for the lowest set bit alone. -/
def lsbF (x : Nat) : Nat :=
  forceNat (lowBit x) (fun lb => (GetLeastSignificantBitIndex lb).toNat)

/-- PopBit without the case split. -/
def popBitF (x sq : Nat) : Nat := Nat.xor x (Nat.land x (Nat.shiftLeft 1 sq))

/-- SetBit for a shift count below 64. -/
def setBitF (x sq : Nat) : Nat := Nat.land (Nat.lor x (Nat.shiftLeft 1 sq)) 1099511627775

/-- GetBit. -/
def getBitF (x sq : Nat) : Nat := Nat.land (Nat.shiftRight x sq) 1

/-- The loop of CountBits. -/
def countBitsLoopF : Nat → Nat → Nat → Nat
  | 0, _, count => count
  | fuel + 1, x, count =>
    match x with
    | 0 => count
    | n + 1 => countBitsLoopF fuel (Nat.land (Nat.succ n) n) (Nat.succ count)

/-- CountBits. -/
def countBitsF (x : Nat) : Nat := countBitsLoopF 64 x 0

/-- The bit loop of the move generator, for bodies that cannot fail. -/
def forBitsF (body : Nat → List Nat) : Nat → Nat → List Nat
  | 0, _ => []
  | fuel + 1, x =>
    match x with
    | 0 => []
    | n + 1 =>
      forceNat (lsbF (Nat.succ n)) (fun sq =>
        body sq ++ forBitsF body fuel (popBitF (Nat.succ n) sq))

/-- The number of moves the bodies of a bit loop add, on top of `acc`. -/
def forBitsCount (body : Nat → Nat) : Nat → Nat → Nat → Nat
  | 0, _, acc => acc
  | fuel + 1, x, acc =>
    match x with
    | 0 => acc
    | n + 1 =>
      forceNat (lsbF (Nat.succ n)) (fun sq =>
        forceNat (Nat.add acc (body sq)) (fun acc =>
          forBitsCount body fuel (popBitF (Nat.succ n) sq) acc))

/-- The magic index. -/
def magicIndexF (occupancy magic relevantBits : Nat) : Nat :=
  Nat.shiftRight (Nat.mod (Nat.mul occupancy magic) 18446744073709551616)
    (Nat.sub 64 relevantBits)

/-- The attack set GetBishopAttacks (`isBishop = BISHOP`) and GetRookAttacks
(`isBishop = ROOK`) look up: the on-the-fly attack set of the occupancy inside the attack
mask of the square. -/
def sliderAttacksF (isBishop square occupancy : Nat) : Nat :=
  forceNat (cond (Nat.beq isBishop BISHOP) (MaskBishopAttacks square) (MaskRookAttacks square))
    (fun attackMask =>
    forceNat (Nat.land occupancy attackMask) (fun occupancy =>
      Nat.add (cond (Nat.beq isBishop BISHOP) (BishopAttacksOnTheFly square occupancy)
        (RookAttacksOnTheFly square occupancy)) 0))

/-- The part of the position that GenerateMoves and MakeMove read and write: the six piece
bitboards, the en-passant square and the side to move. -/
structure Board where
  wp : Nat
  wn : Nat
  wb : Nat
  wr : Nat
  wk : Nat
  bp : Nat
  ep : Nat
  stm : Nat

/-- The bitboard of piece `p`. -/
def Board.get (b : Board) (p : Nat) : Nat :=
  match p with
  | 0 => b.wp
  | 1 => b.wn
  | 2 => b.wb
  | 3 => b.wr
  | 4 => b.wk
  | _ => b.bp

/-- Assignment to the bitboard of piece `p`. -/
def Board.set (b : Board) (p v : Nat) : Board :=
  match p with
  | 0 => { b with wp := v }
  | 1 => { b with wn := v }
  | 2 => { b with wb := v }
  | 3 => { b with wr := v }
  | 4 => { b with wk := v }
  | _ => { b with bp := v }

/-- Evaluates the fields of `b` before passing it on. -/
def Board.strict {α : Type} (b : Board) (k : Board → α) : α :=
  forceNat b.wp (fun wp => forceNat b.wn (fun wn => forceNat b.wb (fun wb =>
  forceNat b.wr (fun wr => forceNat b.wk (fun wk => forceNat b.bp (fun bp =>
  forceNat b.ep (fun ep => forceNat b.stm (fun stm =>
    k ⟨wp, wn, wb, wr, wk, bp, ep, stm⟩))))))))

/-- The board of given bitboards, en-passant square and side to move. -/
def boardOf (bitboards : Nat → Nat) (ep stm : Nat) : Board :=
  ⟨bitboards WhitePawn, bitboards WhiteKnight, bitboards WhiteBishop, bitboards WhiteRook,
    bitboards WhiteKing, bitboards BlackPawn, ep, stm⟩

/-- The board of a position. -/
def toBoard (s : Position) : Board :=
  boardOf s.Bitboards s.EnPassantSquare.toNat s.SideToMove

/-- The moves of `whitePawnMoves` for the pawn on `src`, given the Black and the joint
occupancy. -/
def whitePawnMovesF (occB both src : Nat) : List Nat :=
  (cond (Nat.ble 5 src)
    (cond (Nat.beq (getBitF both (Nat.sub src 5)) 0)
      (cond (Nat.ble src 9)
        (promotionPieces.map
          (fun i => EncodeMove src (Nat.sub src 5) WhitePawn i NoPiece 0 0))
        (EncodeMove src (Nat.sub src 5) WhitePawn NoPiece NoPiece 0 0 ::
          cond (Nat.ble 30 src)
            (cond (Nat.ble src 34)
              (cond (Nat.beq (getBitF both (Nat.sub src 10)) 0)
                [EncodeMove src (Nat.sub src 10) WhitePawn NoPiece NoPiece 1 0] [])
              [])
            []))
      [])
    [])
  ++ forBitsF (fun tgt =>
      cond (Nat.ble 5 src)
        (cond (Nat.ble src 9)
          (promotionPieces.map (fun i => EncodeMove src tgt WhitePawn i BlackPawn 0 0))
          [EncodeMove src tgt WhitePawn NoPiece BlackPawn 0 0])
        [EncodeMove src tgt WhitePawn NoPiece BlackPawn 0 0])
      64 (Nat.land (MaskPawnAttacks WHITE src) occB)

/-- The moves of `whitePieceMoves` for the attack set `att`. -/
def whitePieceMovesF (occW occB piece src att : Nat) : List Nat :=
  forBitsF (fun tgt =>
    cond (Nat.beq (getBitF occB tgt) 0)
      [EncodeMove src tgt piece NoPiece NoPiece 0 0]
      [EncodeMove src tgt piece NoPiece BlackPawn 0 0])
    64 (Nat.land att (Nat.sub 18446744073709551615 occW))

/-- The scan `capturedWhitePiece` on a board. -/
def capturedWhitePieceF (b : Board) (tgt : Nat) : Nat :=
  cond (Nat.beq (getBitF b.wp tgt) 1) WhitePawn
    (cond (Nat.beq (getBitF b.wn tgt) 1) WhiteKnight
      (cond (Nat.beq (getBitF b.wb tgt) 1) WhiteBishop
        (cond (Nat.beq (getBitF b.wr tgt) 1) WhiteRook
          (cond (Nat.beq (getBitF b.wk tgt) 1) WhiteKing 7))))

/-- The moves of `blackPawnMoves` for the pawn on `src`, given the White and the joint
occupancy. -/
def blackPawnMovesF (b : Board) (occW both src : Nat) : List Nat :=
  (cond (Nat.ble (Nat.add src 5) 39)
      (cond (Nat.beq (getBitF both (Nat.add src 5)) 0)
        [EncodeMove src (Nat.add src 5) BlackPawn NoPiece NoPiece 0 0] [])
      [])
  ++ (forBitsF (fun tgt =>
        [EncodeMove src tgt BlackPawn NoPiece (capturedWhitePieceF b tgt) 0 0])
      64 (Nat.land (MaskPawnAttacks BLACK src) occW)
  ++ cond (Nat.beq b.ep 40) []
      (cond (Nat.beq (Nat.land (MaskPawnAttacks BLACK src) (Nat.shiftLeft 1 b.ep)) 0) []
        (cond (Nat.beq (Nat.land (Nat.shiftLeft 1 (Nat.sub b.ep 5)) b.wp) 0) []
          [EncodeMove src
            (lsbF (Nat.land (MaskPawnAttacks BLACK src) (Nat.shiftLeft 1 b.ep)))
            BlackPawn NoPiece WhitePawn 0 1])))

/-- The move list of GenerateMoves for a board. -/
def generateMovesF (b : Board) : List Nat :=
  forceNat (Nat.lor (Nat.lor (Nat.lor (Nat.lor b.wp b.wn) b.wb) b.wr) b.wk) (fun occW =>
  forceNat (Nat.lor occW b.bp) (fun both =>
    cond (Nat.beq b.stm 0)
      (forBitsF (whitePawnMovesF b.bp both) 64 b.wp
        ++ (forBitsF (fun sq => whitePieceMovesF occW b.bp WhiteKnight sq
              (MaskKnightAttacks sq)) 64 b.wn
        ++ (forBitsF (fun sq => whitePieceMovesF occW b.bp WhiteBishop sq
              (sliderAttacksF BISHOP sq both)) 64 b.wb
        ++ (forBitsF (fun sq => whitePieceMovesF occW b.bp WhiteRook sq
              (sliderAttacksF ROOK sq both)) 64 b.wr
        ++ forBitsF (fun sq => whitePieceMovesF occW b.bp WhiteKing sq
              (MaskKingAttacks sq)) 64 b.wk))))
      (forBitsF (blackPawnMovesF b occW both) 64 b.bp)))

/-- The board after `makeMoveAll`. -/
def makeMoveF (move : Nat) (b : Board) : Board :=
  forceNat (GetMoveSource move) (fun src =>
  forceNat (GetMoveTarget move) (fun tgt =>
  forceNat (GetMovePiece move) (fun piece =>
  forceNat (GetMovePromotedPiece move) (fun promo =>
  forceNat (GetMoveCapturedPiece move) (fun cap =>
    let b1 := b.set piece (setBitF (popBitF (b.get piece) src) tgt)
    let b2 := cond (Nat.beq cap NoPiece) b1
      (cond (Nat.beq (getBitF (b1.get cap) tgt) 1) (b1.set cap (popBitF (b1.get cap) tgt)) b1)
    let b3 := cond (Nat.ble promo 4)
      (cond (Nat.ble 1 promo)
        (let b2a := b2.set piece (popBitF (b2.get piece) tgt)
         b2a.set promo (setBitF (b2a.get promo) tgt))
        b2)
      b2
    let b4 := cond (Nat.beq (GetMoveEnPassant move) 0) b3
      (cond (Nat.beq b.stm BLACK) (b3.set WhitePawn (popBitF b3.wp (Nat.sub tgt 5))) b3)
    let ep := cond (Nat.beq (GetMoveDoublePawnPush move) 0) 40
      (cond (Nat.beq b.stm WHITE) (Nat.add tgt 5) 40)
    { b4 with ep := ep, stm := Nat.xor b.stm 1 })))))

/-- The number of moves of `whitePawnMovesF`. -/
def whitePawnCountF (occB both src : Nat) : Nat :=
  Nat.add
    (cond (Nat.ble 5 src)
      (cond (Nat.beq (getBitF both (Nat.sub src 5)) 0)
        (cond (Nat.ble src 9) 4
          (cond (Nat.ble 30 src)
            (cond (Nat.ble src 34)
              (cond (Nat.beq (getBitF both (Nat.sub src 10)) 0) 2 1)
              1)
            1))
        0)
      0)
    (Nat.mul (countBitsF (Nat.land (MaskPawnAttacks WHITE src) occB))
      (cond (Nat.ble 5 src) (cond (Nat.ble src 9) 4 1) 1))

/-- The number of moves of `whitePieceMovesF`. -/
def whitePieceCountF (occW att : Nat) : Nat :=
  countBitsF (Nat.land att (Nat.sub 18446744073709551615 occW))

/-- The number of moves of `blackPawnMovesF`. -/
def blackPawnCountF (b : Board) (occW both src : Nat) : Nat :=
  Nat.add
    (cond (Nat.ble (Nat.add src 5) 39)
      (cond (Nat.beq (getBitF both (Nat.add src 5)) 0) 1 0) 0)
    (Nat.add (countBitsF (Nat.land (MaskPawnAttacks BLACK src) occW))
      (cond (Nat.beq b.ep 40) 0
        (cond (Nat.beq (Nat.land (MaskPawnAttacks BLACK src) (Nat.shiftLeft 1 b.ep)) 0) 0
          (cond (Nat.beq (Nat.land (Nat.shiftLeft 1 (Nat.sub b.ep 5)) b.wp) 0) 0 1))))

/-- The number of moves of `generateMovesF`. -/
def countMovesF (b : Board) : Nat :=
  forceNat (Nat.lor (Nat.lor (Nat.lor (Nat.lor b.wp b.wn) b.wb) b.wr) b.wk) (fun occW =>
  forceNat (Nat.lor occW b.bp) (fun both =>
    cond (Nat.beq b.stm 0)
      (forBitsCount (fun sq => whitePieceCountF occW (MaskKingAttacks sq)) 64 b.wk
        (forBitsCount (fun sq => whitePieceCountF occW (sliderAttacksF ROOK sq both)) 64 b.wr
          (forBitsCount (fun sq => whitePieceCountF occW (sliderAttacksF BISHOP sq both)) 64 b.wb
            (forBitsCount (fun sq => whitePieceCountF occW (MaskKnightAttacks sq)) 64 b.wn
              (forBitsCount (whitePawnCountF b.bp both) 64 b.wp 0)))))
      (forBitsCount (blackPawnCountF b occW both) 64 b.bp 0)))

/-- The sum of the leaf counts `g` of the boards the moves lead to. -/
def sumLeaves (g : Board → Option Nat) (b : Board) : List Nat → Nat → Option Nat
  | [], acc => some acc
  | m :: ms, acc =>
    (makeMoveF m b).strict (fun c =>
      match g c with
      | none => none
      | some v => forceNat (Nat.add acc v) (fun acc => sumLeaves g b ms acc))

/-- The leaf count of PerftDriver on a board; at depth 1 the moves are counted, not made. -/
def perftF : Nat → Board → Option Nat
  | 0, _ => some 1
  | d + 1, b =>
    match d with
    | 0 => forceNat (countMovesF b) (fun n => cond (Nat.ble n 256) (some n) none)
    | _ + 1 =>
      forceNat (generateMovesF b).length (fun len =>
        cond (Nat.ble len 256) (sumLeaves (perftF d) b (generateMovesF b) 0) none)

/-- The board of the starting position. -/
def startBoard : Board :=
  ⟨33285996544, 68719476736, 549755813888, 34359738368, 137438953472, 32767, 40, 0⟩

/-- The null-move update of negamax on the position: the en-passant key is XOR-ed out when
an en-passant square is set, the square is cleared, the side to move is toggled and the
side key is XOR-ed in. `none` is an en-passant square outside the key table. -/
def nullMoveUpdate (pos : Position) : Option Position :=
  let hashKey : Option Nat :=
    if pos.EnPassantSquare ≠ NoSquare then
      (EnPassantKeys pos.EnPassantSquare).map (fun k => pos.HashKey ^^^ k)
    else some pos.HashKey
  hashKey.map (fun hashKey =>
    { pos with
      EnPassantSquare := NoSquare
      SideToMove := pos.SideToMove ^^^ 1
      HashKey := hashKey ^^^ SideKey })

/-- RestoreBoard applied to the five values CopyBoard took from `saved`: the bitboards,
the occupancies, the side to move, the en-passant square and the hash key. -/
def RestoreBoard (saved pos : Position) : Position :=
  { pos with
    Bitboards := saved.Bitboards
    Occupancies := saved.Occupancies
    SideToMove := saved.SideToMove
    EnPassantSquare := saved.EnPassantSquare
    HashKey := saved.HashKey }

/-- A FEN whose first placement character is the letter `q`, which is no piece letter. -/
def FenUnknownLetter : String := "q4/5/5/5/5/5/5/5 w -"

/-- A FEN that ends after the placement field. -/
def FenPlacementOnly : String := "5/5/5/5/5/5/5/5"

/-- A FEN that ends after the side to move. -/
def FenNoEnPassantField : String := "5/5/5/5/5/5/5/5 w"

/-- An ASCII letter, as ParseFEN tests it: `a..z` or `A..Z`. -/
def isFenLetter (ch : Nat) : Prop := (97 ≤ ch ∧ ch ≤ 122) ∨ (65 ≤ ch ∧ ch ≤ 90)

instance (ch : Nat) : Decidable (isFenLetter ch) := by
  unfold isFenLetter; infer_instance

/-! ## `uci/uci.go`: ParseMove, and `board/moves.go`: PrintMove -/

/-- SquareToCoord: the algebraic name of each square. -/
def SquareToCoord : List String :=
  ["a8", "b8", "c8", "d8", "e8",
   "a7", "b7", "c7", "d7", "e7",
   "a6", "b6", "c6", "d6", "e6",
   "a5", "b5", "c5", "d5", "e5",
   "a4", "b4", "c4", "d4", "e4",
   "a3", "b3", "c3", "d3", "e3",
   "a2", "b2", "c2", "d2", "e2",
   "a1", "b1", "c1", "d1", "e1"]

/-- PromotedPieces: a Go map from the promoted piece to its letter; a key that is not in
the map gives the empty string. -/
def PromotedPieces (piece : Nat) : String :=
  if piece = WhiteKnight then "N"
  else if piece = WhiteBishop then "B"
  else if piece = WhiteRook then "R"
  else if piece = WhiteKing then "K"
  else ""

/-- PrintMove: the bytes printed for a move, `none` when an index into SquareToCoord is
out of range. -/
def PrintMove (move : Nat) : Option (List Nat) :=
  match SquareToCoord.get? (GetMoveSource move), SquareToCoord.get? (GetMoveTarget move) with
  | some source, some target =>
    some (bytesOf source ++ bytesOf target ++ bytesOf (PromotedPieces (GetMovePromotedPiece move)))
  | _, _ => none

/-- The square `(c0 - 'a') + (8 - (c1 - '0')) * 5` of ParseMove, computed on bytes: every
operation wraps modulo 256. -/
def parseSquare (c0 c1 : Nat) : Nat :=
  let file := (c0 + 256 - 97) % 256
  let digit := (c1 + 256 - 48) % 256
  let rank := (8 + 256 - digit) % 256
  (file + (rank * 5) % 256) % 256

/-- The loop of ParseMove over the move list: the first move with the source and target
of the string, and for a promotion the promotion letter as fifth and last byte of the
string; 0 when the list has none. -/
def parseMoveLoop (moveString : List Nat) (sourceSquare targetSquare : Nat) : List Nat → Nat
  | [] => 0
  | move :: rest =>
    if sourceSquare = GetMoveSource move ∧ targetSquare = GetMoveTarget move then
      let promotedPiece := GetMovePromotedPiece move
      if promotedPiece ≤ WhiteKing ∧ promotedPiece ≥ WhiteKnight then
        if moveString.length = 5 then
          if promotedPiece = WhiteKnight ∧ moveString.get? 4 = some 78 then move
          else if promotedPiece = WhiteBishop ∧ moveString.get? 4 = some 66 then move
          else if promotedPiece = WhiteKing ∧ moveString.get? 4 = some 75 then move
          else if promotedPiece = WhiteRook ∧ moveString.get? 4 = some 82 then move
          else parseMoveLoop moveString sourceSquare targetSquare rest
        else parseMoveLoop moveString sourceSquare targetSquare rest
      else move
    else parseMoveLoop moveString sourceSquare targetSquare rest

/-- ParseMove on the bytes of the move string: `none` when GenerateMoves panics or when
the string has fewer than four bytes (an index past its end). -/
def ParseMove (moveString : List Nat) (s : Position) : Option Nat :=
  match GenerateMoves s with
  | none => none
  | some moveList =>
    match moveString.get? 0, moveString.get? 1, moveString.get? 2, moveString.get? 3 with
    | some c0, some c1, some c2, some c3 =>
      some (parseMoveLoop moveString (parseSquare c0 c1) (parseSquare c2 c3) moveList)
    | _, _, _, _ => none

/-- The piece bitboard with a bit on the square, 6 when the square is empty. -/
def pieceOn (bitboards : Nat → Nat) (sq : Nat) : Nat :=
  if (bitboards 0).testBit sq then 0
  else if (bitboards 1).testBit sq then 1
  else if (bitboards 2).testBit sq then 2
  else if (bitboards 3).testBit sq then 3
  else if (bitboards 4).testBit sq then 4
  else if (bitboards 5).testBit sq then 5
  else 6

/-- The en-passant flag of the move from `src` to `tgt` in a position. -/
def flagOf (s : Position) (src tgt : Nat) : Nat :=
  if s.SideToMove = BLACK ∧ s.EnPassantSquare = (tgt : Int) ∧ tgt ≠ src + 5 then 1 else 0

/-- The captured piece of the move from `src` to `tgt` in a position. -/
def captureOf (s : Position) (src tgt : Nat) : Nat :=
  if flagOf s src tgt = 1 then WhitePawn
  else if (s.Occupancies BOTH).testBit tgt then
    if s.SideToMove = WHITE then BlackPawn else capturedWhitePiece s.Bitboards tgt
  else NoPiece

/-- The double-push flag of the move from `src` to `tgt` in a position. -/
def doubleOf (s : Position) (src tgt : Nat) : Nat :=
  if pieceOn s.Bitboards src = WhitePawn ∧ tgt + 10 = src then 1 else 0

/-- The only move a consistent position can generate with a given source, target and
promoted piece. -/
def canonicalMove (s : Position) (src tgt pr : Nat) : Nat :=
  EncodeMove src tgt (pieceOn s.Bitboards src) pr (captureOf s src tgt) (doubleOf s src tgt)
    (flagOf s src tgt)

/-- The source square is a White pawn on rank 7 with White to move. -/
def PromotesFrom (s : Position) (src : Nat) : Prop :=
  s.SideToMove = WHITE ∧ (s.Bitboards WhitePawn).testBit src = true ∧ 5 ≤ src ∧ src ≤ 9

/-- The letter ParseMove expects as fifth byte for a promoted piece. -/
def promotionLetter (piece : Nat) : Nat :=
  if piece = WhiteKnight then 78
  else if piece = WhiteBishop then 66
  else if piece = WhiteKing then 75
  else 82

/-- The move has the source and target squares the string decodes to and, when it is a
promotion, the string is five bytes long and ends in the letter of the promoted piece. -/
def MoveMatches (moveString : List Nat) (move : Nat) : Prop :=
  parseSquare (moveString.getD 0 0) (moveString.getD 1 0) = GetMoveSource move
  ∧ parseSquare (moveString.getD 2 0) (moveString.getD 3 0) = GetMoveTarget move
  ∧ (1 ≤ GetMovePromotedPiece move ∧ GetMovePromotedPiece move ≤ 4 →
      moveString.length = 5
        ∧ moveString.get? 4 = some (promotionLetter (GetMovePromotedPiece move)))

instance (moveString : List Nat) (move : Nat) : Decidable (MoveMatches moveString move) := by
  unfold MoveMatches; infer_instance

/-! ## Helpers for the magic lookup

Every occupancy subset of an attack mask, the check that a magic number sends the
subsets of a mask onto all the indices below their number, and the check that the squares
of a ray that decide where the ray stops are squares of the mask. -/

/-- The occupancies `acc ||| x` for the subsets `x` of a list of squares. -/
def occList (acc : Nat) : List Nat → List Nat
  | [] => [acc]
  | b :: bs => occList acc bs ++ occList (acc ||| 2 ^ b) bs

/-- The loop that walks the subsets of a mask from the occupancy `n` on, each subset
being the one before with `mask` added in, carried through the squares outside the mask,
and that marks the magic index of every subset it meets in a bitmap of indices. -/
def rippleLoop (magic rel mask notMask : Nat) : Nat → Nat → Nat → Nat
  | 0, _, bm => bm
  | fuel + 1, n, bm =>
    forceNat (Nat.lor bm (Nat.shiftLeft 1 (magicIndexF n magic rel))) (fun bm1 =>
      forceNat (Nat.land (Nat.succ (Nat.lor n notMask)) mask) (fun n1 =>
        rippleLoop magic rel mask notMask fuel n1 bm1))

/-- The magic number of the square sends the subsets of its attack mask onto all the
indices below the number of subsets. -/
def magicOnto (isBishop square : Nat) : Bool :=
  forceNat (cond (Nat.beq isBishop BISHOP) (BishopMagicNumbers.getD square 0)
      (RookMagicNumbers.getD square 0)) (fun magic =>
    forceNat (cond (Nat.beq isBishop BISHOP) (BishopRelevantOccupancyCount.getD square 0)
        (RookRelevantOccupancyCount.getD square 0)) (fun rel =>
      forceNat (cond (Nat.beq isBishop BISHOP) (MaskBishopAttacks square)
          (MaskRookAttacks square)) (fun mask =>
        forceNat (Nat.shiftLeft 1 (countBitsF mask)) (fun cnt =>
          Nat.beq (Nat.succ (rippleLoop magic rel mask (Nat.sub 18446744073709551615 mask)
              cnt 0 0))
            (Nat.shiftLeft 1 cnt)))))

/-- Along a ray, every square after which the ray goes on is a square of the mask. -/
def rayInner (cond : Int → Int → Bool) (dr df : Int) (mask : Nat) : Nat → Int → Int → Bool
  | 0, _, _ => true
  | fuel + 1, r, f =>
    if cond r f ∧ cond (r + dr) (f + df) then
      mask.testBit (r * 5 + f).toNat && rayInner cond dr df mask fuel (r + dr) (f + df)
    else true

/-- The four diagonals of BishopAttacksOnTheFly from a square, checked with `rayInner`
against the bishop mask of the square. -/
def bishopRaysInner (square : Nat) : Bool :=
  let targetRank : Int := square / 5
  let targetFile : Int := square % 5
  let mask := MaskBishopAttacks square
  rayInner (fun r f => r ≤ 7 ∧ f ≤ 4) 1 1 mask 8 (targetRank + 1) (targetFile + 1)
  && rayInner (fun r f => r ≥ 0 ∧ f ≤ 4) (-1) 1 mask 8 (targetRank - 1) (targetFile + 1)
  && rayInner (fun r f => r ≤ 7 ∧ f ≥ 0) 1 (-1) mask 8 (targetRank + 1) (targetFile - 1)
  && rayInner (fun r f => r ≥ 0 ∧ f ≥ 0) (-1) (-1) mask 8 (targetRank - 1) (targetFile - 1)

/-- The four lines of RookAttacksOnTheFly from a square, checked with `rayInner` against
the rook mask of the square. -/
def rookRaysInner (square : Nat) : Bool :=
  let targetRank : Int := square / 5
  let targetFile : Int := square % 5
  let mask := MaskRookAttacks square
  rayInner (fun r _ => r ≤ 7) 1 0 mask 8 (targetRank + 1) targetFile
  && rayInner (fun r _ => r ≥ 0) (-1) 0 mask 8 (targetRank - 1) targetFile
  && rayInner (fun _ f => f ≤ 4) 0 1 mask 8 targetRank (targetFile + 1)
  && rayInner (fun _ f => f ≥ 0) 0 (-1) mask 8 targetRank (targetFile - 1)

/-- The occupancy SetOccupancy builds, as a run over the squares of the mask. -/
def depositLoop (index : Nat) : Nat → List Nat → Nat → Nat
  | _, [], occupancy => occupancy
  | i, b :: bs, occupancy =>
    depositLoop index (i + 1) bs (if index &&& (1 <<< i) ≠ 0 then occupancy ||| 2 ^ b else occupancy)

/-- The index at which InitSlidersAttacks stores, and the Get functions look up, the
attack set of an occupancy. -/
def sliderIndex (isBishop square occupancy : Nat) : Nat :=
  if isBishop = BISHOP then
    magicIndex occupancy (BishopMagicNumbers.getD square 0)
      (BishopRelevantOccupancyCount.getD square 0)
  else
    magicIndex occupancy (RookMagicNumbers.getD square 0)
      (RookRelevantOccupancyCount.getD square 0)

/-- The attack set InitSlidersAttacks stores for an occupancy. -/
def sliderOnTheFly (isBishop square occupancy : Nat) : Nat :=
  if isBishop = BISHOP then BishopAttacksOnTheFly square occupancy
  else RookAttacksOnTheFly square occupancy

/-- The attack mask InitSlidersAttacks takes for the square. -/
def sliderMask (isBishop square : Nat) : Nat :=
  if isBishop = BISHOP then MaskBishopAttacks square else MaskRookAttacks square

/-! ## Closed forms of the pawn evaluation masks -/

/-- The squares of file `f - 1` (none for `f = 0` and for `f > 5`). -/
def fileMaskF (f : Nat) : Nat :=
  match f with
  | 0 => 0
  | n + 1 => cond (Nat.ble n 4) (Nat.shiftLeft 35468117025 n) 0

/-- The squares of rank index `r - 1` (none for `r = 0` and for `r > 8`). -/
def rankMaskF (r : Nat) : Nat :=
  match r with
  | 0 => 0
  | n + 1 => cond (Nat.ble n 7) (Nat.shiftLeft 31 (Nat.mul 5 n)) 0

/-- The loops `mask &= ^RankMasks[...]` over the rank indices `rankOf i - 1`. -/
def clearRanksF (rankOf : Nat → Nat) : Nat → Nat → Nat → Nat
  | 0, _, mask => mask
  | n + 1, i, mask =>
    clearRanksF rankOf n (i + 1)
      (Nat.land mask (Nat.sub 18446744073709551615 (rankMaskF (rankOf i))))

/-- FileMasks of a square. -/
def fileMasksF (square : Nat) : Nat := fileMaskF (square % 5 + 1)

/-- IsolatedMasks of a square. -/
def isolatedMasksF (square : Nat) : Nat :=
  Nat.lor (fileMaskF (square % 5)) (fileMaskF (square % 5 + 2))

/-- WhitePassedMasks of a square. -/
def whitePassedMasksF (square : Nat) : Nat :=
  clearRanksF (fun i => 8 - i) (8 - square / 5) 0
    (Nat.lor (Nat.lor (fileMaskF (square % 5)) (fileMaskF (square % 5 + 1)))
      (fileMaskF (square % 5 + 2)))

/-- BlackPassedMasks of a square. -/
def blackPassedMasksF (square : Nat) : Nat :=
  clearRanksF (fun i => i + 1) (square / 5 + 1) 0
    (Nat.lor
      (Nat.lor (Nat.lor (fileMaskF (square % 5)) (rankMaskF (square / 5 + 1)))
        (Nat.lor (fileMaskF (square % 5 + 1)) (rankMaskF (square / 5 + 1))))
      (Nat.lor (fileMaskF (square % 5 + 2)) (rankMaskF (square / 5 + 1))))

/-- The mirrored bitboard, rank by rank: the five squares of rank index `r` move to rank
index `7 - r`. -/
def mirrorBitboardF (x : Nat) : Nat :=
  Nat.lor (Nat.shiftLeft (Nat.land x 31) 35)
    (Nat.lor (Nat.shiftLeft (Nat.land (Nat.shiftRight x 5) 31) 30)
      (Nat.lor (Nat.shiftLeft (Nat.land (Nat.shiftRight x 10) 31) 25)
        (Nat.lor (Nat.shiftLeft (Nat.land (Nat.shiftRight x 15) 31) 20)
          (Nat.lor (Nat.shiftLeft (Nat.land (Nat.shiftRight x 20) 31) 15)
            (Nat.lor (Nat.shiftLeft (Nat.land (Nat.shiftRight x 25) 31) 10)
              (Nat.lor (Nat.shiftLeft (Nat.land (Nat.shiftRight x 30) 31) 5)
                (Nat.land (Nat.shiftRight x 35) 31)))))))

/-- The loop of ClearTranspositionTable over the entries `i, i+1, ...` (`n` of them): `key`,
`depth`, `flags` and `value` are set to zero, `bestMove` is not assigned. -/
def clearTableLoop : Nat → Nat → (Nat → taggedHashEntry) → (Nat → taggedHashEntry)
  | 0, _, table => table
  | n + 1, i, table =>
    clearTableLoop n (i + 1)
      (fun j => if j = i then { table i with key := 0, depth := 0, flags := 0, value := 0 }
        else table j)

/-- ClearTranspositionTable: the loop over all `hashSize` entries. -/
def ClearTranspositionTable (transpositionTable : Nat → taggedHashEntry) :
    Nat → taggedHashEntry :=
  clearTableLoop hashSize 0 transpositionTable

/-- A table that is zero everywhere: the state `make` leaves at program start. -/
def emptyTable : Nat → taggedHashEntry := fun _ => ⟨0, 0, 0, 0, 0⟩

/-- A repetition stack with one pushed key: the key 7 in slot 1, which is also the
current hash key; slot 0 holds 0. -/
def oneKeyStackPosition : Position :=
  { initialPosition with
    HashKey := 7
    RepetitionIndex := 1
    RepetitionTable := fun i => if i = 1 then 7 else 0 }

/-- The search globals at program start, with ScorePV already set. -/
def scorePVSetState : SearchState :=
  { initialSearchState initialPosition with ScorePV := true }

/-- A node at ply 1 whose position has an exact entry of value 42 and depth 9 in the
transposition table. -/
def tableHitState : SearchState :=
  { initialSearchState initialPosition with
    Ply := 1
    transpositionTable := RecordHash emptyTable 0 0 9 42 HashFlagExact }

/-- The search globals around the start position with every history entry at 40000. -/
def historyHighState : SearchState :=
  { initialSearchState startPosition with HistoryHeuristic := fun _ _ => 40000 }



/-- The number of pieces of a side: the set bits of its piece bitboards, counted by
CountBits. -/
def pieceCount (bitboards : Nat → Nat) (side : Nat) : Nat :=
  if side = WHITE then
    CountBits (bitboards WhitePawn) + CountBits (bitboards WhiteKnight)
      + CountBits (bitboards WhiteBishop) + CountBits (bitboards WhiteRook)
      + CountBits (bitboards WhiteKing)
  else CountBits (bitboards BlackPawn)

/-- What quiescence needs of the globals to run through: a consistent position with a side
to move, at most 21 White pieces (the move list then fits its 256 entries), Ply inside
0..64, and room on the repetition stack for the plies down to 64. -/
def QuiescenceReady (st : SearchState) : Prop :=
  Consistent st.pos ∧ st.pos.SideToMove < 2 ∧ pieceCount st.pos.Bitboards WHITE ≤ 21
    ∧ 0 ≤ st.Ply ∧ st.Ply ≤ 64
    ∧ 0 ≤ st.pos.RepetitionIndex ∧ st.pos.RepetitionIndex + (64 - st.Ply) < 10000

/-- The search globals at program start around the position of FenTwoPawns, with the
repetition stack filled up to its last slot. -/
def stackFullState : SearchState :=
  initialSearchState { twoPawnsPosition with RepetitionIndex := 9999 }

/-- A playable position: the piece bitboards lie inside the low 40 bits and are pairwise
disjoint, the occupancies are derived from them, and, when Black is to move and the
en-passant square is set, the square it names is empty. When White is to move the
en-passant square is arbitrary, as White's move generation does not read it. Every
consistent position is playable. -/
def Playable (s : Position) : Prop :=
  (∀ p, p < 6 → s.Bitboards p < 2 ^ 40)
  ∧ (∀ p, p < 6 → ∀ q, q < 6 → p ≠ q → s.Bitboards p &&& s.Bitboards q = 0)
  ∧ s.Occupancies WHITE = (s.Bitboards WhitePawn ||| s.Bitboards WhiteKnight
      ||| s.Bitboards WhiteBishop ||| s.Bitboards WhiteRook ||| s.Bitboards WhiteKing)
  ∧ s.Occupancies BLACK = s.Bitboards BlackPawn
  ∧ s.Occupancies BOTH = (s.Occupancies WHITE ||| s.Occupancies BLACK)
  ∧ (s.SideToMove = WHITE ∨ s.EnPassantSquare = NoSquare
      ∨ (s.Occupancies BOTH).testBit s.EnPassantSquare.toNat = false)

instance (s : Position) : Decidable (Playable s) := by
  unfold Playable; infer_instance

theorem field_extract (x k w : Nat) :
    (x &&& ((2 ^ w - 1) <<< k)) >>> k = (x / 2 ^ k) % 2 ^ w := by
  apply Nat.eq_of_testBit_eq
  intro j
  rw [Nat.testBit_shiftRight, Nat.testBit_and, Nat.testBit_shiftLeft, Nat.testBit_mod_two_pow,
    Nat.testBit_two_pow_sub_one, ← Nat.shiftRight_eq_div_pow, Nat.testBit_shiftRight]
  have h1 : decide (k + j ≥ k) = true := by simp
  have h2 : k + j - k = j := by omega
  rw [h1, h2, Bool.true_and, Bool.and_comm]

theorem or_shl_eq (a b k : Nat) (h : a < 2 ^ k) : a ||| b <<< k = a + 2 ^ k * b := by
  rw [Nat.shiftLeft_eq, Nat.mul_comm b, Nat.lor_comm, ← Nat.mul_add_lt_is_or h, Nat.add_comm]

theorem encode_eq_sum (s t p pr c dp ep : Nat) (hs : s < 64) (ht : t < 64) (hp : p < 8)
    (hpr : pr < 8) (hc : c < 8) (hdp : dp < 2) (hep : ep < 2) :
    EncodeMove s t p pr c dp ep
      = s + 64 * t + 4096 * p + 32768 * pr + 262144 * c + 2097152 * dp + 4194304 * ep := by
  unfold EncodeMove
  rw [or_shl_eq s t 6 (by norm_num; omega), or_shl_eq _ p 12 (by norm_num; omega),
    or_shl_eq _ pr 15 (by norm_num; omega), or_shl_eq _ c 18 (by norm_num; omega),
    or_shl_eq _ dp 21 (by norm_num; omega), or_shl_eq _ ep 22 (by norm_num; omega)]
  norm_num
  omega

theorem getMoveSource_eq (m : Nat) : GetMoveSource m = m % 64 := by
  have h := Nat.and_pow_two_sub_one_eq_mod m 6
  simpa [GetMoveSource] using h

theorem getMoveTarget_eq (m : Nat) : GetMoveTarget m = m / 64 % 64 := by
  have h := field_extract m 6 6
  simpa [GetMoveTarget] using h

theorem getMovePiece_eq (m : Nat) : GetMovePiece m = m / 4096 % 8 := by
  have h := field_extract m 12 3
  simpa [GetMovePiece] using h

theorem getMovePromotedPiece_eq (m : Nat) : GetMovePromotedPiece m = m / 32768 % 8 := by
  have h := field_extract m 15 3
  simpa [GetMovePromotedPiece] using h

theorem getMoveCapturedPiece_eq (m : Nat) : GetMoveCapturedPiece m = m / 262144 % 8 := by
  have h := field_extract m 18 3
  simpa [GetMoveCapturedPiece] using h

theorem getMoveDoublePawnPush_eq (m : Nat) : GetMoveDoublePawnPush m = m / 2097152 % 2 := by
  have h := field_extract m 21 1
  simpa [GetMoveDoublePawnPush] using h

theorem getMoveEnPassant_eq (m : Nat) : GetMoveEnPassant m = m / 4194304 % 2 := by
  have h := field_extract m 22 1
  simpa [GetMoveEnPassant] using h

theorem getBit_eq (bb sq : Nat) : GetBit bb sq = if bb.testBit sq then 1 else 0 := by
  unfold GetBit
  rw [Nat.and_one_is_mod, Nat.shiftRight_eq_div_pow, Nat.testBit_to_div_mod]
  by_cases h : bb / 2 ^ sq % 2 = 1
  · simp [h]
  · have : bb / 2 ^ sq % 2 = 0 := by omega
    simp [this]

theorem getBit_eq_one (bb sq : Nat) : GetBit bb sq = 1 ↔ bb.testBit sq = true := by
  rw [getBit_eq]; by_cases h : bb.testBit sq <;> simp [h]

theorem getBit_eq_zero (bb sq : Nat) : GetBit bb sq = 0 ↔ bb.testBit sq = false := by
  rw [getBit_eq]; by_cases h : bb.testBit sq <;> simp [h]

theorem shl64_one (sq : Nat) (h : sq < 64) : shl64 1 sq = 2 ^ sq := by
  unfold shl64
  rw [Nat.one_shiftLeft]
  exact Nat.mod_eq_of_lt (Nat.pow_lt_pow_right (by decide) h)

theorem shl64_one_of_ge (sq : Nat) (h : 64 ≤ sq) : shl64 1 sq = 0 := by
  unfold shl64
  rw [Nat.one_shiftLeft]
  exact Nat.mod_eq_zero_of_dvd (Nat.pow_dvd_pow 2 h)

theorem testBit_mask40 (i : Nat) : Bitboard40Mask.testBit i = decide (i < 40) := by
  unfold Bitboard40Mask
  exact Nat.testBit_two_pow_sub_one 40 i

theorem testBit_SetBit (bb sq i : Nat) (h : sq < 64) :
    (SetBit bb sq).testBit i = (decide (i < 40) && (bb.testBit i || decide (sq = i))) := by
  unfold SetBit
  rw [Nat.testBit_and, Nat.testBit_or, shl64_one sq h, testBit_mask40, Nat.testBit_two_pow,
    Bool.and_comm]

theorem testBit_PopBit (bb sq i : Nat) (h : sq < 64) :
    (PopBit bb sq).testBit i = (bb.testBit i && !decide (sq = i)) := by
  unfold PopBit
  by_cases hb : bb.testBit sq = true
  · rw [if_pos ((getBit_eq_one bb sq).2 hb), Nat.testBit_xor, shl64_one sq h, Nat.testBit_two_pow]
    by_cases e : sq = i
    · subst e; simp [hb]
    · simp [e]
  · rw [if_neg (fun hh => hb ((getBit_eq_one bb sq).1 hh))]
    by_cases e : sq = i
    · subst e; simp at hb; simp [hb]
    · simp [e]

theorem lt_of_testBit_lt (x n i : Nat) (hx : x < 2 ^ n) (hi : x.testBit i = true) : i < n := by
  by_contra hge
  have h1 : 2 ^ i ≤ x := Nat.testBit_implies_ge hi
  have h2 : 2 ^ n ≤ 2 ^ i := Nat.pow_le_pow_right (by decide) (by omega)
  omega

theorem exists_isLowest (x : Nat) (hx : x ≠ 0) : ∃ i, IsLowest x i := by
  classical
  have h := Nat.ne_zero_implies_bit_true hx
  refine ⟨Nat.find h, Nat.find_spec h, fun j hj => ?_⟩
  have := Nat.find_min h hj
  simpa using this

theorem isLowest_decomp (x i : Nat) (h : IsLowest x i) : ∃ k, x = 2 ^ (i + 1) * k + 2 ^ i := by
  obtain ⟨h1, h2⟩ := h
  have hmod : x % 2 ^ i = 0 := by
    apply Nat.eq_of_testBit_eq
    intro j
    rw [Nat.testBit_mod_two_pow, Nat.zero_testBit]
    by_cases hj : j < i
    · simp [hj, h2 j hj]
    · simp [hj]
  have hodd : x / 2 ^ i % 2 = 1 := by
    rw [Nat.testBit_to_div_mod] at h1
    simpa using h1
  refine ⟨x / 2 ^ i / 2, ?_⟩
  have e1 : x = 2 ^ i * (x / 2 ^ i) := by
    have := Nat.div_add_mod x (2 ^ i)
    omega
  have e2 : x / 2 ^ i = 2 * (x / 2 ^ i / 2) + 1 := by omega
  rw [Nat.pow_succ, Nat.mul_assoc]
  calc x = 2 ^ i * (x / 2 ^ i) := e1
    _ = 2 ^ i * (2 * (x / 2 ^ i / 2) + 1) := by rw [← e2]
    _ = 2 ^ i * (2 * (x / 2 ^ i / 2)) + 2 ^ i := by ring

theorem testBit_decomp (i k j : Nat) :
    (2 ^ (i + 1) * k + 2 ^ i).testBit j
      = if j < i + 1 then decide (i = j) else k.testBit (j - (i + 1)) := by
  rw [Nat.testBit_mul_pow_two_add k (Nat.pow_lt_pow_right (by decide) (Nat.lt_succ_self i)) j,
    Nat.testBit_two_pow]

theorem testBit_decomp_pred (i k j : Nat) :
    (2 ^ (i + 1) * k + 2 ^ i - 1).testBit j
      = if j < i + 1 then decide (j < i) else k.testBit (j - (i + 1)) := by
  have hpos : 0 < 2 ^ i := Nat.pow_pos (by decide)
  have e : 2 ^ (i + 1) * k + 2 ^ i - 1 = 2 ^ (i + 1) * k + (2 ^ i - 1) := by omega
  have hlt : 2 ^ i - 1 < 2 ^ (i + 1) := by
    have := Nat.pow_lt_pow_right (show 1 < 2 by decide) (Nat.lt_succ_self i)
    omega
  rw [e, Nat.testBit_mul_pow_two_add k hlt j, Nat.testBit_two_pow_sub_one]

/-- Kernighan's step `x & (x - 1)` clears exactly the lowest set bit. -/
theorem testBit_and_pred (x i j : Nat) (h : IsLowest x i) :
    (x &&& (x - 1)).testBit j = (x.testBit j && !decide (i = j)) := by
  obtain ⟨k, rfl⟩ := isLowest_decomp x i h
  rw [Nat.testBit_and, testBit_decomp_pred, testBit_decomp]
  by_cases hj : j < i + 1
  · simp only [hj, if_true]
    by_cases e : i = j
    · subst e; simp
    · simp [e]
  · simp only [hj, if_false]
    have : ¬ i = j := by omega
    simp [this]

theorem bitList_zero : bitList 0 = [] := by
  unfold bitList
  rw [List.filter_eq_nil_iff]
  intro a _
  simp

theorem mem_bitList (x i : Nat) : i ∈ bitList x ↔ i < 64 ∧ x.testBit i = true := by
  unfold bitList
  rw [List.mem_filter, List.mem_range]

theorem mem_bitList_of_lt (x i : Nat) (hx : x < 2 ^ 64) : i ∈ bitList x ↔ x.testBit i = true := by
  rw [mem_bitList]
  constructor
  · exact fun h => h.2
  · exact fun h => ⟨lt_of_testBit_lt x 64 i hx h, h⟩

theorem bitList_length_le (x : Nat) : (bitList x).length ≤ 64 := by
  unfold bitList
  have := List.length_filter_le (fun i => x.testBit i) (List.range 64)
  simpa using this

theorem isLowest_lt (x i n : Nat) (hx : x < 2 ^ n) (h : IsLowest x i) : i < n :=
  lt_of_testBit_lt x n i hx h.1

theorem isLowest_unique (x i j : Nat) (hi : IsLowest x i) (hj : IsLowest x j) : i = j := by
  rcases Nat.lt_trichotomy i j with h | h | h
  · have := hj.2 i h; rw [hi.1] at this; cases this
  · exact h
  · have := hi.2 j h; rw [hj.1] at this; cases this

theorem range_split (n i : Nat) (h : i ≤ n) :
    List.range n = List.range' 0 i ++ List.range' i (n - i) := by
  rw [List.range_eq_range']
  have h1 := List.range'_append_1 0 i (n - i)
  rw [Nat.zero_add, Nat.sub_add_cancel h] at h1
  exact h1.symm

theorem bitList_cons (x y i : Nat) (hi : i < 64) (hl : IsLowest x i)
    (hy : ∀ j, y.testBit j = (x.testBit j && !decide (i = j))) :
    bitList x = i :: bitList y := by
  unfold bitList
  have hr : List.range 64 = List.range' 0 i ++ i :: List.range' (i + 1) (64 - (i + 1)) := by
    have h2 : 64 - i = (64 - (i + 1)) + 1 := by omega
    rw [range_split 64 i (by omega), h2, List.range'_succ]
  rw [hr, List.filter_append, List.filter_append, List.filter_cons, List.filter_cons]
  have hx0 : List.filter (fun i => x.testBit i) (List.range' 0 i) = [] := by
    rw [List.filter_eq_nil_iff]
    intro a ha
    rw [List.mem_range'_1] at ha
    simp [hl.2 a (by omega)]
  have hy0 : List.filter (fun i => y.testBit i) (List.range' 0 i) = [] := by
    rw [List.filter_eq_nil_iff]
    intro a ha
    rw [List.mem_range'_1] at ha
    simp [hy a, hl.2 a (by omega)]
  have hyi : y.testBit i = false := by simp [hy i]
  have hrest : List.filter (fun i => x.testBit i) (List.range' (i + 1) (64 - (i + 1)))
      = List.filter (fun i => y.testBit i) (List.range' (i + 1) (64 - (i + 1))) := by
    apply List.filter_congr
    intro a ha
    rw [List.mem_range'_1] at ha
    have : ¬ i = a := by omega
    simp [hy a, this]
  rw [hx0, hy0, hl.1, hyi, hrest]
  simp

theorem and_pred_lt (x : Nat) (hx : x < 2 ^ 64) : x &&& (x - 1) < 2 ^ 64 :=
  Nat.lt_of_le_of_lt Nat.and_le_left hx

theorem bitList_and_pred (x i : Nat) (hx : x < 2 ^ 64) (hl : IsLowest x i) :
    bitList x = i :: bitList (x &&& (x - 1)) :=
  bitList_cons x _ i (isLowest_lt x i 64 hx hl) hl (fun j => testBit_and_pred x i j hl)

theorem countBitsLoop_eq (fuel : Nat) : ∀ (x c : Nat), x < 2 ^ 64 → (bitList x).length ≤ fuel →
    CountBitsLoop fuel x c = c + (bitList x).length := by
  induction fuel with
  | zero =>
    intro x c _ hf
    have : (bitList x).length = 0 := by omega
    simp [CountBitsLoop, this]
  | succ n ih =>
    intro x c hx hf
    unfold CountBitsLoop
    by_cases h0 : x = 0
    · subst h0; simp [bitList_zero]
    · rw [if_pos h0]
      obtain ⟨i, hl⟩ := exists_isLowest x h0
      have hb := bitList_and_pred x i hx hl
      rw [hb] at hf ⊢
      rw [ih _ _ (and_pred_lt x hx) (by simpa using hf)]
      simp only [List.length_cons]
      omega

/-- CountBits returns the number of set bits of a 64-bit word. -/
theorem countBits_eq (x : Nat) (hx : x < 2 ^ 64) : CountBits x = (bitList x).length := by
  unfold CountBits
  rw [countBitsLoop_eq 64 x 0 hx (bitList_length_le x)]
  simp

theorem bitList_two_pow_sub_one (i : Nat) (hi : i ≤ 64) : (bitList (2 ^ i - 1)).length = i := by
  unfold bitList
  have : List.filter (fun j => (2 ^ i - 1).testBit j) (List.range 64)
      = List.filter (fun j => decide (j < i)) (List.range 64) := by
    apply List.filter_congr
    intro a _
    rw [Nat.testBit_two_pow_sub_one]
  rw [this]
  have hr : List.range 64 = List.range' 0 i ++ List.range' i (64 - i) := range_split 64 i hi
  rw [hr, List.filter_append]
  have e1 : List.filter (fun j => decide (j < i)) (List.range' 0 i) = List.range' 0 i := by
    rw [List.filter_eq_self]
    intro a ha
    rw [List.mem_range'_1] at ha
    simp; omega
  have e2 : List.filter (fun j => decide (j < i)) (List.range' i (64 - i)) = [] := by
    rw [List.filter_eq_nil_iff]
    intro a ha
    rw [List.mem_range'_1] at ha
    simp; omega
  rw [e1, e2]
  simp

theorem and_neg_eq (x i : Nat) (hx : x < 2 ^ 64) (hl : IsLowest x i) :
    x &&& ((U64 - x) % U64) = 2 ^ i := by
  have hi : i < 64 := isLowest_lt x i 64 hx hl
  obtain ⟨k, rfl⟩ := isLowest_decomp x i hl
  have hpos : 0 < 2 ^ i := Nat.pow_pos (by decide)
  have hsplit : (2 : Nat) ^ 64 = 2 ^ (i + 1) * 2 ^ (63 - i) := by
    rw [← Nat.pow_add]; congr 1; omega
  have hk : k < 2 ^ (63 - i) := by
    by_contra hge
    have hge : 2 ^ (63 - i) ≤ k := by omega
    have : 2 ^ (i + 1) * 2 ^ (63 - i) ≤ 2 ^ (i + 1) * k := Nat.mul_le_mul_left _ hge
    omega
  have hneg : (U64 - (2 ^ (i + 1) * k + 2 ^ i)) % U64
      = 2 ^ (i + 1) * (2 ^ (63 - i) - (k + 1)) + 2 ^ i := by
    have h1 : U64 - (2 ^ (i + 1) * k + 2 ^ i) < U64 := by
      show 2 ^ 64 - _ < 2 ^ 64
      have : 0 < 2 ^ 64 := Nat.pow_pos (by decide)
      omega
    rw [Nat.mod_eq_of_lt h1]
    show 2 ^ 64 - _ = _
    rw [hsplit, Nat.mul_sub, Nat.mul_add, Nat.mul_one, Nat.pow_succ]
    have h2 : 2 ^ i * 2 * (k + 1) ≤ 2 ^ i * 2 * 2 ^ (63 - i) := Nat.mul_le_mul_left _ hk
    have h3 : 2 ^ i * 2 * (k + 1) = 2 ^ i * 2 * k + 2 ^ i * 2 := by ring
    omega
  rw [hneg]
  apply Nat.eq_of_testBit_eq
  intro j
  rw [Nat.testBit_and, testBit_decomp, testBit_decomp, Nat.testBit_two_pow]
  by_cases hj : j < i + 1
  · simp [hj]
  · have hne : ¬ i = j := by omega
    simp only [hj, if_false, hne, decide_False]
    rw [Nat.testBit_two_pow_sub_succ hk]
    cases k.testBit (j - (i + 1)) <;> simp

/-- GetLeastSignificantBitIndex returns the index of the lowest set bit. -/
theorem lsb_eq (x i : Nat) (hx : x < 2 ^ 64) (hl : IsLowest x i) :
    GetLeastSignificantBitIndex x = (i : Int) := by
  have hi : i < 64 := isLowest_lt x i 64 hx hl
  have h0 : x ≠ 0 := by
    intro h; subst h; have := hl.1; simp at this
  unfold GetLeastSignificantBitIndex
  rw [if_pos h0, and_neg_eq x i hx hl]
  have hpos : 0 < 2 ^ i := Nat.pow_pos (by decide)
  have hlt : 2 ^ i < 2 ^ 64 := Nat.pow_lt_pow_right (by decide) hi
  have e : (2 ^ i + (U64 - 1)) % U64 = 2 ^ i - 1 := by
    show (2 ^ i + (2 ^ 64 - 1)) % 2 ^ 64 = 2 ^ i - 1
    have : 2 ^ i + (2 ^ 64 - 1) = (2 ^ i - 1) + 2 ^ 64 := by omega
    rw [this, Nat.add_mod_right, Nat.mod_eq_of_lt (by omega)]
  rw [e, countBits_eq _ (by omega), bitList_two_pow_sub_one i (by omega)]

theorem lsb_isLowest (x : Nat) (hx : x < 2 ^ 64) (h0 : x ≠ 0) :
    IsLowest x (GetLeastSignificantBitIndex x).toNat := by
  obtain ⟨i, hl⟩ := exists_isLowest x h0
  rw [lsb_eq x i hx hl]
  simpa using hl

theorem popBit_lt (x sq n : Nat) (hx : x < 2 ^ n) : PopBit x sq < 2 ^ n := by
  unfold PopBit
  split
  · rename_i h
    have hb := (getBit_eq_one x sq).1 h
    have hs : sq < n := lt_of_testBit_lt x n sq hx hb
    apply Nat.lt_pow_two_of_testBit
    intro j hj
    rw [Nat.testBit_xor]
    have h1 : x.testBit j = false := by
      by_contra hc
      have := lt_of_testBit_lt x n j hx (by simpa using hc)
      omega
    have h2 : (shl64 1 sq).testBit j = false := by
      by_cases hs64 : sq < 64
      · rw [shl64_one sq hs64, Nat.testBit_two_pow]; simp; omega
      · rw [shl64_one_of_ge sq (by omega)]; simp
    simp [h1, h2]
  · exact hx

theorem bitList_popBit (x i : Nat) (hx : x < 2 ^ 64) (hl : IsLowest x i) :
    bitList x = i :: bitList (PopBit x i) :=
  bitList_cons x _ i (isLowest_lt x i 64 hx hl) hl
    (fun j => testBit_PopBit x i j (isLowest_lt x i 64 hx hl))

/-- The bit loop runs its body over the set squares in ascending order. -/
theorem forBits_eq (body : Nat → Option (List Nat)) (fuel : Nat) :
    ∀ x, x < 2 ^ 64 → (bitList x).length ≤ fuel →
      forBits body fuel x = flatMapOpt body (bitList x) := by
  induction fuel with
  | zero =>
    intro x _ hf
    have : bitList x = [] := List.length_eq_zero.1 (by omega)
    simp [forBits, this, flatMapOpt]
  | succ n ih =>
    intro x hx hf
    unfold forBits
    by_cases h0 : x = 0
    · subst h0; simp [bitList_zero, flatMapOpt]
    · rw [if_pos h0]
      have hl := lsb_isLowest x hx h0
      have hb := bitList_popBit x _ hx hl
      rw [hb] at hf
      rw [hb, flatMapOpt]
      dsimp only
      have e := ih _ (popBit_lt x _ 64 hx) (show (bitList (PopBit x _)).length ≤ n by simpa using hf)
      cases hb1 : body (GetLeastSignificantBitIndex x).toNat with
      | none => rfl
      | some ms => simp only [e]

theorem forBits_eq64 (body : Nat → Option (List Nat)) (x : Nat) (hx : x < 2 ^ 64) :
    forBits body 64 x = flatMapOpt body (bitList x) :=
  forBits_eq body 64 x hx (bitList_length_le x)

/-- Decoding an encoded move returns the fields, for all fields that fit their bit widths. -/
theorem decode_encode (s t p pr c dp ep : Nat) (hs : s < 64) (ht : t < 64) (hp : p < 8)
    (hpr : pr < 8) (hc : c < 8) (hdp : dp < 2) (hep : ep < 2) :
    GetMoveSource (EncodeMove s t p pr c dp ep) = s
    ∧ GetMoveTarget (EncodeMove s t p pr c dp ep) = t
    ∧ GetMovePiece (EncodeMove s t p pr c dp ep) = p
    ∧ GetMovePromotedPiece (EncodeMove s t p pr c dp ep) = pr
    ∧ GetMoveCapturedPiece (EncodeMove s t p pr c dp ep) = c
    ∧ GetMoveDoublePawnPush (EncodeMove s t p pr c dp ep) = dp
    ∧ GetMoveEnPassant (EncodeMove s t p pr c dp ep) = ep
    ∧ EncodeMove s t p pr c dp ep < 2 ^ 23 := by
  rw [getMoveSource_eq, getMoveTarget_eq, getMovePiece_eq, getMovePromotedPiece_eq,
    getMoveCapturedPiece_eq, getMoveDoublePawnPush_eq, getMoveEnPassant_eq,
    encode_eq_sum s t p pr c dp ep hs ht hp hpr hc hdp hep]
  refine ⟨?_, ?_, ?_, ?_, ?_, ?_, ?_, ?_⟩ <;> omega

/-- C3: for source and target in 0..39, moving piece in 0..5, promoted piece in
{1,2,3,4,6}, captured piece in 0..6 and both flags in {0,1}, the seven getters applied to
the encoded move return exactly the seven fields, and the encoded move is below 2^23. -/
theorem C3_move_encoding_round_trip (source target piece promoted captured dp ep : Nat)
    (hs : source < 40) (ht : target < 40) (hp : piece < 6)
    (hpr : promoted = 1 ∨ promoted = 2 ∨ promoted = 3 ∨ promoted = 4 ∨ promoted = 6)
    (hc : captured ≤ 6) (hdp : dp ≤ 1) (hep : ep ≤ 1) :
    GetMoveSource (EncodeMove source target piece promoted captured dp ep) = source
    ∧ GetMoveTarget (EncodeMove source target piece promoted captured dp ep) = target
    ∧ GetMovePiece (EncodeMove source target piece promoted captured dp ep) = piece
    ∧ GetMovePromotedPiece (EncodeMove source target piece promoted captured dp ep) = promoted
    ∧ GetMoveCapturedPiece (EncodeMove source target piece promoted captured dp ep) = captured
    ∧ GetMoveDoublePawnPush (EncodeMove source target piece promoted captured dp ep) = dp
    ∧ GetMoveEnPassant (EncodeMove source target piece promoted captured dp ep) = ep
    ∧ EncodeMove source target piece promoted captured dp ep < 2 ^ 23 :=
  decode_encode source target piece promoted captured dp ep (by omega) (by omega) (by omega)
    (by omega) (by omega) (by omega) (by omega)

/-- C3 at the capture-promotion b7xa8=R: source 6, target 0, White pawn, promoted to rook,
capturing a Black pawn. -/
theorem C3_move_encoding_round_trip_witness :
    GetMoveSource (EncodeMove 6 0 0 3 5 0 0) = 6
    ∧ GetMoveTarget (EncodeMove 6 0 0 3 5 0 0) = 0
    ∧ GetMovePiece (EncodeMove 6 0 0 3 5 0 0) = 0
    ∧ GetMovePromotedPiece (EncodeMove 6 0 0 3 5 0 0) = 3
    ∧ GetMoveCapturedPiece (EncodeMove 6 0 0 3 5 0 0) = 5
    ∧ GetMoveDoublePawnPush (EncodeMove 6 0 0 3 5 0 0) = 0
    ∧ GetMoveEnPassant (EncodeMove 6 0 0 3 5 0 0) = 0
    ∧ EncodeMove 6 0 0 3 5 0 0 < 2 ^ 23 :=
  C3_move_encoding_round_trip 6 0 0 3 5 0 0 (by decide) (by decide) (by decide)
    (by decide) (by decide) (by decide) (by decide)

theorem mem_flatMapOpt (body : Nat → Option (List Nat)) (m : Nat) :
    ∀ (l r : List Nat), flatMapOpt body l = some r →
      (m ∈ r ↔ ∃ a, a ∈ l ∧ ∃ ms, body a = some ms ∧ m ∈ ms) := by
  intro l
  induction l with
  | nil =>
    intro r h
    simp only [flatMapOpt, Option.some.injEq] at h
    subst h
    simp
  | cons a as ih =>
    intro r h
    unfold flatMapOpt at h
    cases hb : body a with
    | none => rw [hb] at h; cases h
    | some ms =>
      rw [hb] at h
      cases hr : flatMapOpt body as with
      | none => rw [hr] at h; cases h
      | some rest =>
        rw [hr] at h
        simp only [Option.some.injEq] at h
        subst h
        rw [List.mem_append, ih rest hr]
        constructor
        · rintro (h1 | ⟨b, hb1, ms1, hb2, hb3⟩)
          · exact ⟨a, List.mem_cons_self _ _, ms, hb, h1⟩
          · exact ⟨b, List.mem_cons_of_mem _ hb1, ms1, hb2, hb3⟩
        · rintro ⟨b, hb1, ms1, hb2, hb3⟩
          rcases List.mem_cons.1 hb1 with e | e
          · subst e
            rw [hb] at hb2
            cases hb2
            exact Or.inl hb3
          · exact Or.inr ⟨b, e, ms1, hb2, hb3⟩

theorem flatMapOpt_some (f : Nat → List Nat) (l : List Nat) :
    flatMapOpt (fun a => some (f a)) l = some (l.flatMap f) := by
  induction l with
  | nil => rfl
  | cons a as ih => simp [flatMapOpt, ih, List.flatMap_cons]

theorem flatMapOpt_congr (b1 b2 : Nat → Option (List Nat)) (l : List Nat)
    (h : ∀ a, a ∈ l → b1 a = b2 a) : flatMapOpt b1 l = flatMapOpt b2 l := by
  induction l with
  | nil => rfl
  | cons a as ih =>
    unfold flatMapOpt
    rw [h a (List.mem_cons_self _ _), ih (fun b hb => h b (List.mem_cons_of_mem _ hb))]

theorem mask40_lt : Bitboard40Mask < 2 ^ 40 := by decide

theorem and_mask40_lt (x : Nat) : x &&& Bitboard40Mask < 2 ^ 40 :=
  Nat.lt_of_le_of_lt Nat.and_le_right mask40_lt

theorem setBit_lt (x sq : Nat) : SetBit x sq < 2 ^ 40 := and_mask40_lt _

theorem maskPawnAttacks_lt (side sq : Nat) : MaskPawnAttacks side sq < 2 ^ 40 := and_mask40_lt _
theorem maskKnightAttacks_lt (sq : Nat) : MaskKnightAttacks sq < 2 ^ 40 := and_mask40_lt _
theorem maskKingAttacks_lt (sq : Nat) : MaskKingAttacks sq < 2 ^ 40 := and_mask40_lt _
theorem bishopOTF_lt (sq b : Nat) : BishopAttacksOnTheFly sq b < 2 ^ 40 := and_mask40_lt _
theorem rookOTF_lt (sq b : Nat) : RookAttacksOnTheFly sq b < 2 ^ 40 := and_mask40_lt _

theorem initSlidersLoop_lt (isBishop sq rbc mask : Nat) (n : Nat) :
    ∀ (index : Nat) (table : Nat → Nat), (∀ j, table j < 2 ^ 40) →
      ∀ j, InitSlidersLoop isBishop sq rbc mask n index table j < 2 ^ 40 := by
  induction n with
  | zero => intro index table h j; exact h j
  | succ n ih =>
    intro index table h j
    unfold InitSlidersLoop
    apply ih
    intro j
    dsimp only
    split
    · dsimp only
      split
      · exact bishopOTF_lt _ _
      · exact h j
    · dsimp only
      split
      · exact rookOTF_lt _ _
      · exact h j

theorem initSlidersAttacks_lt (isBishop sq j : Nat) : InitSlidersAttacks isBishop sq j < 2 ^ 40 := by
  unfold InitSlidersAttacks
  exact initSlidersLoop_lt _ _ _ _ _ _ _ (fun _ => by decide) j

theorem pawnAttacks_some (side sq pa : Nat) (h : PawnAttacks side sq = some pa) :
    side < 2 ∧ sq < 40 ∧ pa = MaskPawnAttacks side sq := by
  unfold PawnAttacks at h
  split at h
  · rename_i hh
    simp only [Option.some.injEq] at h
    exact ⟨hh.1, hh.2, h.symm⟩
  · cases h

theorem knightAttacks_some (sq a : Nat) (h : KnightAttacks sq = some a) :
    sq < 40 ∧ a < 2 ^ 40 := by
  unfold KnightAttacks at h
  split at h
  · simp only [Option.some.injEq] at h
    subst h
    exact ⟨by assumption, maskKnightAttacks_lt _⟩
  · cases h

theorem kingAttacks_some (sq a : Nat) (h : KingAttacks sq = some a) :
    sq < 40 ∧ a < 2 ^ 40 := by
  unfold KingAttacks at h
  split at h
  · simp only [Option.some.injEq] at h
    subst h
    exact ⟨by assumption, maskKingAttacks_lt _⟩
  · cases h

theorem getBishopAttacks_some (sq occ a : Nat) (h : GetBishopAttacks sq occ = some a) :
    sq < 40 ∧ a < 2 ^ 40 := by
  unfold GetBishopAttacks at h
  split at h
  · simp only [Option.some.injEq] at h
    subst h
    exact ⟨by assumption, initSlidersAttacks_lt _ _ _⟩
  · cases h

theorem getRookAttacks_some (sq occ a : Nat) (h : GetRookAttacks sq occ = some a) :
    sq < 40 ∧ a < 2 ^ 40 := by
  unfold GetRookAttacks at h
  split at h
  · simp only [Option.some.injEq] at h
    subst h
    exact ⟨by assumption, initSlidersAttacks_lt _ _ _⟩
  · cases h

theorem mem_promotionPieces (pr : Nat) : pr ∈ promotionPieces ↔ (pr = 1 ∨ pr = 2 ∨ pr = 3 ∨ pr = 4) := by
  simp [promotionPieces]

theorem and_lt_of_left (a b n : Nat) (h : a < 2 ^ n) : a &&& b < 2 ^ n :=
  Nat.lt_of_le_of_lt Nat.and_le_left h

theorem two_pow_40_le_64 : (2 : Nat) ^ 40 ≤ 2 ^ 64 := by decide

/-- What the body of the White pawn loop adds for the pawn on `src`. -/
theorem mem_whitePawnMoves (s : Position) (src : Nat) (ms : List Nat)
    (hside : s.SideToMove = WHITE) (h : whitePawnMoves s src = some ms) (m : Nat) :
    m ∈ ms ↔
      ((10 ≤ src ∧ (s.Occupancies BOTH).testBit (src - 5) = false
          ∧ m = EncodeMove src (src - 5) WhitePawn NoPiece NoPiece 0 0)
        ∨ (5 ≤ src ∧ src ≤ 9 ∧ (s.Occupancies BOTH).testBit (src - 5) = false
          ∧ ∃ pr, pr ∈ promotionPieces ∧ m = EncodeMove src (src - 5) WhitePawn pr NoPiece 0 0)
        ∨ (30 ≤ src ∧ src ≤ 34 ∧ (s.Occupancies BOTH).testBit (src - 5) = false
          ∧ (s.Occupancies BOTH).testBit (src - 10) = false
          ∧ m = EncodeMove src (src - 10) WhitePawn NoPiece NoPiece 1 0)
        ∨ (¬ (5 ≤ src ∧ src ≤ 9) ∧ ∃ tgt,
            (MaskPawnAttacks WHITE src &&& s.Occupancies BLACK).testBit tgt = true
            ∧ m = EncodeMove src tgt WhitePawn NoPiece BlackPawn 0 0)
        ∨ (5 ≤ src ∧ src ≤ 9 ∧ ∃ tgt pr,
            (MaskPawnAttacks WHITE src &&& s.Occupancies BLACK).testBit tgt = true
            ∧ pr ∈ promotionPieces ∧ m = EncodeMove src tgt WhitePawn pr BlackPawn 0 0))
      ∧ src < 40 := by
  unfold whitePawnMoves at h
  cases hpa : PawnAttacks s.SideToMove src with
  | none => rw [hpa] at h; cases h
  | some pa =>
    rw [hpa] at h
    obtain ⟨_, hsrc, hpaeq⟩ := pawnAttacks_some _ _ _ hpa
    rw [hside] at hpaeq
    subst hpaeq
    dsimp only at h
    have hlt : MaskPawnAttacks WHITE src &&& s.Occupancies BLACK < 2 ^ 64 :=
      Nat.lt_of_lt_of_le (and_lt_of_left _ _ 40 (maskPawnAttacks_lt _ _)) two_pow_40_le_64
    rw [forBits_eq64 _ _ hlt] at h
    cases hcap : flatMapOpt (fun targetSquare =>
        if src ≥ A7 ∧ src ≤ E7 then
          some (promotionPieces.map (fun i => EncodeMove src targetSquare WhitePawn i BlackPawn 0 0))
        else some [EncodeMove src targetSquare WhitePawn NoPiece BlackPawn 0 0])
        (bitList (MaskPawnAttacks WHITE src &&& s.Occupancies BLACK)) with
    | none => rw [hcap] at h; cases h
    | some caps =>
      rw [hcap] at h
      simp only [Option.some.injEq] at h
      subst h
      have hcm := mem_flatMapOpt _ m _ _ hcap
      have e5 : ((src : Int) - 5).toNat = src - 5 := by omega
      have e10 : ((src : Int) - 5 - 5).toNat = src - 10 := by omega
      have hguard : (¬ ((src : Int) - 5 < (A8 : Nat))) ↔ 5 ≤ src := by
        simp only [A8]; omega
      rw [List.mem_append, e5, e10]
      simp only [getBit_eq_zero, hguard]
      refine ⟨fun hm => ⟨?_, hsrc⟩, fun hm => ?_⟩
      · rcases hm with h1 | h1
        · split at h1
          · rename_i he
            split at h1
            · rename_i hp
              obtain ⟨pr, hpr, hm⟩ := List.mem_map.1 h1
              exact Or.inr (Or.inl ⟨hp.1, hp.2, he.2, pr, hpr, hm.symm⟩)
            · rename_i hp
              have h10 : 10 ≤ src := by
                have := he.1
                simp only [A7, E7, ge_iff_le, not_and, not_le] at hp
                omega
              rcases List.mem_cons.1 h1 with h2 | h2
              · exact Or.inl ⟨h10, he.2, h2⟩
              · split at h2
                · rename_i hd
                  rw [List.mem_singleton] at h2
                  exact Or.inr (Or.inr (Or.inl ⟨hd.1, hd.2.1, he.2, hd.2.2, h2⟩))
                · cases h2
          · cases h1
        · obtain ⟨tgt, ht, ms1, hms, hm⟩ := hcm.1 h1
          rw [mem_bitList_of_lt _ _ hlt] at ht
          split at hms
          · rename_i hp
            simp only [Option.some.injEq] at hms
            subst hms
            obtain ⟨pr, hpr, hm⟩ := List.mem_map.1 hm
            exact Or.inr (Or.inr (Or.inr (Or.inr ⟨hp.1, hp.2, tgt, pr, ht, hpr, hm.symm⟩)))
          · rename_i hp
            simp only [Option.some.injEq] at hms
            subst hms
            rw [List.mem_singleton] at hm
            exact Or.inr (Or.inr (Or.inr (Or.inl ⟨hp, tgt, ht, hm⟩)))
      · rcases hm with ⟨h1 | h1 | h1 | h1 | h1, _⟩
        · obtain ⟨h10, he, hm⟩ := h1
          left
          have hp : ¬ (src ≥ A7 ∧ src ≤ E7) := by
            simp only [A7, E7, ge_iff_le, not_and, not_le]; omega
          rw [if_pos ⟨by omega, he⟩, if_neg hp, hm]
          exact List.mem_cons_self _ _
        · obtain ⟨h5, h9, he, pr, hpr, hm⟩ := h1
          left
          have hp : src ≥ A7 ∧ src ≤ E7 := ⟨h5, h9⟩
          rw [if_pos ⟨h5, he⟩, if_pos hp]
          exact List.mem_map.2 ⟨pr, hpr, hm.symm⟩
        · obtain ⟨h30, h34, he, he2, hm⟩ := h1
          left
          have hp : ¬ (src ≥ A7 ∧ src ≤ E7) := by
            simp only [A7, E7, ge_iff_le, not_and, not_le]; omega
          rw [if_pos ⟨by omega, he⟩, if_neg hp, hm]
          apply List.mem_cons_of_mem
          have hd : src ≥ A2 ∧ src ≤ E2 ∧ (s.Occupancies BOTH).testBit (src - 10) = false :=
            ⟨h30, h34, he2⟩
          rw [if_pos hd]
          exact List.mem_singleton.2 rfl
        · obtain ⟨hp, tgt, ht, hm⟩ := h1
          right
          refine hcm.2 ⟨tgt, (mem_bitList_of_lt _ _ hlt).2 ht, _, if_neg hp, ?_⟩
          exact List.mem_singleton.2 hm
        · obtain ⟨h5, h9, tgt, pr, ht, hpr, hm⟩ := h1
          right
          have hp : src ≥ A7 ∧ src ≤ E7 := ⟨h5, h9⟩
          refine hcm.2 ⟨tgt, (mem_bitList_of_lt _ _ hlt).2 ht, _, if_pos hp, ?_⟩
          exact List.mem_map.2 ⟨pr, hpr, hm.symm⟩

theorem and_two_pow (x e : Nat) : x &&& 2 ^ e = if x.testBit e then 2 ^ e else 0 := by
  apply Nat.eq_of_testBit_eq
  intro j
  rw [Nat.testBit_and, Nat.testBit_two_pow]
  by_cases h : x.testBit e = true
  · rw [if_pos h, Nat.testBit_two_pow]
    by_cases e1 : e = j
    · subst e1; simp [h]
    · simp [e1]
  · rw [if_neg h]
    by_cases e1 : e = j
    · subst e1; simp at h; simp [h]
    · simp [e1]

theorem and_shl64_ne_zero (x e : Nat) (hx : x < 2 ^ 64) :
    x &&& shl64 1 e ≠ 0 ↔ x.testBit e = true := by
  by_cases he : e < 64
  · rw [shl64_one e he, and_two_pow]
    by_cases h : x.testBit e = true
    · simp [h]
    · simp [h]
  · rw [shl64_one_of_ge e (by omega)]
    have : x.testBit e = false := by
      by_contra hc
      have := lt_of_testBit_lt x 64 e hx (by simpa using hc)
      omega
    simp [this]

theorem shl64_and_ne_zero (x e : Nat) (hx : x < 2 ^ 64) :
    shl64 1 e &&& x ≠ 0 ↔ x.testBit e = true := by
  rw [Nat.and_comm]; exact and_shl64_ne_zero x e hx

theorem isLowest_two_pow (e : Nat) : IsLowest (2 ^ e) e := by
  refine ⟨Nat.testBit_two_pow_self, fun j hj => ?_⟩
  rw [Nat.testBit_two_pow]
  simp; omega

theorem lsb_and_shl64 (x e : Nat) (hx : x < 2 ^ 64) (h : x.testBit e = true) :
    (GetLeastSignificantBitIndex (x &&& shl64 1 e)).toNat = e := by
  have he : e < 64 := lt_of_testBit_lt x 64 e hx h
  rw [shl64_one e he, and_two_pow, if_pos h,
    lsb_eq (2 ^ e) e (Nat.pow_lt_pow_right (by decide) he) (isLowest_two_pow e)]
  simp

/-- What the shared body of the White piece loops adds for the piece on `src`. -/
theorem mem_whitePieceMoves (s : Position) (piece src : Nat) (att : Option Nat) (ms : List Nat)
    (hatt : ∀ a, att = some a → a < 2 ^ 64)
    (h : whitePieceMoves s piece src att = some ms) (m : Nat) :
    m ∈ ms ↔ ∃ a tgt, att = some a
      ∧ (a &&& (U64 - 1 - s.Occupancies WHITE)).testBit tgt = true
      ∧ (((s.Occupancies BLACK).testBit tgt = false
            ∧ m = EncodeMove src tgt piece NoPiece NoPiece 0 0)
          ∨ ((s.Occupancies BLACK).testBit tgt = true
            ∧ m = EncodeMove src tgt piece NoPiece BlackPawn 0 0)) := by
  unfold whitePieceMoves at h
  cases att with
  | none => cases h
  | some a =>
    dsimp only at h
    have hlt : a &&& (U64 - 1 - s.Occupancies WHITE) < 2 ^ 64 :=
      Nat.lt_of_le_of_lt Nat.and_le_left (hatt a rfl)
    rw [forBits_eq64 _ _ hlt] at h
    rw [mem_flatMapOpt _ m _ _ h]
    simp only [mem_bitList_of_lt _ _ hlt, getBit_eq_zero]
    constructor
    · rintro ⟨tgt, ht, ms1, hms, hm⟩
      refine ⟨a, tgt, rfl, ht, ?_⟩
      split at hms
      · rename_i hb
        simp only [Option.some.injEq] at hms
        subst hms
        exact Or.inl ⟨hb, List.mem_singleton.1 hm⟩
      · rename_i hb
        simp only [Option.some.injEq] at hms
        subst hms
        exact Or.inr ⟨by simpa using hb, List.mem_singleton.1 hm⟩
    · rintro ⟨a1, tgt, ha, ht, hm⟩
      simp only [Option.some.injEq] at ha
      subst ha
      refine ⟨tgt, ht, ?_⟩
      rcases hm with ⟨hb, hm⟩ | ⟨hb, hm⟩
      · exact ⟨_, if_pos hb, List.mem_singleton.2 hm⟩
      · exact ⟨_, if_neg (by simp [hb]), List.mem_singleton.2 hm⟩

/-- What the body of the Black pawn loop adds for the pawn on `src`. -/
theorem mem_blackPawnMoves (s : Position) (src : Nat) (ms : List Nat)
    (hbb : s.Bitboards WhitePawn < 2 ^ 64)
    (h : blackPawnMoves s src = some ms) (m : Nat) :
    m ∈ ms ↔
      ((src + 5 ≤ 39 ∧ (s.Occupancies BOTH).testBit (src + 5) = false
          ∧ m = EncodeMove src (src + 5) BlackPawn NoPiece NoPiece 0 0)
        ∨ (∃ tgt, (MaskPawnAttacks s.SideToMove src &&& s.Occupancies WHITE).testBit tgt = true
            ∧ m = EncodeMove src tgt BlackPawn NoPiece (capturedWhitePiece s.Bitboards tgt) 0 0)
        ∨ (s.EnPassantSquare ≠ NoSquare ∧ 5 ≤ s.EnPassantSquare
            ∧ (MaskPawnAttacks s.SideToMove src).testBit s.EnPassantSquare.toNat = true
            ∧ (s.Bitboards WhitePawn).testBit (s.EnPassantSquare.toNat - 5) = true
            ∧ m = EncodeMove src s.EnPassantSquare.toNat BlackPawn NoPiece WhitePawn 0 1))
      ∧ src < 40 ∧ s.SideToMove < 2 := by
  unfold blackPawnMoves at h
  cases hpa : PawnAttacks s.SideToMove src with
  | none => rw [hpa] at h; cases h
  | some pa =>
    rw [hpa] at h
    obtain ⟨hside, hsrc, hpaeq⟩ := pawnAttacks_some _ _ _ hpa
    subst hpaeq
    dsimp only at h
    have hpa64 : MaskPawnAttacks s.SideToMove src < 2 ^ 64 :=
      Nat.lt_of_lt_of_le (maskPawnAttacks_lt _ _) two_pow_40_le_64
    have hlt : MaskPawnAttacks s.SideToMove src &&& s.Occupancies WHITE < 2 ^ 64 :=
      Nat.lt_of_le_of_lt Nat.and_le_left hpa64
    rw [forBits_eq64 _ _ hlt, flatMapOpt_some] at h
    dsimp only at h
    have hcaps : ∀ m, m ∈ (bitList (MaskPawnAttacks s.SideToMove src &&& s.Occupancies WHITE)).flatMap
          (fun targetSquare => [EncodeMove src targetSquare BlackPawn NoPiece
            (capturedWhitePiece s.Bitboards targetSquare) 0 0])
        ↔ ∃ tgt, (MaskPawnAttacks s.SideToMove src &&& s.Occupancies WHITE).testBit tgt = true
            ∧ m = EncodeMove src tgt BlackPawn NoPiece (capturedWhitePiece s.Bitboards tgt) 0 0 := by
      intro m
      rw [List.mem_flatMap]
      simp only [mem_bitList_of_lt _ _ hlt, List.mem_singleton]
    have hquiet : ∀ m, m ∈ (if ¬ (src + 5 > E1) ∧ GetBit (s.Occupancies BOTH) (src + 5) = 0 then
          [EncodeMove src (src + 5) BlackPawn NoPiece NoPiece 0 0] else [])
        ↔ (src + 5 ≤ 39 ∧ (s.Occupancies BOTH).testBit (src + 5) = false
          ∧ m = EncodeMove src (src + 5) BlackPawn NoPiece NoPiece 0 0) := by
      intro m
      split
      · rename_i hq
        rw [List.mem_singleton]
        have h1 : src + 5 ≤ 39 := by have := hq.1; simp only [E1] at this; omega
        exact ⟨fun hm => ⟨h1, (getBit_eq_zero _ _).1 hq.2, hm⟩, fun hm => hm.2.2⟩
      · rename_i hq
        constructor
        · intro hm; cases hm
        · rintro ⟨h1, h2, _⟩
          exact absurd ⟨by simp only [E1]; omega, (getBit_eq_zero _ _).2 h2⟩ hq
    have hbase : ∀ m, m ∈ (if ¬ (src + 5 > E1) ∧ GetBit (s.Occupancies BOTH) (src + 5) = 0 then
          [EncodeMove src (src + 5) BlackPawn NoPiece NoPiece 0 0] else [])
          ++ (bitList (MaskPawnAttacks s.SideToMove src &&& s.Occupancies WHITE)).flatMap
          (fun targetSquare => [EncodeMove src targetSquare BlackPawn NoPiece
            (capturedWhitePiece s.Bitboards targetSquare) 0 0])
        ↔ ((src + 5 ≤ 39 ∧ (s.Occupancies BOTH).testBit (src + 5) = false
            ∧ m = EncodeMove src (src + 5) BlackPawn NoPiece NoPiece 0 0)
          ∨ ∃ tgt, (MaskPawnAttacks s.SideToMove src &&& s.Occupancies WHITE).testBit tgt = true
            ∧ m = EncodeMove src tgt BlackPawn NoPiece (capturedWhitePiece s.Bitboards tgt) 0 0) := by
      intro m
      rw [List.mem_append, hquiet, hcaps]
    refine ⟨fun hm => ⟨?_, hsrc, hside⟩, fun hm => ?_⟩
    · split at h
      · rename_i hep
        split at h
        · cases h
        · rename_i hneg
          have hneg' : 0 ≤ s.EnPassantSquare := by omega
          split at h
          · rename_i hatt
            have hattb := (and_shl64_ne_zero _ _ hpa64).1 hatt
            split at h
            · cases h
            · rename_i h5
              split at h
              · rename_i hwp
                simp only [Option.some.injEq] at h
                subst h
                rcases List.mem_append.1 hm with h1 | h1
                · rcases (hbase m).1 h1 with h2 | h2
                  · exact Or.inl h2
                  · exact Or.inr (Or.inl h2)
                · rw [List.mem_singleton, lsb_and_shl64 _ _ hpa64 hattb] at h1
                  have hwpb := (shl64_and_ne_zero _ _ hbb).1 hwp
                  have e : (s.EnPassantSquare - 5).toNat = s.EnPassantSquare.toNat - 5 := by omega
                  rw [e] at hwpb
                  exact Or.inr (Or.inr ⟨hep, by omega, hattb, hwpb, h1⟩)
              · simp only [Option.some.injEq] at h
                subst h
                rcases (hbase m).1 hm with h2 | h2
                · exact Or.inl h2
                · exact Or.inr (Or.inl h2)
          · simp only [Option.some.injEq] at h
            subst h
            rcases (hbase m).1 hm with h2 | h2
            · exact Or.inl h2
            · exact Or.inr (Or.inl h2)
      · simp only [Option.some.injEq] at h
        subst h
        rcases (hbase m).1 hm with h2 | h2
        · exact Or.inl h2
        · exact Or.inr (Or.inl h2)
    · obtain ⟨hm, _, _⟩ := hm
      have hb : (src + 5 ≤ 39 ∧ (s.Occupancies BOTH).testBit (src + 5) = false
            ∧ m = EncodeMove src (src + 5) BlackPawn NoPiece NoPiece 0 0)
          ∨ (∃ tgt, (MaskPawnAttacks s.SideToMove src &&& s.Occupancies WHITE).testBit tgt = true
            ∧ m = EncodeMove src tgt BlackPawn NoPiece (capturedWhitePiece s.Bitboards tgt) 0 0)
          → m ∈ ms := by
        intro hb
        have hb' := (hbase m).2 hb
        split at h
        · split at h
          · cases h
          · split at h
            · split at h
              · cases h
              · split at h
                · simp only [Option.some.injEq] at h
                  subst h
                  exact List.mem_append_left _ hb'
                · simp only [Option.some.injEq] at h
                  subst h
                  exact hb'
            · simp only [Option.some.injEq] at h
              subst h
              exact hb'
        · simp only [Option.some.injEq] at h
          subst h
          exact hb'
      rcases hm with h1 | h1 | h1
      · exact hb (Or.inl h1)
      · exact hb (Or.inr h1)
      · obtain ⟨hep, h5, hattb, hwpb, hm⟩ := h1
        have hatt := (and_shl64_ne_zero _ _ hpa64).2 hattb
        have e : (s.EnPassantSquare - 5).toNat = s.EnPassantSquare.toNat - 5 := by omega
        have hwp : shl64 1 (s.EnPassantSquare - 5).toNat &&& s.Bitboards WhitePawn ≠ 0 := by
          rw [e]; exact (shl64_and_ne_zero _ _ hbb).2 hwpb
        rw [if_pos hep, if_neg (by omega), if_pos hatt, if_neg (by omega), if_pos hwp] at h
        simp only [Option.some.injEq] at h
        subst h
        apply List.mem_append_right
        rw [List.mem_singleton, lsb_and_shl64 _ _ hpa64 hattb]
        exact hm

theorem mem_generateMovesLoop (s : Position) (m : Nat) (n : Nat) :
    ∀ (p0 : Nat) (moves : List Nat), generateMovesLoop s n p0 = some moves →
      ((m ∈ moves ↔ ∃ p, p0 ≤ p ∧ p < p0 + n ∧ ∃ lp, generatePieceMoves s p = some lp ∧ m ∈ lp)
        ∧ ∀ p, p0 ≤ p → p < p0 + n → ∃ lp, generatePieceMoves s p = some lp) := by
  induction n with
  | zero =>
    intro p0 moves h
    simp only [generateMovesLoop, Option.some.injEq] at h
    subst h
    constructor
    · constructor
      · intro hm; cases hm
      · rintro ⟨p, h1, h2, _⟩; omega
    · intro p h1 h2; omega
  | succ n ih =>
    intro p0 moves h
    unfold generateMovesLoop at h
    cases hb : generatePieceMoves s p0 with
    | none => rw [hb] at h; cases h
    | some ms =>
      rw [hb] at h
      cases hr : generateMovesLoop s n (p0 + 1) with
      | none => rw [hr] at h; cases h
      | some rest =>
        rw [hr] at h
        simp only [Option.some.injEq] at h
        subst h
        obtain ⟨ih1, ih2⟩ := ih (p0 + 1) rest hr
        constructor
        · rw [List.mem_append, ih1]
          constructor
          · rintro (h1 | ⟨p, hp1, hp2, lp, hlp, hm⟩)
            · exact ⟨p0, Nat.le_refl _, by omega, ms, hb, h1⟩
            · exact ⟨p, by omega, by omega, lp, hlp, hm⟩
          · rintro ⟨p, hp1, hp2, lp, hlp, hm⟩
            by_cases e : p = p0
            · subst e
              rw [hb] at hlp
              simp only [Option.some.injEq] at hlp
              subst hlp
              exact Or.inl hm
            · exact Or.inr ⟨p, by omega, by omega, lp, hlp, hm⟩
        · intro p hp1 hp2
          by_cases e : p = p0
          · subst e; exact ⟨ms, hb⟩
          · exact ih2 p (by omega) (by omega)

theorem whiteAttackSet_lt (s : Position) (piece sq a : Nat)
    (h : whiteAttackSet s piece sq = some a) : sq < 40 ∧ a < 2 ^ 40 := by
  unfold whiteAttackSet at h
  split at h
  · exact knightAttacks_some _ _ h
  · split at h
    · exact kingAttacks_some _ _ h
    · split at h
      · exact getBishopAttacks_some _ _ _ h
      · exact getRookAttacks_some _ _ _ h

theorem whiteAttackSet_lt64 (s : Position) (piece sq : Nat) :
    ∀ a, whiteAttackSet s piece sq = some a → a < 2 ^ 64 :=
  fun a h => Nat.lt_of_lt_of_le (whiteAttackSet_lt s piece sq a h).2 two_pow_40_le_64

/-- The loop body of GenerateMoves for one piece, as a run over the squares of its
bitboard. -/
theorem generatePieceMoves_eq (s : Position) (p : Nat) (hp : p < 6)
    (h64 : s.Bitboards p < 2 ^ 64) :
    generatePieceMoves s p =
      if s.SideToMove = WHITE then
        if p = WhitePawn then flatMapOpt (whitePawnMoves s) (bitList (s.Bitboards p))
        else if p = BlackPawn then some []
        else flatMapOpt (fun sq => whitePieceMoves s p sq (whiteAttackSet s p sq))
          (bitList (s.Bitboards p))
      else
        if p = BlackPawn then flatMapOpt (blackPawnMoves s) (bitList (s.Bitboards p))
        else some [] := by
  unfold generatePieceMoves
  dsimp only
  by_cases hs : s.SideToMove = WHITE
  · rw [if_pos hs, if_pos hs]
    interval_cases p <;>
      simp [forBits_eq64 _ _ h64, whiteAttackSet, WhitePawn, WhiteKnight, WhiteBishop, WhiteRook,
        WhiteKing, BlackPawn]
  · rw [if_neg hs, if_neg hs]
    by_cases e : p = BlackPawn
    · rw [if_pos e, if_pos e, forBits_eq64 _ _ h64]
    · rw [if_neg e, if_neg e]

theorem generateMoves_some (s : Position) (l : List Nat) (h : GenerateMoves s = some l) :
    generateMovesLoop s 6 WhitePawn = some l ∧ l.length ≤ 256 := by
  unfold GenerateMoves at h
  cases hl : generateMovesLoop s 6 WhitePawn with
  | none => rw [hl] at h; cases h
  | some moves =>
    rw [hl] at h
    dsimp only at h
    split at h
    · simp only [Option.some.injEq] at h
      subst h
      exact ⟨rfl, by assumption⟩
    · cases h

/-- Every move GenerateMoves emits is one of the kinds of `Gen`. -/
theorem gen_sound (s : Position) (h64 : ∀ p, p < 6 → s.Bitboards p < 2 ^ 64) (l : List Nat)
    (h : GenerateMoves s = some l) (m : Nat) (hm : m ∈ l) : Gen s m := by
  obtain ⟨hl, _⟩ := generateMoves_some s l h
  obtain ⟨p, _, hp, lp, hlp, hmp⟩ := ((mem_generateMovesLoop s m 6 WhitePawn l hl).1).1 hm
  have hp6 : p < 6 := by simpa [WhitePawn] using hp
  rw [generatePieceMoves_eq s p hp6 (h64 p hp6)] at hlp
  by_cases hs : s.SideToMove = WHITE
  · rw [if_pos hs] at hlp
    by_cases e0 : p = WhitePawn
    · rw [if_pos e0] at hlp
      subst e0
      obtain ⟨src, hsrc, ms, hms, hmm⟩ := (mem_flatMapOpt _ m _ _ hlp).1 hmp
      rw [mem_bitList_of_lt _ _ (h64 _ hp6)] at hsrc
      obtain ⟨hk, hlt⟩ := (mem_whitePawnMoves s src ms hs hms m).1 hmm
      rcases hk with h1 | h1 | h1 | h1 | h1
      · obtain ⟨h10, he, rfl⟩ := h1
        exact Gen.whitePush src hs hsrc hlt h10 he
      · obtain ⟨h5, h9, he, pr, hpr, rfl⟩ := h1
        exact Gen.whitePushPromo src pr hs hsrc h5 h9 he hpr
      · obtain ⟨h30, h34, he, he2, rfl⟩ := h1
        exact Gen.whiteDouble src hs hsrc h30 h34 he he2
      · obtain ⟨hnp, tgt, ht, rfl⟩ := h1
        exact Gen.whitePawnCapture src tgt hs hsrc hlt hnp ht
      · obtain ⟨h5, h9, tgt, pr, ht, hpr, rfl⟩ := h1
        exact Gen.whitePawnCapturePromo src tgt pr hs hsrc h5 h9 ht hpr
    · rw [if_neg e0] at hlp
      by_cases e5 : p = BlackPawn
      · rw [if_pos e5] at hlp
        simp only [Option.some.injEq] at hlp
        subst hlp
        cases hmp
      · rw [if_neg e5] at hlp
        obtain ⟨src, hsrc, ms, hms, hmm⟩ := (mem_flatMapOpt _ m _ _ hlp).1 hmp
        rw [mem_bitList_of_lt _ _ (h64 _ hp6)] at hsrc
        obtain ⟨a, tgt, ha, ht, hk⟩ :=
          (mem_whitePieceMoves s p src _ ms (whiteAttackSet_lt64 s p src) hms m).1 hmm
        have h1 : 1 ≤ p := by simp only [WhitePawn] at e0; omega
        have h4 : p ≤ 4 := by simp only [BlackPawn] at e5; omega
        rcases hk with ⟨hb, rfl⟩ | ⟨hb, rfl⟩
        · exact Gen.whitePieceQuiet p src tgt a hs h1 h4 hsrc ha ht hb
        · exact Gen.whitePieceCapture p src tgt a hs h1 h4 hsrc ha ht hb
  · rw [if_neg hs] at hlp
    by_cases e5 : p = BlackPawn
    · rw [if_pos e5] at hlp
      subst e5
      obtain ⟨src, hsrc, ms, hms, hmm⟩ := (mem_flatMapOpt _ m _ _ hlp).1 hmp
      rw [mem_bitList_of_lt _ _ (h64 _ hp6)] at hsrc
      obtain ⟨hk, hlt, hside⟩ :=
        (mem_blackPawnMoves s src ms (h64 WhitePawn (by decide)) hms m).1 hmm
      have hb : s.SideToMove = BLACK := by simp only [WHITE] at hs; simp only [BLACK]; omega
      rw [hb] at hk
      rcases hk with h1 | h1 | h1
      · obtain ⟨h39, he, rfl⟩ := h1
        exact Gen.blackPush src hb hsrc h39 he
      · obtain ⟨tgt, ht, rfl⟩ := h1
        exact Gen.blackCapture src tgt hb hsrc hlt ht
      · obtain ⟨hep, h5, hatt, hwp, rfl⟩ := h1
        exact Gen.blackEnPassant src hb hsrc hlt hep h5 hatt hwp
    · rw [if_neg e5] at hlp
      simp only [Option.some.injEq] at hlp
      subst hlp
      cases hmp

theorem setAt_same (f : Nat → Nat) (i v : Nat) : setAt f i v i = v := by simp [setAt]

theorem setAt_ne (f : Nat → Nat) (i v j : Nat) (h : j ≠ i) : setAt f i v j = f j := by
  simp [setAt, h]

theorem setAt_self (f : Nat → Nat) (i : Nat) : setAt f i (f i) = f := by
  funext j; unfold setAt; split
  · rename_i h; rw [h]
  · rfl

theorem testBit_false_of_lt (x n i : Nat) (hx : x < 2 ^ n) (hi : n ≤ i) : x.testBit i = false := by
  by_contra hc
  have := lt_of_testBit_lt x n i hx (by simpa using hc)
  omega

/-- Popping the source, setting the target, and undoing both returns the bitboard. -/
theorem roundtrip_move (x s t : Nat) (hx : x < 2 ^ 40) (hs : s < 40) (ht : t < 40)
    (h1 : x.testBit s = true) (h2 : x.testBit t = false) :
    SetBit (PopBit (SetBit (PopBit x s) t) t) s = x := by
  apply Nat.eq_of_testBit_eq
  intro j
  rw [testBit_SetBit _ _ _ (by omega), testBit_PopBit _ _ _ (by omega),
    testBit_SetBit _ _ _ (by omega), testBit_PopBit _ _ _ (by omega)]
  by_cases hj : j < 40
  · by_cases e1 : s = j
    · subst e1; simp [hj, h1]
    · by_cases e2 : t = j
      · subst e2; simp [hj, h2, e1]
      · simp [hj, e1, e2]
  · simp [hj, testBit_false_of_lt x 40 j hx (by omega)]

/-- Setting a popped bit again returns the bitboard. -/
theorem setBit_popBit (x t : Nat) (hx : x < 2 ^ 40) (ht : t < 40) (h : x.testBit t = true) :
    SetBit (PopBit x t) t = x := by
  apply Nat.eq_of_testBit_eq
  intro j
  rw [testBit_SetBit _ _ _ (by omega), testBit_PopBit _ _ _ (by omega)]
  by_cases hj : j < 40
  · by_cases e1 : t = j
    · subst e1; simp [hj, h]
    · simp [hj, e1]
  · simp [hj, testBit_false_of_lt x 40 j hx (by omega)]

/-- Popping a bit that was just set returns the bitboard. -/
theorem popBit_setBit (x t : Nat) (hx : x < 2 ^ 40) (ht : t < 40) (h : x.testBit t = false) :
    PopBit (SetBit x t) t = x := by
  apply Nat.eq_of_testBit_eq
  intro j
  rw [testBit_PopBit _ _ _ (by omega), testBit_SetBit _ _ _ (by omega)]
  by_cases hj : j < 40
  · by_cases e1 : t = j
    · subst e1; simp [hj, h]
    · simp [hj, e1]
  · simp [hj, testBit_false_of_lt x 40 j hx (by omega)]

theorem popBit_of_not (x t : Nat) (h : x.testBit t = false) : PopBit x t = x := by
  unfold PopBit
  rw [if_neg]
  rw [getBit_eq_one, h]; simp

theorem popBit_lt40 (x sq : Nat) (hx : x < 2 ^ 40) : PopBit x sq < 2 ^ 40 := popBit_lt x sq 40 hx

theorem testBit_or5 (a b c d e i : Nat) :
    (a ||| b ||| c ||| d ||| e).testBit i
      = (a.testBit i || b.testBit i || c.testBit i || d.testBit i || e.testBit i) := by
  simp only [Nat.testBit_or]

theorem and_eq_zero_testBit (a b i : Nat) (h : a &&& b = 0) (ha : a.testBit i = true) :
    b.testBit i = false := by
  have := congrArg (fun x => x.testBit i) h
  simp only [Nat.testBit_and, ha, Bool.true_and, Nat.zero_testBit] at this
  exact this

theorem Consistent.lt40 {s : Position} (h : Consistent s) (p : Nat) (hp : p < 6) :
    s.Bitboards p < 2 ^ 40 := h.1 p hp

theorem Consistent.lt64 {s : Position} (h : Consistent s) : ∀ p, p < 6 → s.Bitboards p < 2 ^ 64 :=
  fun p hp => Nat.lt_of_lt_of_le (h.1 p hp) two_pow_40_le_64

theorem Consistent.disjoint {s : Position} (h : Consistent s) (p q i : Nat) (hp : p < 6)
    (hq : q < 6) (hpq : p ≠ q) (hb : (s.Bitboards p).testBit i = true) :
    (s.Bitboards q).testBit i = false :=
  and_eq_zero_testBit _ _ i (h.2.1 p hp q hq hpq) hb

theorem Consistent.occW {s : Position} (h : Consistent s) (i : Nat) :
    (s.Occupancies WHITE).testBit i = ((s.Bitboards 0).testBit i || (s.Bitboards 1).testBit i
      || (s.Bitboards 2).testBit i || (s.Bitboards 3).testBit i || (s.Bitboards 4).testBit i) := by
  rw [h.2.2.1, testBit_or5]

theorem Consistent.occB {s : Position} (h : Consistent s) (i : Nat) :
    (s.Occupancies BLACK).testBit i = (s.Bitboards 5).testBit i := by
  rw [h.2.2.2.1]

theorem Consistent.occBoth {s : Position} (h : Consistent s) (i : Nat) :
    (s.Occupancies BOTH).testBit i = ((s.Bitboards 0).testBit i || (s.Bitboards 1).testBit i
      || (s.Bitboards 2).testBit i || (s.Bitboards 3).testBit i || (s.Bitboards 4).testBit i
      || (s.Bitboards 5).testBit i) := by
  rw [h.2.2.2.2.1, Nat.testBit_or, h.occW, h.occB]

/-- On an empty square no piece bitboard has a bit. -/
theorem Consistent.empty {s : Position} (h : Consistent s) (i : Nat)
    (he : (s.Occupancies BOTH).testBit i = false) (p : Nat) (hp : p < 6) :
    (s.Bitboards p).testBit i = false := by
  rw [h.occBoth] at he
  simp only [Bool.or_eq_false_iff] at he
  interval_cases p <;> simp [he]

theorem Consistent.notWhite {s : Position} (h : Consistent s) (i : Nat)
    (he : (s.Occupancies WHITE).testBit i = false) (p : Nat) (hp : p < 5) :
    (s.Bitboards p).testBit i = false := by
  rw [h.occW] at he
  simp only [Bool.or_eq_false_iff] at he
  interval_cases p <;> simp [he]

theorem testBit_compl64 (x i : Nat) (hx : x < 2 ^ 64) :
    (U64 - 1 - x).testBit i = (decide (i < 64) && !x.testBit i) := by
  have e : U64 - 1 - x = 2 ^ 64 - (x + 1) := by show 2 ^ 64 - 1 - x = _; omega
  rw [e, Nat.testBit_two_pow_sub_succ hx]

theorem Consistent.occW_lt {s : Position} (h : Consistent s) : s.Occupancies WHITE < 2 ^ 40 := by
  rw [h.2.2.1]
  exact Nat.or_lt_two_pow (Nat.or_lt_two_pow (Nat.or_lt_two_pow (Nat.or_lt_two_pow
    (h.1 0 (by decide)) (h.1 1 (by decide))) (h.1 2 (by decide))) (h.1 3 (by decide)))
    (h.1 4 (by decide))

theorem Consistent.occB_lt {s : Position} (h : Consistent s) : s.Occupancies BLACK < 2 ^ 40 := by
  rw [h.2.2.2.1]; exact h.1 5 (by decide)

theorem Consistent.occBoth_lt {s : Position} (h : Consistent s) : s.Occupancies BOTH < 2 ^ 40 := by
  rw [h.2.2.2.2.1]; exact Nat.or_lt_two_pow h.occW_lt h.occB_lt

/-- The scan for the captured White piece finds the piece that stands on the square. -/
theorem capturedWhitePiece_spec (s : Position) (h : Consistent s) (tgt : Nat)
    (ht : (s.Occupancies WHITE).testBit tgt = true) :
    capturedWhitePiece s.Bitboards tgt < 5
      ∧ (s.Bitboards (capturedWhitePiece s.Bitboards tgt)).testBit tgt = true := by
  rw [h.occW] at ht
  unfold capturedWhitePiece
  simp only [getBit_eq_one]
  by_cases h0 : (s.Bitboards WhitePawn).testBit tgt = true
  · rw [if_pos h0]; exact ⟨by decide, h0⟩
  · rw [if_neg h0]
    by_cases h1 : (s.Bitboards WhiteKnight).testBit tgt = true
    · rw [if_pos h1]; exact ⟨by decide, h1⟩
    · rw [if_neg h1]
      by_cases h2 : (s.Bitboards WhiteBishop).testBit tgt = true
      · rw [if_pos h2]; exact ⟨by decide, h2⟩
      · rw [if_neg h2]
        by_cases h3 : (s.Bitboards WhiteRook).testBit tgt = true
        · rw [if_pos h3]; exact ⟨by decide, h3⟩
        · rw [if_neg h3]
          by_cases h4 : (s.Bitboards WhiteKing).testBit tgt = true
          · rw [if_pos h4]; exact ⟨by decide, h4⟩
          · simp only [WhitePawn, WhiteKnight, WhiteBishop, WhiteRook, WhiteKing] at h0 h1 h2 h3 h4
            simp [h0, h1, h2, h3, h4] at ht

/-- On a consistent position every generated move is the encoding of fields of one of the
six shapes. -/
theorem gen_shape (s : Position) (hc : Consistent s) (m : Nat) (hg : Gen s m) :
    ∃ src tgt piece promo cap dpp ep,
      m = EncodeMove src tgt piece promo cap dpp ep ∧ Shape s src tgt piece promo cap dpp ep := by
  cases hg with
  | whitePush src hs hsrc hlt h10 he =>
    exact ⟨_, _, _, _, _, _, _, rfl, Shape.quiet src (src - 5) WhitePawn hlt (by omega)
      (by decide) hsrc he⟩
  | whitePushPromo src pr hs hsrc h5 h9 he hpr =>
    rw [mem_promotionPieces] at hpr
    exact ⟨_, _, _, _, _, _, _, rfl, Shape.promo src (src - 5) pr (by omega) (by omega)
      (by omega) (by omega) hsrc he⟩
  | whiteDouble src hs hsrc h30 h34 he he2 =>
    exact ⟨_, _, _, _, _, _, _, rfl, Shape.double src hs h30 h34 hsrc he he2⟩
  | whitePawnCapture src tgt hs hsrc hlt hnp ht =>
    rw [Nat.testBit_and, Bool.and_eq_true, hc.occB] at ht
    have htl : tgt < 40 := lt_of_testBit_lt _ 40 tgt (hc.1 5 (by decide)) ht.2
    exact ⟨_, _, _, _, _, _, _, rfl, Shape.capture src tgt WhitePawn BlackPawn hlt htl
      (by decide) (by decide) (by decide) hsrc ht.2⟩
  | whitePawnCapturePromo src tgt pr hs hsrc h5 h9 ht hpr =>
    rw [Nat.testBit_and, Bool.and_eq_true, hc.occB] at ht
    rw [mem_promotionPieces] at hpr
    have htl : tgt < 40 := lt_of_testBit_lt _ 40 tgt (hc.1 5 (by decide)) ht.2
    exact ⟨_, _, _, _, _, _, _, rfl, Shape.promoCapture src tgt pr (by omega) htl
      (by omega) (by omega) hsrc ht.2⟩
  | whitePieceQuiet piece src tgt a hs h1 h4 hsrc ha ht hb =>
    obtain ⟨hsl, hal⟩ := whiteAttackSet_lt s piece src a ha
    rw [Nat.testBit_and, Bool.and_eq_true,
      testBit_compl64 _ _ (Nat.lt_of_lt_of_le hc.occW_lt two_pow_40_le_64)] at ht
    have htl : tgt < 40 := lt_of_testBit_lt _ 40 tgt hal ht.1
    have hw : (s.Occupancies WHITE).testBit tgt = false := by
      have := ht.2; simp at this; exact this.2
    have he : (s.Occupancies BOTH).testBit tgt = false := by
      rw [hc.2.2.2.2.1, Nat.testBit_or, hw, hb]; rfl
    exact ⟨_, _, _, _, _, _, _, rfl, Shape.quiet src tgt piece hsl htl (by omega) hsrc he⟩
  | whitePieceCapture piece src tgt a hs h1 h4 hsrc ha ht hb =>
    obtain ⟨hsl, hal⟩ := whiteAttackSet_lt s piece src a ha
    rw [Nat.testBit_and, Bool.and_eq_true] at ht
    have htl : tgt < 40 := lt_of_testBit_lt _ 40 tgt hal ht.1
    rw [hc.occB] at hb
    exact ⟨_, _, _, _, _, _, _, rfl, Shape.capture src tgt piece BlackPawn hsl htl (by omega)
      (by decide) (by simp only [BlackPawn]; omega) hsrc hb⟩
  | blackPush src hs hsrc h39 he =>
    exact ⟨_, _, _, _, _, _, _, rfl, Shape.quiet src (src + 5) BlackPawn (by omega) (by omega)
      (by decide) hsrc he⟩
  | blackCapture src tgt hs hsrc hlt ht =>
    rw [Nat.testBit_and, Bool.and_eq_true] at ht
    obtain ⟨hc5, hcb⟩ := capturedWhitePiece_spec s hc tgt ht.2
    have htl : tgt < 40 := lt_of_testBit_lt _ 40 tgt hc.occW_lt ht.2
    exact ⟨_, _, _, _, _, _, _, rfl, Shape.capture src tgt BlackPawn _ hlt htl (by decide)
      (by omega) (by simp only [BlackPawn]; omega) hsrc hcb⟩
  | blackEnPassant src hs hsrc hlt hep h5 hatt hwp =>
    rcases hc.2.2.2.2.2 with h1 | ⟨h25, h29, he⟩
    · exact absurd h1 hep
    · exact ⟨_, _, _, _, _, _, _, rfl, Shape.enPassant src s.EnPassantSquare.toNat hs hlt
        (by omega) (by omega) (by omega) hsrc he hwp⟩

theorem pieceKeys_eq (piece sq : Nat) (hp : piece < 6) (hs : sq < 40) :
    PieceKeys piece sq = some (pieceKey piece sq) := by
  simp [pieceKey, PieceKeys, hp, hs]

theorem Consistent.ep_range {s : Position} (h : Consistent s) :
    s.EnPassantSquare = NoSquare ∨ (0 ≤ s.EnPassantSquare ∧ s.EnPassantSquare < 40) := by
  rcases h.2.2.2.2.2 with h1 | ⟨h1, h2, _⟩
  · exact Or.inl h1
  · exact Or.inr ⟨by omega, by omega⟩

theorem epKeys_old (s : Position) (h : Consistent s) (hash : Nat) :
    (if s.EnPassantSquare ≠ NoSquare then (EnPassantKeys s.EnPassantSquare).map (fun k => hash ^^^ k)
      else some hash) = some (hash ^^^ epKey s.EnPassantSquare) := by
  unfold epKey
  by_cases he : s.EnPassantSquare = NoSquare
  · simp [he]
  · rcases h.ep_range with h1 | h1
    · exact absurd h1 he
    · rw [if_pos he, if_pos he]
      simp [EnPassantKeys, h1]

theorem setAt_setAt (f : Nat → Nat) (i v w : Nat) : setAt (setAt f i v) i w = setAt f i w := by
  funext j; unfold setAt; split <;> rfl

theorem epKeys_new (sq : Nat) (h : sq < 40) :
    EnPassantKeys (sq : Int) = some (epKey sq) := by
  have h1 : ¬ ((sq : Int) = (NoSquare : Nat)) := by simp only [NoSquare]; omega
  unfold epKey
  rw [if_pos h1]
  simp [EnPassantKeys, h]

theorem getBit_ne_one (bb sq : Nat) (h : bb.testBit sq = false) : ¬ GetBit bb sq = 1 := by
  rw [getBit_eq_one, h]; simp

theorem epKeys_old' (s : Position) (h : Consistent s) (hash : Nat) :
    (if ¬ s.EnPassantSquare = NoSquare then
        (EnPassantKeys s.EnPassantSquare).map (fun k => hash ^^^ k)
      else some hash) = some (hash ^^^ epKey s.EnPassantSquare) := epKeys_old s h hash

theorem make_quiet (s : Position) (hc : Consistent s) (src tgt piece : Nat) (hs : src < 40)
    (ht : tgt < 40) (hp : piece < 6) :
    makeMoveAll (EncodeMove src tgt piece NoPiece NoPiece 0 0) s
      = some (madeState (EncodeMove src tgt piece NoPiece NoPiece 0 0) s
          (setAt s.Bitboards piece (SetBit (PopBit (s.Bitboards piece) src) tgt)) NoSquare
          (s.HashKey ^^^ pieceKey piece src ^^^ pieceKey piece tgt ^^^ epKey s.EnPassantSquare
            ^^^ SideKey)) := by
  obtain ⟨d1, d2, d3, d4, d5, d6, d7, _⟩ := decode_encode src tgt piece NoPiece NoPiece 0 0
    (by omega) (by omega) (by omega) (by decide) (by decide) (by decide) (by decide)
  unfold makeMoveAll
  simp only [d1, d2, d3, d4, d5, d6, d7]
  rw [if_neg (by omega), pieceKeys_eq piece src hp hs, pieceKeys_eq piece tgt hp ht]
  simp only [NoPiece, WhiteKing, WhiteKnight, ne_eq, not_true_eq_false, if_false, ge_iff_le,
    Nat.reduceLeDiff, false_and, and_false, WHITE, BLACK]
  rw [epKeys_old s hc]
  simp only [madeState, recordOf, setAt_same, setAt_setAt, NoSquare]

theorem make_double (s : Position) (hc : Consistent s) (src : Nat) (h30 : 30 ≤ src)
    (h34 : src ≤ 34) (hside : s.SideToMove = WHITE) :
    makeMoveAll (EncodeMove src (src - 10) WhitePawn NoPiece NoPiece 1 0) s
      = some (madeState (EncodeMove src (src - 10) WhitePawn NoPiece NoPiece 1 0) s
          (setAt s.Bitboards WhitePawn (SetBit (PopBit (s.Bitboards WhitePawn) src) (src - 10)))
          ((src - 10 : Nat) + 5 : Int)
          (s.HashKey ^^^ pieceKey WhitePawn src ^^^ pieceKey WhitePawn (src - 10)
            ^^^ epKey s.EnPassantSquare ^^^ epKey ((src - 10 : Nat) + 5 : Int) ^^^ SideKey)) := by
  obtain ⟨d1, d2, d3, d4, d5, d6, d7, _⟩ := decode_encode src (src - 10) WhitePawn NoPiece NoPiece
    1 0 (by omega) (by omega) (by decide) (by decide) (by decide) (by decide) (by decide)
  unfold makeMoveAll
  simp only [d1, d2, d3, d4, d5, d6, d7]
  rw [if_neg (by decide), pieceKeys_eq WhitePawn src (by decide) (by omega),
    pieceKeys_eq WhitePawn (src - 10) (by decide) (by omega)]
  simp only [NoPiece, WhiteKing, WhiteKnight, ne_eq, not_true_eq_false, if_false, ge_iff_le,
    Nat.reduceLeDiff, false_and, and_false, hside]
  rw [epKeys_old s hc]
  have e : ((src - 10 : Nat) : Int) + 5 = ((src - 10 + 5 : Nat) : Int) := by push_cast; rfl
  simp only [e, epKeys_new (src - 10 + 5) (by omega)]
  simp only [madeState, recordOf, setAt_same, setAt_setAt, WHITE, one_ne_zero, not_false_eq_true,
    and_self, if_true, Option.map_some', hside]

theorem make_capture (s : Position) (hc : Consistent s) (src tgt piece cap : Nat) (hs : src < 40)
    (ht : tgt < 40) (hp : piece < 6) (hcap : cap < 6) (hne : cap ≠ piece)
    (hb : (s.Bitboards cap).testBit tgt = true) :
    makeMoveAll (EncodeMove src tgt piece NoPiece cap 0 0) s
      = some (madeState (EncodeMove src tgt piece NoPiece cap 0 0) s
          (setAt (setAt s.Bitboards piece (SetBit (PopBit (s.Bitboards piece) src) tgt)) cap
            (PopBit (s.Bitboards cap) tgt)) NoSquare
          (s.HashKey ^^^ pieceKey piece src ^^^ pieceKey piece tgt ^^^ pieceKey cap tgt
            ^^^ epKey s.EnPassantSquare ^^^ SideKey)) := by
  obtain ⟨d1, d2, d3, d4, d5, d6, d7, _⟩ := decode_encode src tgt piece NoPiece cap 0 0
    (by omega) (by omega) (by omega) (by decide) (by omega) (by decide) (by decide)
  unfold makeMoveAll
  simp only [d1, d2, d3, d4, d5, d6, d7]
  rw [if_neg (by omega), pieceKeys_eq piece src hp hs, pieceKeys_eq piece tgt hp ht]
  have h6 : cap ≠ NoPiece := by simp only [NoPiece]; omega
  have h6' : ¬ cap ≥ 6 := by omega
  simp only [setAt_setAt, setAt_ne _ _ _ _ hne, h6, ne_eq, not_false_eq_true, if_true, h6',
    if_false, (getBit_eq_one _ _).2 hb, pieceKeys_eq cap tgt hcap ht, Option.map_some']
  simp only [NoPiece, WhiteKing, WhiteKnight, ne_eq, not_true_eq_false, if_false, ge_iff_le,
    Nat.reduceLeDiff, false_and, and_false, WHITE, BLACK]
  rw [epKeys_old s hc]
  simp only [madeState, recordOf, NoSquare, setAt_same]

theorem make_promo (s : Position) (hc : Consistent s) (src tgt pr : Nat) (hs : src < 40)
    (ht : tgt < 40) (h1 : 1 ≤ pr) (h4 : pr ≤ 4) :
    makeMoveAll (EncodeMove src tgt WhitePawn pr NoPiece 0 0) s
      = some (madeState (EncodeMove src tgt WhitePawn pr NoPiece 0 0) s
          (setAt (setAt s.Bitboards WhitePawn
              (PopBit (SetBit (PopBit (s.Bitboards WhitePawn) src) tgt) tgt)) pr
            (SetBit (s.Bitboards pr) tgt)) NoSquare
          (s.HashKey ^^^ pieceKey WhitePawn src ^^^ pieceKey WhitePawn tgt
            ^^^ pieceKey WhitePawn tgt ^^^ pieceKey pr tgt
            ^^^ epKey s.EnPassantSquare ^^^ SideKey)) := by
  obtain ⟨d1, d2, d3, d4, d5, d6, d7, _⟩ := decode_encode src tgt WhitePawn pr NoPiece 0 0
    (by omega) (by omega) (by decide) (by omega) (by decide) (by decide) (by decide)
  unfold makeMoveAll
  simp only [d1, d2, d3, d4, d5, d6, d7]
  rw [if_neg (by decide), pieceKeys_eq WhitePawn src (by decide) hs,
    pieceKeys_eq WhitePawn tgt (by decide) ht]
  have hpr : pr ≤ WhiteKing ∧ pr ≥ WhiteKnight := ⟨h4, h1⟩
  have hne : pr ≠ WhitePawn := by simp only [WhitePawn]; omega
  simp only [hpr, and_self, if_true, setAt_setAt, setAt_same, setAt_ne _ _ _ _ hne,
    pieceKeys_eq pr tgt (by omega) ht, epKeys_old s hc, epKeys_old' s hc]
  simp only [NoPiece, ne_eq, not_true_eq_false, if_false, false_and, WHITE, BLACK,
    epKeys_old s hc, epKeys_old' s hc]
  simp only [madeState, recordOf, NoSquare, setAt_same, setAt_setAt, setAt_ne _ _ _ _ hne]

theorem make_promoCapture (s : Position) (hc : Consistent s) (src tgt pr : Nat) (hs : src < 40)
    (ht : tgt < 40) (h1 : 1 ≤ pr) (h4 : pr ≤ 4)
    (hb : (s.Bitboards BlackPawn).testBit tgt = true) :
    makeMoveAll (EncodeMove src tgt WhitePawn pr BlackPawn 0 0) s
      = some (madeState (EncodeMove src tgt WhitePawn pr BlackPawn 0 0) s
          (setAt (setAt (setAt (setAt s.Bitboards WhitePawn
                (SetBit (PopBit (s.Bitboards WhitePawn) src) tgt)) BlackPawn
              (PopBit (s.Bitboards BlackPawn) tgt)) WhitePawn
              (PopBit (SetBit (PopBit (s.Bitboards WhitePawn) src) tgt) tgt)) pr
            (SetBit (s.Bitboards pr) tgt)) NoSquare
          (s.HashKey ^^^ pieceKey WhitePawn src ^^^ pieceKey WhitePawn tgt
            ^^^ pieceKey BlackPawn tgt ^^^ pieceKey WhitePawn tgt ^^^ pieceKey pr tgt
            ^^^ epKey s.EnPassantSquare ^^^ SideKey)) := by
  obtain ⟨d1, d2, d3, d4, d5, d6, d7, _⟩ := decode_encode src tgt WhitePawn pr BlackPawn 0 0
    (by omega) (by omega) (by decide) (by omega) (by decide) (by decide) (by decide)
  unfold makeMoveAll
  simp only [d1, d2, d3, d4, d5, d6, d7]
  rw [if_neg (by decide), pieceKeys_eq WhitePawn src (by decide) hs,
    pieceKeys_eq WhitePawn tgt (by decide) ht]
  have hpr : pr ≤ WhiteKing ∧ pr ≥ WhiteKnight := ⟨h4, h1⟩
  have hne : pr ≠ WhitePawn := by simp only [WhitePawn]; omega
  have hne5 : pr ≠ BlackPawn := by simp only [BlackPawn]; omega
  have h50 : BlackPawn ≠ WhitePawn := by decide
  have h05 : WhitePawn ≠ BlackPawn := by decide
  have h56 : BlackPawn ≠ NoPiece := by decide
  have h6' : ¬ BlackPawn ≥ 6 := by decide
  simp only [hpr, and_self, if_true, setAt_setAt, setAt_same, setAt_ne _ _ _ _ hne,
    setAt_ne _ _ _ _ hne5, setAt_ne _ _ _ _ h50, setAt_ne _ _ _ _ h05, h56, ne_eq,
    not_false_eq_true, h6', if_false, (getBit_eq_one _ _).2 hb,
    pieceKeys_eq BlackPawn tgt (by decide) ht, pieceKeys_eq pr tgt (by omega) ht,
    Option.map_some', epKeys_old s hc, epKeys_old' s hc]
  simp only [WHITE, BLACK, false_and, if_false, zero_ne_one, epKeys_old s hc, epKeys_old' s hc,
    not_true_eq_false]
  simp only [madeState, recordOf, NoSquare, setAt_same, setAt_setAt, setAt_ne _ _ _ _ hne,
    setAt_ne _ _ _ _ hne5, setAt_ne _ _ _ _ h50, setAt_ne _ _ _ _ h05]

theorem make_enPassant (s : Position) (hc : Consistent s) (src tgt : Nat) (hs : src < 40)
    (ht : tgt < 40) (h5 : 5 ≤ tgt) (hside : s.SideToMove = BLACK)
    (he : (s.Bitboards WhitePawn).testBit tgt = false) :
    makeMoveAll (EncodeMove src tgt BlackPawn NoPiece WhitePawn 0 1) s
      = some (madeState (EncodeMove src tgt BlackPawn NoPiece WhitePawn 0 1) s
          (setAt (setAt s.Bitboards BlackPawn
              (SetBit (PopBit (s.Bitboards BlackPawn) src) tgt)) WhitePawn
            (PopBit (s.Bitboards WhitePawn) (tgt - 5))) NoSquare
          (s.HashKey ^^^ pieceKey BlackPawn src ^^^ pieceKey BlackPawn tgt
            ^^^ pieceKey WhitePawn (tgt - 5) ^^^ epKey s.EnPassantSquare ^^^ SideKey)) := by
  obtain ⟨d1, d2, d3, d4, d5, d6, d7, _⟩ := decode_encode src tgt BlackPawn NoPiece WhitePawn 0 1
    (by omega) (by omega) (by decide) (by decide) (by decide) (by decide) (by decide)
  unfold makeMoveAll
  simp only [d1, d2, d3, d4, d5, d6, d7]
  rw [if_neg (by decide), pieceKeys_eq BlackPawn src (by decide) hs,
    pieceKeys_eq BlackPawn tgt (by decide) ht]
  have h05 : WhitePawn ≠ BlackPawn := by decide
  have h06 : WhitePawn ≠ NoPiece := by decide
  have h6' : ¬ WhitePawn ≥ 6 := by decide
  have hpr : ¬ (NoPiece ≤ WhiteKing ∧ NoPiece ≥ WhiteKnight) := by decide
  have h5' : ¬ tgt < 5 := by omega
  simp only [setAt_setAt, setAt_same, setAt_ne _ _ _ _ h05, h06, ne_eq, not_false_eq_true,
    if_true, h6', if_false, getBit_ne_one _ _ he, hpr, hside, one_ne_zero, and_self, h5',
    pieceKeys_eq WhitePawn (tgt - 5) (by decide) (by omega), epKeys_old s hc,
    epKeys_old' s hc]
  simp only [madeState, recordOf, NoSquare, setAt_same, WHITE, BLACK, and_false, if_false,
    not_true_eq_false, false_and, hside, setAt_ne _ _ _ _ h05, epKeys_old s hc,
    epKeys_old' s hc]

/-- UnMakeMove after MakeMove: everything but the bitboards comes back from the record. -/
theorem unmake_made (s : Position) (move : Nat) (bb : Nat → Nat) (ep : Int) (hash : Nat) :
    UnMakeMove (madeState move s bb ep hash)
      = (unmakeBitboards move s.SideToMove bb).map (fun bb1 => { s with Bitboards := bb1 }) := by
  unfold UnMakeMove unmakeBitboards
  have hl : (madeState move s bb ep hash).MoveStack.getLast? = some (recordOf move s) := by
    simp [madeState]
  have hds : (madeState move s bb ep hash).MoveStack.dropLast = s.MoveStack := by
    simp [madeState]
  rw [hl]
  dsimp only
  rw [hds]
  by_cases hp : GetMovePiece move ≥ 6
  · simp only [recordOf, hp, if_true, Option.map_none']
  · simp only [recordOf, hp, if_false]
    simp only [madeState]

theorem unmake_of_bitboards (s : Position) (move : Nat) (bb : Nat → Nat) (ep : Int) (hash : Nat)
    (h : unmakeBitboards move s.SideToMove bb = some s.Bitboards) :
    UnMakeMove (madeState move s bb ep hash) = some s := by
  rw [unmake_made, h]
  rfl

theorem setAt_ext (f g : Nat → Nat) (i v : Nat) (hi : v = g i) (ho : ∀ j, j ≠ i → f j = g j) :
    setAt f i v = g := by
  funext j
  unfold setAt
  split
  · rename_i h; rw [h, hi]
  · rename_i h; exact ho j h

theorem unmakeBB_quiet (s : Position) (hc : Consistent s) (src tgt piece dpp side : Nat)
    (hs : src < 40) (ht : tgt < 40) (hp : piece < 6) (hd : dpp < 2)
    (hb : (s.Bitboards piece).testBit src = true)
    (he : (s.Bitboards piece).testBit tgt = false) :
    unmakeBitboards (EncodeMove src tgt piece NoPiece NoPiece dpp 0) side
      (setAt s.Bitboards piece (SetBit (PopBit (s.Bitboards piece) src) tgt)) = some s.Bitboards := by
  obtain ⟨d1, d2, d3, d4, d5, d6, d7, _⟩ := decode_encode src tgt piece NoPiece NoPiece dpp 0
    (by omega) (by omega) (by omega) (by decide) (by decide) hd (by decide)
  unfold unmakeBitboards
  simp only [d1, d2, d3, d4, d5, d6, d7]
  rw [if_neg (by omega)]
  have hpr : ¬ (NoPiece ≤ WhiteKing ∧ NoPiece ≥ WhiteKnight) := by decide
  simp only [hpr, if_false, ne_eq, not_true_eq_false, setAt_same, setAt_setAt,
    roundtrip_move _ src tgt (hc.1 piece hp) hs ht hb he, setAt_self]

theorem unmakeBB_capture (s : Position) (hc : Consistent s) (src tgt piece cap side : Nat)
    (hs : src < 40) (ht : tgt < 40) (hp : piece < 6) (hcap : cap < 6) (hne : cap ≠ piece)
    (hb : (s.Bitboards piece).testBit src = true)
    (hcb : (s.Bitboards cap).testBit tgt = true) :
    unmakeBitboards (EncodeMove src tgt piece NoPiece cap 0 0) side
      (setAt (setAt s.Bitboards piece (SetBit (PopBit (s.Bitboards piece) src) tgt)) cap
        (PopBit (s.Bitboards cap) tgt)) = some s.Bitboards := by
  obtain ⟨d1, d2, d3, d4, d5, d6, d7, _⟩ := decode_encode src tgt piece NoPiece cap 0 0
    (by omega) (by omega) (by omega) (by decide) (by omega) (by decide) (by decide)
  have he : (s.Bitboards piece).testBit tgt = false := hc.disjoint cap piece tgt hcap hp hne hcb
  unfold unmakeBitboards
  simp only [d1, d2, d3, d4, d5, d6, d7]
  rw [if_neg (by omega)]
  have hpr : ¬ (NoPiece ≤ WhiteKing ∧ NoPiece ≥ WhiteKnight) := by decide
  have h6 : cap ≠ NoPiece := by simp only [NoPiece]; omega
  have h6' : ¬ cap ≥ 6 := by omega
  have hne' : piece ≠ cap := fun h => hne h.symm
  simp only [hpr, if_false, h6, ne_eq, not_false_eq_true, if_true, not_true_eq_false, h6',
    setAt_same, setAt_ne _ _ _ _ hne', setAt_ne _ _ _ _ hne, setAt_setAt,
    roundtrip_move _ src tgt (hc.1 piece hp) hs ht hb he,
    setBit_popBit _ tgt (hc.1 cap hcap) ht hcb, Option.some.injEq]
  funext j
  by_cases h1 : j = cap <;> by_cases h2 : j = piece <;> simp [setAt, h1, h2, hne, hne']

theorem unmakeBB_promo (s : Position) (hc : Consistent s) (src tgt pr side : Nat)
    (hs : src < 40) (ht : tgt < 40) (h1 : 1 ≤ pr) (h4 : pr ≤ 4)
    (hb : (s.Bitboards WhitePawn).testBit src = true)
    (he : (s.Occupancies BOTH).testBit tgt = false) :
    unmakeBitboards (EncodeMove src tgt WhitePawn pr NoPiece 0 0) side
      (setAt (setAt s.Bitboards WhitePawn
          (PopBit (SetBit (PopBit (s.Bitboards WhitePawn) src) tgt) tgt)) pr
        (SetBit (s.Bitboards pr) tgt)) = some s.Bitboards := by
  obtain ⟨d1, d2, d3, d4, d5, d6, d7, _⟩ := decode_encode src tgt WhitePawn pr NoPiece 0 0
    (by omega) (by omega) (by decide) (by omega) (by decide) (by decide) (by decide)
  have he0 := hc.empty tgt he WhitePawn (by decide)
  have hepr := hc.empty tgt he pr (by omega)
  unfold unmakeBitboards
  simp only [d1, d2, d3, d4, d5, d6, d7]
  rw [if_neg (by decide)]
  have hpr : pr ≤ WhiteKing ∧ pr ≥ WhiteKnight := ⟨h4, h1⟩
  have hne : pr ≠ WhitePawn := by simp only [WhitePawn]; omega
  have hne' : WhitePawn ≠ pr := fun h => hne h.symm
  simp only [hpr, and_self, if_true, ne_eq, not_true_eq_false, if_false,
    setAt_same, setAt_ne _ _ _ _ hne', setAt_ne _ _ _ _ hne, setAt_setAt,
    roundtrip_move _ src tgt (hc.1 WhitePawn (by decide)) hs ht hb he0,
    popBit_setBit _ tgt (hc.1 pr (by omega)) ht hepr, Option.some.injEq]
  funext j
  by_cases h1 : j = pr <;> by_cases h2 : j = WhitePawn <;> simp [setAt, h1, h2, hne, hne']

theorem unmakeBB_promoCapture (s : Position) (hc : Consistent s) (src tgt pr side : Nat)
    (hs : src < 40) (ht : tgt < 40) (h1 : 1 ≤ pr) (h4 : pr ≤ 4)
    (hb : (s.Bitboards WhitePawn).testBit src = true)
    (hcb : (s.Bitboards BlackPawn).testBit tgt = true) :
    unmakeBitboards (EncodeMove src tgt WhitePawn pr BlackPawn 0 0) side
      (setAt (setAt (setAt (setAt s.Bitboards WhitePawn
            (SetBit (PopBit (s.Bitboards WhitePawn) src) tgt)) BlackPawn
          (PopBit (s.Bitboards BlackPawn) tgt)) WhitePawn
          (PopBit (SetBit (PopBit (s.Bitboards WhitePawn) src) tgt) tgt)) pr
        (SetBit (s.Bitboards pr) tgt)) = some s.Bitboards := by
  obtain ⟨d1, d2, d3, d4, d5, d6, d7, _⟩ := decode_encode src tgt WhitePawn pr BlackPawn 0 0
    (by omega) (by omega) (by decide) (by omega) (by decide) (by decide) (by decide)
  have he0 : (s.Bitboards WhitePawn).testBit tgt = false :=
    hc.disjoint BlackPawn WhitePawn tgt (by decide) (by decide) (by decide) hcb
  have hepr : (s.Bitboards pr).testBit tgt = false :=
    hc.disjoint BlackPawn pr tgt (by decide) (by omega) (by simp only [BlackPawn]; omega) hcb
  unfold unmakeBitboards
  simp only [d1, d2, d3, d4, d5, d6, d7]
  rw [if_neg (by decide)]
  have hpr : pr ≤ WhiteKing ∧ pr ≥ WhiteKnight := ⟨h4, h1⟩
  have hne : pr ≠ WhitePawn := by simp only [WhitePawn]; omega
  have hne' : WhitePawn ≠ pr := fun h => hne h.symm
  have hne5 : pr ≠ BlackPawn := by simp only [BlackPawn]; omega
  have hne5' : BlackPawn ≠ pr := fun h => hne5 h.symm
  have h50 : BlackPawn ≠ WhitePawn := by decide
  have h05 : WhitePawn ≠ BlackPawn := by decide
  have h56 : BlackPawn ≠ NoPiece := by decide
  have h6' : ¬ BlackPawn ≥ 6 := by decide
  simp only [hpr, and_self, if_true, h56, ne_eq, not_false_eq_true, not_true_eq_false, if_false,
    h6', setAt_same, setAt_ne _ _ _ _ hne', setAt_ne _ _ _ _ hne, setAt_ne _ _ _ _ hne5,
    setAt_ne _ _ _ _ hne5', setAt_ne _ _ _ _ h50, setAt_ne _ _ _ _ h05, setAt_setAt,
    roundtrip_move _ src tgt (hc.1 WhitePawn (by decide)) hs ht hb he0,
    popBit_setBit _ tgt (hc.1 pr (by omega)) ht hepr,
    setBit_popBit _ tgt (hc.1 BlackPawn (by decide)) ht hcb, Option.some.injEq]
  funext j
  by_cases h1 : j = pr <;> by_cases h2 : j = WhitePawn <;> by_cases h3 : j = BlackPawn <;>
    simp [setAt, h1, h2, h3, hne, hne', hne5, hne5', h50, h05]

theorem unmakeBB_enPassant (s : Position) (hc : Consistent s) (src tgt : Nat)
    (hs : src < 40) (ht : tgt < 40) (h5 : 5 ≤ tgt)
    (hb : (s.Bitboards BlackPawn).testBit src = true)
    (he : (s.Occupancies BOTH).testBit tgt = false)
    (hwp : (s.Bitboards WhitePawn).testBit (tgt - 5) = true) :
    unmakeBitboards (EncodeMove src tgt BlackPawn NoPiece WhitePawn 0 1) BLACK
      (setAt (setAt s.Bitboards BlackPawn
          (SetBit (PopBit (s.Bitboards BlackPawn) src) tgt)) WhitePawn
        (PopBit (s.Bitboards WhitePawn) (tgt - 5))) = some s.Bitboards := by
  obtain ⟨d1, d2, d3, d4, d5, d6, d7, _⟩ := decode_encode src tgt BlackPawn NoPiece WhitePawn 0 1
    (by omega) (by omega) (by decide) (by decide) (by decide) (by decide) (by decide)
  have he5 := hc.empty tgt he BlackPawn (by decide)
  unfold unmakeBitboards
  simp only [d1, d2, d3, d4, d5, d6, d7]
  rw [if_neg (by decide)]
  have hpr : ¬ (NoPiece ≤ WhiteKing ∧ NoPiece ≥ WhiteKnight) := by decide
  have h05 : WhitePawn ≠ BlackPawn := by decide
  have h50 : BlackPawn ≠ WhitePawn := by decide
  have h06 : WhitePawn ≠ NoPiece := by decide
  have h5' : ¬ tgt < 5 := by omega
  simp only [hpr, if_false, h06, ne_eq, not_false_eq_true, if_true, one_ne_zero, h5',
    setAt_same, setAt_ne _ _ _ _ h05, setAt_ne _ _ _ _ h50, setAt_setAt,
    roundtrip_move _ src tgt (hc.1 BlackPawn (by decide)) hs ht hb he5,
    setBit_popBit _ (tgt - 5) (hc.1 WhitePawn (by decide)) (by omega) hwp, Option.some.injEq]
  funext j
  by_cases h1 : j = WhitePawn <;> by_cases h2 : j = BlackPawn <;> simp [setAt, h1, h2, h05, h50]

/-- On a consistent position, making a move of one of the six shapes and unmaking it
returns the position. -/
theorem make_unmake_shape (s : Position) (hc : Consistent s) (src tgt piece promo cap dpp ep : Nat)
    (h : Shape s src tgt piece promo cap dpp ep) :
    ∃ s1, makeMoveAll (EncodeMove src tgt piece promo cap dpp ep) s = some s1
      ∧ UnMakeMove s1 = some s := by
  cases h
  case quiet =>
    refine ⟨_, make_quiet s hc src tgt piece (by assumption) (by assumption) (by assumption), ?_⟩
    exact unmake_of_bitboards s _ _ _ _
      (unmakeBB_quiet s hc src tgt piece 0 _ (by assumption) (by assumption) (by assumption)
        (by decide) (by assumption) (hc.empty tgt (by assumption) piece (by assumption)))
  case double =>
    have h30 : 30 ≤ src := by assumption
    have h34 : src ≤ 34 := by assumption
    refine ⟨_, make_double s hc src h30 h34 (by assumption), ?_⟩
    exact unmake_of_bitboards s _ _ _ _
      (unmakeBB_quiet s hc src (src - 10) WhitePawn 1 _ (by omega) (by omega) (by decide)
        (by decide) (by assumption) (hc.empty _ (by assumption) WhitePawn (by decide)))
  case capture =>
    refine ⟨_, make_capture s hc src tgt piece cap (by assumption) (by assumption)
      (by assumption) (by assumption) (by assumption) (by assumption), ?_⟩
    exact unmake_of_bitboards s _ _ _ _
      (unmakeBB_capture s hc src tgt piece cap _ (by assumption) (by assumption) (by assumption)
        (by assumption) (by assumption) (by assumption) (by assumption))
  case promo =>
    refine ⟨_, make_promo s hc src tgt promo (by assumption) (by assumption) (by assumption)
      (by assumption), ?_⟩
    exact unmake_of_bitboards s _ _ _ _
      (unmakeBB_promo s hc src tgt promo _ (by assumption) (by assumption) (by assumption)
        (by assumption) (by assumption) (by assumption))
  case promoCapture =>
    refine ⟨_, make_promoCapture s hc src tgt promo (by assumption) (by assumption)
      (by assumption) (by assumption) (by assumption), ?_⟩
    exact unmake_of_bitboards s _ _ _ _
      (unmakeBB_promoCapture s hc src tgt promo _ (by assumption) (by assumption)
        (by assumption) (by assumption) (by assumption) (by assumption))
  case enPassant =>
    have hside : s.SideToMove = BLACK := by assumption
    have he : (s.Occupancies BOTH).testBit tgt = false := by assumption
    refine ⟨_, make_enPassant s hc src tgt (by assumption) (by assumption) (by assumption) hside
      (hc.empty tgt he WhitePawn (by decide)), ?_⟩
    apply unmake_of_bitboards
    rw [hside]
    exact unmakeBB_enPassant s hc src tgt (by assumption) (by assumption) (by assumption)
      (by assumption) he (by assumption)

theorem makeMove_all (move : Nat) (s s1 : Position) (h : makeMoveAll move s = some s1) :
    MakeMove move AllMoves s = some (1, s1) := by
  unfold MakeMove
  rw [if_pos rfl, h]
  rfl

/-- C1: for every consistent position and every move that GenerateMoves emits for it,
MakeMove(m, AllMoves) returns 1 and the UnMakeMove that follows returns the position
exactly as it was: the six piece bitboards, the three occupancies, the side to move, the
en-passant square, the hash key and the move stack (and the repetition table). -/
theorem C1_make_unmake_identity (s : Position) (hc : Consistent s) (l : List Nat)
    (hg : GenerateMoves s = some l) (m : Nat) (hm : m ∈ l) :
    ∃ s1, MakeMove m AllMoves s = some (1, s1) ∧ UnMakeMove s1 = some s := by
  obtain ⟨src, tgt, piece, promo, cap, dpp, ep, rfl, hsh⟩ :=
    gen_shape s hc m (gen_sound s hc.lt64 l hg m hm)
  obtain ⟨s1, h1, h2⟩ := make_unmake_shape s hc src tgt piece promo cap dpp ep hsh
  exact ⟨s1, makeMove_all _ s s1 h1, h2⟩

set_option maxRecDepth 100000 in
/-- C1 at the starting position and the double push a2a4 (the second move generated). -/
theorem C1_make_unmake_identity_witness :
    ∃ s1, MakeMove (EncodeMove 30 20 WhitePawn NoPiece NoPiece 1 0) AllMoves startPosition
        = some (1, s1) ∧ UnMakeMove s1 = some startPosition :=
  C1_make_unmake_identity startPosition (by decide!)
    [1771102, 3867934, 1771167, 3867999, 1771232, 3868064, 1771297, 3868129, 1771362, 3868194,
      1775204, 1775332, 1788325] (by decide!) _ (by decide!)

theorem Consistent.disj {s : Position} (h : Consistent s) : Disj s.Bitboards :=
  fun p q i hp hq hpq hb => h.disjoint p q i hp hq hpq hb

theorem disj_and_eq_zero (f : Nat → Nat) (h : Disj f) (p q : Nat) (hp : p < 6) (hq : q < 6)
    (hpq : p ≠ q) : f p &&& f q = 0 := by
  apply Nat.eq_of_testBit_eq
  intro i
  rw [Nat.testBit_and, Nat.zero_testBit]
  by_cases hb : (f p).testBit i = true
  · rw [h p q i hp hq hpq hb]; simp
  · simp at hb; rw [hb]; simp

/-- Shrinking one bitboard keeps the family disjoint. -/
theorem disj_setAt_sub (f : Nat → Nat) (h : Disj f) (p v : Nat)
    (hv : ∀ i, v.testBit i = true → (f p).testBit i = true) : Disj (setAt f p v) := by
  intro a b i ha hb hab hbit
  unfold setAt at hbit ⊢
  by_cases e1 : a = p
  · rw [if_pos e1] at hbit
    have e2 : ¬ b = p := fun e => hab (e1.trans e.symm)
    rw [if_neg e2]
    exact h p b i (e1 ▸ ha) hb (e1 ▸ hab) (hv i hbit)
  · rw [if_neg e1] at hbit
    by_cases e2 : b = p
    · rw [if_pos e2]
      have := h a p i ha (e2 ▸ hb) (e2 ▸ hab) hbit
      by_contra hc
      have := hv i (by simpa using hc)
      simp_all
    · rw [if_neg e2]
      exact h a b i ha hb hab hbit

theorem disj_popBit (f : Nat → Nat) (h : Disj f) (p sq : Nat) (hsq : sq < 64) :
    Disj (setAt f p (PopBit (f p) sq)) := by
  apply disj_setAt_sub f h
  intro i hi
  rw [testBit_PopBit _ _ _ hsq] at hi
  simp at hi
  exact hi.1

/-- Putting a piece on a square that no other bitboard holds keeps the family disjoint. -/
theorem disj_setBit (f : Nat → Nat) (h : Disj f) (p t : Nat) (ht : t < 64)
    (hfree : ∀ q, q < 6 → q ≠ p → (f q).testBit t = false) :
    Disj (setAt f p (SetBit (f p) t)) := by
  intro a b i ha hb hab hbit
  unfold setAt at hbit ⊢
  by_cases e1 : a = p
  · rw [if_pos e1] at hbit
    have e2 : ¬ b = p := fun e => hab (e1.trans e.symm)
    rw [if_neg e2]
    rw [testBit_SetBit _ _ _ ht] at hbit
    simp at hbit
    rcases hbit.2 with h1 | h1
    · exact h p b i (e1 ▸ ha) hb (e1 ▸ hab) h1
    · subst h1; exact hfree b hb e2
  · rw [if_neg e1] at hbit
    by_cases e2 : b = p
    · rw [if_pos e2, testBit_SetBit _ _ _ ht]
      have h1 := h a p i ha (e2 ▸ hb) (e2 ▸ hab) hbit
      have h2 : ¬ t = i := by
        intro e; subst e
        have := hfree a ha e1
        rw [this] at hbit; cases hbit
      simp [h1, h2]
    · rw [if_neg e2]
      exact h a b i ha hb hab hbit

theorem bounded_setAt (f : Nat → Nat) (h : Bounded40 f) (p v : Nat) (hv : v < 2 ^ 40) :
    Bounded40 (setAt f p v) := by
  intro q hq
  unfold setAt
  split
  · exact hv
  · exact h q hq

theorem testBit_recompute_white (f : Nat → Nat) (i : Nat) :
    (recomputeOccupancies f WHITE).testBit i = ((f 0).testBit i || (f 1).testBit i
      || (f 2).testBit i || (f 3).testBit i || (f 4).testBit i) := by
  simp [recomputeOccupancies]

theorem testBit_recompute_black (f : Nat → Nat) (i : Nat) :
    (recomputeOccupancies f BLACK).testBit i = (f 5).testBit i := by
  simp [recomputeOccupancies]

theorem testBit_recompute_both (f : Nat → Nat) (i : Nat) :
    (recomputeOccupancies f BOTH).testBit i = ((f 0).testBit i || (f 1).testBit i
      || (f 2).testBit i || (f 3).testBit i || (f 4).testBit i || (f 5).testBit i) := by
  simp [recomputeOccupancies]

/-- The state MakeMove leaves is consistent when its bitboards are bounded and disjoint
and its en-passant square is NoSquare or an empty square among 25..29. -/
theorem consistent_made (s : Position) (move : Nat) (bb : Nat → Nat) (ep : Int) (hash : Nat)
    (hb : Bounded40 bb) (hd : Disj bb)
    (hep : ep = NoSquare ∨ (25 ≤ ep ∧ ep ≤ 29 ∧ ∀ p, p < 6 → (bb p).testBit ep.toNat = false)) :
    Consistent (madeState move s bb ep hash) := by
  refine ⟨hb, fun p hp q hq hpq => disj_and_eq_zero bb hd p q hp hq hpq, ?_, ?_, ?_, ?_⟩
  · simp [madeState, recomputeOccupancies]
  · simp [madeState, recomputeOccupancies]
  · simp [madeState, recomputeOccupancies]
  · rcases hep with h | ⟨h1, h2, h3⟩
    · exact Or.inl h
    · refine Or.inr ⟨h1, h2, ?_⟩
      show (recomputeOccupancies bb BOTH).testBit ep.toNat = false
      rw [testBit_recompute_both]
      simp [h3 0 (by decide), h3 1 (by decide), h3 2 (by decide), h3 3 (by decide),
        h3 4 (by decide), h3 5 (by decide)]

theorem setAt_comm (f : Nat → Nat) (i j v w : Nat) (h : i ≠ j) :
    setAt (setAt f i v) j w = setAt (setAt f j w) i v := by
  funext k
  unfold setAt
  by_cases h1 : k = j
  · by_cases h2 : k = i
    · exact absurd (h2.symm.trans h1) h
    · simp [h1, Ne.symm h]
  · by_cases h2 : k = i
    · simp [h2, h]
    · simp [h1, h2]

/-- Moving a piece to a square that no other bitboard holds keeps the family disjoint. -/
theorem disj_move (f : Nat → Nat) (h : Disj f) (p src tgt : Nat) (hs : src < 64) (ht : tgt < 64)
    (hfree : ∀ q, q < 6 → q ≠ p → (f q).testBit tgt = false) :
    Disj (setAt f p (SetBit (PopBit (f p) src) tgt)) := by
  have h1 := disj_popBit f h p src hs
  have h2 := disj_setBit _ h1 p tgt ht (fun q hq hqp => by rw [setAt_ne _ _ _ _ hqp]; exact hfree q hq hqp)
  rw [setAt_same, setAt_setAt] at h2
  exact h2

theorem bounded_quiet (s : Position) (hc : Consistent s) (p src tgt : Nat) :
    Bounded40 (setAt s.Bitboards p (SetBit (PopBit (s.Bitboards p) src) tgt)) :=
  bounded_setAt _ hc.1 _ _ (setBit_lt _ _)

theorem disj_quiet (s : Position) (hc : Consistent s) (p src tgt : Nat) (hs : src < 40)
    (ht : tgt < 40) (he : (s.Occupancies BOTH).testBit tgt = false) :
    Disj (setAt s.Bitboards p (SetBit (PopBit (s.Bitboards p) src) tgt)) :=
  disj_move _ hc.disj p src tgt (by omega) (by omega) (fun q hq _ => hc.empty tgt he q hq)

theorem bounded_capture (s : Position) (hc : Consistent s) (p c src tgt : Nat) :
    Bounded40 (setAt (setAt s.Bitboards p (SetBit (PopBit (s.Bitboards p) src) tgt)) c
      (PopBit (s.Bitboards c) tgt)) := by
  intro q hq
  unfold setAt
  split
  · exact popBit_lt40 _ _ (hc.1 c (by omega))
  · split
    · exact setBit_lt _ _
    · exact hc.1 q hq

theorem disj_capture (s : Position) (hc : Consistent s) (p c src tgt : Nat) (hs : src < 40)
    (ht : tgt < 40) (hcl : c < 6) (hne : c ≠ p)
    (hcb : (s.Bitboards c).testBit tgt = true) :
    Disj (setAt (setAt s.Bitboards p (SetBit (PopBit (s.Bitboards p) src) tgt)) c
      (PopBit (s.Bitboards c) tgt)) := by
  have h0 := disj_popBit _ hc.disj c tgt (by omega)
  have hne' : p ≠ c := fun e => hne e.symm
  have h1 := disj_move _ h0 p src tgt (by omega) (by omega) (fun q hq hqp => by
    unfold setAt
    split
    · rw [testBit_PopBit _ _ _ (by omega)]; simp
    · rename_i hqc
      exact hc.disjoint c q tgt hcl hq (fun e => hqc e.symm) hcb)
  rw [setAt_ne _ _ _ _ hne', setAt_comm _ _ _ _ _ hne] at h1
  exact h1

theorem testBit_popSetPop (x src tgt i : Nat) (hs : src < 64) (ht : tgt < 64)
    (h : (PopBit (SetBit (PopBit x src) tgt) tgt).testBit i = true) :
    x.testBit i = true ∧ tgt ≠ i := by
  rw [testBit_PopBit _ _ _ ht, testBit_SetBit _ _ _ ht, testBit_PopBit _ _ _ hs] at h
  simp at h
  obtain ⟨⟨_, h2⟩, h3⟩ := h
  rcases h2 with h2 | h2
  · exact ⟨h2.1, h3⟩
  · exact absurd h2 h3

theorem bounded_promo (s : Position) (hc : Consistent s) (pr src tgt : Nat) :
    Bounded40 (setAt (setAt s.Bitboards WhitePawn
        (PopBit (SetBit (PopBit (s.Bitboards WhitePawn) src) tgt) tgt)) pr
      (SetBit (s.Bitboards pr) tgt)) := by
  intro q hq
  unfold setAt
  split
  · exact setBit_lt _ _
  · split
    · exact popBit_lt40 _ _ (setBit_lt _ _)
    · exact hc.1 q hq

theorem disj_promo (s : Position) (hc : Consistent s) (pr src tgt : Nat) (hs : src < 40)
    (ht : tgt < 40) (h1 : 1 ≤ pr) (he : (s.Occupancies BOTH).testBit tgt = false) :
    Disj (setAt (setAt s.Bitboards WhitePawn
        (PopBit (SetBit (PopBit (s.Bitboards WhitePawn) src) tgt) tgt)) pr
      (SetBit (s.Bitboards pr) tgt)) := by
  have h0 := disj_setAt_sub _ hc.disj WhitePawn
    (PopBit (SetBit (PopBit (s.Bitboards WhitePawn) src) tgt) tgt)
    (fun i hi => (testBit_popSetPop _ src tgt i (by omega) (by omega) hi).1)
  have hne : pr ≠ WhitePawn := by simp only [WhitePawn]; omega
  have h2 := disj_setBit _ h0 pr tgt (by omega) (fun q hq hqp => by
    unfold setAt
    split
    · by_contra hcon
      exact (testBit_popSetPop _ src tgt tgt (by omega) (by omega) (by simpa using hcon)).2 rfl
    · exact hc.empty tgt he q hq)
  rw [setAt_ne _ _ _ _ hne] at h2
  exact h2

theorem promoCapture_eq (b : Nat → Nat) (pr x y z w : Nat) :
    setAt (setAt (setAt (setAt b WhitePawn x) BlackPawn y) WhitePawn z) pr w
      = setAt (setAt (setAt b WhitePawn z) BlackPawn y) pr w := by
  funext k
  unfold setAt
  by_cases e1 : k = pr <;> by_cases e2 : k = WhitePawn <;> by_cases e3 : k = BlackPawn <;>
    simp [e1, e2, e3]

theorem bounded_promoCapture (s : Position) (hc : Consistent s) (pr src tgt : Nat) :
    Bounded40 (setAt (setAt (setAt (setAt s.Bitboards WhitePawn
          (SetBit (PopBit (s.Bitboards WhitePawn) src) tgt)) BlackPawn
        (PopBit (s.Bitboards BlackPawn) tgt)) WhitePawn
        (PopBit (SetBit (PopBit (s.Bitboards WhitePawn) src) tgt) tgt)) pr
      (SetBit (s.Bitboards pr) tgt)) := by
  intro q hq
  unfold setAt
  split
  · exact setBit_lt _ _
  · split
    · exact popBit_lt40 _ _ (setBit_lt _ _)
    · split
      · exact popBit_lt40 _ _ (hc.1 BlackPawn (by decide))
      · exact hc.1 q hq

theorem disj_promoCapture (s : Position) (hc : Consistent s) (pr src tgt : Nat) (hs : src < 40)
    (ht : tgt < 40) (h1 : 1 ≤ pr) (h4 : pr ≤ 4)
    (hcb : (s.Bitboards BlackPawn).testBit tgt = true) :
    Disj (setAt (setAt (setAt (setAt s.Bitboards WhitePawn
          (SetBit (PopBit (s.Bitboards WhitePawn) src) tgt)) BlackPawn
        (PopBit (s.Bitboards BlackPawn) tgt)) WhitePawn
        (PopBit (SetBit (PopBit (s.Bitboards WhitePawn) src) tgt) tgt)) pr
      (SetBit (s.Bitboards pr) tgt)) := by
  rw [promoCapture_eq _ pr _ _ _ _]
  have g1 := disj_setAt_sub _ hc.disj WhitePawn
    (PopBit (SetBit (PopBit (s.Bitboards WhitePawn) src) tgt) tgt)
    (fun i hi => (testBit_popSetPop _ src tgt i (by omega) (by omega) hi).1)
  have h50 : BlackPawn ≠ WhitePawn := by decide
  have g2 := disj_popBit _ g1 BlackPawn tgt (by omega)
  rw [setAt_ne _ _ _ _ h50] at g2
  have hne : pr ≠ WhitePawn := by simp only [WhitePawn]; omega
  have hne5 : pr ≠ BlackPawn := by simp only [BlackPawn]; omega
  have g3 := disj_setBit _ g2 pr tgt (by omega) (fun q hq hqp => by
    unfold setAt
    split
    · rw [testBit_PopBit _ _ _ (by omega)]; simp
    · split
      · by_contra hcon
        exact (testBit_popSetPop _ src tgt tgt (by omega) (by omega) (by simpa using hcon)).2 rfl
      · rename_i hq5 _
        exact hc.disjoint BlackPawn q tgt (by decide) hq (fun e => hq5 e.symm) hcb)
  rw [setAt_ne _ _ _ _ hne5, setAt_ne _ _ _ _ hne] at g3
  exact g3

theorem bounded_enPassant (s : Position) (hc : Consistent s) (src tgt : Nat) :
    Bounded40 (setAt (setAt s.Bitboards BlackPawn
        (SetBit (PopBit (s.Bitboards BlackPawn) src) tgt)) WhitePawn
      (PopBit (s.Bitboards WhitePawn) (tgt - 5))) := by
  intro q hq
  unfold setAt
  split
  · exact popBit_lt40 _ _ (hc.1 WhitePawn (by decide))
  · split
    · exact setBit_lt _ _
    · exact hc.1 q hq

theorem disj_enPassant (s : Position) (hc : Consistent s) (src tgt : Nat) (hs : src < 40)
    (ht : tgt < 40) (he : (s.Occupancies BOTH).testBit tgt = false) :
    Disj (setAt (setAt s.Bitboards BlackPawn
        (SetBit (PopBit (s.Bitboards BlackPawn) src) tgt)) WhitePawn
      (PopBit (s.Bitboards WhitePawn) (tgt - 5))) := by
  have g1 := disj_popBit _ hc.disj WhitePawn (tgt - 5) (by omega)
  have h50 : BlackPawn ≠ WhitePawn := by decide
  have h05 : WhitePawn ≠ BlackPawn := by decide
  have g2 := disj_move _ g1 BlackPawn src tgt (by omega) (by omega) (fun q hq hqp => by
    unfold setAt
    split
    · rw [testBit_PopBit _ _ _ (by omega), hc.empty tgt he WhitePawn (by decide)]; simp
    · exact hc.empty tgt he q hq)
  rw [setAt_ne _ _ _ _ h50, setAt_comm _ _ _ _ _ h05] at g2
  exact g2

theorem double_ep_free (s : Position) (hc : Consistent s) (src : Nat) (h30 : 30 ≤ src)
    (h34 : src ≤ 34) (he : (s.Occupancies BOTH).testBit (src - 5) = false) :
    ∀ p, p < 6 → ((setAt s.Bitboards WhitePawn
      (SetBit (PopBit (s.Bitboards WhitePawn) src) (src - 10))) p).testBit
        (((src - 10 : Nat) : Int) + 5).toNat = false := by
  intro p hp
  have e : (((src - 10 : Nat) : Int) + 5).toNat = src - 5 := by omega
  rw [e]
  unfold setAt
  split
  · rw [testBit_SetBit _ _ _ (by omega), testBit_PopBit _ _ _ (by omega),
      hc.empty _ he WhitePawn (by decide)]
    have : ¬ (src - 10 = src - 5) := by omega
    simp [this]
  · exact hc.empty _ he p hp

/-- On a consistent position a move of one of the six shapes is made, leaves a consistent
position, and is undone by UnMakeMove. -/
theorem shape_step (s : Position) (hc : Consistent s) (src tgt piece promo cap dpp ep : Nat)
    (h : Shape s src tgt piece promo cap dpp ep) :
    ∃ s1, makeMoveAll (EncodeMove src tgt piece promo cap dpp ep) s = some s1
      ∧ UnMakeMove s1 = some s ∧ Consistent s1 := by
  obtain ⟨s1, hm, hu⟩ := make_unmake_shape s hc src tgt piece promo cap dpp ep h
  refine ⟨s1, hm, hu, ?_⟩
  cases h
  case quiet =>
    have hs : src < 40 := by assumption
    have ht : tgt < 40 := by assumption
    rw [make_quiet s hc src tgt piece hs ht (by assumption)] at hm
    simp only [Option.some.injEq] at hm
    subst hm
    exact consistent_made s _ _ _ _ (bounded_quiet s hc piece src tgt)
      (disj_quiet s hc piece src tgt hs ht (by assumption)) (Or.inl rfl)
  case double =>
    have h30 : 30 ≤ src := by assumption
    have h34 : src ≤ 34 := by assumption
    rw [make_double s hc src h30 h34 (by assumption)] at hm
    simp only [Option.some.injEq] at hm
    subst hm
    exact consistent_made s _ _ _ _ (bounded_quiet s hc WhitePawn src (src - 10))
      (disj_quiet s hc WhitePawn src (src - 10) (by omega) (by omega) (by assumption))
      (Or.inr ⟨by omega, by omega, double_ep_free s hc src h30 h34 (by assumption)⟩)
  case capture =>
    have hs : src < 40 := by assumption
    have ht : tgt < 40 := by assumption
    rw [make_capture s hc src tgt piece cap hs ht (by assumption) (by assumption)
      (by assumption) (by assumption)] at hm
    simp only [Option.some.injEq] at hm
    subst hm
    exact consistent_made s _ _ _ _ (bounded_capture s hc piece cap src tgt)
      (disj_capture s hc piece cap src tgt hs ht (by assumption) (by assumption)
        (by assumption)) (Or.inl rfl)
  case promo =>
    have hs : src < 40 := by assumption
    have ht : tgt < 40 := by assumption
    rw [make_promo s hc src tgt promo hs ht (by assumption) (by assumption)] at hm
    simp only [Option.some.injEq] at hm
    subst hm
    exact consistent_made s _ _ _ _ (bounded_promo s hc promo src tgt)
      (disj_promo s hc promo src tgt hs ht (by assumption) (by assumption)) (Or.inl rfl)
  case promoCapture =>
    have hs : src < 40 := by assumption
    have ht : tgt < 40 := by assumption
    rw [make_promoCapture s hc src tgt promo hs ht (by assumption) (by assumption)
      (by assumption)] at hm
    simp only [Option.some.injEq] at hm
    subst hm
    exact consistent_made s _ _ _ _ (bounded_promoCapture s hc promo src tgt)
      (disj_promoCapture s hc promo src tgt hs ht (by assumption) (by assumption)
        (by assumption)) (Or.inl rfl)
  case enPassant =>
    have hs : src < 40 := by assumption
    have ht : tgt < 40 := by assumption
    have he : (s.Occupancies BOTH).testBit tgt = false := by assumption
    rw [make_enPassant s hc src tgt hs ht (by assumption) (by assumption)
      (hc.empty tgt he WhitePawn (by decide))] at hm
    simp only [Option.some.injEq] at hm
    subst hm
    exact consistent_made s _ _ _ _ (bounded_enPassant s hc src tgt)
      (disj_enPassant s hc src tgt hs ht he) (Or.inl rfl)

/-- On a consistent position every generated move is made, leaves a consistent position,
and is undone by UnMakeMove. -/
theorem generated_step (s : Position) (hc : Consistent s) (l : List Nat)
    (hg : GenerateMoves s = some l) (m : Nat) (hm : m ∈ l) :
    ∃ s1, makeMoveAll m s = some s1 ∧ UnMakeMove s1 = some s ∧ Consistent s1 := by
  obtain ⟨src, tgt, piece, promo, cap, dpp, ep, rfl, hsh⟩ :=
    gen_shape s hc m (gen_sound s hc.lt64 l hg m hm)
  exact shape_step s hc src tgt piece promo cap dpp ep hsh

theorem Consistent.white_and_black {s : Position} (h : Consistent s) :
    s.Occupancies WHITE &&& s.Occupancies BLACK = 0 := by
  apply Nat.eq_of_testBit_eq
  intro i
  rw [Nat.testBit_and, Nat.zero_testBit, h.occW, h.occB]
  by_cases h5 : (s.Bitboards 5).testBit i = true
  · have d := fun q (hq : q < 6) (hne : 5 ≠ q) => h.disjoint 5 q i (by decide) hq hne h5
    simp [d 0 (by decide) (by decide), d 1 (by decide) (by decide), d 2 (by decide) (by decide),
      d 3 (by decide) (by decide), d 4 (by decide) (by decide)]
  · simp at h5; simp [h5]

theorem ParseInv.mono {bb : Nat → Nat} {n m : Nat} (h : ParseInv bb n) (hnm : n ≤ m) :
    ParseInv bb m :=
  ⟨h.1, h.2.1, fun p hp i hi => h.2.2 p hp i (by omega)⟩

theorem convertAscii_lt (ch : Nat) : ConvertAsciiToConstants ch < 6 := by
  unfold ConvertAsciiToConstants
  repeat' split
  all_goals decide

theorem parseInv_set (bb : Nat → Nat) (sq piece : Nat) (h : ParseInv bb sq) (hp : piece < 6)
    (hsq : sq < 40) : ParseInv (setAt bb piece (SetBit (bb piece) sq)) (sq + 1) := by
  refine ⟨bounded_setAt _ h.1 _ _ (setBit_lt _ _), ?_, ?_⟩
  · exact disj_setBit _ h.2.1 piece sq (by omega) (fun q hq _ => h.2.2 q hq sq (Nat.le_refl _))
  · intro p hp i hi
    unfold setAt
    split
    · rw [testBit_SetBit _ _ _ (by omega), h.2.2 piece (by omega) i (by omega)]
      have : ¬ sq = i := by omega
      simp [this]
    · exact h.2.2 p hp i (by omega)

theorem parseRankLoop_inv (fen : List Nat) (rank : Nat) (hr : rank < 8) (fuel : Nat) :
    ∀ (file idx : Nat) (bb : Nat → Nat), ParseInv bb (rank * 5 + min file 5) →
      ParseInv (parseRankLoop fen rank fuel file idx bb).1 ((rank + 1) * 5) := by
  induction fuel with
  | zero =>
    intro file idx bb h
    exact h.mono (by omega)
  | succ n ih =>
    intro file idx bb h
    unfold parseRankLoop
    split
    · rename_i hf
      split
      · exact h.mono (by omega)
      · dsimp only
        split
        · apply ih
          have h1 : min file 5 = file := by omega
          rw [h1] at h
          have h2 := parseInv_set bb (rank * 5 + file) _ h
            (convertAscii_lt (fen.getD idx 0)) (by omega)
          exact h2.mono (by omega)
        · split
          · apply ih
            exact h.mono (by omega)
          · apply ih
            exact h.mono (by omega)
    · exact h.mono (by omega)

theorem parseRanksLoop_inv (fen : List Nat) (n : Nat) :
    ∀ (rank idx : Nat) (bb : Nat → Nat), rank + n ≤ 8 → ParseInv bb (rank * 5) →
      ParseInv (parseRanksLoop fen n rank idx bb).1 40 := by
  induction n with
  | zero =>
    intro rank idx bb hr h
    exact h.mono (by omega)
  | succ n ih =>
    intro rank idx bb hr h
    unfold parseRanksLoop
    have h1 := parseRankLoop_inv fen rank (by omega) (fen.length + 6) 0 idx bb
      (by simpa using h)
    cases hres : parseRankLoop fen rank (fen.length + 6) 0 idx bb with
    | mk bb1 idx1 =>
      rw [hres] at h1
      dsimp only
      exact ih (rank + 1) _ bb1 (by omega) h1

theorem parseInv_zero : ParseInv (fun _ => 0) 0 :=
  ⟨fun _ _ => Nat.pow_pos (by decide), fun _ _ _ _ _ _ h => by simp at h, fun _ _ _ _ => by simp⟩

/-- What ParseFEN leaves whenever it returns: bounded and disjoint bitboards, and the
occupancies derived from them. -/
theorem parseFEN_spec (fen : List Nat) (s s1 : Position) (h : ParseFEN fen s = some s1) :
    Bounded40 s1.Bitboards ∧ Disj s1.Bitboards
      ∧ s1.Occupancies WHITE = (s1.Bitboards WhitePawn ||| s1.Bitboards WhiteKnight
          ||| s1.Bitboards WhiteBishop ||| s1.Bitboards WhiteRook ||| s1.Bitboards WhiteKing)
      ∧ s1.Occupancies BLACK = s1.Bitboards BlackPawn
      ∧ s1.Occupancies BOTH = (s1.Occupancies WHITE ||| s1.Occupancies BLACK) := by
  unfold ParseFEN at h
  have hinv := parseRanksLoop_inv fen 8 0 0 (fun _ => 0) (by omega) (by simpa using parseInv_zero)
  cases hres : parseRanksLoop fen 8 0 0 (fun _ => 0) with
  | mk bb idx =>
    rw [hres] at h hinv
    dsimp only at h
    split at h
    · cases h
    · split at h
      · cases h
      · split at h
        · cases h
        · cases hk : GeneratePositionKey _ with
          | none => rw [hk] at h; cases h
          | some k =>
            rw [hk] at h
            simp only [Option.map_some', Option.some.injEq] at h
            subst h
            exact ⟨hinv.1, hinv.2.1, rfl, rfl, rfl⟩

theorem recompute_lt (bb : Nat → Nat) (h : Bounded40 bb) (i : Nat) :
    recomputeOccupancies bb i < 2 ^ 40 := by
  have hw : 0 ||| bb WhitePawn ||| bb WhiteKnight ||| bb WhiteBishop ||| bb WhiteRook
      ||| bb WhiteKing < 2 ^ 40 :=
    Nat.or_lt_two_pow (Nat.or_lt_two_pow (Nat.or_lt_two_pow (Nat.or_lt_two_pow
      (Nat.or_lt_two_pow (Nat.pow_pos (by decide)) (h 0 (by decide))) (h 1 (by decide)))
      (h 2 (by decide))) (h 3 (by decide))) (h 4 (by decide))
  have hb : 0 ||| bb BlackPawn < 2 ^ 40 :=
    Nat.or_lt_two_pow (Nat.pow_pos (by decide)) (h 5 (by decide))
  unfold recomputeOccupancies
  split
  · exact hw
  · split
    · exact hb
    · split
      · exact Nat.or_lt_two_pow (Nat.pow_pos (by decide)) (Nat.or_lt_two_pow hw hb)
      · exact Nat.pow_pos (by decide)

theorem bounded_pop (f : Nat → Nat) (h : Bounded40 f) (p sq : Nat) (hp : p < 6) :
    Bounded40 (setAt f p (PopBit (f p) sq)) :=
  bounded_setAt f h p _ (popBit_lt40 _ _ (h p hp))

theorem bounded_set (f : Nat → Nat) (h : Bounded40 f) (p sq : Nat) :
    Bounded40 (setAt f p (SetBit (f p) sq)) :=
  bounded_setAt f h p _ (setBit_lt _ _)

/-- MakeMove keeps the piece bitboards inside the low 40 bits, whatever the move. -/
theorem makeMoveAll_bounded (move : Nat) (s s1 : Position) (hb : Bounded40 s.Bitboards)
    (h : makeMoveAll move s = some s1) :
    Bounded40 s1.Bitboards ∧ s1.Occupancies = recomputeOccupancies s1.Bitboards
      ∧ s1.MoveStack = s.MoveStack ++ [recordOf move s] := by
  unfold makeMoveAll at h
  dsimp only at h
  split at h
  · cases h
  · rename_i hp
    have hp : GetMovePiece move < 6 := by omega
    have b1 := bounded_set _ (bounded_pop _ hb (GetMovePiece move) (GetMoveSource move) hp)
      (GetMovePiece move) (GetMoveTarget move)
    split at h
    · rename_i kS kT _ _
      -- the captured piece
      split at h
      · cases h
      · rename_i bb2 hash2 hcap
        have b2 : Bounded40 bb2 := by
          split at hcap
          · split at hcap
            · cases hcap
            · rename_i hc6
              split at hcap
              · cases hk : PieceKeys (GetMoveCapturedPiece move) (GetMoveTarget move) with
                | none => rw [hk] at hcap; cases hcap
                | some k =>
                  rw [hk] at hcap
                  simp only [Option.map_some', Option.some.injEq, Prod.mk.injEq] at hcap
                  rw [← hcap.1]
                  exact bounded_pop _ b1 _ _ (by omega)
              · simp only [Option.some.injEq, Prod.mk.injEq] at hcap
                rw [← hcap.1]; exact b1
          · simp only [Option.some.injEq, Prod.mk.injEq] at hcap
            rw [← hcap.1]; exact b1
        split at h
        · cases h
        · rename_i bb3 hash3 hpro
          have b3 : Bounded40 bb3 := by
            split at hpro
            · split at hpro
              · cases hpro
              · simp only [Option.some.injEq, Prod.mk.injEq] at hpro
                rw [← hpro.1]
                exact bounded_set _ (bounded_pop _ b2 _ _ hp) _ _
            · simp only [Option.some.injEq, Prod.mk.injEq] at hpro
              rw [← hpro.1]; exact b2
          split at h
          · cases h
          · rename_i bb4 hash4 hep
            have b4 : Bounded40 bb4 := by
              split at hep
              · split at hep
                · cases hep
                · split at hep
                  · cases hep
                  · simp only [Option.some.injEq, Prod.mk.injEq] at hep
                    rw [← hep.1]
                    exact bounded_pop _ b3 _ _ (by decide)
              · simp only [Option.some.injEq, Prod.mk.injEq] at hep
                rw [← hep.1]; exact b3
            split at h
            · cases h
            · split at h
              · cases h
              · simp only [Option.some.injEq] at h
                subst h
                exact ⟨b4, rfl, rfl⟩
    · cases h

/-- What a successful MakeMove tells about the move: the indices it used were in range. -/
theorem makeMoveAll_facts (move : Nat) (s s1 : Position) (h : makeMoveAll move s = some s1) :
    GetMovePiece move < 6
      ∧ (GetMoveCapturedPiece move ≠ NoPiece → GetMoveCapturedPiece move < 6)
      ∧ (GetMoveEnPassant move ≠ 0 → s.SideToMove = BLACK → 5 ≤ GetMoveTarget move) := by
  refine ⟨?_, ?_, ?_⟩
  · by_contra hc
    unfold makeMoveAll at h
    simp [show GetMovePiece move ≥ 6 by omega] at h
  · intro h6
    by_contra hc
    have hc' : GetMoveCapturedPiece move ≥ 6 := by omega
    unfold makeMoveAll at h
    dsimp only at h
    split at h
    · cases h
    · split at h
      · simp [h6, hc'] at h
      · cases h
  · intro he hs
    by_contra hc
    have hc' : GetMoveTarget move < 5 := by omega
    unfold makeMoveAll at h
    dsimp only at h
    split at h
    · cases h
    · split at h
      · split at h
        · cases h
        · split at h
          · cases h
          · simp [he, hs, hc'] at h
      · cases h

/-- UnMakeMove after a successful MakeMove returns, and keeps the piece bitboards inside
the low 40 bits. -/
theorem unMake_bounded (s1 : Position) (stack : List MoveRecord) (rec : MoveRecord)
    (hst : s1.MoveStack = stack ++ [rec]) (hb : Bounded40 s1.Bitboards)
    (hp : GetMovePiece rec.move < 6)
    (hcap : GetMoveCapturedPiece rec.move ≠ NoPiece → GetMoveCapturedPiece rec.move < 6)
    (hep : GetMoveEnPassant rec.move ≠ 0 → rec.sideToMove = BLACK → 5 ≤ GetMoveTarget rec.move) :
    ∃ s2, UnMakeMove s1 = some s2 ∧ Bounded40 s2.Bitboards
      ∧ s2.Occupancies = rec.occupancies := by
  unfold UnMakeMove
  have hl : s1.MoveStack.getLast? = some rec := by rw [hst]; simp
  rw [hl]
  dsimp only
  rw [if_neg (by omega)]
  have b1 : Bounded40 (if GetMovePromotedPiece rec.move ≤ WhiteKing
        ∧ GetMovePromotedPiece rec.move ≥ WhiteKnight then
      setAt (setAt s1.Bitboards (GetMovePromotedPiece rec.move)
          (PopBit (s1.Bitboards (GetMovePromotedPiece rec.move)) (GetMoveTarget rec.move)))
        (GetMovePiece rec.move)
        (SetBit (setAt s1.Bitboards (GetMovePromotedPiece rec.move)
          (PopBit (s1.Bitboards (GetMovePromotedPiece rec.move)) (GetMoveTarget rec.move))
          (GetMovePiece rec.move)) (GetMoveSource rec.move))
    else
      setAt (setAt s1.Bitboards (GetMovePiece rec.move)
          (PopBit (s1.Bitboards (GetMovePiece rec.move)) (GetMoveTarget rec.move)))
        (GetMovePiece rec.move)
        (SetBit (setAt s1.Bitboards (GetMovePiece rec.move)
          (PopBit (s1.Bitboards (GetMovePiece rec.move)) (GetMoveTarget rec.move))
          (GetMovePiece rec.move)) (GetMoveSource rec.move))) := by
    split
    · rename_i hpr
      exact bounded_set _ (bounded_pop _ hb _ _ (by have := hpr.1; simp only [WhiteKing] at this; omega)) _ _
    · exact bounded_set _ (bounded_pop _ hb _ _ hp) _ _
  generalize (if GetMovePromotedPiece rec.move ≤ WhiteKing
        ∧ GetMovePromotedPiece rec.move ≥ WhiteKnight then
      setAt (setAt s1.Bitboards (GetMovePromotedPiece rec.move)
          (PopBit (s1.Bitboards (GetMovePromotedPiece rec.move)) (GetMoveTarget rec.move)))
        (GetMovePiece rec.move)
        (SetBit (setAt s1.Bitboards (GetMovePromotedPiece rec.move)
          (PopBit (s1.Bitboards (GetMovePromotedPiece rec.move)) (GetMoveTarget rec.move))
          (GetMovePiece rec.move)) (GetMoveSource rec.move))
    else
      setAt (setAt s1.Bitboards (GetMovePiece rec.move)
          (PopBit (s1.Bitboards (GetMovePiece rec.move)) (GetMoveTarget rec.move)))
        (GetMovePiece rec.move)
        (SetBit (setAt s1.Bitboards (GetMovePiece rec.move)
          (PopBit (s1.Bitboards (GetMovePiece rec.move)) (GetMoveTarget rec.move))
          (GetMovePiece rec.move)) (GetMoveSource rec.move))) = bb at b1 ⊢
  split
  · rename_i h6
    split
    · rename_i he
      split
      · rename_i hs
        rw [if_neg (by have := hep he hs; omega)]
        exact ⟨_, rfl, bounded_set _ b1 _ _, rfl⟩
      · exact ⟨_, rfl, b1, rfl⟩
    · rw [if_neg (by have := hcap h6; omega)]
      exact ⟨_, rfl, bounded_set _ b1 _ _, rfl⟩
  · exact ⟨_, rfl, b1, rfl⟩

theorem makeMove_all_inv (move r : Nat) (s s1 : Position)
    (h : MakeMove move AllMoves s = some (r, s1)) : makeMoveAll move s = some s1 ∧ r = 1 := by
  unfold MakeMove at h
  rw [if_pos rfl] at h
  cases hm : makeMoveAll move s with
  | none => rw [hm] at h; cases h
  | some s2 =>
    rw [hm] at h
    simp only [Option.map_some', Option.some.injEq, Prod.mk.injEq] at h
    exact ⟨by rw [h.2], h.1.symm⟩

theorem parse_startPosition :
    ParseFEN (bytesOf FenDebugStartPosition) initialPosition = some startPosition := by
  have h : (ParseFEN (bytesOf FenDebugStartPosition) initialPosition).isSome = true := by decide!
  unfold startPosition
  cases hp : ParseFEN (bytesOf FenDebugStartPosition) initialPosition with
  | none => rw [hp] at h; cases h
  | some s => rfl

set_option maxRecDepth 100000 in
theorem startPosition_consistent : Consistent startPosition := by decide!

set_option maxRecDepth 100000 in
theorem startPosition_moves :
    GenerateMoves startPosition = some
      [1771102, 3867934, 1771167, 3867999, 1771232, 3868064, 1771297, 3868129, 1771362, 3868194,
        1775204, 1775332, 1788325] := by decide!

theorem occupancyInvariant_of_disj (s : Position) (hd : Disj s.Bitboards)
    (h1 : s.Occupancies WHITE = (s.Bitboards WhitePawn ||| s.Bitboards WhiteKnight
      ||| s.Bitboards WhiteBishop ||| s.Bitboards WhiteRook ||| s.Bitboards WhiteKing))
    (h2 : s.Occupancies BLACK = s.Bitboards BlackPawn)
    (h3 : s.Occupancies BOTH = (s.Occupancies WHITE ||| s.Occupancies BLACK)) :
    OccupancyInvariant s := by
  refine ⟨h1, h2, h3, ?_⟩
  rw [h1, h2]
  apply Nat.eq_of_testBit_eq
  intro i
  rw [Nat.testBit_and, Nat.zero_testBit, testBit_or5]
  by_cases h5 : (s.Bitboards BlackPawn).testBit i = true
  · have d := fun q (hq : q < 6) (hne : BlackPawn ≠ q) => hd BlackPawn q i (by decide) hq hne h5
    simp [d 0 (by decide) (by decide), d 1 (by decide) (by decide), d 2 (by decide) (by decide),
      d 3 (by decide) (by decide), d 4 (by decide) (by decide)]
  · simp at h5; simp [h5]

/-- C4: the occupancy invariant holds for the state ParseFEN returns (for every string on
which it returns, well-formed or not), and on a consistent position every generated move
is made by MakeMove(m, AllMoves) and leaves a state with the occupancy invariant. -/
theorem C4_occupancy_invariant (fen : List Nat) (s0 sP : Position)
    (hP : ParseFEN fen s0 = some sP) (s : Position) (hc : Consistent s) (l : List Nat)
    (hg : GenerateMoves s = some l) (m : Nat) (hm : m ∈ l) :
    OccupancyInvariant sP
      ∧ ∃ s1, MakeMove m AllMoves s = some (1, s1) ∧ OccupancyInvariant s1 := by
  obtain ⟨_, hd, h1, h2, h3⟩ := parseFEN_spec fen s0 sP hP
  refine ⟨occupancyInvariant_of_disj sP hd h1 h2 h3, ?_⟩
  obtain ⟨s1, hmk, _, hc1⟩ := generated_step s hc l hg m hm
  exact ⟨s1, makeMove_all _ s s1 hmk,
    occupancyInvariant_of_disj s1 hc1.disj hc1.2.2.1 hc1.2.2.2.1 hc1.2.2.2.2.1⟩

/-- C4 at the starting position and the knight move b1a3 (the eleventh move generated). -/
theorem C4_occupancy_invariant_witness :
    OccupancyInvariant startPosition
      ∧ ∃ s1, MakeMove 1775204 AllMoves startPosition = some (1, s1)
          ∧ OccupancyInvariant s1 :=
  C4_occupancy_invariant (bytesOf FenDebugStartPosition) initialPosition startPosition
    parse_startPosition startPosition startPosition_consistent _ startPosition_moves 1775204
    (by decide)

/-- C5: if no piece bitboard and no occupancy has a bit at index 40 or above, then the
same holds after MakeMove(m, AllMoves) of any move that is made (generated or not), the
matching UnMakeMove returns and the same holds after it; and it holds for the state
ParseFEN returns, for every string on which it returns. -/
theorem C5_forty_bit_discipline (s : Position) (h : Within40 s) (m r : Nat) (s1 : Position)
    (hmk : MakeMove m AllMoves s = some (r, s1)) (fen : List Nat) (s0 sP : Position)
    (hP : ParseFEN fen s0 = some sP) :
    Within40 s1 ∧ (∃ s2, UnMakeMove s1 = some s2 ∧ Within40 s2) ∧ Within40 sP := by
  obtain ⟨hmk, _⟩ := makeMove_all_inv m r s s1 hmk
  obtain ⟨hb1, ho1, hst⟩ := makeMoveAll_bounded m s s1 h.1 hmk
  obtain ⟨f1, f2, f3⟩ := makeMoveAll_facts m s s1 hmk
  refine ⟨⟨hb1, fun i _ => by rw [ho1]; exact recompute_lt _ hb1 i⟩, ?_, ?_⟩
  · obtain ⟨s2, hu, hb2, ho2⟩ := unMake_bounded s1 s.MoveStack (recordOf m s) hst hb1 f1 f2 f3
    exact ⟨s2, hu, hb2, fun i hi => by rw [ho2]; exact h.2 i hi⟩
  · obtain ⟨hb, _, h1, h2, h3⟩ := parseFEN_spec fen s0 sP hP
    refine ⟨hb, fun i hi => ?_⟩
    have hw : sP.Occupancies WHITE < 2 ^ 40 := by
      rw [h1]
      exact Nat.or_lt_two_pow (Nat.or_lt_two_pow (Nat.or_lt_two_pow (Nat.or_lt_two_pow
        (hb 0 (by decide)) (hb 1 (by decide))) (hb 2 (by decide))) (hb 3 (by decide)))
        (hb 4 (by decide))
    have hbk : sP.Occupancies BLACK < 2 ^ 40 := by rw [h2]; exact hb 5 (by decide)
    interval_cases i
    · exact hw
    · exact hbk
    · show sP.Occupancies BOTH < 2 ^ 40
      rw [h3]; exact Nat.or_lt_two_pow hw hbk

set_option maxRecDepth 100000 in
/-- C5 at the starting position and the double push a2a4. -/
theorem C5_forty_bit_discipline_witness :
    ∃ s1, MakeMove 3867934 AllMoves startPosition = some (1, s1) ∧ Within40 s1
      ∧ (∃ s2, UnMakeMove s1 = some s2 ∧ Within40 s2) ∧ Within40 startPosition := by
  obtain ⟨s1, h1, _, _⟩ := generated_step startPosition startPosition_consistent _
    startPosition_moves 3867934 (by decide)
  have h1 := makeMove_all _ _ _ h1
  have h := C5_forty_bit_discipline startPosition (by decide!) 3867934 1 s1 h1
    (bytesOf FenDebugStartPosition) initialPosition startPosition parse_startPosition
  exact ⟨s1, h1, h.1, h.2.1, h.2.2⟩

theorem xor_right_comm (a b c : Nat) : a ^^^ b ^^^ c = a ^^^ c ^^^ b := by
  rw [Nat.xor_assoc, Nat.xor_comm b c, ← Nat.xor_assoc]

theorem xor_cancel_right' (a b : Nat) : a ^^^ b ^^^ b = a := by
  rw [Nat.xor_assoc, Nat.xor_self, Nat.xor_zero]

theorem foldXor_succ (n : Nat) (g : Nat → Nat) : foldXor (n + 1) g = foldXor n g ^^^ g n := by
  unfold foldXor
  rw [List.range_succ, List.foldl_append]
  rfl

theorem foldXor_congr (n : Nat) (g g1 : Nat → Nat) (h : ∀ i, i < n → g1 i = g i) :
    foldXor n g1 = foldXor n g := by
  induction n with
  | zero => rfl
  | succ n ih =>
    rw [foldXor_succ, foldXor_succ, ih (fun i hi => h i (by omega)), h n (by omega)]

/-- Changing one term of the XOR changes the result by the old and the new term. -/
theorem foldXor_update (n : Nat) (g g1 : Nat → Nat) (j : Nat) (hj : j < n)
    (h : ∀ i, i ≠ j → g1 i = g i) : foldXor n g1 = foldXor n g ^^^ g j ^^^ g1 j := by
  induction n with
  | zero => omega
  | succ n ih =>
    rw [foldXor_succ, foldXor_succ]
    by_cases e : j = n
    · subst e
      rw [foldXor_congr j g g1 (fun i hi => h i (by omega)), xor_cancel_right']
    · rw [ih (by omega), h n (fun e1 => e e1.symm)]
      rw [xor_right_comm (foldXor n g ^^^ g j), xor_right_comm (foldXor n g)]

theorem xorKeys_pop (piece x sq : Nat) (hsq : sq < 64) (hb : x.testBit sq = true) :
    xorKeys piece (PopBit x sq) = xorKeys piece x ^^^ pieceKey piece sq := by
  unfold xorKeys
  rw [foldXor_update 64 (fun i => if x.testBit i then pieceKey piece i else 0) _ sq hsq]
  · simp [testBit_PopBit _ _ _ hsq, hb]
  · intro i hi
    have : ¬ sq = i := fun e => hi e.symm
    simp [testBit_PopBit _ _ _ hsq, this]

theorem xorKeys_set (piece x sq : Nat) (hx : x < 2 ^ 40) (hsq : sq < 40)
    (hb : x.testBit sq = false) :
    xorKeys piece (SetBit x sq) = xorKeys piece x ^^^ pieceKey piece sq := by
  unfold xorKeys
  rw [foldXor_update 64 (fun i => if x.testBit i then pieceKey piece i else 0) _ sq (by omega)]
  · simp [testBit_SetBit _ _ _ (show sq < 64 by omega), hb, hsq]
  · intro i hi
    have h1 : ¬ sq = i := fun e => hi e.symm
    by_cases h40 : i < 40
    · simp [testBit_SetBit _ _ _ (show sq < 64 by omega), h1, h40]
    · simp [testBit_SetBit _ _ _ (show sq < 64 by omega), h1, h40,
        testBit_false_of_lt x 40 i hx (by omega)]

theorem boardHash_setAt (f : Nat → Nat) (p v : Nat) (hp : p < 6) :
    boardHash (setAt f p v) = boardHash f ^^^ xorKeys p (f p) ^^^ xorKeys p v := by
  unfold boardHash
  rw [foldXor_update 6 (fun q => xorKeys q (f q)) _ p hp]
  · simp [setAt]
  · intro i hi
    simp [setAt, hi]

theorem foldl_xor_init (L : List Nat) (g : Nat → Nat) (k : Nat) :
    L.foldl (fun acc i => acc ^^^ g i) k = k ^^^ L.foldl (fun acc i => acc ^^^ g i) 0 := by
  induction L generalizing k with
  | nil => simp
  | cons a as ih =>
    rw [List.foldl_cons, List.foldl_cons, ih (k ^^^ g a), ih (0 ^^^ g a), Nat.zero_xor,
      Nat.xor_assoc]

theorem foldl_filter_xor (L : List Nat) (p : Nat → Bool) (key : Nat → Nat) (k : Nat) :
    (L.filter p).foldl (fun acc i => acc ^^^ key i) k
      = L.foldl (fun acc i => acc ^^^ (if p i then key i else 0)) k := by
  induction L generalizing k with
  | nil => rfl
  | cons a as ih =>
    rw [List.filter_cons, List.foldl_cons]
    by_cases h : p a = true
    · rw [if_pos h, List.foldl_cons, if_pos h, ih]
    · rw [if_neg h, if_neg h, Nat.xor_zero, ih]

theorem fold_bitList (piece x k : Nat) :
    (bitList x).foldl (fun acc sq => acc ^^^ pieceKey piece sq) k = k ^^^ xorKeys piece x := by
  unfold bitList xorKeys foldXor
  rw [foldl_filter_xor, foldl_xor_init]

theorem hashPieceLoop_eq (piece : Nat) (hp : piece < 6) (fuel : Nat) :
    ∀ x k, x < 2 ^ 40 → (bitList x).length ≤ fuel →
      hashPieceLoop piece fuel x k
        = some ((bitList x).foldl (fun acc sq => acc ^^^ pieceKey piece sq) k) := by
  induction fuel with
  | zero =>
    intro x k _ hf
    have : bitList x = [] := List.length_eq_zero.1 (by omega)
    simp [hashPieceLoop, this]
  | succ n ih =>
    intro x k hx hf
    have hx64 : x < 2 ^ 64 := Nat.lt_of_lt_of_le hx two_pow_40_le_64
    unfold hashPieceLoop
    by_cases h0 : x = 0
    · subst h0; simp [bitList_zero]
    · rw [if_pos h0]
      have hl := lsb_isLowest x hx64 h0
      have hb := bitList_popBit x _ hx64 hl
      have hsq : (GetLeastSignificantBitIndex x).toNat < 40 := isLowest_lt x _ 40 hx hl
      rw [hb] at hf
      dsimp only
      rw [pieceKeys_eq piece _ hp hsq]
      dsimp only
      rw [ih _ _ (popBit_lt40 x _ hx) (by simpa using hf)]
      conv_rhs => rw [hb, List.foldl_cons]

theorem hashPieceLoop_eq64 (piece x k : Nat) (hp : piece < 6) (hx : x < 2 ^ 40) :
    hashPieceLoop piece 64 x k = some (k ^^^ xorKeys piece x) := by
  rw [hashPieceLoop_eq piece hp 64 x k hx (bitList_length_le x), fold_bitList]

theorem hashPiecesLoop_eq (bb : Nat → Nat) (hb : Bounded40 bb) :
    hashPiecesLoop bb 6 WhitePawn 0 = some (boardHash bb) := by
  simp only [hashPiecesLoop, WhitePawn,
    hashPieceLoop_eq64 0 _ _ (by decide) (hb 0 (by decide)),
    hashPieceLoop_eq64 1 _ _ (by decide) (hb 1 (by decide)),
    hashPieceLoop_eq64 2 _ _ (by decide) (hb 2 (by decide)),
    hashPieceLoop_eq64 3 _ _ (by decide) (hb 3 (by decide)),
    hashPieceLoop_eq64 4 _ _ (by decide) (hb 4 (by decide)),
    hashPieceLoop_eq64 5 _ _ (by decide) (hb 5 (by decide))]
  unfold boardHash
  simp only [foldXor_succ]
  rfl

/-- GeneratePositionKey computes the Zobrist formula when the bitboards are inside 40 bits
and the en-passant square is NoSquare or a square of the board. -/
theorem generatePositionKey_eq (s : Position) (hb : Bounded40 s.Bitboards)
    (hep : s.EnPassantSquare = NoSquare ∨ (0 ≤ s.EnPassantSquare ∧ s.EnPassantSquare < 40)) :
    GeneratePositionKey s = some (zobrist s.Bitboards s.EnPassantSquare s.SideToMove) := by
  unfold GeneratePositionKey zobrist
  rw [hashPiecesLoop_eq _ hb]
  dsimp only
  have he : (if s.EnPassantSquare ≠ NoSquare then
        (EnPassantKeys s.EnPassantSquare).map (fun k => boardHash s.Bitboards ^^^ k)
      else some (boardHash s.Bitboards))
      = some (boardHash s.Bitboards ^^^ epKey s.EnPassantSquare) := by
    unfold epKey
    by_cases he : s.EnPassantSquare = NoSquare
    · simp [he]
    · rcases hep with h1 | h1
      · exact absurd h1 he
      · rw [if_pos he, if_pos he]
        simp [EnPassantKeys, h1]
  rw [he]
  by_cases hs : s.SideToMove = BLACK
  · simp [hs]
  · simp [hs]

theorem xor_left_comm' (a b c : Nat) : a ^^^ (b ^^^ c) = b ^^^ (a ^^^ c) := by
  rw [← Nat.xor_assoc, Nat.xor_comm a b, Nat.xor_assoc]

theorem xor_cancel_left' (a b : Nat) : a ^^^ (a ^^^ b) = b := by
  rw [← Nat.xor_assoc, Nat.xor_self, Nat.zero_xor]

theorem epKey_noSquare : epKey (NoSquare : Nat) = 0 := by
  unfold epKey; simp

theorem sideKey_toggle (side : Nat) (h : side = WHITE ∨ side = BLACK) :
    (if side ^^^ 1 = BLACK then SideKey else 0)
      = (if side = BLACK then SideKey else 0) ^^^ SideKey := by
  rcases h with h | h <;> subst h <;> simp [WHITE, BLACK]

theorem gen_side (s : Position) (m : Nat) (h : Gen s m) :
    s.SideToMove = WHITE ∨ s.SideToMove = BLACK := by
  cases h
  all_goals first
    | (left; assumption)
    | (right; assumption)

theorem popSetPop (x src tgt : Nat) (hx : x < 2 ^ 40) (ht : tgt < 40)
    (he : x.testBit tgt = false) :
    PopBit (SetBit (PopBit x src) tgt) tgt = PopBit x src := by
  by_cases hs : x.testBit src = true
  · apply popBit_setBit _ _ (popBit_lt40 _ _ hx) ht
    unfold PopBit
    rw [if_pos ((getBit_eq_one x src).2 hs)]
    by_cases h64 : src < 64
    · rw [Nat.testBit_xor, shl64_one src h64, Nat.testBit_two_pow, he]
      have : ¬ src = tgt := by
        intro e; subst e; rw [hs] at he; cases he
      simp [this]
    · rw [shl64_one_of_ge src (by omega), Nat.xor_zero, he]
  · have hs' : x.testBit src = false := by simpa using hs
    rw [popBit_of_not x src hs']
    exact popBit_setBit x tgt hx ht he

theorem hash_quiet (b : Nat → Nat) (hb : Bounded40 b) (p src tgt : Nat) (hp : p < 6)
    (hs : src < 40) (ht : tgt < 40) (h1 : (b p).testBit src = true)
    (he : (b p).testBit tgt = false) :
    boardHash (setAt b p (SetBit (PopBit (b p) src) tgt))
      = boardHash b ^^^ pieceKey p src ^^^ pieceKey p tgt := by
  rw [boardHash_setAt _ _ _ hp, xorKeys_set _ _ _ (popBit_lt40 _ _ (hb p hp)) ht
      (by rw [testBit_PopBit _ _ _ (by omega), he]; rfl),
    xorKeys_pop _ _ _ (by omega) h1]
  simp only [Nat.xor_assoc, xor_cancel_left']

theorem hash_capture (b : Nat → Nat) (hb : Bounded40 b) (p c src tgt t2 : Nat) (hp : p < 6)
    (hcp : c < 6) (hne : c ≠ p)
    (hs : src < 40) (ht : tgt < 40) (ht2 : t2 < 40) (h1 : (b p).testBit src = true)
    (he : (b p).testBit tgt = false) (h2 : (b c).testBit t2 = true) :
    boardHash (setAt (setAt b p (SetBit (PopBit (b p) src) tgt)) c (PopBit (b c) t2))
      = boardHash b ^^^ pieceKey p src ^^^ pieceKey p tgt ^^^ pieceKey c t2 := by
  rw [boardHash_setAt _ _ _ hcp, setAt_ne _ _ _ _ hne, hash_quiet b hb p src tgt hp hs ht h1 he,
    xorKeys_pop _ _ _ (by omega) h2]
  simp only [Nat.xor_assoc, xor_cancel_left']

theorem hash_promo (b : Nat → Nat) (hb : Bounded40 b) (pr src tgt : Nat) (h1 : 1 ≤ pr)
    (h4 : pr ≤ 4) (hs : src < 40) (ht : tgt < 40) (hsrc : (b WhitePawn).testBit src = true)
    (he : (b WhitePawn).testBit tgt = false) (he2 : (b pr).testBit tgt = false) :
    boardHash (setAt (setAt b WhitePawn
        (PopBit (SetBit (PopBit (b WhitePawn) src) tgt) tgt)) pr (SetBit (b pr) tgt))
      = boardHash b ^^^ pieceKey WhitePawn src ^^^ pieceKey pr tgt := by
  have hne : pr ≠ WhitePawn := by simp only [WhitePawn]; omega
  rw [popSetPop _ _ _ (hb _ (by decide)) ht he, boardHash_setAt _ _ _ (by omega),
    setAt_ne _ _ _ _ hne, boardHash_setAt _ _ _ (by decide),
    xorKeys_pop _ _ _ (by omega) hsrc, xorKeys_set _ _ _ (hb pr (by omega)) ht he2]
  simp only [Nat.xor_assoc, xor_cancel_left']

theorem hash_promoCapture (b : Nat → Nat) (hb : Bounded40 b) (pr src tgt : Nat) (h1 : 1 ≤ pr)
    (h4 : pr ≤ 4) (hs : src < 40) (ht : tgt < 40) (hsrc : (b WhitePawn).testBit src = true)
    (he : (b WhitePawn).testBit tgt = false) (he2 : (b pr).testBit tgt = false)
    (hc : (b BlackPawn).testBit tgt = true) :
    boardHash (setAt (setAt (setAt (setAt b WhitePawn
          (SetBit (PopBit (b WhitePawn) src) tgt)) BlackPawn
        (PopBit (b BlackPawn) tgt)) WhitePawn
        (PopBit (SetBit (PopBit (b WhitePawn) src) tgt) tgt)) pr (SetBit (b pr) tgt))
      = boardHash b ^^^ pieceKey WhitePawn src ^^^ pieceKey BlackPawn tgt
          ^^^ pieceKey pr tgt := by
  have hne : pr ≠ WhitePawn := by simp only [WhitePawn]; omega
  have hne5 : pr ≠ BlackPawn := by simp only [BlackPawn]; omega
  rw [promoCapture_eq, popSetPop _ _ _ (hb _ (by decide)) ht he, boardHash_setAt _ _ _ (by omega),
    setAt_ne _ _ _ _ hne5, setAt_ne _ _ _ _ hne, boardHash_setAt _ _ _ (by decide),
    setAt_ne _ _ _ _ (by decide), boardHash_setAt _ _ _ (by decide),
    xorKeys_pop _ _ _ (by omega) hsrc, xorKeys_set _ _ _ (hb pr (by omega)) ht he2,
    xorKeys_pop _ _ _ (by omega) hc]
  simp only [Nat.xor_assoc, xor_cancel_left']

theorem key_made (s : Position) (move : Nat) (bb : Nat → Nat) (ep : Int) (hash : Nat)
    (hb : Bounded40 bb) (hep : ep = NoSquare ∨ (0 ≤ ep ∧ ep < 40))
    (hh : zobrist bb ep (s.SideToMove ^^^ 1) = hash) :
    GeneratePositionKey (madeState move s bb ep hash)
      = some (madeState move s bb ep hash).HashKey := by
  rw [generatePositionKey_eq _ hb hep]
  simp only [madeState, hh]

/-- On a consistent position whose stored key is the from-scratch key, making a move of one
of the six shapes leaves a position whose stored key is again the from-scratch key. -/
theorem shape_hash (s : Position) (hc : Consistent s)
    (hside : s.SideToMove = WHITE ∨ s.SideToMove = BLACK)
    (hh : s.HashKey = zobrist s.Bitboards s.EnPassantSquare s.SideToMove)
    (src tgt piece promo cap dpp ep : Nat) (h : Shape s src tgt piece promo cap dpp ep) :
    ∃ s1, makeMoveAll (EncodeMove src tgt piece promo cap dpp ep) s = some s1
      ∧ GeneratePositionKey s1 = some s1.HashKey := by
  have hb : Bounded40 s.Bitboards := hc.1
  cases h
  case quiet =>
    have hs : src < 40 := by assumption
    have ht : tgt < 40 := by assumption
    have hp : piece < 6 := by assumption
    have he : (s.Occupancies BOTH).testBit tgt = false := by assumption
    refine ⟨_, make_quiet s hc src tgt piece hs ht hp, ?_⟩
    apply key_made s _ _ _ _ (bounded_quiet s hc piece src tgt) (Or.inl rfl)
    unfold zobrist
    rw [hash_quiet _ hb piece src tgt hp hs ht (by assumption) (hc.empty tgt he piece hp),
      sideKey_toggle _ hside, hh, epKey_noSquare]
    unfold zobrist
    simp only [Nat.xor_assoc, Nat.xor_comm, xor_left_comm', Nat.xor_self, Nat.xor_zero,
      Nat.zero_xor, xor_cancel_left']
  case double =>
    have h30 : 30 ≤ src := by assumption
    have h34 : src ≤ 34 := by assumption
    have he : (s.Occupancies BOTH).testBit (src - 10) = false := by assumption
    refine ⟨_, make_double s hc src h30 h34 (by assumption), ?_⟩
    apply key_made s _ _ _ _ (bounded_quiet s hc WhitePawn src (src - 10))
      (Or.inr ⟨by omega, by omega⟩)
    unfold zobrist
    rw [hash_quiet _ hb WhitePawn src (src - 10) (by decide) (by omega) (by omega)
        (by assumption) (hc.empty _ he WhitePawn (by decide)),
      sideKey_toggle _ hside, hh]
    unfold zobrist
    simp only [Nat.xor_assoc, Nat.xor_comm, xor_left_comm', Nat.xor_self, Nat.xor_zero,
      Nat.zero_xor, xor_cancel_left']
  case capture =>
    have hs : src < 40 := by assumption
    have ht : tgt < 40 := by assumption
    have hp : piece < 6 := by assumption
    have hcp : cap < 6 := by assumption
    have hne : cap ≠ piece := by assumption
    have h2 : (s.Bitboards cap).testBit tgt = true := by assumption
    refine ⟨_, make_capture s hc src tgt piece cap hs ht hp hcp hne h2, ?_⟩
    apply key_made s _ _ _ _ (bounded_capture s hc piece cap src tgt) (Or.inl rfl)
    unfold zobrist
    rw [hash_capture _ hb piece cap src tgt tgt hp hcp hne hs ht ht (by assumption)
        (hc.disjoint cap piece tgt hcp hp hne h2) h2,
      sideKey_toggle _ hside, hh, epKey_noSquare]
    unfold zobrist
    simp only [Nat.xor_assoc, Nat.xor_comm, xor_left_comm', Nat.xor_self, Nat.xor_zero,
      Nat.zero_xor, xor_cancel_left']
  case promo =>
    have hs : src < 40 := by assumption
    have ht : tgt < 40 := by assumption
    have h1 : 1 ≤ promo := by assumption
    have h4 : promo ≤ 4 := by assumption
    have he : (s.Occupancies BOTH).testBit tgt = false := by assumption
    refine ⟨_, make_promo s hc src tgt promo hs ht h1 h4, ?_⟩
    apply key_made s _ _ _ _ (bounded_promo s hc promo src tgt) (Or.inl rfl)
    unfold zobrist
    rw [hash_promo _ hb promo src tgt h1 h4 hs ht (by assumption)
        (hc.empty tgt he WhitePawn (by decide)) (hc.empty tgt he promo (by omega)),
      sideKey_toggle _ hside, hh, epKey_noSquare]
    unfold zobrist
    simp only [Nat.xor_assoc, Nat.xor_comm, xor_left_comm', Nat.xor_self, Nat.xor_zero,
      Nat.zero_xor, xor_cancel_left']
  case promoCapture =>
    have hs : src < 40 := by assumption
    have ht : tgt < 40 := by assumption
    have h1 : 1 ≤ promo := by assumption
    have h4 : promo ≤ 4 := by assumption
    have h2 : (s.Bitboards BlackPawn).testBit tgt = true := by assumption
    refine ⟨_, make_promoCapture s hc src tgt promo hs ht h1 h4 h2, ?_⟩
    apply key_made s _ _ _ _ (bounded_promoCapture s hc promo src tgt) (Or.inl rfl)
    unfold zobrist
    rw [hash_promoCapture _ hb promo src tgt h1 h4 hs ht (by assumption)
        (hc.disjoint BlackPawn WhitePawn tgt (by decide) (by decide) (by decide) h2)
        (hc.disjoint BlackPawn promo tgt (by decide) (by omega)
          (by simp only [BlackPawn]; omega) h2) h2,
      sideKey_toggle _ hside, hh, epKey_noSquare]
    unfold zobrist
    simp only [Nat.xor_assoc, Nat.xor_comm, xor_left_comm', Nat.xor_self, Nat.xor_zero,
      Nat.zero_xor, xor_cancel_left']
  case enPassant =>
    have hs : src < 40 := by assumption
    have ht : tgt < 40 := by assumption
    have he : (s.Occupancies BOTH).testBit tgt = false := by assumption
    refine ⟨_, make_enPassant s hc src tgt hs ht (by assumption) (by assumption)
      (hc.empty tgt he WhitePawn (by decide)), ?_⟩
    apply key_made s _ _ _ _ (bounded_enPassant s hc src tgt) (Or.inl rfl)
    unfold zobrist
    rw [hash_capture _ hb BlackPawn WhitePawn src tgt (tgt - 5) (by decide) (by decide)
        (by decide) hs ht (by omega) (by assumption) (hc.empty tgt he BlackPawn (by decide))
        (by assumption),
      sideKey_toggle _ hside, hh, epKey_noSquare]
    unfold zobrist
    simp only [Nat.xor_assoc, Nat.xor_comm, xor_left_comm', Nat.xor_self, Nat.xor_zero,
      Nat.zero_xor, xor_cancel_left']

/-- The key ParseFEN stores is the from-scratch key of the position it returns. -/
theorem parseFEN_hash (fen : List Nat) (s s1 : Position) (h : ParseFEN fen s = some s1) :
    GeneratePositionKey s1 = some s1.HashKey := by
  unfold ParseFEN at h
  cases hres : parseRanksLoop fen 8 0 0 (fun _ => 0) with
  | mk bb idx =>
    rw [hres] at h
    dsimp only at h
    split at h
    · cases h
    · split at h
      · cases h
      · split at h
        · cases h
        · simp only [Option.map_eq_some'] at h
          obtain ⟨k, hk, rfl⟩ := h
          exact hk

theorem startPosition_hash : GeneratePositionKey startPosition = some startPosition.HashKey :=
  parseFEN_hash _ _ _ parse_startPosition

/-- C2: in a consistent position whose HashKey equals GeneratePositionKey(), MakeMove(m,
AllMoves) of any move m emitted by GenerateMoves (quiet move, capture, promotion,
promotion-capture, double pawn push or en-passant capture) returns 1 and leaves a position
whose incrementally updated HashKey again equals GeneratePositionKey() recomputed from
scratch. -/
theorem C2_incremental_hash_exact (s : Position) (hc : Consistent s)
    (hh : GeneratePositionKey s = some s.HashKey) (l : List Nat)
    (hg : GenerateMoves s = some l) (m : Nat) (hm : m ∈ l) :
    ∃ s1, MakeMove m AllMoves s = some (1, s1)
      ∧ GeneratePositionKey s1 = some s1.HashKey := by
  have hgen := gen_sound s hc.lt64 l hg m hm
  have hside := gen_side s m hgen
  obtain ⟨src, tgt, piece, promo, cap, dpp, ep, rfl, hsh⟩ := gen_shape s hc m hgen
  rw [generatePositionKey_eq s hc.1 hc.ep_range] at hh
  obtain ⟨s1, h1, h2⟩ := shape_hash s hc hside (Option.some.inj hh).symm
    src tgt piece promo cap dpp ep hsh
  exact ⟨s1, makeMove_all _ _ _ h1, h2⟩

theorem C2_incremental_hash_exact_witness :
    ∃ s1, MakeMove 3867934 AllMoves startPosition = some (1, s1)
      ∧ GeneratePositionKey s1 = some s1.HashKey :=
  C2_incremental_hash_exact startPosition startPosition_consistent startPosition_hash _
    startPosition_moves 3867934 (by decide)

set_option maxRecDepth 100000 in
theorem parse_enPassantScenario :
    ParseFEN (bytesOf FenEnPassantScenario) initialPosition = some enPassantScenario := by
  have h : (ParseFEN (bytesOf FenEnPassantScenario) initialPosition).isSome = true := by decide!
  unfold enPassantScenario
  cases hp : ParseFEN (bytesOf FenEnPassantScenario) initialPosition with
  | none => rw [hp] at h; cases h
  | some s => rfl

set_option maxRecDepth 100000 in
theorem enPassantScenario_board :
    (List.range 6).map enPassantScenario.Bitboards = [2 ^ 17, 0, 0, 0, 0, 2 ^ 16]
      ∧ enPassantScenario.SideToMove = WHITE ∧ enPassantScenario.EnPassantSquare = 11 := by
  decide!

set_option maxRecDepth 100000 in
theorem enPassantScenario_moves :
    GenerateMoves enPassantScenario
      = some [EncodeMove 17 12 WhitePawn NoPiece NoPiece 0 0] := by decide!

set_option maxRecDepth 100000 in
theorem enPassantScenario_made :
    (MakeMove (EncodeMove 17 12 WhitePawn NoPiece NoPiece 0 0) AllMoves enPassantScenario).map
        (fun r => (r.1, (List.range 6).map r.2.Bitboards))
      = some (1, [2 ^ 12, 0, 0, 0, 0, 2 ^ 16]) := by decide!

/-- C9 (as stated) fails: for the position parsed from the en-passant scenario FEN the list
GenerateMoves produces holds no move from square 17 (c5) to square 11 (b6), and no move
in it carries the en-passant flag. -/
theorem C9_white_en_passant_counterexample :
    ParseFEN (bytesOf FenEnPassantScenario) initialPosition = some enPassantScenario
      ∧ ∃ l, GenerateMoves enPassantScenario = some l
        ∧ ∀ m, m ∈ l → ¬ (GetMoveSource m = 17 ∧ GetMoveTarget m = 11)
            ∧ GetMoveEnPassant m = 0 := by
  refine ⟨parse_enPassantScenario, _, enPassantScenario_moves, ?_⟩
  intro m hm
  simp only [List.mem_singleton] at hm
  subst hm
  decide

/-- C9 (amended): for the position parsed from the en-passant scenario FEN (White pawn on
square 17, Black pawn on square 16, White to move, en-passant square 11) GenerateMoves
produces exactly one move, the quiet pawn push c5c6 from square 17 to square 12, without
the en-passant flag; MakeMove of it returns 1, puts the White pawn on square 12 and leaves
the Black pawn on b5 (square 16) in place. -/
theorem C9_en_passant_scenario :
    ParseFEN (bytesOf FenEnPassantScenario) initialPosition = some enPassantScenario
      ∧ GetBit (enPassantScenario.Bitboards WhitePawn) 17 = 1
      ∧ GetBit (enPassantScenario.Bitboards BlackPawn) 16 = 1
      ∧ enPassantScenario.SideToMove = WHITE ∧ enPassantScenario.EnPassantSquare = 11
      ∧ GenerateMoves enPassantScenario
          = some [EncodeMove 17 12 WhitePawn NoPiece NoPiece 0 0]
      ∧ GetMoveEnPassant (EncodeMove 17 12 WhitePawn NoPiece NoPiece 0 0) = 0
      ∧ ∃ s1, MakeMove (EncodeMove 17 12 WhitePawn NoPiece NoPiece 0 0) AllMoves
            enPassantScenario = some (1, s1)
          ∧ GetBit (s1.Bitboards WhitePawn) 12 = 1
          ∧ GetBit (s1.Bitboards BlackPawn) 16 = 1 := by
  obtain ⟨hb, hside, hep⟩ := enPassantScenario_board
  simp only [List.range, List.range.loop, List.map, List.cons.injEq, and_true] at hb
  obtain ⟨hb0, _, _, _, _, hb5⟩ := hb
  refine ⟨parse_enPassantScenario, ?_, ?_, hside, hep, enPassantScenario_moves, by decide, ?_⟩
  · show GetBit (enPassantScenario.Bitboards 0) 17 = 1
    rw [hb0]; decide
  · show GetBit (enPassantScenario.Bitboards 5) 16 = 1
    rw [hb5]; decide
  · have h := enPassantScenario_made
    cases hm : MakeMove (EncodeMove 17 12 WhitePawn NoPiece NoPiece 0 0) AllMoves
        enPassantScenario with
    | none => rw [hm] at h; cases h
    | some r =>
      obtain ⟨r1, s1⟩ := r
      rw [hm] at h
      simp only [Option.map_some', Option.some.injEq, Prod.mk.injEq, List.range,
        List.range.loop, List.map, List.cons.injEq, and_true] at h
      obtain ⟨h1, h0, _, _, _, _, h5⟩ := h
      subst h1
      refine ⟨s1, rfl, ?_, ?_⟩
      · show GetBit (s1.Bitboards 0) 12 = 1
        rw [h0]; decide
      · show GetBit (s1.Bitboards 5) 16 = 1
        rw [h5]; decide

set_option maxRecDepth 100000 in
theorem parse_blackEnPassantPosition :
    ParseFEN (bytesOf FenBlackEnPassant) initialPosition = some blackEnPassantPosition := by
  have h : (ParseFEN (bytesOf FenBlackEnPassant) initialPosition).isSome = true := by decide!
  unfold blackEnPassantPosition
  cases hp : ParseFEN (bytesOf FenBlackEnPassant) initialPosition with
  | none => rw [hp] at h; cases h
  | some s => rfl

set_option maxRecDepth 100000 in
theorem blackEnPassantPosition_consistent : Consistent blackEnPassantPosition := by decide!

set_option maxRecDepth 100000 in
theorem blackEnPassantPosition_moves :
    GenerateMoves blackEnPassantPosition
      = some [EncodeMove 21 26 BlackPawn NoPiece NoPiece 0 0,
          EncodeMove 21 25 BlackPawn NoPiece WhitePawn 0 1] := by decide!

theorem bitList_nodup (x : Nat) : (bitList x).Nodup :=
  List.Nodup.filter _ (List.nodup_range 64)

theorem generateMovesLoop_eq (s : Position) (n : Nat) :
    ∀ p0, generateMovesLoop s n p0 = flatMapOpt (generatePieceMoves s) (List.range' p0 n) := by
  induction n with
  | zero => intro p0; rfl
  | succ n ih =>
    intro p0
    unfold generateMovesLoop
    rw [List.range'_succ]
    unfold flatMapOpt
    rw [ih (p0 + 1)]

/-- C14: MakeMove(move, OnlyCaptures) on any position `t` returns 0 and leaves the whole
state (the move stack included) as it was when the captured-piece field of the move is
NoPiece; when the field is one of the pieces 0..5 it does exactly what
MakeMove(move, AllMoves) does. For a consistent position `s` and a move `m` that
GenerateMoves emits for it with a captured piece in 0..5, both calls return 1 with the same
state. -/
theorem C14_capture_filter (t : Position) (move : Nat) (s : Position) (hc : Consistent s)
    (l : List Nat) (hg : GenerateMoves s = some l) (m : Nat) (hm : m ∈ l)
    (hcap : GetMoveCapturedPiece m ≤ BlackPawn) :
    (GetMoveCapturedPiece move = NoPiece → MakeMove move OnlyCaptures t = some (0, t))
    ∧ (GetMoveCapturedPiece move ≤ BlackPawn →
        MakeMove move OnlyCaptures t = MakeMove move AllMoves t
        ∧ ∀ r t1, MakeMove move OnlyCaptures t = some (r, t1) → r = 1)
    ∧ ∃ s1, MakeMove m OnlyCaptures s = some (1, s1) ∧ MakeMove m AllMoves s = some (1, s1) := by
  have key : ∀ mv : Nat, ∀ u : Position, GetMoveCapturedPiece mv ≤ BlackPawn →
      MakeMove mv OnlyCaptures u = MakeMove mv AllMoves u := by
    intro mv u h
    unfold MakeMove
    rw [if_neg (by decide), if_pos rfl]
    dsimp only
    rw [if_pos ⟨h, Nat.zero_le _⟩]
  refine ⟨?_, ?_, ?_⟩
  · intro h
    unfold MakeMove
    rw [if_neg (by decide)]
    dsimp only
    rw [if_neg]
    rw [h]
    decide
  · intro h
    refine ⟨key move t h, ?_⟩
    intro r t1 h1
    rw [key move t h] at h1
    exact (makeMove_all_inv move r t t1 h1).2
  · obtain ⟨s1, h1, _, _⟩ := generated_step s hc l hg m hm
    exact ⟨s1, by rw [key m s hcap]; exact makeMove_all m s s1 h1, makeMove_all m s s1 h1⟩

set_option maxRecDepth 100000 in
/-- C14 at the position parsed from FenBlackEnPassant with the en-passant capture from
square 21 to square 25 (captured-piece field WhitePawn); the general part at the starting
position with the quiet move 1771102. -/
theorem C14_capture_filter_witness :
    (GetMoveCapturedPiece 1771102 = NoPiece →
        MakeMove 1771102 OnlyCaptures startPosition = some (0, startPosition))
    ∧ (GetMoveCapturedPiece 1771102 ≤ BlackPawn →
        MakeMove 1771102 OnlyCaptures startPosition = MakeMove 1771102 AllMoves startPosition
        ∧ ∀ r t1, MakeMove 1771102 OnlyCaptures startPosition = some (r, t1) → r = 1)
    ∧ ∃ s1, MakeMove (EncodeMove 21 25 BlackPawn NoPiece WhitePawn 0 1) OnlyCaptures
          blackEnPassantPosition = some (1, s1)
        ∧ MakeMove (EncodeMove 21 25 BlackPawn NoPiece WhitePawn 0 1) AllMoves
          blackEnPassantPosition = some (1, s1) :=
  C14_capture_filter startPosition 1771102 blackEnPassantPosition
    blackEnPassantPosition_consistent _ blackEnPassantPosition_moves
    (EncodeMove 21 25 BlackPawn NoPiece WhitePawn 0 1) (by decide!) (by decide!)

/-! ## C13: terminal positions -/

theorem terminalScan_iff (x : Nat) : ∀ n sq,
    terminalScan x n sq = true ↔ ∃ i, sq ≤ i ∧ i < sq + n ∧ x.testBit i = true := by
  intro n
  induction n with
  | zero =>
    intro sq
    simp only [terminalScan, Bool.false_eq_true, false_iff]
    rintro ⟨i, h1, h2, _⟩
    omega
  | succ n ih =>
    intro sq
    unfold terminalScan
    by_cases hb : GetBit x sq = 1
    · rw [if_pos hb]
      simp only [true_iff]
      exact ⟨sq, Nat.le_refl _, by omega, (getBit_eq_one x sq).1 hb⟩
    · rw [if_neg hb, ih]
      have hb0 : x.testBit sq = false := by
        cases h : x.testBit sq with
        | false => rfl
        | true => exact absurd ((getBit_eq_one x sq).2 h) hb
      constructor
      · rintro ⟨i, h1, h2, h3⟩
        exact ⟨i, by omega, by omega, h3⟩
      · rintro ⟨i, h1, h2, h3⟩
        have hne : i ≠ sq := by
          rintro rfl
          rw [hb0] at h3
          cases h3
        exact ⟨i, by omega, by omega, h3⟩

set_option maxRecDepth 100000 in
theorem parse_blackPawnA2Position :
    ParseFEN (bytesOf FenBlackPawnA2) initialPosition = some blackPawnA2Position := by
  have h : (ParseFEN (bytesOf FenBlackPawnA2) initialPosition).isSome = true := by decide!
  unfold blackPawnA2Position
  cases hp : ParseFEN (bytesOf FenBlackPawnA2) initialPosition with
  | none => rw [hp] at h; cases h
  | some s => rfl

set_option maxRecDepth 100000 in
theorem blackPawnA2Position_moves :
    GenerateMoves blackPawnA2Position
      = some [EncodeMove 30 35 BlackPawn NoPiece NoPiece 0 0] := by decide!

set_option maxRecDepth 100000 in
theorem blackPawnA2Position_made :
    (MakeMove (EncodeMove 30 35 BlackPawn NoPiece NoPiece 0 0) AllMoves blackPawnA2Position).map
        (fun r => (r.1, IsTerminalPosition r.2, (r.2.Bitboards BlackPawn).testBit 35))
      = some (1, true, true) := by decide!

/-- C13: IsTerminalPosition returns true exactly when the BlackPawn bitboard has a bit on
one of the squares 35..39, or Occupancies[WHITE] is 0, or Occupancies[BLACK] is 0. For the
position parsed from `5/5/5/5/5/5/p4/5 b -` GenerateMoves emits the single move a2a1
(square 30 to square 35), and after MakeMove of it a Black pawn stands on square 35 and
IsTerminalPosition is true. -/
theorem C13_terminal_detection (s : Position) :
    (IsTerminalPosition s = true ↔
      ((∃ sq, 35 ≤ sq ∧ sq ≤ 39 ∧ (s.Bitboards BlackPawn).testBit sq = true)
        ∨ s.Occupancies WHITE = 0 ∨ s.Occupancies BLACK = 0))
    ∧ ParseFEN (bytesOf "5/5/5/5/5/5/p4/5 b -") initialPosition = some blackPawnA2Position
    ∧ GenerateMoves blackPawnA2Position = some [EncodeMove 30 35 BlackPawn NoPiece NoPiece 0 0]
    ∧ ∃ s1, MakeMove (EncodeMove 30 35 BlackPawn NoPiece NoPiece 0 0) AllMoves
          blackPawnA2Position = some (1, s1)
        ∧ (s1.Bitboards BlackPawn).testBit 35 = true ∧ IsTerminalPosition s1 = true := by
  refine ⟨?_, parse_blackPawnA2Position, blackPawnA2Position_moves, ?_⟩
  · unfold IsTerminalPosition
    have hs := terminalScan_iff (s.Bitboards BlackPawn) (E1 + 1 - A1) A1
    by_cases h1 : terminalScan (s.Bitboards BlackPawn) (E1 + 1 - A1) A1 = true
    · rw [if_pos h1]
      simp only [true_iff]
      obtain ⟨i, h2, h3, h4⟩ := hs.1 h1
      exact Or.inl ⟨i, h2, by simp only [A1, E1] at h3; omega, h4⟩
    · rw [if_neg h1]
      have hno : ¬ ∃ sq, 35 ≤ sq ∧ sq ≤ 39 ∧ (s.Bitboards BlackPawn).testBit sq = true := by
        rintro ⟨i, h2, h3, h4⟩
        exact h1 (hs.2 ⟨i, h2, by simp only [A1, E1]; omega, h4⟩)
      by_cases h2 : s.Occupancies WHITE = 0
      · rw [if_pos h2]
        simp [h2]
      · rw [if_neg h2]
        by_cases h3 : s.Occupancies BLACK = 0
        · rw [if_pos h3]
          simp [h3]
        · rw [if_neg h3]
          simp only [Bool.false_eq_true, false_iff]
          rintro (h | h | h)
          · exact hno h
          · exact h2 h
          · exact h3 h
  · have h := blackPawnA2Position_made
    simp only [Option.map_eq_some', Prod.mk.injEq] at h
    obtain ⟨⟨r, s1⟩, hm, hr, ht, hb⟩ := h
    dsimp only at hr ht hb
    subst hr
    exact ⟨s1, hm, hb, ht⟩

/-! ## C17: the transposition table -/

/-- C17: after RecordHash(m, d, v, flag) at hash key `k`, a probe at the same key writes
`m` into the hint and returns `v` if d ≥ d2 and the flag is Exact, `alpha` if d ≥ d2, the
flag is Alpha and v ≤ alpha, `beta` if d ≥ d2, the flag is Beta and v ≥ beta, and the
sentinel 10000000 in every other case. A probe at a key `k2` that differs from the key
stored in the slot it addresses returns the sentinel and leaves the hint as it was. -/
theorem C17_record_probe (table : Nat → taggedHashEntry) (k m : Nat) (d v flag : Int)
    (hint : Nat) (d2 alpha beta : Int) (table2 : Nat → taggedHashEntry) (k2 : Nat)
    (hk : (table2 (k2 % hashSize)).key ≠ k2) :
    ProbeTranspositionTable (RecordHash table k m d v flag) k hint d2 alpha beta
      = ((if d ≥ d2 ∧ flag = HashFlagExact then v
          else if d ≥ d2 ∧ flag = HashFlagAlpha ∧ v ≤ alpha then alpha
          else if d ≥ d2 ∧ flag = HashFlagBeta ∧ v ≥ beta then beta
          else 10000000), m)
    ∧ ProbeTranspositionTable table2 k2 hint d2 alpha beta = (10000000, hint) := by
  refine ⟨?_, ?_⟩
  · unfold ProbeTranspositionTable RecordHash
    simp only [if_true, HashFlagExact, HashFlagAlpha, HashFlagBeta, noHashEntry]
    by_cases h1 : d ≥ d2
    · simp only [h1, if_true, true_and]
      by_cases h2 : flag = 0
      · simp [h2]
      · simp only [h2, if_false]
        by_cases h3 : flag = 1
        · subst h3
          by_cases h4 : v ≤ alpha
          · simp [h4]
          · simp [h4]
        · simp only [h3, if_false, false_and]
          by_cases h5 : flag = 2
          · subst h5
            by_cases h6 : v ≥ beta
            · simp [h6]
            · simp [h6]
          · simp [h5]
    · simp [h1]
  · unfold ProbeTranspositionTable
    simp only [hk, if_false, noHashEntry]

/-- C17 with an empty table for the probe at a foreign key (slot 5 holds key 0). -/
theorem C17_record_probe_witness :
    ProbeTranspositionTable (RecordHash (fun _ => ⟨0, 0, 0, 0, 0⟩) 77 1771102 3 25 HashFlagExact)
        77 0 2 (-50000) 50000
      = ((if (3 : Int) ≥ 2 ∧ HashFlagExact = HashFlagExact then 25
          else if (3 : Int) ≥ 2 ∧ HashFlagExact = HashFlagAlpha ∧ (25 : Int) ≤ -50000 then -50000
          else if (3 : Int) ≥ 2 ∧ HashFlagExact = HashFlagBeta ∧ (25 : Int) ≥ 50000 then 50000
          else 10000000), 1771102)
    ∧ ProbeTranspositionTable (fun _ => ⟨0, 0, 0, 0, 0⟩) 5 0 2 (-50000) 50000 = (10000000, 0) :=
  C17_record_probe (fun _ => ⟨0, 0, 0, 0, 0⟩) 77 1771102 3 25 HashFlagExact 0 2 (-50000) 50000
    (fun _ => ⟨0, 0, 0, 0, 0⟩) 5 (by decide)

/-! ## The evaluation -/

theorem list_get?_of_lt {α : Type} (l : List α) (d : α) (i : Nat) (h : i < l.length) :
    l.get? i = some (l.getD i d) := by
  rw [List.get?_eq_getElem?, List.getElem?_eq_getElem h, List.getD_eq_getElem _ d h]

set_option maxRecDepth 1000000 in
theorem setFileRankMask_table : ∀ f : Nat, f < 7 → ∀ r : Nat, r < 9 →
    SetFileRankMask ((f : Int) - 1) ((r : Int) - 1) = Nat.lor (fileMaskF f) (rankMaskF r) := by
  decide!

theorem setFileRankMask_eq (f r : Nat) (hf : f < 7) (hr : r < 9) (a b : Int)
    (ha : a = (f : Int) - 1) (hb : b = (r : Int) - 1) :
    SetFileRankMask a b = fileMaskF f ||| rankMaskF r := by
  subst ha
  subst hb
  exact setFileRankMask_table f hf r hr

theorem rankMasks_eq (sq : Nat) (h : sq < 40) : RankMasks sq = some (rankMaskF (sq / 5 + 1)) := by
  unfold RankMasks
  rw [if_pos h, setFileRankMask_eq 0 (sq / 5 + 1) (by decide) (by omega) (-1)
    ((sq / 5 : Nat) : Int) rfl (by push_cast; ring)]
  show some (0 ||| (0 ||| _)) = _
  rw [Nat.zero_or, Nat.zero_or]

theorem clearRanks_eq (squareOf rankOf : Nat → Nat) (n : Nat) :
    ∀ i mask, (∀ j, i ≤ j → j < i + n → squareOf j < 40 ∧ squareOf j / 5 + 1 = rankOf j) →
      clearRanks squareOf n i mask = some (clearRanksF rankOf n i mask) := by
  induction n with
  | zero => intro i mask _; rfl
  | succ n ih =>
    intro i mask h
    obtain ⟨h1, h2⟩ := h i (Nat.le_refl _) (by omega)
    rw [clearRanks, rankMasks_eq _ h1, h2]
    dsimp only
    rw [ih _ _ (fun j hj1 hj2 => h j (by omega) (by omega))]
    rfl

theorem fileMasks_closed (sq : Nat) (h : sq < 40) : FileMasks sq = some (fileMasksF sq) := by
  have h5 : sq % 5 < 5 := Nat.mod_lt _ (by decide)
  unfold FileMasks fileMasksF
  rw [if_pos h, setFileRankMask_eq (sq % 5 + 1) 0 (by omega) (by decide)
    ((sq % 5 : Nat) : Int) (-1) (by push_cast; ring) (by norm_num)]
  show some (0 ||| (_ ||| 0)) = _
  rw [Nat.zero_or, Nat.or_zero]

theorem isolatedMasks_closed (sq : Nat) (h : sq < 40) :
    IsolatedMasks sq = some (isolatedMasksF sq) := by
  have h5 : sq % 5 < 5 := Nat.mod_lt _ (by decide)
  unfold IsolatedMasks isolatedMasksF
  rw [if_pos h, setFileRankMask_eq (sq % 5) 0 (by omega) (by decide)
      (((sq % 5 : Nat) : Int) - 1) (-1) rfl (by norm_num),
    setFileRankMask_eq (sq % 5 + 2) 0 (by omega) (by decide) (((sq % 5 : Nat) : Int) + 1) (-1)
      (by push_cast; ring) (by norm_num)]
  show some (0 ||| (_ ||| 0) ||| (_ ||| 0)) = some (_ ||| _)
  rw [Nat.zero_or, Nat.or_zero, Nat.or_zero]

theorem whitePassedMasks_closed (sq : Nat) (h : sq < 40) :
    WhitePassedMasks sq = some (whitePassedMasksF sq) := by
  have h5 : sq % 5 < 5 := Nat.mod_lt _ (by decide)
  unfold WhitePassedMasks whitePassedMasksF
  rw [if_pos h]
  dsimp only
  rw [setFileRankMask_eq (sq % 5) 0 (by omega) (by decide) (((sq % 5 : Nat) : Int) - 1) (-1)
      rfl (by norm_num),
    setFileRankMask_eq (sq % 5 + 1) 0 (by omega) (by decide) ((sq % 5 : Nat) : Int) (-1)
      (by push_cast; ring) (by norm_num),
    setFileRankMask_eq (sq % 5 + 2) 0 (by omega) (by decide) (((sq % 5 : Nat) : Int) + 1) (-1)
      (by push_cast; ring) (by norm_num),
    clearRanks_eq _ (fun i => 8 - i) _ _ _
      (fun j _ hj => ⟨by omega, by dsimp only; omega⟩)]
  show some (clearRanksF _ _ _ (0 ||| (_ ||| 0) ||| (_ ||| 0) ||| (_ ||| 0)))
    = some (clearRanksF _ _ _ (_ ||| _ ||| _))
  rw [Nat.zero_or, Nat.or_zero, Nat.or_zero, Nat.or_zero]

theorem blackPassedMasks_closed (sq : Nat) (h : sq < 40) :
    BlackPassedMasks sq = some (blackPassedMasksF sq) := by
  have h5 : sq % 5 < 5 := Nat.mod_lt _ (by decide)
  unfold BlackPassedMasks blackPassedMasksF
  rw [if_pos h]
  dsimp only
  rw [setFileRankMask_eq (sq % 5) (sq / 5 + 1) (by omega) (by omega)
      (((sq % 5 : Nat) : Int) - 1) ((sq / 5 : Nat) : Int) rfl (by push_cast; ring),
    setFileRankMask_eq (sq % 5 + 1) (sq / 5 + 1) (by omega) (by omega)
      ((sq % 5 : Nat) : Int) ((sq / 5 : Nat) : Int) (by push_cast; ring) (by push_cast; ring),
    setFileRankMask_eq (sq % 5 + 2) (sq / 5 + 1) (by omega) (by omega)
      (((sq % 5 : Nat) : Int) + 1) ((sq / 5 : Nat) : Int) (by push_cast; ring)
      (by push_cast; ring),
    clearRanks_eq _ (fun i => i + 1) _ _ _
      (fun j _ hj => ⟨by omega, by dsimp only; omega⟩)]
  show some (clearRanksF _ _ _ (0 ||| _ ||| _ ||| _)) = some (clearRanksF _ _ _ (_ ||| _ ||| _))
  rw [Nat.zero_or]
  rfl

theorem passedMasks_isSome : ∀ sq, sq < 40 →
    (WhitePassedMasks sq).isSome = true ∧ (BlackPassedMasks sq).isSome = true := by
  intro sq h
  rw [whitePassedMasks_closed sq h, blackPassedMasks_closed sq h]
  exact ⟨rfl, rfl⟩

theorem squareTables_lt : ∀ sq, sq < 40 →
    MirrorSquare.getD sq 0 < 40 ∧ GetRankFromSquare.getD sq 0 < 8
      ∧ MirrorSquare.getD (MirrorSquare.getD sq 0) 0 = sq := by decide

theorem option_eq_some_getD {α : Type} (o : Option α) (d : α) (h : o.isSome = true) :
    o = some (o.getD d) := by
  cases o with
  | none => cases h
  | some a => rfl

theorem fileMasks_eq (sq : Nat) (h : sq < 40) : FileMasks sq = some ((FileMasks sq).getD 0) :=
  option_eq_some_getD _ _ (by unfold FileMasks; rw [if_pos h]; rfl)

theorem isolatedMasks_eq (sq : Nat) (h : sq < 40) :
    IsolatedMasks sq = some ((IsolatedMasks sq).getD 0) :=
  option_eq_some_getD _ _ (by unfold IsolatedMasks; rw [if_pos h]; rfl)

theorem whitePassedMasks_eq (sq : Nat) (h : sq < 40) :
    WhitePassedMasks sq = some ((WhitePassedMasks sq).getD 0) :=
  option_eq_some_getD _ _ (passedMasks_isSome sq h).1

theorem blackPassedMasks_eq (sq : Nat) (h : sq < 40) :
    BlackPassedMasks sq = some ((BlackPassedMasks sq).getD 0) :=
  option_eq_some_getD _ _ (passedMasks_isSome sq h).2

theorem evaluateSquare_whitePawn (bb occ : Nat → Nat) (sq : Nat) (h : sq < 40) (score : Int) :
    evaluateSquare bb occ WhitePawn sq score
      = some (score + whitePawnValue (bb WhitePawn) (bb BlackPawn) sq) := by
  have hP := list_get?_of_lt PawnPositionalValues 0 sq h
  have hR := list_get?_of_lt GetRankFromSquare 0 sq h
  have hB := list_get?_of_lt PassedPawnBonus 0 (GetRankFromSquare.getD sq 0)
    (squareTables_lt sq h).2.1
  unfold evaluateSquare
  rw [if_pos rfl, hP, fileMasks_eq sq h, isolatedMasks_eq sq h, whitePassedMasks_eq sq h]
  simp only [Option.bind_eq_bind, Option.some_bind, hR, hB, MaterialValues, if_true]
  unfold whitePawnValue
  split_ifs <;> simp only [Option.some.injEq] <;> ring

theorem evaluateSquare_blackPawn (bb occ : Nat → Nat) (sq : Nat) (h : sq < 40) (score : Int) :
    evaluateSquare bb occ BlackPawn sq score
      = some (score + blackPawnValue (bb WhitePawn) (bb BlackPawn) sq) := by
  have hM := list_get?_of_lt MirrorSquare 0 sq h
  have hm40 := (squareTables_lt sq h).1
  have hr8 := (squareTables_lt _ hm40).2.1
  unfold evaluateSquare blackPawnValue
  generalize MirrorSquare.getD sq 0 = m at hM hm40 hr8 ⊢
  have hP := list_get?_of_lt PawnPositionalValues 0 m hm40
  have hR := list_get?_of_lt GetRankFromSquare 0 m hm40
  generalize GetRankFromSquare.getD m 0 = r at hR hr8 ⊢
  have hB := list_get?_of_lt PassedPawnBonus 0 r hr8
  generalize PassedPawnBonus.getD r 0 = b at hB ⊢
  generalize PawnPositionalValues.getD m 0 = v at hP ⊢
  obtain ⟨f, hf⟩ : ∃ f, FileMasks sq = some f := ⟨_, fileMasks_eq sq h⟩
  obtain ⟨i, hi⟩ : ∃ i, IsolatedMasks sq = some i := ⟨_, isolatedMasks_eq sq h⟩
  obtain ⟨w, hw⟩ : ∃ w, BlackPassedMasks sq = some w := ⟨_, blackPassedMasks_eq sq h⟩
  rw [if_neg (by decide), if_neg (by decide), if_neg (by decide), if_neg (by decide),
    if_neg (by decide), if_pos rfl, hM, hf, hi, hw]
  simp only [Option.bind_eq_bind, Option.some_bind, Option.getD_some]
  rw [hP]
  simp only [Option.some_bind]
  have hmat : MaterialValues BlackPawn = -100 := rfl
  rw [hmat]
  by_cases hc : w &&& bb WhitePawn = 0
  · rw [if_pos hc, if_pos hc, hR]
    simp only [Option.some_bind]
    rw [hB]
    simp only [Option.some_bind, Option.some.injEq]
    split_ifs <;> ring
  · rw [if_neg hc, if_neg hc]
    simp only [Option.some.injEq]
    split_ifs <;> ring

theorem evaluateSquare_add (bb occ : Nat → Nat) (p : Nat) (hp : p < 6) (sq : Nat)
    (h : sq < 40) : ∃ v : Int, ∀ score, evaluateSquare bb occ p sq score = some (score + v) := by
  have h0 : p = 0 ∨ p = 1 ∨ p = 2 ∨ p = 3 ∨ p = 4 ∨ p = 5 := by omega
  rcases h0 with rfl | rfl | rfl | rfl | rfl | rfl
  · exact ⟨_, evaluateSquare_whitePawn bb occ sq h⟩
  · refine ⟨300 + KnightPositionalValues.getD sq 0, fun score => ?_⟩
    unfold evaluateSquare
    rw [if_neg (by decide), if_pos rfl, list_get?_of_lt KnightPositionalValues 0 sq h]
    simp only [Option.bind_eq_bind, Option.some_bind, MaterialValues, if_true, Option.some.injEq]
    simp only [WhiteKnight, WhitePawn]
    norm_num
    ring
  · refine ⟨350 + BishopPositionalValues.getD sq 0
      + (CountBits ((GetBishopAttacks sq (occ BOTH)).getD 0) : Int), fun score => ?_⟩
    have hb : GetBishopAttacks sq (occ BOTH) = some ((GetBishopAttacks sq (occ BOTH)).getD 0) :=
      option_eq_some_getD _ _ (by unfold GetBishopAttacks; rw [if_pos h]; rfl)
    unfold evaluateSquare
    rw [if_neg (by decide), if_neg (by decide), if_pos rfl,
      list_get?_of_lt BishopPositionalValues 0 sq h, hb]
    simp only [Option.bind_eq_bind, Option.some_bind, MaterialValues, Option.some.injEq,
      Option.getD_some]
    simp only [WhiteKnight, WhitePawn, WhiteBishop]
    norm_num
    ring
  · refine ⟨500 + RookPositionalValues.getD sq 0
      + (if bb WhitePawn &&& (FileMasks sq).getD 0 = 0 then SemiOpenFileScore else 0)
      + (if (bb WhitePawn ||| bb BlackPawn) &&& (FileMasks sq).getD 0 = 0
          then OpenFileScore else 0), fun score => ?_⟩
    unfold evaluateSquare
    rw [if_neg (by decide), if_neg (by decide), if_neg (by decide), if_pos rfl,
      list_get?_of_lt RookPositionalValues 0 sq h, fileMasks_eq sq h]
    simp only [Option.bind_eq_bind, Option.some_bind, MaterialValues, Option.getD_some]
    simp only [WhiteKnight, WhitePawn, WhiteBishop, WhiteRook]
    norm_num
    split_ifs <;> ring
  · refine ⟨400 + KingPositionalValues.getD sq 0, fun score => ?_⟩
    unfold evaluateSquare
    rw [if_neg (by decide), if_neg (by decide), if_neg (by decide), if_neg (by decide),
      if_pos rfl, list_get?_of_lt KingPositionalValues 0 sq h]
    simp only [Option.bind_eq_bind, Option.some_bind, MaterialValues, Option.some.injEq]
    simp only [WhiteKnight, WhitePawn, WhiteBishop, WhiteRook, WhiteKing]
    norm_num
    ring
  · exact ⟨_, evaluateSquare_blackPawn bb occ sq h⟩

theorem evaluateSquare_eq (bb occ : Nat → Nat) (p : Nat) (hp : p < 6) (sq : Nat) (h : sq < 40)
    (score : Int) :
    evaluateSquare bb occ p sq score = some (score + squareValue bb occ p sq) := by
  obtain ⟨v, hv⟩ := evaluateSquare_add bb occ p hp sq h
  unfold squareValue
  rw [hv score, hv 0]
  simp

theorem evaluatePieceLoop_eq (bb occ : Nat → Nat) (p : Nat) (hp : p < 6) (fuel : Nat) :
    ∀ x score, x < 2 ^ 40 → (bitList x).length ≤ fuel →
      evaluatePieceLoop bb occ p fuel x score
        = some (score + ((bitList x).map (squareValue bb occ p)).sum) := by
  induction fuel with
  | zero =>
    intro x score _ hf
    have : bitList x = [] := List.length_eq_zero.1 (by omega)
    simp [evaluatePieceLoop, this]
  | succ n ih =>
    intro x score hx hf
    have hx64 : x < 2 ^ 64 := Nat.lt_of_lt_of_le hx two_pow_40_le_64
    unfold evaluatePieceLoop
    by_cases h0 : x = 0
    · subst h0; simp [bitList_zero]
    · rw [if_pos h0]
      have hl := lsb_isLowest x hx64 h0
      have hb := bitList_popBit x _ hx64 hl
      have hsq : (GetLeastSignificantBitIndex x).toNat < 40 := isLowest_lt x _ 40 hx hl
      rw [hb] at hf
      dsimp only
      rw [evaluateSquare_eq bb occ p hp _ hsq]
      dsimp only
      rw [ih _ _ (popBit_lt40 x _ hx) (by simpa using hf)]
      conv_rhs => rw [hb, List.map_cons, List.sum_cons]
      rw [add_assoc]

theorem evaluatePiecesLoop_eq (bb occ : Nat → Nat) (hb : Bounded40 bb) :
    evaluatePiecesLoop bb occ 6 WhitePawn 0 = some (materialSum bb occ) := by
  simp only [evaluatePiecesLoop, WhitePawn,
    evaluatePieceLoop_eq bb occ 0 (by decide) 64 _ _ (hb 0 (by decide)) (bitList_length_le _),
    evaluatePieceLoop_eq bb occ 1 (by decide) 64 _ _ (hb 1 (by decide)) (bitList_length_le _),
    evaluatePieceLoop_eq bb occ 2 (by decide) 64 _ _ (hb 2 (by decide)) (bitList_length_le _),
    evaluatePieceLoop_eq bb occ 3 (by decide) 64 _ _ (hb 3 (by decide)) (bitList_length_le _),
    evaluatePieceLoop_eq bb occ 4 (by decide) 64 _ _ (hb 4 (by decide)) (bitList_length_le _),
    evaluatePieceLoop_eq bb occ 5 (by decide) 64 _ _ (hb 5 (by decide)) (bitList_length_le _)]
  unfold materialSum
  simp only [List.range, List.range.loop, List.map_cons, List.map_nil, List.sum_cons,
    List.sum_nil, Option.some.injEq]
  ring

/-- The score of a position whose bitboards lie inside the 40 squares. -/
theorem evaluatePosition_eq (s : Position) (hb : Bounded40 s.Bitboards) :
    EvaluatePosition s = some
      ((if s.SideToMove = BLACK then -1 else 1)
        * (materialSum s.Bitboards s.Occupancies
            + (if s.Occupancies WHITE = 0 then -50000 else 0)
            + (if s.Occupancies BLACK = 0 then 50000 else 0))) := by
  unfold EvaluatePosition
  rw [evaluatePiecesLoop_eq _ _ hb]
  dsimp only
  split_ifs <;> simp only [Option.some.injEq] <;> ring

set_option maxRecDepth 100000 in
theorem parse_loneKingPosition :
    ParseFEN (bytesOf FenLoneKing) initialPosition = some loneKingPosition := by
  have h : (ParseFEN (bytesOf FenLoneKing) initialPosition).isSome = true := by decide!
  unfold loneKingPosition
  cases hp : ParseFEN (bytesOf FenLoneKing) initialPosition with
  | none => rw [hp] at h; cases h
  | some s => rfl

set_option maxRecDepth 100000 in
theorem loneKingPosition_eval :
    EvaluatePosition loneKingPosition = some 50385
      ∧ IsTerminalPosition loneKingPosition = true
      ∧ (List.range 6).map loneKingPosition.Bitboards = [0, 0, 0, 0, 2 ^ 35, 0]
      ∧ loneKingPosition.SideToMove = WHITE := by decide!

/-- C12 (as stated) fails: for the position parsed from `5/5/5/5/5/5/5/K4 w -`
EvaluatePosition does not report 50000. -/
theorem C12_lone_king_counterexample :
    ParseFEN (bytesOf "5/5/5/5/5/5/5/K4 w -") initialPosition = some loneKingPosition
      ∧ EvaluatePosition loneKingPosition ≠ some 50000 := by
  refine ⟨parse_loneKingPosition, ?_⟩
  rw [loneKingPosition_eval.1]
  decide

/-- C12 (amended): for the position parsed from `5/5/5/5/5/5/5/K4 w -` (a lone White king
on a1, square 35, White to move) EvaluatePosition reports 50385, which is the material
value 400 of the king, its positional value -15 on a1 and the bonus 50000 for the empty
Black side, and IsTerminalPosition is true. -/
theorem C12_lone_king :
    ParseFEN (bytesOf "5/5/5/5/5/5/5/K4 w -") initialPosition = some loneKingPosition
      ∧ (List.range 6).map loneKingPosition.Bitboards = [0, 0, 0, 0, 2 ^ 35, 0]
      ∧ loneKingPosition.SideToMove = WHITE
      ∧ EvaluatePosition loneKingPosition = some 50385
      ∧ (50385 : Int) = MaterialValues WhiteKing + KingPositionalValues.getD 35 0 + 50000
      ∧ IsTerminalPosition loneKingPosition = true :=
  ⟨parse_loneKingPosition, loneKingPosition_eval.2.2.1, loneKingPosition_eval.2.2.2,
    loneKingPosition_eval.1, by decide, loneKingPosition_eval.2.1⟩

/-- C15: on the same board (piece bitboards and occupancies of any position `t`)
EvaluatePosition with Black to move is the negation of EvaluatePosition with White to
move, and one panics exactly when the other does; when the piece bitboards lie inside the
40 squares (position `s`) both return. -/
theorem C15_negamax_sign (t s : Position) (hb : ∀ p, p < 6 → s.Bitboards p < 2 ^ 40) :
    EvaluatePosition { t with SideToMove := BLACK }
      = (EvaluatePosition { t with SideToMove := WHITE }).map (fun v => -v)
    ∧ ∃ v, EvaluatePosition { s with SideToMove := WHITE } = some v
        ∧ EvaluatePosition { s with SideToMove := BLACK } = some (-v) := by
  refine ⟨?_, ?_⟩
  · unfold EvaluatePosition
    dsimp only
    cases evaluatePiecesLoop t.Bitboards t.Occupancies 6 WhitePawn 0 with
    | none => rfl
    | some v =>
      simp
  · have h1 := evaluatePosition_eq { s with SideToMove := WHITE } hb
    have h2 := evaluatePosition_eq { s with SideToMove := BLACK } hb
    dsimp only at h1 h2
    rw [if_neg (by decide)] at h1
    rw [if_pos rfl] at h2
    rw [h1, h2]
    exact ⟨_, rfl, by simp⟩

set_option maxRecDepth 100000 in
/-- C15 at the starting position. -/
theorem C15_negamax_sign_witness :
    EvaluatePosition { startPosition with SideToMove := BLACK }
      = (EvaluatePosition { startPosition with SideToMove := WHITE }).map (fun v => -v)
    ∧ ∃ v, EvaluatePosition { startPosition with SideToMove := WHITE } = some v
        ∧ EvaluatePosition { startPosition with SideToMove := BLACK } = some (-v) :=
  C15_negamax_sign startPosition startPosition (by decide!)

/-! ## C16: the evaluation under recolouring and mirroring -/

theorem mirror_fold (x i : Nat) : ∀ (l : List Nat) (acc : Nat),
    (l.foldl (fun acc sq =>
        if x.testBit sq then acc ||| 2 ^ (MirrorSquare.getD sq 0) else acc) acc).testBit i
      = (acc.testBit i
          || l.any (fun sq => x.testBit sq && decide (MirrorSquare.getD sq 0 = i))) := by
  intro l
  induction l with
  | nil => intro acc; simp
  | cons a l ih =>
    intro acc
    rw [List.foldl_cons, ih, List.any_cons]
    by_cases ha : x.testBit a = true
    · rw [if_pos ha, Nat.testBit_or, Nat.testBit_two_pow, ha, Bool.true_and, Bool.or_assoc]
    · rw [if_neg ha]
      simp only [Bool.not_eq_true] at ha
      rw [ha, Bool.false_and, Bool.false_or]

/-- Bit `i` of the mirrored bitboard is bit MirrorSquare[i] of the bitboard. -/
theorem mirrorBitboard_testBit (x i : Nat) :
    (mirrorBitboard x).testBit i = (decide (i < 40) && x.testBit (MirrorSquare.getD i 0)) := by
  unfold mirrorBitboard
  rw [mirror_fold, Nat.zero_testBit, Bool.false_or, Bool.eq_iff_iff]
  simp only [List.any_eq_true, List.mem_range, Bool.and_eq_true, decide_eq_true_eq]
  constructor
  · rintro ⟨sq, hsq, hx, rfl⟩
    obtain ⟨h1, _, h3⟩ := squareTables_lt sq hsq
    exact ⟨h1, by rw [h3]; exact hx⟩
  · rintro ⟨hi, hx⟩
    obtain ⟨h1, _, h3⟩ := squareTables_lt i hi
    exact ⟨_, h1, hx, h3⟩

theorem mirrorBitboard_lt (x : Nat) : mirrorBitboard x < 2 ^ 40 := by
  apply Nat.lt_pow_two_of_testBit
  intro i hi
  rw [mirrorBitboard_testBit, decide_eq_false (by omega), Bool.false_and]

theorem mirrorBitboard_and (x y : Nat) :
    mirrorBitboard x &&& mirrorBitboard y = mirrorBitboard (x &&& y) := by
  apply Nat.eq_of_testBit_eq
  intro i
  simp only [Nat.testBit_and, mirrorBitboard_testBit]
  cases decide (i < 40) <;> simp

theorem mirrorBitboard_mirror (x : Nat) (hx : x < 2 ^ 40) :
    mirrorBitboard (mirrorBitboard x) = x := by
  apply Nat.eq_of_testBit_eq
  intro i
  rw [mirrorBitboard_testBit, mirrorBitboard_testBit]
  by_cases hi : i < 40
  · obtain ⟨h1, _, h3⟩ := squareTables_lt i hi
    rw [decide_eq_true hi, decide_eq_true h1, h3, Bool.true_and, Bool.true_and]
  · rw [decide_eq_false hi, Bool.false_and]
    cases h : x.testBit i with
    | false => rfl
    | true => exact absurd (lt_of_testBit_lt x 40 i hx h) hi

theorem mirrorBitboard_eq_zero (x : Nat) (hx : x < 2 ^ 40) : mirrorBitboard x = 0 ↔ x = 0 := by
  constructor
  · intro h
    rw [← mirrorBitboard_mirror x hx, h]
    rfl
  · rintro rfl
    rfl

/-- The squares of the mirrored bitboard are the mirrored squares of the bitboard. -/
theorem bitList_mirror_perm (x : Nat) (hx : x < 2 ^ 40) :
    List.Perm (bitList (mirrorBitboard x)) ((bitList x).map (fun sq => MirrorSquare.getD sq 0)) := by
  have hx64 : x < 2 ^ 64 := Nat.lt_of_lt_of_le hx two_pow_40_le_64
  have hm64 : mirrorBitboard x < 2 ^ 64 := Nat.lt_of_lt_of_le (mirrorBitboard_lt x) two_pow_40_le_64
  have hnd : ((bitList x).map (fun sq => MirrorSquare.getD sq 0)).Nodup := by
    apply List.Nodup.map_on _ (bitList_nodup x)
    intro a ha b hb hab
    rw [mem_bitList_of_lt x a hx64] at ha
    rw [mem_bitList_of_lt x b hx64] at hb
    have ha40 := lt_of_testBit_lt x 40 a hx ha
    have hb40 := lt_of_testBit_lt x 40 b hx hb
    rw [← (squareTables_lt a ha40).2.2, ← (squareTables_lt b hb40).2.2]
    exact congrArg (fun sq => MirrorSquare.getD sq 0) hab
  rw [List.perm_ext_iff_of_nodup (bitList_nodup _) hnd]
  intro a
  rw [mem_bitList_of_lt _ a hm64, mirrorBitboard_testBit, List.mem_map]
  simp only [Bool.and_eq_true, decide_eq_true_eq]
  constructor
  · rintro ⟨h1, h2⟩
    exact ⟨_, (mem_bitList_of_lt x _ hx64).2 h2, (squareTables_lt a h1).2.2⟩
  · rintro ⟨sq, hsq, rfl⟩
    rw [mem_bitList_of_lt x sq hx64] at hsq
    have h40 := lt_of_testBit_lt x 40 sq hx hsq
    exact ⟨(squareTables_lt sq h40).1, by rw [(squareTables_lt sq h40).2.2]; exact hsq⟩

theorem sum_bitList_mirror (x : Nat) (hx : x < 2 ^ 40) (f : Nat → Int) :
    ((bitList (mirrorBitboard x)).map f).sum
      = ((bitList x).map (fun sq => f (MirrorSquare.getD sq 0))).sum := by
  rw [List.Perm.sum_eq (List.Perm.map f (bitList_mirror_perm x hx)), List.map_map]
  rfl

theorem countBits_mirror (x : Nat) (hx : x < 2 ^ 40) :
    CountBits (mirrorBitboard x) = CountBits x := by
  rw [countBits_eq _ (Nat.lt_of_lt_of_le (mirrorBitboard_lt x) two_pow_40_le_64),
    countBits_eq _ (Nat.lt_of_lt_of_le hx two_pow_40_le_64),
    List.Perm.length_eq (bitList_mirror_perm x hx), List.length_map]

theorem testBit_and_31 (x k : Nat) : (x &&& 31).testBit k = (decide (k < 5) && x.testBit k) := by
  rw [show (31 : Nat) = 2 ^ 5 - 1 by decide, Nat.testBit_and, Nat.testBit_two_pow_sub_one,
    Bool.and_comm]

theorem mirrorBitboardF_testBit (x i : Nat) :
    (mirrorBitboardF x).testBit i = (decide (i < 40) && x.testBit (MirrorSquare.getD i 0)) := by
  have e : mirrorBitboardF x
      = ((x &&& 31) <<< 35 ||| ((x >>> 5 &&& 31) <<< 30 ||| ((x >>> 10 &&& 31) <<< 25
        ||| ((x >>> 15 &&& 31) <<< 20 ||| ((x >>> 20 &&& 31) <<< 15
        ||| ((x >>> 25 &&& 31) <<< 10 ||| ((x >>> 30 &&& 31) <<< 5
        ||| (x >>> 35 &&& 31)))))))) := rfl
  rw [e]
  simp only [Nat.testBit_or, Nat.testBit_shiftLeft, testBit_and_31, Nat.testBit_shiftRight]
  by_cases h : i < 40
  · interval_cases i <;> simp [MirrorSquare]
  · have h1 : ¬ i - 35 < 5 := by omega
    have h2 : ¬ i - 30 < 5 := by omega
    have h3 : ¬ i - 25 < 5 := by omega
    have h4 : ¬ i - 20 < 5 := by omega
    have h5 : ¬ i - 15 < 5 := by omega
    have h6 : ¬ i - 10 < 5 := by omega
    have h7 : ¬ i - 5 < 5 := by omega
    have h8 : ¬ i < 5 := by omega
    simp [h, h1, h2, h3, h4, h5, h6, h7, h8]

theorem mirrorBitboardF_eq (x : Nat) : mirrorBitboardF x = mirrorBitboard x := by
  apply Nat.eq_of_testBit_eq
  intro i
  rw [mirrorBitboardF_testBit, mirrorBitboard_testBit]

set_option maxRecDepth 1000000 in
theorem masks_mirrorF : ∀ sq, sq < 40 →
    fileMasksF (MirrorSquare.getD sq 0) = mirrorBitboardF (fileMasksF sq)
    ∧ isolatedMasksF (MirrorSquare.getD sq 0) = mirrorBitboardF (isolatedMasksF sq)
    ∧ blackPassedMasksF (MirrorSquare.getD sq 0) = mirrorBitboardF (whitePassedMasksF sq)
    ∧ whitePassedMasksF (MirrorSquare.getD sq 0) = mirrorBitboardF (blackPassedMasksF sq) := by
  decide!

/-- The pawn masks of the mirrored square are the mirrored pawn masks, with the passed
masks of the two colours exchanged. -/
theorem masks_mirror : ∀ sq, sq < 40 →
    (FileMasks (MirrorSquare.getD sq 0)).getD 0 = mirrorBitboard ((FileMasks sq).getD 0)
    ∧ (IsolatedMasks (MirrorSquare.getD sq 0)).getD 0
        = mirrorBitboard ((IsolatedMasks sq).getD 0)
    ∧ (BlackPassedMasks (MirrorSquare.getD sq 0)).getD 0
        = mirrorBitboard ((WhitePassedMasks sq).getD 0)
    ∧ (WhitePassedMasks (MirrorSquare.getD sq 0)).getD 0
        = mirrorBitboard ((BlackPassedMasks sq).getD 0) := by
  intro sq h
  have hm := (squareTables_lt sq h).1
  have := masks_mirrorF sq h
  simp only [mirrorBitboardF_eq] at this
  rw [fileMasks_closed _ hm, fileMasks_closed _ h, isolatedMasks_closed _ hm,
    isolatedMasks_closed _ h, blackPassedMasks_closed _ hm, blackPassedMasks_closed _ h,
    whitePassedMasks_closed _ hm, whitePassedMasks_closed _ h]
  exact this

theorem mirror_backRank : ∀ sq, sq < 40 →
    ((MirrorSquare.getD sq 0 ≥ A1 ∧ MirrorSquare.getD sq 0 ≤ E1) ↔ sq ≤ 4) := by decide

theorem countBits_mirror_and (x mask : Nat) (hx : x < 2 ^ 40) :
    CountBits (mirrorBitboard x &&& mirrorBitboard mask) = CountBits (x &&& mask) := by
  rw [mirrorBitboard_and, countBits_mirror _ (Nat.lt_of_le_of_lt Nat.and_le_left hx)]

theorem mirror_and_eq_zero (x mask : Nat) (hx : x < 2 ^ 40) :
    mirrorBitboard x &&& mirrorBitboard mask = 0 ↔ x &&& mask = 0 := by
  rw [mirrorBitboard_and, mirrorBitboard_eq_zero _ (Nat.lt_of_le_of_lt Nat.and_le_left hx)]

theorem mirror_and_eq_zero' (x mask : Nat) (hx : x < 2 ^ 40) :
    mirrorBitboard mask &&& mirrorBitboard x = 0 ↔ mask &&& x = 0 := by
  rw [Nat.and_comm, mirror_and_eq_zero x mask hx, Nat.and_comm]

/-- The value of a White pawn on the mirrored square of the recoloured, mirrored board. -/
theorem whitePawnValue_mirror (wp bp sq : Nat) (hb : bp < 2 ^ 40) (hw : wp < 2 ^ 40)
    (h : sq < 40) :
    whitePawnValue (mirrorBitboard bp) (mirrorBitboard wp) (MirrorSquare.getD sq 0)
      = - blackPawnValue wp bp sq - (if sq ≥ A1 ∧ sq ≤ E1 then 50000 else 0) := by
  obtain ⟨hF, hI, _, hW⟩ := masks_mirror sq h
  unfold whitePawnValue blackPawnValue
  rw [hF, hI, hW, countBits_mirror_and _ _ hb]
  simp only [mirror_and_eq_zero _ _ hb, mirror_and_eq_zero' _ _ hw]
  split_ifs <;> ring

/-- The value of a Black pawn on the mirrored square of the recoloured, mirrored board. -/
theorem blackPawnValue_mirror (wp bp sq : Nat) (hb : bp < 2 ^ 40) (hw : wp < 2 ^ 40)
    (h : sq < 40) :
    blackPawnValue (mirrorBitboard bp) (mirrorBitboard wp) (MirrorSquare.getD sq 0)
      = - whitePawnValue wp bp sq - (if sq ≤ 4 then 50000 else 0) := by
  obtain ⟨hF, hI, hB, _⟩ := masks_mirror sq h
  have hmm := (squareTables_lt sq h).2.2
  have hbr := mirror_backRank sq h
  unfold whitePawnValue blackPawnValue
  rw [hF, hI, hB, countBits_mirror_and _ _ hw, hmm]
  simp only [mirror_and_eq_zero _ _ hw, mirror_and_eq_zero' _ _ hb, hbr]
  split_ifs <;> ring

theorem squareValue_whitePawn (bb occ : Nat → Nat) (sq : Nat) (h : sq < 40) :
    squareValue bb occ WhitePawn sq = whitePawnValue (bb WhitePawn) (bb BlackPawn) sq := by
  unfold squareValue
  rw [evaluateSquare_whitePawn bb occ sq h]
  simp

theorem squareValue_blackPawn (bb occ : Nat → Nat) (sq : Nat) (h : sq < 40) :
    squareValue bb occ BlackPawn sq = blackPawnValue (bb WhitePawn) (bb BlackPawn) sq := by
  unfold squareValue
  rw [evaluateSquare_blackPawn bb occ sq h]
  simp

theorem sum_map_bitList_congr (x : Nat) (hx : x < 2 ^ 40) (f g : Nat → Int)
    (h : ∀ sq, sq < 40 → f sq = g sq) :
    ((bitList x).map f).sum = ((bitList x).map g).sum := by
  congr 1
  apply List.map_congr_left
  intro sq hsq
  rw [mem_bitList] at hsq
  exact h sq (lt_of_testBit_lt x 40 sq hx hsq.2)

/-- The sum of the loops of EvaluatePosition on a board that holds only pawns. -/
theorem materialSum_pawns (bb occ : Nat → Nat) (hp : ∀ p, 1 ≤ p → p ≤ 4 → bb p = 0)
    (hw : bb WhitePawn < 2 ^ 40) (hb : bb BlackPawn < 2 ^ 40) :
    materialSum bb occ
      = ((bitList (bb WhitePawn)).map (whitePawnValue (bb WhitePawn) (bb BlackPawn))).sum
        + ((bitList (bb BlackPawn)).map (blackPawnValue (bb WhitePawn) (bb BlackPawn))).sum := by
  unfold materialSum
  simp only [List.range, List.range.loop, List.map_cons, List.map_nil, List.sum_cons,
    List.sum_nil, hp 1 (by decide) (by decide), hp 2 (by decide) (by decide),
    hp 3 (by decide) (by decide), hp 4 (by decide) (by decide), bitList_zero]
  rw [sum_map_bitList_congr (bb 0) hw _ _ (squareValue_whitePawn bb occ),
    sum_map_bitList_congr (bb 5) hb _ _ (squareValue_blackPawn bb occ)]
  simp

theorem sum_map_neg_sub_ite (l : List Nat) (f : Nat → Int) (c : Nat → Bool) (k : Int) :
    (l.map (fun sq => - f sq - (if c sq = true then k else 0))).sum
      = - (l.map f).sum - k * ((l.filter c).length : Int) := by
  induction l with
  | nil => simp
  | cons a l ih =>
    rw [List.map_cons, List.sum_cons, ih, List.map_cons, List.sum_cons, List.filter_cons]
    cases hc : c a
    · simp
      ring
    · simp
      ring

/-- C16 (as stated) fails: for the board with a single White pawn on a2 (square 30) and
White to move EvaluatePosition gives 50095, and the recoloured, mirrored board with Black
to move gives 50095 as well, not -50095. -/
theorem C16_evaluation_symmetry_counterexample :
    EvaluatePosition (pawnPosition (2 ^ 30) 0 WHITE) = some 50095
      ∧ EvaluatePosition (pawnPosition (mirrorBitboard 0) (mirrorBitboard (2 ^ 30)) BLACK)
          ≠ some (-50095) := by decide!

/-- C16 (amended): let `s` hold only pawns, inside the 40 squares, with White to move, and
let `t` be the recoloured and mirrored position with Black to move (its WhitePawn bitboard
the image of the BlackPawn bitboard of `s` under MirrorSquare, its BlackPawn bitboard the
image of the WhitePawn bitboard of `s`, occupancies derived). If EvaluatePosition gives S
for `s`, it gives for `t` the value S + 50000 · (number of Black pawns of `s` on the
squares 35..39 + number of White pawns of `s` on the squares 0..4); so it gives S itself,
not -S, when `s` has no Black pawn on rank 1 and no White pawn on rank 8. -/
theorem C16_evaluation_symmetry (s t : Position)
    (hs : s.SideToMove = WHITE) (hsp : ∀ p, 1 ≤ p → p ≤ 4 → s.Bitboards p = 0)
    (hw : s.Bitboards WhitePawn < 2 ^ 40) (hb : s.Bitboards BlackPawn < 2 ^ 40)
    (hsW : s.Occupancies WHITE = s.Bitboards WhitePawn)
    (hsB : s.Occupancies BLACK = s.Bitboards BlackPawn)
    (ht : t.SideToMove = BLACK) (htp : ∀ p, 1 ≤ p → p ≤ 4 → t.Bitboards p = 0)
    (htw : t.Bitboards WhitePawn = mirrorBitboard (s.Bitboards BlackPawn))
    (htb : t.Bitboards BlackPawn = mirrorBitboard (s.Bitboards WhitePawn))
    (htW : t.Occupancies WHITE = t.Bitboards WhitePawn)
    (htB : t.Occupancies BLACK = t.Bitboards BlackPawn) :
    ∃ S : Int, EvaluatePosition s = some S
      ∧ EvaluatePosition t = some (S + 50000 *
          ((((bitList (s.Bitboards BlackPawn)).filter (fun sq => decide (sq ≥ A1 ∧ sq ≤ E1))).length
            + ((bitList (s.Bitboards WhitePawn)).filter (fun sq => decide (sq ≤ 4))).length : Nat)
            : Int))
      ∧ ((∀ sq, sq ≥ A1 → sq ≤ E1 → (s.Bitboards BlackPawn).testBit sq = false) →
          (∀ sq, sq ≤ 4 → (s.Bitboards WhitePawn).testBit sq = false) →
          EvaluatePosition t = some S) := by
  have hbs : Bounded40 s.Bitboards := by
    intro p hp
    have h0 : p = 0 ∨ p = 5 ∨ (1 ≤ p ∧ p ≤ 4) := by omega
    rcases h0 with rfl | rfl | ⟨h1, h4⟩
    · exact hw
    · exact hb
    · rw [hsp p h1 h4]; decide
  have hbt : Bounded40 t.Bitboards := by
    intro p hp
    have h0 : p = 0 ∨ p = 5 ∨ (1 ≤ p ∧ p ≤ 4) := by omega
    rcases h0 with rfl | rfl | ⟨h1, h4⟩
    · rw [htw]; exact mirrorBitboard_lt _
    · rw [htb]; exact mirrorBitboard_lt _
    · rw [htp p h1 h4]; decide
  have hES := evaluatePosition_eq s hbs
  have hET := evaluatePosition_eq t hbt
  rw [hs, if_neg (by decide), hsW, hsB, materialSum_pawns _ _ hsp hw hb] at hES
  rw [ht, if_pos rfl, htW, htB, materialSum_pawns _ _ htp (hbt 0 (by decide)) (hbt 5 (by decide)),
    htw, htb, sum_bitList_mirror _ hb, sum_bitList_mirror _ hw,
    sum_map_bitList_congr _ hb _ _ (fun sq h => whitePawnValue_mirror _ _ sq hb hw h),
    sum_map_bitList_congr _ hw _ _ (fun sq h => blackPawnValue_mirror _ _ sq hb hw h)] at hET
  have e1 := sum_map_neg_sub_ite (bitList (s.Bitboards BlackPawn))
    (blackPawnValue (s.Bitboards WhitePawn) (s.Bitboards BlackPawn))
    (fun sq => decide (sq ≥ A1 ∧ sq ≤ E1)) 50000
  have e2 := sum_map_neg_sub_ite (bitList (s.Bitboards WhitePawn))
    (whitePawnValue (s.Bitboards WhitePawn) (s.Bitboards BlackPawn))
    (fun sq => decide (sq ≤ 4)) 50000
  simp only [decide_eq_true_eq] at e1 e2
  rw [e1, e2] at hET
  simp only [mirrorBitboard_eq_zero _ hb, mirrorBitboard_eq_zero _ hw] at hET
  have key : EvaluatePosition t = some
      ((1 : Int) * (((bitList (s.Bitboards WhitePawn)).map
            (whitePawnValue (s.Bitboards WhitePawn) (s.Bitboards BlackPawn))).sum
          + ((bitList (s.Bitboards BlackPawn)).map
            (blackPawnValue (s.Bitboards WhitePawn) (s.Bitboards BlackPawn))).sum
          + (if s.Bitboards WhitePawn = 0 then -50000 else 0)
          + (if s.Bitboards BlackPawn = 0 then 50000 else 0))
        + 50000 * ((((bitList (s.Bitboards BlackPawn)).filter
              (fun sq => decide (sq ≥ A1 ∧ sq ≤ E1))).length
            + ((bitList (s.Bitboards WhitePawn)).filter (fun sq => decide (sq ≤ 4))).length : Nat)
            : Int)) := by
    rw [hET]
    congr 1
    push_cast
    split_ifs <;> ring
  refine ⟨_, hES, key, ?_⟩
  intro h1 h8
  rw [key]
  have f1 : (bitList (s.Bitboards BlackPawn)).filter (fun sq => decide (sq ≥ A1 ∧ sq ≤ E1)) = [] := by
    rw [List.filter_eq_nil_iff]
    intro sq hsq
    rw [mem_bitList] at hsq
    simp only [decide_eq_true_eq]
    rintro ⟨ha, he⟩
    rw [h1 sq ha he] at hsq
    exact Bool.noConfusion hsq.2
  have f2 : (bitList (s.Bitboards WhitePawn)).filter (fun sq => decide (sq ≤ 4)) = [] := by
    rw [List.filter_eq_nil_iff]
    intro sq hsq
    rw [mem_bitList] at hsq
    simp only [decide_eq_true_eq]
    intro ha
    rw [h8 sq ha] at hsq
    exact Bool.noConfusion hsq.2
  rw [f1, f2]
  simp

/-- C16 (amended) at the board with White pawns on a2 and c5 and Black pawns on b7 and
d6. -/
theorem C16_evaluation_symmetry_witness :
    ∃ S : Int, EvaluatePosition (pawnPosition (2 ^ 30 + 2 ^ 17) (2 ^ 6 + 2 ^ 13) WHITE) = some S
      ∧ EvaluatePosition (pawnPosition (mirrorBitboard (2 ^ 6 + 2 ^ 13))
            (mirrorBitboard (2 ^ 30 + 2 ^ 17)) BLACK)
          = some (S + 50000 *
          ((((bitList ((pawnPosition (2 ^ 30 + 2 ^ 17) (2 ^ 6 + 2 ^ 13) WHITE).Bitboards
                BlackPawn)).filter (fun sq => decide (sq ≥ A1 ∧ sq ≤ E1))).length
            + ((bitList ((pawnPosition (2 ^ 30 + 2 ^ 17) (2 ^ 6 + 2 ^ 13) WHITE).Bitboards
                WhitePawn)).filter (fun sq => decide (sq ≤ 4))).length : Nat)
            : Int))
      ∧ ((∀ sq, sq ≥ A1 → sq ≤ E1 →
            ((pawnPosition (2 ^ 30 + 2 ^ 17) (2 ^ 6 + 2 ^ 13) WHITE).Bitboards
              BlackPawn).testBit sq = false) →
          (∀ sq, sq ≤ 4 →
            ((pawnPosition (2 ^ 30 + 2 ^ 17) (2 ^ 6 + 2 ^ 13) WHITE).Bitboards
              WhitePawn).testBit sq = false) →
          EvaluatePosition (pawnPosition (mirrorBitboard (2 ^ 6 + 2 ^ 13))
            (mirrorBitboard (2 ^ 30 + 2 ^ 17)) BLACK) = some S) :=
  C16_evaluation_symmetry (pawnPosition (2 ^ 30 + 2 ^ 17) (2 ^ 6 + 2 ^ 13) WHITE)
    (pawnPosition (mirrorBitboard (2 ^ 6 + 2 ^ 13)) (mirrorBitboard (2 ^ 30 + 2 ^ 17)) BLACK)
    rfl
    (by intro p h1 h4
        show (if p = WhitePawn then _ else if p = BlackPawn then _ else 0) = 0
        rw [if_neg (by simp only [WhitePawn]; omega), if_neg (by simp only [BlackPawn]; omega)])
    (by decide) (by decide) rfl rfl rfl
    (by intro p h1 h4
        show (if p = WhitePawn then _ else if p = BlackPawn then _ else 0) = 0
        rw [if_neg (by simp only [WhitePawn]; omega), if_neg (by simp only [BlackPawn]; omega)])
    rfl rfl rfl rfl

/-! ## C20: ParseFEN on well-formed input -/

theorem get?_some_facts (l : List Nat) (i c : Nat) (h : l.get? i = some c) :
    i < l.length ∧ l.getD i 0 = c := by
  rw [List.get?_eq_getElem?] at h
  have hi : i < l.length := by
    by_contra hc
    rw [List.getElem?_eq_none (by omega)] at h
    cases h
  refine ⟨hi, ?_⟩
  rw [List.getD_eq_getElem?_getD, h]
  rfl

theorem pieceLetter_spec : ∀ p, p < 6 →
    ((97 ≤ pieceLetter p ∧ pieceLetter p ≤ 122) ∨ (65 ≤ pieceLetter p ∧ pieceLetter p ≤ 90))
      ∧ ConvertAsciiToConstants (pieceLetter p) = p := by decide

theorem cells_length (item : FenItem) : item.cells.length = item.width := by
  cases item with
  | piece p => rfl
  | gap d => simp [FenItem.cells, FenItem.width]

theorem rowCells_length (row : List FenItem) : (rowCells row).length = rowWidth row := by
  induction row with
  | nil => rfl
  | cons item row ih =>
    simp only [rowCells, rowWidth, List.length_append, List.map_cons, List.sum_cons, cells_length]
    rw [ih]
    rfl

theorem cellInv_piece (bb : Nat → Nat) (cells : List (Option Nat)) (p : Nat) (hp : p < 6)
    (hl : cells.length < 40) (h : CellInv bb cells) :
    CellInv (setAt bb p (SetBit (bb p) cells.length)) (cells ++ [some p]) := by
  intro q hq i
  have hi0 := h q hq i
  rw [List.get?_eq_getElem?] at hi0 ⊢
  by_cases hqp : q = p
  · subst hqp
    rw [setAt_same, testBit_SetBit _ _ _ (by omega), hi0]
    by_cases hi : i < cells.length
    · rw [List.getElem?_append_left hi]
      simp [show i < 40 by omega, show cells.length ≠ i by omega]
    · by_cases he : i = cells.length
      · subst he
        simp [hl]
      · have h1 : cells[i]? = none := List.getElem?_eq_none (by omega)
        have h2 : (cells ++ [some q])[i]? = none :=
          List.getElem?_eq_none (by simp; omega)
        rw [h1, h2]
        simp [show cells.length ≠ i by omega]
  · rw [setAt_ne _ _ _ _ hqp, hi0]
    by_cases hi : i < cells.length
    · rw [List.getElem?_append_left hi]
    · by_cases he : i = cells.length
      · subst he
        have h1 : cells[cells.length]? = none := List.getElem?_eq_none (Nat.le_refl _)
        rw [h1]
        simp [hqp]
        intro hh
        exact hqp hh.symm
      · have h1 : cells[i]? = none := List.getElem?_eq_none (by omega)
        have h2 : (cells ++ [some p])[i]? = none :=
          List.getElem?_eq_none (by simp; omega)
        rw [h1, h2]

theorem cellInv_gap (bb : Nat → Nat) (cells : List (Option Nat)) (d : Nat)
    (h : CellInv bb cells) : CellInv bb (cells ++ List.replicate d none) := by
  intro q hq i
  have hi0 := h q hq i
  rw [List.get?_eq_getElem?] at hi0 ⊢
  rw [hi0]
  by_cases hi : i < cells.length
  · rw [List.getElem?_append_left hi]
  · have h1 : cells[i]? = none := List.getElem?_eq_none (by omega)
    rw [h1]
    have h2 : (cells ++ List.replicate d (none : Option Nat))[i]? ≠ some (some q) := by
      rw [List.getElem?_append_right (by omega), List.getElem?_replicate]
      split <;> simp
    simp [h2]

theorem rowWidth_cons (item : FenItem) (items : List FenItem) :
    rowWidth (item :: items) = item.width + rowWidth items := by
  simp [rowWidth]

/-- The loop over the files of one rank reads a well-formed row: it consumes the bytes of
the row and sets the bits of its pieces. -/
theorem parseRankLoop_row (fen : List Nat) (rank : Nat) (hr : rank < 8) :
    ∀ (items : List FenItem) (fuel file idx : Nat) (bb : Nat → Nat) (cells : List (Option Nat)),
      (∀ item, item ∈ items → item.Valid) → file + rowWidth items = 5 → items.length ≤ fuel →
      (∀ k, k < items.length → fen.get? (idx + k) = some ((rowBytes items).getD k 0)) →
      cells.length = rank * 5 + file → CellInv bb cells →
      ∃ bb1, parseRankLoop fen rank fuel file idx bb = (bb1, idx + items.length)
        ∧ CellInv bb1 (cells ++ rowCells items) := by
  intro items
  induction items with
  | nil =>
    intro fuel file idx bb cells _ hw _ _ hl hinv
    have hf : file = 5 := by simpa [rowWidth] using hw
    subst hf
    refine ⟨bb, ?_, by simpa [rowCells] using hinv⟩
    cases fuel with
    | zero => rfl
    | succ n => unfold parseRankLoop; rw [if_neg (by omega)]; rfl
  | cons item items ih =>
    intro fuel file idx bb cells hv hw hfuel hch hl hinv
    cases fuel with
    | zero => simp at hfuel
    | succ n =>
      have h0 := hch 0 (by simp)
      simp only [Nat.add_zero, rowBytes, List.map_cons, List.getD_cons_zero] at h0
      obtain ⟨hidx, hc⟩ := get?_some_facts fen idx _ h0
      rw [rowWidth_cons] at hw
      have hch' : ∀ k, k < items.length →
          fen.get? (idx + 1 + k) = some ((rowBytes items).getD k 0) := by
        intro k hk
        have := hch (k + 1) (by simp; omega)
        simpa [rowBytes, Nat.add_assoc, Nat.add_comm 1 k] using this
      have hfuel' : items.length ≤ n := by simpa using hfuel
      unfold parseRankLoop
      cases item with
      | piece p =>
        have hp : p < 6 := hv _ (List.mem_cons_self _ _)
        simp only [FenItem.width] at hw
        have hfile : file < 5 := by omega
        obtain ⟨hletter, hconv⟩ := pieceLetter_spec p hp
        rw [if_pos hfile, if_neg (by omega)]
        dsimp only
        rw [hc]
        simp only [FenItem.byte]
        rw [if_pos hletter, hconv, ← hl]
        obtain ⟨bb1, h1, h2⟩ := ih n (file + 1) (idx + 1) _ (cells ++ [some p])
          (fun it hit => hv it (List.mem_cons_of_mem _ hit))
          (by omega) hfuel' hch'
          (by rw [List.length_append, hl]; simp; omega) (cellInv_piece bb cells p hp (by omega) hinv)
        refine ⟨bb1, ?_, ?_⟩
        · rw [h1, List.length_cons]
          congr 1
          omega
        · simpa [rowCells, FenItem.cells] using h2
      | gap d =>
        have hd : 1 ≤ d ∧ d ≤ 5 := hv _ (List.mem_cons_self _ _)
        simp only [FenItem.width] at hw
        have hfile : file < 5 := by omega
        rw [if_pos hfile, if_neg (by omega)]
        dsimp only
        rw [hc]
        simp only [FenItem.byte]
        rw [if_neg (by omega), if_pos (by omega)]
        obtain ⟨bb1, h1, h2⟩ := ih n (file + d) (idx + 1) bb (cells ++ List.replicate d none)
          (fun it hit => hv it (List.mem_cons_of_mem _ hit))
          (by omega) hfuel' hch'
          (by rw [List.length_append, hl]; simp; omega) (cellInv_gap bb cells d hinv)
        refine ⟨bb1, ?_, ?_⟩
        · rw [show 48 + d - 48 = d by omega, h1, List.length_cons]
          congr 1
          omega
        · simpa [rowCells, FenItem.cells] using h2

theorem getD_append_left (l1 l2 : List Nat) (k : Nat) (h : k < l1.length) :
    (l1 ++ l2).getD k 0 = l1.getD k 0 := by
  rw [List.getD_eq_getElem?_getD, List.getD_eq_getElem?_getD, List.getElem?_append_left h]

theorem getD_append_right (l1 l2 : List Nat) (k : Nat) :
    (l1 ++ l2).getD (l1.length + k) 0 = l2.getD k 0 := by
  rw [List.getD_eq_getElem?_getD, List.getD_eq_getElem?_getD,
    List.getElem?_append_right (by omega)]
  congr 2
  omega

theorem get?_ne_of_getD (fen : List Nat) (i c : Nat) (h : fen.get? i ≠ some c) :
    ¬ (i < fen.length ∧ fen.getD i 0 = c) := by
  rintro ⟨h1, h2⟩
  apply h
  rw [List.get?_eq_getElem?, List.getElem?_eq_getElem h1, ← h2, List.getD_eq_getElem _ 0 h1]

/-- The loop over the ranks reads well-formed rows separated by `/`. -/
theorem parseRanksLoop_rows (fen : List Nat) :
    ∀ (rows : List (List FenItem)) (rank idx : Nat) (bb : Nat → Nat)
      (cells : List (Option Nat)),
      rank + rows.length = 8 → WellFormedRows rows →
      (∀ k, k < (rowsBytes rows).length →
        fen.get? (idx + k) = some ((rowsBytes rows).getD k 0)) →
      fen.get? (idx + (rowsBytes rows).length) ≠ some 47 →
      cells.length = rank * 5 → CellInv bb cells →
      ∃ bb1, parseRanksLoop fen rows.length rank idx bb = (bb1, idx + (rowsBytes rows).length)
        ∧ CellInv bb1 (cells ++ boardCells rows) := by
  intro rows
  induction rows with
  | nil =>
    intro rank idx bb cells _ _ _ _ _ hinv
    exact ⟨bb, rfl, by simpa [boardCells] using hinv⟩
  | cons row rows ih =>
    intro rank idx bb cells hrank hwf hch hne hl hinv
    have hrow := hwf row (List.mem_cons_self _ _)
    have hwf' : WellFormedRows rows := fun r hr => hwf r (List.mem_cons_of_mem _ hr)
    have hlen : (rowBytes row).length = row.length := by simp [rowBytes]
    have hpre : ∃ tail, rowsBytes (row :: rows) = rowBytes row ++ tail := by
      cases rows with
      | nil => exact ⟨[], by simp [rowsBytes]⟩
      | cons r2 rs => exact ⟨47 :: rowsBytes (r2 :: rs), rfl⟩
    obtain ⟨tail, htail⟩ := hpre
    have hchRow : ∀ k, k < row.length → fen.get? (idx + k) = some ((rowBytes row).getD k 0) := by
      intro k hk
      have := hch k (by rw [htail, List.length_append, hlen]; omega)
      rw [this, htail, getD_append_left _ _ _ (by omega)]
    have hfuel : row.length ≤ fen.length + 6 := by
      by_cases h0 : row.length = 0
      · omega
      · have := (get?_some_facts fen _ _ (hchRow (row.length - 1) (by omega))).1
        omega
    simp only [List.length_cons] at hrank
    obtain ⟨bb1, h1, hinv1⟩ := parseRankLoop_row fen rank (by omega) row (fen.length + 6) 0 idx bb
      cells hrow.1 (by rw [hrow.2]) hfuel hchRow (by omega) hinv
    rw [List.length_cons]
    unfold parseRanksLoop
    rw [h1]
    dsimp only
    have hl1 : (cells ++ rowCells row).length = (rank + 1) * 5 := by
      rw [List.length_append, rowCells_length, hrow.2, hl]
      omega
    cases rows with
    | nil =>
      simp only [rowsBytes, hlen] at hne ⊢
      rw [if_neg (get?_ne_of_getD fen _ 47 hne)]
      exact ⟨bb1, rfl, by simpa [boardCells] using hinv1⟩
    | cons r2 rs =>
      have hcc : rowsBytes (row :: r2 :: rs) = rowBytes row ++ 47 :: rowsBytes (r2 :: rs) := rfl
      have hcl : (rowsBytes (row :: r2 :: rs)).length
          = row.length + ((rowsBytes (r2 :: rs)).length + 1) := by
        rw [hcc, List.length_append, hlen, List.length_cons]
      have hsep := hch row.length (by rw [hcl]; omega)
      have hs47 : (rowsBytes (row :: r2 :: rs)).getD row.length 0 = 47 := by
        have := getD_append_right (rowBytes row) (47 :: rowsBytes (r2 :: rs)) 0
        rw [hlen] at this
        rw [hcc]
        simpa using this
      rw [hs47] at hsep
      obtain ⟨hlt, hget⟩ := get?_some_facts fen _ _ hsep
      rw [if_pos ⟨hlt, hget⟩]
      have hch2 : ∀ k, k < (rowsBytes (r2 :: rs)).length →
          fen.get? (idx + row.length + 1 + k) = some ((rowsBytes (r2 :: rs)).getD k 0) := by
        intro k hk
        have := hch (row.length + (1 + k)) (by rw [hcl]; omega)
        have e : (rowsBytes (row :: r2 :: rs)).getD (row.length + (1 + k)) 0
            = (rowsBytes (r2 :: rs)).getD k 0 := by
          have := getD_append_right (rowBytes row) (47 :: rowsBytes (r2 :: rs)) (1 + k)
          rw [hlen] at this
          rw [hcc, this, Nat.add_comm 1 k, List.getD_cons_succ]
        rw [← e, ← this]
        congr 1
        omega
      have hne2 : fen.get? (idx + row.length + 1 + (rowsBytes (r2 :: rs)).length) ≠ some 47 := by
        intro hc
        apply hne
        rw [← hc]
        congr 1
        rw [hcl]
        omega
      obtain ⟨bb2, h2, hinv2⟩ := ih (rank + 1) (idx + row.length + 1) bb1 (cells ++ rowCells row)
        (by omega) hwf' hch2 hne2 hl1 hinv1
      refine ⟨bb2, ?_, ?_⟩
      · rw [h2]
        congr 1
        rw [hcl]
        omega
      · simpa [boardCells, List.append_assoc] using hinv2

theorem boardCells_length (rows : List (List FenItem)) (hwf : WellFormedRows rows) :
    (boardCells rows).length = 5 * rows.length := by
  induction rows with
  | nil => rfl
  | cons row rows ih =>
    rw [boardCells, List.length_append, rowCells_length, (hwf row (List.mem_cons_self _ _)).2,
      ih (fun r hr => hwf r (List.mem_cons_of_mem _ hr)), List.length_cons]
    omega

theorem boardCells_get (rows : List (List FenItem)) (hwf : WellFormedRows rows) :
    ∀ r f, r < rows.length → f < 5 →
      (boardCells rows).get? (5 * r + f) = (rowCells (rows.getD r [])).get? f := by
  induction rows with
  | nil => intro r f hr; simp at hr
  | cons row rows ih =>
    intro r f hr hf
    have hrow := (hwf row (List.mem_cons_self _ _)).2
    have hl : (rowCells row).length = 5 := by rw [rowCells_length, hrow]
    rw [List.get?_eq_getElem?, List.get?_eq_getElem?]
    cases r with
    | zero =>
      rw [boardCells, Nat.mul_zero, Nat.zero_add, List.getElem?_append_left (by omega)]
      rfl
    | succ r =>
      rw [boardCells, List.getElem?_append_right (by omega), hl,
        show 5 * (r + 1) + f - 5 = 5 * r + f by omega]
      have := ih (fun r hr => hwf r (List.mem_cons_of_mem _ hr)) r f
        (by simpa using hr) hf
      rw [List.get?_eq_getElem?, List.get?_eq_getElem?] at this
      rw [this]
      rfl

theorem cellInv_zero : CellInv (fun _ => 0) [] := by
  intro p _ i
  simp

/-- C20: for every FEN made of 8 rows separated by `/`, each row describing exactly 5
files with letters from PNBRKp and digits 1..5, followed by a space, `w` or `b`, a space,
and `-` or a square name (file letter a..e, rank digit 1..8), ParseFEN returns, sets bit
5·r + f of the bitboard of piece p exactly when row r (0 = top) holds the letter of p at
file f and sets no bit at index 40 or above, sets the side to move as written, sets the
en-passant square to NoSquare for `-` and to (8 − rank)·5 + file for a square name, resets
RepetitionIndex to 0, and leaves HashKey equal to GeneratePositionKey(). -/
theorem C20_parse_fen (rows : List (List FenItem)) (blackToMove : Bool)
    (ep : Option (Nat × Nat)) (s : Position) (hlen : rows.length = 8)
    (hwf : WellFormedRows rows)
    (hep : ∀ file rank, ep = some (file, rank) → file < 5 ∧ 1 ≤ rank ∧ rank ≤ 8) :
    ∃ s1, ParseFEN (fenBytes rows blackToMove ep) s = some s1
      ∧ (∀ p, p < 6 → ∀ r f, r < 8 → f < 5 →
          ((s1.Bitboards p).testBit (5 * r + f) = true
            ↔ (rowCells (rows.getD r [])).get? f = some (some p)))
      ∧ (∀ p, p < 6 → ∀ i, 40 ≤ i → (s1.Bitboards p).testBit i = false)
      ∧ s1.SideToMove = (if blackToMove = true then BLACK else WHITE)
      ∧ s1.EnPassantSquare = epSquare ep
      ∧ s1.RepetitionIndex = 0
      ∧ GeneratePositionKey s1 = some s1.HashKey := by
  have hget : ∀ k, (fenBytes rows blackToMove ep).get? ((rowsBytes rows).length + k)
      = ([32, if blackToMove = true then 98 else 119, 32] ++ epBytes ep).get? k := by
    intro k
    unfold fenBytes
    rw [List.get?_eq_getElem?, List.get?_eq_getElem?, List.getElem?_append_right (by omega)]
    congr 1
    omega
  have hch : ∀ k, k < (rowsBytes rows).length →
      (fenBytes rows blackToMove ep).get? (0 + k) = some ((rowsBytes rows).getD k 0) := by
    intro k hk
    unfold fenBytes
    rw [Nat.zero_add, List.get?_eq_getElem?, List.getElem?_append_left hk,
      List.getElem?_eq_getElem hk, List.getD_eq_getElem _ 0 hk]
  have hne : (fenBytes rows blackToMove ep).get? (0 + (rowsBytes rows).length) ≠ some 47 := by
    have := hget 0
    rw [Nat.add_zero] at this
    rw [Nat.zero_add, this]
    simp
  obtain ⟨bb1, h1, hinv⟩ := parseRanksLoop_rows (fenBytes rows blackToMove ep) rows 0 0
    (fun _ => 0) [] (by omega) hwf hch hne rfl cellInv_zero
  rw [hlen, Nat.zero_add] at h1
  rw [List.nil_append] at hinv
  have hb40 : ∀ p, p < 6 → ∀ i, 40 ≤ i → (bb1 p).testBit i = false := by
    intro p hp i hi
    rw [hinv p hp i, List.get?_eq_getElem?,
      List.getElem?_eq_none (by rw [boardCells_length rows hwf, hlen]; omega)]
    simp
  have hbounded : Bounded40 bb1 := fun p hp => Nat.lt_pow_two_of_testBit _ (hb40 p hp)
  have hside := hget 1
  have hep0 := hget 3
  have hep1 := hget 4
  simp only [List.cons_append, List.nil_append, List.get?_cons_succ, List.get?_cons_zero]
    at hside hep0 hep1
  unfold ParseFEN
  rw [h1]
  dsimp only
  rw [hside]
  dsimp only
  rw [show (rowsBytes rows).length + 1 + 2 = (rowsBytes rows).length + 3 from rfl, hep0]
  have hbits : ∀ p, p < 6 → ∀ r f, r < 8 → f < 5 →
      ((bb1 p).testBit (5 * r + f) = true
        ↔ (rowCells (rows.getD r [])).get? f = some (some p)) := by
    intro p hp r f hr hf
    rw [hinv p hp, boardCells_get rows hwf r f (by omega) hf]
    simp
  have hsideval : (if (if blackToMove = true then 98 else 119) = 119 then WHITE
      else if (if blackToMove = true then 98 else 119) = 98 then BLACK else WHITE)
      = (if blackToMove = true then BLACK else WHITE) := by
    cases blackToMove <;> rfl
  rw [hsideval]
  cases ep with
  | none =>
    simp only [epBytes, List.get?_cons_zero]
    rw [if_neg (by decide)]
    dsimp only
    rw [generatePositionKey_eq]
    · exact ⟨_, rfl, hbits, hb40, rfl, rfl, rfl,
        generatePositionKey_eq _ hbounded (Or.inl rfl)⟩
    · exact hbounded
    · exact Or.inl rfl
  | some fr =>
    obtain ⟨f, r⟩ := fr
    obtain ⟨hf, hr1, hr8⟩ := hep f r rfl
    simp only [epBytes, List.get?_cons_zero, List.get?_cons_succ] at hep1 ⊢
    rw [if_pos (by omega), show (rowsBytes rows).length + 3 + 1 = (rowsBytes rows).length + 4 from rfl,
      hep1]
    dsimp only
    have e1 : (48 + r + 256 - 48) % 256 = r := by omega
    have e2 : (97 + f + 256 - 97) % 256 = f := by omega
    rw [e1, e2]
    have e3 : (8 - (r : Int)) * 5 + (f : Int) = epSquare (some (f, r)) := by
      simp only [epSquare]
      omega
    rw [e3]
    have hrange : epSquare (some (f, r)) = (NoSquare : Int)
        ∨ (0 ≤ epSquare (some (f, r)) ∧ epSquare (some (f, r)) < 40) := by
      right
      simp only [epSquare]
      omega
    rw [generatePositionKey_eq]
    · exact ⟨_, rfl, hbits, hb40, rfl, rfl, rfl, generatePositionKey_eq _ hbounded hrange⟩
    · exact hbounded
    · exact hrange

set_option maxRecDepth 100000 in
/-- C20 at FenBlackEnPassant, `5/5/5/5/Pp3/5/5/5 b a3`: Black to move, en-passant square
a3 (file 0, rank 3). -/
theorem C20_parse_fen_witness :
    fenBytes blackEnPassantRows true (some (0, 3)) = bytesOf FenBlackEnPassant
    ∧ ∃ s1, ParseFEN (fenBytes blackEnPassantRows true (some (0, 3))) initialPosition = some s1
      ∧ (∀ p, p < 6 → ∀ r f, r < 8 → f < 5 →
          ((s1.Bitboards p).testBit (5 * r + f) = true
            ↔ (rowCells (blackEnPassantRows.getD r [])).get? f = some (some p)))
      ∧ (∀ p, p < 6 → ∀ i, 40 ≤ i → (s1.Bitboards p).testBit i = false)
      ∧ s1.SideToMove = (if true = true then BLACK else WHITE)
      ∧ s1.EnPassantSquare = epSquare (some (0, 3))
      ∧ s1.RepetitionIndex = 0
      ∧ GeneratePositionKey s1 = some s1.HashKey :=
  ⟨by decide, C20_parse_fen blackEnPassantRows true (some (0, 3)) initialPosition (by decide)
    (by decide)
    (by intro file rank h
        simp only [Option.some.injEq, Prod.mk.injEq] at h
        omega)⟩

/-! ## The search leaves the position as it was -/

theorem coreEq_eq (a b : Position) (h : CoreEq a b) :
    b = { a with RepetitionTable := b.RepetitionTable, RepetitionIndex := b.RepetitionIndex } := by
  obtain ⟨h1, h2, h3, h4, h5, h6⟩ := h
  cases a
  cases b
  simp only at h1 h2 h3 h4 h5 h6
  subst h1 h2 h3 h4 h5 h6
  rfl

theorem generateMoves_rep (s : Position) (t : Nat → Nat) (i : Int) :
    GenerateMoves { s with RepetitionTable := t, RepetitionIndex := i } = GenerateMoves s := rfl

theorem consistent_rep (s : Position) (t : Nat → Nat) (i : Int) :
    Consistent { s with RepetitionTable := t, RepetitionIndex := i } ↔ Consistent s := Iff.rfl

theorem unMakeMove_rep (s : Position) (t : Nat → Nat) (i : Int) :
    UnMakeMove { s with RepetitionTable := t, RepetitionIndex := i }
      = (UnMakeMove s).map (fun r => { r with RepetitionTable := t, RepetitionIndex := i }) := by
  unfold UnMakeMove
  dsimp only
  cases s.MoveStack.getLast? with
  | none => rfl
  | some rec =>
    dsimp only
    split
    · rfl
    · rw [Option.map_map]
      rfl

theorem kept_refl (a : SearchState) : Kept a a := ⟨rfl, rfl⟩

theorem kept_trans {a b c : SearchState} (h1 : Kept a b) (h2 : Kept b c) : Kept a c :=
  ⟨h2.1.trans h1.1, h2.2.trans h1.2⟩

theorem scoreMove_kept (move : Nat) (st : SearchState) (v : Int) (st1 : SearchState)
    (h : ScoreMove move st = some (v, st1)) : Kept st st1 := by
  unfold ScoreMove at h
  dsimp only at h
  split at h
  · cases h
  · simp only [Option.some.injEq, Prod.mk.injEq] at h
    rw [← h.2]
    exact ⟨rfl, rfl⟩
  · split at h
    · split at h
      · cases h
      · split at h
        · cases h
        · simp only [Option.some.injEq, Prod.mk.injEq] at h
          rw [← h.2]
          exact kept_refl _
    · split at h
      · split at h
        · simp only [Option.some.injEq, Prod.mk.injEq] at h
          rw [← h.2]
          exact kept_refl _
        · split at h
          · simp only [Option.some.injEq, Prod.mk.injEq] at h
            rw [← h.2]
            exact kept_refl _
          · split at h
            · simp only [Option.some.injEq, Prod.mk.injEq] at h
              rw [← h.2]
              exact kept_refl _
            · cases h
      · cases h

theorem scoreMovesLoop_kept (bestMove : Nat) : ∀ (moves : List Nat) (st : SearchState)
    (scored : List (Int × Nat)) (st1 : SearchState),
    scoreMovesLoop bestMove moves st = some (scored, st1) →
      Kept st st1 ∧ scored.map Prod.snd = moves := by
  intro moves
  induction moves with
  | nil =>
    intro st scored st1 h
    simp only [scoreMovesLoop, Option.some.injEq, Prod.mk.injEq] at h
    rw [← h.1, ← h.2]
    exact ⟨kept_refl _, rfl⟩
  | cons move rest ih =>
    intro st scored st1 h
    unfold scoreMovesLoop at h
    split at h
    · split at h
      · cases h
      · rename_i sc st2 hrec
        simp only [Option.some.injEq, Prod.mk.injEq] at h
        obtain ⟨hk, hm⟩ := ih st sc st2 hrec
        rw [← h.1, ← h.2]
        exact ⟨hk, by rw [List.map_cons, hm]⟩
    · split at h
      · cases h
      · rename_i score st2 hs
        split at h
        · cases h
        · rename_i sc st3 hrec
          simp only [Option.some.injEq, Prod.mk.injEq] at h
          obtain ⟨hk, hm⟩ := ih st2 sc st3 hrec
          rw [← h.1, ← h.2]
          exact ⟨kept_trans (scoreMove_kept move st score st2 hs) hk, by rw [List.map_cons, hm]⟩

theorem bubblePass_perm : ∀ (n : Nat) (l : List (Int × Nat)), List.Perm (bubblePass n l).1 l := by
  intro n
  induction n with
  | zero =>
    intro l
    unfold bubblePass
    exact List.Perm.refl _
  | succ n ih =>
    intro l
    match l with
    | [] => unfold bubblePass; exact List.Perm.refl _
    | [a] => unfold bubblePass; exact List.Perm.refl _
    | a :: b :: rest =>
      unfold bubblePass
      split
      · exact List.Perm.trans (List.Perm.cons b (ih (a :: rest))) (List.Perm.swap a b rest)
      · exact List.Perm.cons a (ih (b :: rest))

theorem bubbleSort_perm : ∀ (k n : Nat) (l : List (Int × Nat)), List.Perm (bubbleSort k n l) l := by
  intro k
  induction k with
  | zero => intro n l; unfold bubbleSort; exact List.Perm.refl _
  | succ k ih =>
    intro n l
    unfold bubbleSort
    split
    · exact List.Perm.trans (ih _ _) (bubblePass_perm n l)
    · exact bubblePass_perm n l

/-- OrderMoves permutes the moves and leaves the position and Ply untouched. -/
theorem orderMoves_spec (moves : List Nat) (bestMove : Nat) (st : SearchState)
    (ordered : List Nat) (st1 : SearchState)
    (h : OrderMoves moves bestMove st = some (ordered, st1)) :
    Kept st st1 ∧ List.Perm ordered moves := by
  unfold OrderMoves at h
  split at h
  · cases h
  · rename_i scored st2 hs
    simp only [Option.some.injEq, Prod.mk.injEq] at h
    obtain ⟨hk, hm⟩ := scoreMovesLoop_kept bestMove moves st scored st2 hs
    rw [← h.1, ← h.2]
    refine ⟨hk, ?_⟩
    have := List.Perm.map Prod.snd (bubbleSort_perm moves.length (moves.length - 1) scored)
    rw [hm] at this
    exact this

theorem enablePVScoreLoop_kept : ∀ (moves : List Nat) (st st1 : SearchState),
    enablePVScoreLoop moves st = some st1 → Kept st st1 := by
  intro moves
  induction moves with
  | nil =>
    intro st st1 h
    simp only [enablePVScoreLoop, Option.some.injEq] at h
    rw [← h]
    exact kept_refl _
  | cons move rest ih =>
    intro st st1 h
    unfold enablePVScoreLoop at h
    split at h
    · split at h
      · have h2 := ih _ _ h
        exact ⟨h2.1, h2.2⟩
      · exact ih _ _ h
    · cases h

theorem enablePVScore_kept (moves : List Nat) (st st1 : SearchState)
    (h : EnablePVScore moves st = some st1) : Kept st st1 := by
  have h2 := enablePVScoreLoop_kept moves _ st1 h
  exact ⟨h2.1, h2.2⟩

theorem copyPVLoop_kept (ply : Nat) : ∀ (n nextPly : Nat) (st st1 : SearchState),
    copyPVLoop ply n nextPly st = some st1 → Kept st st1 := by
  intro n
  induction n with
  | zero =>
    intro nextPly st st1 h
    simp only [copyPVLoop, Option.some.injEq] at h
    rw [← h]
    exact kept_refl _
  | succ n ih =>
    intro nextPly st st1 h
    unfold copyPVLoop at h
    split at h
    · split at h
      · have h2 := ih _ _ _ h
        exact ⟨h2.1, h2.2⟩
      · cases h
    · simp only [Option.some.injEq] at h
      rw [← h]
      exact kept_refl _

theorem raiseAlpha_kept (move : Nat) (depth : Int) (st st1 : SearchState)
    (h : raiseAlpha move depth st = some st1) : Kept st st1 := by
  unfold raiseAlpha at h
  dsimp only at h
  split at h
  · cases h
  · split at h
    · split at h
      · cases h
      · rename_i st2 hc
        simp only [Option.some.injEq] at h
        rw [← h]
        have h2 := copyPVLoop_kept _ _ _ _ _ hc
        exact ⟨h2.1, h2.2⟩
    · cases h

theorem betaCutoff_kept (move bestMove : Nat) (depth value : Int) (st st1 : SearchState)
    (h : betaCutoff move bestMove depth value st = some st1) : Kept st st1 := by
  unfold betaCutoff at h
  dsimp only at h
  split at h
  · split at h
    · simp only [Option.some.injEq] at h
      rw [← h]
      exact ⟨rfl, rfl⟩
    · cases h
  · simp only [Option.some.injEq] at h
    rw [← h]
    exact ⟨rfl, rfl⟩

theorem coreEq_refl (a : Position) : CoreEq a a := ⟨rfl, rfl, rfl, rfl, rfl, rfl⟩

theorem coreEq_trans {a b c : Position} (h1 : CoreEq a b) (h2 : CoreEq b c) : CoreEq a c :=
  ⟨h2.1.trans h1.1, h2.2.1.trans h1.2.1, h2.2.2.1.trans h1.2.2.1,
    h2.2.2.2.1.trans h1.2.2.2.1, h2.2.2.2.2.1.trans h1.2.2.2.2.1,
    h2.2.2.2.2.2.trans h1.2.2.2.2.2⟩

theorem coreEq_consistent {a b : Position} (h : CoreEq a b) (hc : Consistent a) :
    Consistent b := by
  rw [coreEq_eq a b h]
  exact hc

theorem coreEq_generateMoves {a b : Position} (h : CoreEq a b) :
    GenerateMoves b = GenerateMoves a := by
  rw [coreEq_eq a b h]
  rfl

theorem coreEq_unMake {a b r : Position} (h : CoreEq a b) (hu : UnMakeMove a = some r) :
    ∃ r1, UnMakeMove b = some r1 ∧ CoreEq r r1 ∧ r1.RepetitionIndex = b.RepetitionIndex := by
  rw [coreEq_eq a b h, unMakeMove_rep, hu]
  exact ⟨_, rfl, coreEq_refl _, rfl⟩

theorem unMake_repetitionIndex (s r : Position) (h : UnMakeMove s = some r) :
    r.RepetitionIndex = s.RepetitionIndex := by
  unfold UnMakeMove at h
  split at h
  · cases h
  · dsimp only at h
    split at h
    · cases h
    · simp only [Option.map_eq_some'] at h
      obtain ⟨bb, _, rfl⟩ := h
      rfl

theorem frame_refl (a : SearchState) : Frame a a := ⟨coreEq_refl _, rfl, rfl⟩

theorem frame_trans {a b c : SearchState} (h1 : Frame a b) (h2 : Frame b c) : Frame a c :=
  ⟨coreEq_trans h1.1 h2.1, h2.2.1.trans h1.2.1, h2.2.2.trans h1.2.2⟩

theorem frame_of_kept {a b : SearchState} (h : Kept a b) : Frame a b := by
  obtain ⟨h1, h2⟩ := h
  refine ⟨?_, ?_, h2⟩
  · rw [h1]; exact coreEq_refl _
  · rw [h1]

theorem frame_consistent {a b : SearchState} (h : Frame a b) (hc : Consistent a.pos) :
    Consistent b.pos := coreEq_consistent h.1 hc

theorem frame_generateMoves {a b : SearchState} (h : Frame a b) :
    GenerateMoves b.pos = GenerateMoves a.pos := coreEq_generateMoves h.1

theorem enterPly_spec (st sa : SearchState) (h : enterPly st = some sa) :
    CoreEq st.pos sa.pos ∧ sa.pos.RepetitionIndex = st.pos.RepetitionIndex + 1
      ∧ sa.Ply = st.Ply + 1 := by
  unfold enterPly at h
  dsimp only at h
  split at h
  · simp only [Option.some.injEq] at h
    rw [← h]
    exact ⟨coreEq_refl _, rfl, rfl⟩
  · cases h

theorem makeMove_cases (move flag : Nat) (s p : Position) (made : Nat)
    (h : MakeMove move flag s = some (made, p)) :
    (made = 0 ∧ p = s) ∨ (made = 1 ∧ makeMoveAll move s = some p) := by
  unfold MakeMove at h
  split at h
  · simp only [Option.map_eq_some', Prod.mk.injEq] at h
    obtain ⟨s1, h1, h2, h3⟩ := h
    exact Or.inr ⟨h2.symm, by rw [h1, h3]⟩
  · dsimp only at h
    split at h
    · simp only [Option.map_eq_some', Prod.mk.injEq] at h
      obtain ⟨s1, h1, h2, h3⟩ := h
      exact Or.inr ⟨h2.symm, by rw [h1, h3]⟩
    · simp only [Option.some.injEq, Prod.mk.injEq] at h
      exact Or.inl ⟨h.1.symm, h.2.symm⟩

/-- A move that is not made: the state after `Ply--; RepetitionIndex--`. -/
theorem skip_frame (st sa : SearchState) (h : enterPly st = some sa) :
    Frame st (leavePly { sa with pos := sa.pos }) := by
  obtain ⟨h1, h2, h3⟩ := enterPly_spec st sa h
  refine ⟨h1, ?_, ?_⟩
  · show sa.pos.RepetitionIndex - 1 = st.pos.RepetitionIndex
    rw [h2]; omega
  · show sa.Ply - 1 = st.Ply
    rw [h3]; omega

/-- A move that is made, searched and unmade: if the search of the child restores the
position, the state after UnMakeMove and `Ply--; RepetitionIndex--` is the state before
the move. -/
theorem step_frame (st sa sr : SearchState) (l : List Nat) (move : Nat) (pos1 pos2 : Position)
    (hc : Consistent st.pos) (hg : GenerateMoves st.pos = some l) (hm : move ∈ l)
    (he : enterPly st = some sa) (hmk : makeMoveAll move sa.pos = some pos1)
    (hchild : Consistent pos1 → Frame { sa with pos := pos1 } sr)
    (hu : UnMakeMove sr.pos = some pos2) :
    Frame st (leavePly { sr with pos := pos2 }) := by
  obtain ⟨h1, h2, h3⟩ := enterPly_spec st sa he
  have hca : Consistent sa.pos := coreEq_consistent h1 hc
  have hga : GenerateMoves sa.pos = some l := by rw [coreEq_generateMoves h1, hg]
  obtain ⟨s1, hs1, hun, hc1⟩ := generated_step sa.pos hca l hga move hm
  rw [hmk] at hs1
  simp only [Option.some.injEq] at hs1
  subst hs1
  obtain ⟨f1, f2, f3⟩ := hchild hc1
  obtain ⟨r1, hr1, hr2, hr3⟩ := coreEq_unMake f1 hun
  rw [hu] at hr1
  simp only [Option.some.injEq] at hr1
  subst hr1
  have hidx := unMake_repetitionIndex pos1 sa.pos hun
  refine ⟨coreEq_trans h1 hr2, ?_, ?_⟩
  · show pos2.RepetitionIndex - 1 = st.pos.RepetitionIndex
    rw [hr3, f2]
    show pos1.RepetitionIndex - 1 = st.pos.RepetitionIndex
    rw [← hidx, h2]; omega
  · show sr.Ply - 1 = st.Ply
    rw [f3]
    show sa.Ply - 1 = st.Ply
    rw [h3]; omega

theorem step_consistent (st sa : SearchState) (l : List Nat) (move : Nat) (pos1 : Position)
    (hc : Consistent st.pos) (hg : GenerateMoves st.pos = some l) (hm : move ∈ l)
    (he : enterPly st = some sa) (hmk : makeMoveAll move sa.pos = some pos1) :
    Consistent pos1 := by
  obtain ⟨h1, h2, h3⟩ := enterPly_spec st sa he
  have hca : Consistent sa.pos := coreEq_consistent h1 hc
  have hga : GenerateMoves sa.pos = some l := by rw [coreEq_generateMoves h1, hg]
  obtain ⟨s1, hs1, hun, hc1⟩ := generated_step sa.pos hca l hga move hm
  rw [hmk] at hs1
  simp only [Option.some.injEq] at hs1
  subst hs1
  exact hc1

theorem quiescenceLoop_frame (recurse : Int → Int → SearchState → Option (Int × SearchState))
    (hrec : QFrame recurse) (beta : Int) (l : List Nat) :
    ∀ (moves : List Nat) (alpha : Int) (st : SearchState) (v : Int) (st1 : SearchState),
      Consistent st.pos → GenerateMoves st.pos = some l → (∀ m, m ∈ moves → m ∈ l) →
      quiescenceLoop recurse beta moves alpha st = some (v, st1) → Frame st st1 := by
  intro moves
  induction moves with
  | nil =>
    intro alpha st v st1 _ _ _ h
    simp only [quiescenceLoop, Option.some.injEq, Prod.mk.injEq] at h
    rw [← h.2]
    exact frame_refl _
  | cons move rest ih =>
    intro alpha st v st1 hc hg hsub h
    have hrest : ∀ m, m ∈ rest → m ∈ l := fun m hm => hsub m (List.mem_cons_of_mem _ hm)
    unfold quiescenceLoop at h
    split at h
    · cases h
    · rename_i sa he
      split at h
      · cases h
      · rename_i made pos1 hmk
        rcases makeMove_cases _ _ _ _ _ hmk with ⟨h0, hp⟩ | ⟨h1, hall⟩
        · subst hp
          rw [if_pos h0] at h
          have hf := skip_frame st sa he
          exact frame_trans hf (ih _ _ _ _ (frame_consistent hf hc)
            (by rw [frame_generateMoves hf, hg]) hrest h)
        · rw [if_neg (by omega)] at h
          split at h
          · cases h
          · rename_i v1 sr hr
            dsimp only at h
            split at h
            · cases h
            · rename_i pos2 hu
              have hf := step_frame st sa sr l move pos1 pos2 hc hg
                (hsub move (List.mem_cons_self _ _)) he hall
                (fun hc1 => hrec _ _ _ _ _ hc1 hr) hu
              split at h
              · simp only [Option.some.injEq, Prod.mk.injEq] at h
                rw [← h.2]
                exact hf
              · exact frame_trans hf (ih _ _ _ _ (frame_consistent hf hc)
                  (by rw [frame_generateMoves hf, hg]) hrest h)

theorem quiescence_frame : ∀ fuel, QFrame (quiescence fuel) := by
  intro fuel
  induction fuel with
  | zero =>
    intro alpha beta st v st1 _ h
    simp [quiescence] at h
  | succ fuel ih =>
    intro alpha beta st v st1 hc h
    unfold quiescence at h
    dsimp only at h
    split at h
    · simp only [Option.map_eq_some', Prod.mk.injEq] at h
      obtain ⟨_, _, _, h2⟩ := h
      rw [← h2]
      exact ⟨coreEq_refl _, rfl, rfl⟩
    · split at h
      · cases h
      · split at h
        · simp only [Option.some.injEq, Prod.mk.injEq] at h
          rw [← h.2]
          exact ⟨coreEq_refl _, rfl, rfl⟩
        · split at h
          · cases h
          · rename_i children hg
            split at h
            · cases h
            · rename_i ordered st2 ho
              obtain ⟨hk, hperm⟩ := orderMoves_spec _ _ _ _ _ ho
              have hk2 : Kept st st2 := ⟨hk.1, hk.2⟩
              have hf := frame_of_kept hk2
              exact frame_trans hf (quiescenceLoop_frame _ ih beta children ordered _ st2 v st1
                (frame_consistent hf hc) (by rw [frame_generateMoves hf]; exact hg)
                (fun m hm => (List.Perm.mem_iff hperm).1 hm) h)

theorem nullMove_frame (recurse : Int → Int → Int → SearchState → Option (Int × SearchState))
    (hrec : NFrame recurse) (depth beta : Int) (st : SearchState) (v : Int) (st1 : SearchState)
    (hc : Consistent st.pos) (h : nullMove recurse depth beta st = some (v, st1)) :
    Frame st st1 := by
  unfold nullMove at h
  dsimp only at h
  split at h
  · cases h
  · rename_i hashKey _
    split at h
    · cases h
    · rename_i sa he
      split at h
      · cases h
      · rename_i v1 sr hr
        simp only [Option.some.injEq, Prod.mk.injEq] at h
        obtain ⟨h1, h2, h3⟩ := enterPly_spec _ sa he
        have hca : Consistent sa.pos := by
          apply coreEq_consistent h1
          exact ⟨hc.1, hc.2.1, hc.2.2.1, hc.2.2.2.1, hc.2.2.2.2.1, Or.inl rfl⟩
        obtain ⟨f1, f2, f3⟩ := hrec _ _ _ _ _ _ hca hr
        rw [← h.2]
        refine ⟨⟨rfl, rfl, rfl, rfl, rfl, ?_⟩, ?_, ?_⟩
        · show sr.pos.MoveStack = st.pos.MoveStack
          rw [f1.2.2.2.2.2, h1.2.2.2.2.2]
        · show sr.pos.RepetitionIndex - 1 = st.pos.RepetitionIndex
          rw [f2, h2]
          show st.pos.RepetitionIndex + 1 - 1 = st.pos.RepetitionIndex
          omega
        · show sr.Ply - 1 = st.Ply
          rw [f3, h3]
          show st.Ply + 1 - 1 = st.Ply
          omega

theorem searchChild_frame (recurse : Int → Int → Int → SearchState → Option (Int × SearchState))
    (hrec : NFrame recurse) (depth alpha beta movesSearched : Int) (st : SearchState) (v : Int)
    (st1 : SearchState) (hc : Consistent st.pos)
    (h : searchChild recurse depth alpha beta movesSearched st = some (v, st1)) :
    Frame st st1 := by
  unfold searchChild at h
  split at h
  · simp only [Option.map_eq_some', Prod.mk.injEq] at h
    obtain ⟨⟨v1, s1⟩, hr, _, h2⟩ := h
    rw [← h2]
    exact hrec _ _ _ _ _ _ hc hr
  · dsimp only at h
    split at h
    · cases h
    · rename_i score sb hred
      have hfb : Frame st sb := by
        split at hred
        · simp only [Option.map_eq_some', Prod.mk.injEq] at hred
          obtain ⟨⟨v1, s1⟩, hr, _, h2⟩ := hred
          rw [← h2]
          exact hrec _ _ _ _ _ _ hc hr
        · simp only [Option.some.injEq, Prod.mk.injEq] at hred
          rw [← hred.2]
          exact frame_refl _
      split at h
      · split at h
        · cases h
        · rename_i v2 sc hr2
          have hfc : Frame st sc :=
            frame_trans hfb (hrec _ _ _ _ _ _ (frame_consistent hfb hc) hr2)
          split at h
          · simp only [Option.map_eq_some', Prod.mk.injEq] at h
            obtain ⟨⟨v3, s3⟩, hr3, _, h2⟩ := h
            rw [← h2]
            exact frame_trans hfc (hrec _ _ _ _ _ _ (frame_consistent hfc hc) hr3)
          · simp only [Option.some.injEq, Prod.mk.injEq] at h
            rw [← h.2]
            exact hfc
      · simp only [Option.some.injEq, Prod.mk.injEq] at h
        rw [← h.2]
        exact hfb

theorem negamaxLoop_frame (recurse : Int → Int → Int → SearchState → Option (Int × SearchState))
    (hrec : NFrame recurse) (depth beta : Int) (l : List Nat) :
    ∀ (moves : List Nat) (alpha value movesSearched legalMoves hashFlag : Int) (bestMove : Nat)
      (st : SearchState) (v : Int) (st1 : SearchState),
      Consistent st.pos → GenerateMoves st.pos = some l → (∀ m, m ∈ moves → m ∈ l) →
      negamaxLoop recurse depth beta moves alpha value movesSearched legalMoves hashFlag
        bestMove st = some (v, st1) → Frame st st1 := by
  intro moves
  induction moves with
  | nil =>
    intro alpha value movesSearched legalMoves hashFlag bestMove st v st1 _ _ _ h
    unfold negamaxLoop at h
    split at h
    · simp only [Option.some.injEq, Prod.mk.injEq] at h
      rw [← h.2]
      exact frame_refl _
    · simp only [Option.some.injEq, Prod.mk.injEq] at h
      rw [← h.2]
      exact ⟨coreEq_refl _, rfl, rfl⟩
  | cons move rest ih =>
    intro alpha value movesSearched legalMoves hashFlag bestMove st v st1 hc hg hsub h
    have hrest : ∀ m, m ∈ rest → m ∈ l := fun m hm => hsub m (List.mem_cons_of_mem _ hm)
    unfold negamaxLoop at h
    split at h
    · cases h
    · rename_i sa he
      split at h
      · cases h
      · rename_i made pos1 hmk
        rcases makeMove_cases _ _ _ _ _ hmk with ⟨h0, hp⟩ | ⟨h1, hall⟩
        · subst hp
          rw [if_pos h0] at h
          have hf := skip_frame st sa he
          exact frame_trans hf (ih _ _ _ _ _ _ _ _ _ (frame_consistent hf hc)
            (by rw [frame_generateMoves hf, hg]) hrest h)
        · rw [if_neg (by omega)] at h
          dsimp only at h
          split at h
          · cases h
          · rename_i score sr hr
            split at h
            · cases h
            · rename_i pos2 hu
              have hf := step_frame st sa sr l move pos1 pos2 hc hg
                (hsub move (List.mem_cons_self _ _)) he hall
                (fun hc1 => searchChild_frame recurse hrec _ _ _ _ _ _ _ hc1 hr) hu
              have hcf := frame_consistent hf hc
              have hgf : GenerateMoves (leavePly { sr with pos := pos2 }).pos = some l := by
                rw [frame_generateMoves hf, hg]
              split at h
              · split at h
                · cases h
                · rename_i sx hra
                  have hk := raiseAlpha_kept _ _ _ _ hra
                  have hfx : Frame st sx := frame_trans hf (frame_of_kept hk)
                  split at h
                  · simp only [Option.map_eq_some', Prod.mk.injEq] at h
                    obtain ⟨sy, hbc, _, h2⟩ := h
                    rw [← h2]
                    exact frame_trans hfx (frame_of_kept (betaCutoff_kept _ _ _ _ _ _ hbc))
                  · exact frame_trans hfx (ih _ _ _ _ _ _ _ _ _ (frame_consistent hfx hc)
                      (by rw [frame_generateMoves hfx, hg]) hrest h)
              · exact frame_trans hf (ih _ _ _ _ _ _ _ _ _ hcf hgf hrest h)

theorem negamaxBody_frame (recurse : Int → Int → Int → SearchState → Option (Int × SearchState))
    (hrec : NFrame recurse) (depth alpha beta : Int) (bestMove : Nat) (st : SearchState)
    (v : Int) (st1 : SearchState) (hc : Consistent st.pos)
    (h : negamaxBody recurse depth alpha beta bestMove st = some (v, st1)) : Frame st st1 := by
  unfold negamaxBody at h
  dsimp only at h
  split at h
  · cases h
  · rename_i cut sn hnull
    have hfn : Frame st sn := by
      split at hnull
      · simp only [Option.map_eq_some', Prod.mk.injEq] at hnull
        obtain ⟨⟨v1, s1⟩, hr, _, h2⟩ := hnull
        rw [← h2]
        have := nullMove_frame recurse hrec _ _ _ _ _ (by exact hc) hr
        exact ⟨this.1, this.2.1, this.2.2⟩
      · simp only [Option.some.injEq, Prod.mk.injEq] at hnull
        rw [← hnull.2]
        exact ⟨coreEq_refl _, rfl, rfl⟩
    split at h
    · simp only [Option.some.injEq, Prod.mk.injEq] at h
      rw [← h.2]
      exact hfn
    · split at h
      · cases h
      · rename_i children hg
        split at h
        · cases h
        · rename_i sp hpv
          have hfp : Frame st sp := by
            split at hpv
            · exact frame_trans hfn (frame_of_kept (enablePVScore_kept _ _ _ hpv))
            · simp only [Option.some.injEq] at hpv
              rw [← hpv]
              exact hfn
          split at h
          · cases h
          · rename_i ordered so ho
            obtain ⟨hk, hperm⟩ := orderMoves_spec _ _ _ _ _ ho
            have hfo : Frame st so := frame_trans hfp (frame_of_kept hk)
            exact frame_trans hfo (negamaxLoop_frame recurse hrec depth beta children ordered
              _ _ _ _ _ _ so v st1 (frame_consistent hfo hc)
              (by rw [frame_generateMoves hfo, ← frame_generateMoves hfn]; exact hg)
              (fun m hm => (List.Perm.mem_iff hperm).1 hm) h)

theorem negamax_frame : ∀ fuel, NFrame (negamax fuel) := by
  intro fuel
  induction fuel with
  | zero =>
    intro depth alpha beta st v st1 _ h
    simp [negamax] at h
  | succ fuel ih =>
    intro depth alpha beta st v st1 hc h
    unfold negamax at h
    split at h
    · dsimp only at h
      split at h
      · cases h
      · split at h
        · simp only [Option.some.injEq, Prod.mk.injEq] at h
          rw [← h.2]
          exact ⟨coreEq_refl _, rfl, rfl⟩
        · split at h
          · simp only [Option.some.injEq, Prod.mk.injEq] at h
            rw [← h.2]
            exact ⟨coreEq_refl _, rfl, rfl⟩
          · split at h
            · simp only [Option.some.injEq, Prod.mk.injEq] at h
              rw [← h.2]
              exact ⟨coreEq_refl _, rfl, rfl⟩
            · split at h
              · have := quiescence_frame fuel _ _ _ _ _ (by exact hc) h
                exact ⟨this.1, this.2.1, this.2.2⟩
              · split at h
                · simp only [Option.map_eq_some', Prod.mk.injEq] at h
                  obtain ⟨_, _, _, h2⟩ := h
                  rw [← h2]
                  exact ⟨coreEq_refl _, rfl, rfl⟩
                · have := negamaxBody_frame _ ih _ _ _ _ _ _ _ (by exact hc) h
                  exact ⟨this.1, this.2.1, this.2.2⟩
    · cases h
theorem restored_of_frame {a b : SearchState} (h : Frame a b) : Restored a b :=
  ⟨h.1.1, h.1.2.1, h.1.2.2.1, h.1.2.2.2.1, h.1.2.2.2.2.1, h.2.2, h.2.1, h.1.2.2.2.2.2⟩

theorem deepeningLoop_frame (fuel : Nat) : ∀ (n : Nat) (d alpha beta : Int)
    (st st1 : SearchState), Consistent st.pos →
    deepeningLoop fuel n d alpha beta st = some st1 → Frame st st1 := by
  intro n
  induction n with
  | zero =>
    intro d alpha beta st st1 _ h
    simp only [deepeningLoop, Option.some.injEq] at h
    rw [← h]
    exact frame_refl _
  | succ n ih =>
    intro d alpha beta st st1 hc h
    unfold deepeningLoop at h
    dsimp only at h
    split at h
    · cases h
    · rename_i v sa hn
      have hfa0 := negamax_frame fuel _ _ _ _ _ _ (by exact hc) hn
      have hfa : Frame st sa := ⟨hfa0.1, hfa0.2.1, hfa0.2.2⟩
      split at h
      · cases h
      · rename_i value sb hres
        have hfb : Frame st sb := by
          split at hres
          · simp only [Option.map_eq_some', Prod.mk.injEq] at hres
            obtain ⟨⟨v1, s1⟩, hr, _, h2⟩ := hres
            rw [← h2]
            exact frame_trans hfa (negamax_frame fuel _ _ _ _ _ _ (frame_consistent hfa hc) hr)
          · simp only [Option.some.injEq, Prod.mk.injEq] at hres
            rw [← hres.2]
            exact hfa
        split at h
        · exact frame_trans hfb (ih _ _ _ _ _ (frame_consistent hfb hc) h)
        · cases h

/-- SearchPosition ends with the root position on the board and with a BestMove that
GenerateMoves produces for it. -/
theorem searchPosition_spec (fuel : Nat) (depth : Int) (st st1 : SearchState)
    (hc : Consistent st.pos) (l : List Nat) (hg : GenerateMoves st.pos = some l) (hne : l ≠ [])
    (h : SearchPosition fuel depth st = some st1) :
    st1.BestMove ∈ l ∧ CoreEq st.pos st1.pos
      ∧ st1.pos.RepetitionIndex = st.pos.RepetitionIndex := by
  unfold SearchPosition at h
  dsimp only at h
  split at h
  · cases h
  · rename_i sa hd
    have hfa0 := deepeningLoop_frame fuel _ _ _ _ _ _ (by exact hc) hd
    have hca : CoreEq st.pos sa.pos := hfa0.1
    have hia : sa.pos.RepetitionIndex = st.pos.RepetitionIndex := hfa0.2.1
    split at h
    · cases h
    · rename_i moveList hgm
      have hml : moveList = l := by
        have : GenerateMoves sa.pos = some moveList := hgm
        rw [coreEq_generateMoves hca, hg] at this
        exact (Option.some.inj this).symm
      subst hml
      split at h
      · cases h
      · rename_i ordered sb ho
        obtain ⟨hk, hperm⟩ := orderMoves_spec _ _ _ _ _ ho
        have hkp : sb.pos = sa.pos := hk.1
        have hon : ordered ≠ [] := by
          intro he
          rw [he] at hperm
          exact hne (List.Perm.eq_nil (List.Perm.symm hperm))
        by_cases hcond : ¬ decide (sb.BestMove ∈ ordered) = true ∧ ordered.length > 0
        · simp only [if_pos hcond] at h
          split at h
          · simp only [Option.some.injEq] at h
            rw [← h]
            refine ⟨?_, ?_, ?_⟩
            · show ordered.headD 0 ∈ moveList
              cases ordered with
              | nil => exact absurd rfl hon
              | cons a rest => exact (List.Perm.mem_iff hperm).1 (List.mem_cons_self _ _)
            · show CoreEq st.pos sb.pos
              rw [hkp]; exact hca
            · show sb.pos.RepetitionIndex = st.pos.RepetitionIndex
              rw [hkp]; exact hia
          · cases h
        · simp only [if_neg hcond] at h
          split at h
          · simp only [Option.some.injEq] at h
            rw [← h]
            refine ⟨?_, ?_, ?_⟩
            · have hin : sb.BestMove ∈ ordered := by
                by_contra hnot
                apply hcond
                exact ⟨by simpa using hnot, List.length_pos.2 hon⟩
              exact (List.Perm.mem_iff hperm).1 hin
            · rw [hkp]; exact hca
            · rw [hkp]; exact hia
          · cases h

/-- C18: for every consistent position, every depth and every window, when negamax
returns (and likewise when quiescence returns) the piece bitboards, the occupancies, the
side to move, the en-passant square, the hash key, Ply, RepetitionIndex and the move stack
(so also its length) are equal to their values at entry. `fuel` bounds the recursion depth
of the model; the statement holds for every bound. -/
theorem C18_search_restores_position (fuel : Nat) (depth alpha beta : Int) (st : SearchState)
    (hc : Consistent st.pos) :
    (∀ v st1, negamax fuel depth alpha beta st = some (v, st1) → Restored st st1)
    ∧ (∀ v st1, quiescence fuel alpha beta st = some (v, st1) → Restored st st1) :=
  ⟨fun v st1 h => restored_of_frame (negamax_frame fuel depth alpha beta st v st1 hc h),
    fun v st1 h => restored_of_frame (quiescence_frame fuel alpha beta st v st1 hc h)⟩

set_option maxRecDepth 1000000 in
/-- C18 at the position parsed from FenPawnCapture, where negamax to depth 4 and
quiescence both return. -/
theorem C18_search_restores_position_witness :
    (negamax 9 4 (-50000) 50000 (initialSearchState pawnCapturePosition)).isSome = true
    ∧ (quiescence 9 (-50000) 50000 (initialSearchState pawnCapturePosition)).isSome = true
    ∧ (∀ v st1, negamax 9 4 (-50000) 50000 (initialSearchState pawnCapturePosition)
          = some (v, st1) → Restored (initialSearchState pawnCapturePosition) st1)
    ∧ (∀ v st1, quiescence 9 (-50000) 50000 (initialSearchState pawnCapturePosition)
          = some (v, st1) → Restored (initialSearchState pawnCapturePosition) st1) :=
  ⟨by decide!, by decide!,
    C18_search_restores_position 9 4 (-50000) 50000 (initialSearchState pawnCapturePosition)
      (by decide!)⟩

theorem forceNat_eq {α : Type} (x : Nat) (k : Nat → α) : forceNat x k = k x := by
  cases x <;> rfl

theorem getBitF_eq (x sq : Nat) : getBitF x sq = GetBit x sq := rfl

theorem popBitF_eq (x sq : Nat) (h : sq < 64) : popBitF x sq = PopBit x sq := by
  unfold popBitF PopBit
  show x ^^^ (x &&& 1 <<< sq) = _
  rw [Nat.one_shiftLeft, shl64_one sq h, and_two_pow]
  by_cases hb : x.testBit sq = true
  · rw [if_pos hb, if_pos ((getBit_eq_one x sq).2 hb)]
  · rw [if_neg hb, if_neg (fun h1 => hb ((getBit_eq_one x sq).1 h1)), Nat.xor_zero]

theorem setBitF_eq (x sq : Nat) (h : sq < 64) : setBitF x sq = SetBit x sq := by
  unfold setBitF SetBit
  show (x ||| 1 <<< sq) &&& 1099511627775 = _
  rw [Nat.one_shiftLeft, shl64_one sq h]
  rfl

theorem lowBit_eq (x : Nat) : lowBit x = x &&& ((U64 - x) % U64) := rfl

theorem lsbF_eq (x : Nat) (hx : x < 2 ^ 64) :
    lsbF x = (GetLeastSignificantBitIndex x).toNat := by
  unfold lsbF
  rw [forceNat_eq, lowBit_eq]
  by_cases h0 : x = 0
  · subst h0
    rfl
  · obtain ⟨i, hl⟩ := exists_isLowest x h0
    have hi : i < 64 := isLowest_lt x i 64 hx hl
    rw [and_neg_eq x i hx hl, lsb_eq x i hx hl,
      lsb_eq (2 ^ i) i (Nat.pow_lt_pow_right (by decide) hi) (isLowest_two_pow i)]

theorem countBitsLoopF_eq (fuel : Nat) :
    ∀ x c, countBitsLoopF fuel x c = CountBitsLoop fuel x c := by
  induction fuel with
  | zero => intro x c; rfl
  | succ n ih =>
    intro x c
    unfold countBitsLoopF CountBitsLoop
    cases x with
    | zero => rfl
    | succ m =>
      rw [if_pos (Nat.succ_ne_zero m)]
      exact ih _ _

theorem countBitsF_eq (x : Nat) : countBitsF x = CountBits x :=
  countBitsLoopF_eq 64 x 0

theorem countBitsF_length (x : Nat) (hx : x < 2 ^ 64) : countBitsF x = (bitList x).length := by
  rw [countBitsF_eq, countBits_eq x hx]

theorem forBitsF_zero (body : Nat → List Nat) (x : Nat) : forBitsF body 0 x = [] := rfl

theorem forBitsF_succ_zero (body : Nat → List Nat) (n : Nat) : forBitsF body (n + 1) 0 = [] :=
  rfl

theorem forBitsF_succ_succ (body : Nat → List Nat) (n m : Nat) :
    forBitsF body (n + 1) (m + 1)
      = forceNat (lsbF (Nat.succ m)) (fun sq =>
          body sq ++ forBitsF body n (popBitF (Nat.succ m) sq)) := rfl

theorem forBitsF_succ (body : Nat → List Nat) (n x : Nat) (h0 : x ≠ 0) :
    forBitsF body (n + 1) x
      = body (lsbF x) ++ forBitsF body n (popBitF x (lsbF x)) := by
  cases x with
  | zero => exact absurd rfl h0
  | succ m =>
    rw [forBitsF_succ_succ, forceNat_eq]

theorem forBitsF_eq (body : Nat → List Nat) (fuel : Nat) :
    ∀ x, x < 2 ^ 64 → (bitList x).length ≤ fuel →
      forBitsF body fuel x = (bitList x).flatMap body := by
  induction fuel with
  | zero =>
    intro x _ hf
    have : bitList x = [] := List.length_eq_zero.1 (by omega)
    rw [forBitsF_zero, this]
    rfl
  | succ n ih =>
    intro x hx hf
    by_cases h0 : x = 0
    · subst h0
      rw [forBitsF_succ_zero, bitList_zero]
      rfl
    · have hl := lsb_isLowest x hx h0
      have hb := bitList_popBit x _ hx hl
      have h64 : (GetLeastSignificantBitIndex x).toNat < 64 := isLowest_lt _ _ 64 hx hl
      have hlen : (bitList (PopBit x (GetLeastSignificantBitIndex x).toNat)).length ≤ n := by
        rw [hb] at hf
        simpa using hf
      rw [forBitsF_succ _ _ _ h0, lsbF_eq _ hx, popBitF_eq _ _ h64,
        ih _ (popBit_lt _ _ 64 hx) hlen]
      conv_rhs => rw [hb]
      rw [List.flatMap_cons]

theorem forBitsF_eq64 (body : Nat → List Nat) (x : Nat) (hx : x < 2 ^ 64) :
    forBitsF body 64 x = (bitList x).flatMap body :=
  forBitsF_eq body 64 x hx (bitList_length_le x)

theorem forBitsCount_zero (body : Nat → Nat) (x acc : Nat) : forBitsCount body 0 x acc = acc :=
  rfl

theorem forBitsCount_succ_zero (body : Nat → Nat) (n acc : Nat) :
    forBitsCount body (n + 1) 0 acc = acc := rfl

theorem forBitsCount_succ_succ (body : Nat → Nat) (n m acc : Nat) :
    forBitsCount body (n + 1) (m + 1) acc
      = forceNat (lsbF (Nat.succ m)) (fun sq =>
          forceNat (Nat.add acc (body sq)) (fun acc =>
            forBitsCount body n (popBitF (Nat.succ m) sq) acc)) := rfl

theorem forBitsCount_succ (body : Nat → Nat) (n x acc : Nat) (h0 : x ≠ 0) :
    forBitsCount body (n + 1) x acc
      = forBitsCount body n (popBitF x (lsbF x)) (acc + body (lsbF x)) := by
  cases x with
  | zero => exact absurd rfl h0
  | succ m =>
    rw [forBitsCount_succ_succ, forceNat_eq, forceNat_eq]
    rfl

theorem forBitsCount_eq (body : Nat → Nat) (fuel : Nat) :
    ∀ x acc, x < 2 ^ 64 → (bitList x).length ≤ fuel →
      forBitsCount body fuel x acc = acc + ((bitList x).map body).sum := by
  induction fuel with
  | zero =>
    intro x acc _ hf
    have : bitList x = [] := List.length_eq_zero.1 (by omega)
    rw [forBitsCount_zero, this]
    rfl
  | succ n ih =>
    intro x acc hx hf
    by_cases h0 : x = 0
    · subst h0
      rw [forBitsCount_succ_zero, bitList_zero]
      rfl
    · have hl := lsb_isLowest x hx h0
      have hb := bitList_popBit x _ hx hl
      have h64 : (GetLeastSignificantBitIndex x).toNat < 64 := isLowest_lt _ _ 64 hx hl
      have hlen : (bitList (PopBit x (GetLeastSignificantBitIndex x).toNat)).length ≤ n := by
        rw [hb] at hf
        simpa using hf
      rw [forBitsCount_succ _ _ _ _ h0, lsbF_eq _ hx, popBitF_eq _ _ h64,
        ih _ _ (popBit_lt _ _ 64 hx) hlen]
      conv_rhs => rw [hb]
      rw [List.map_cons, List.sum_cons]
      omega

theorem forBitsCount_eq64 (body : Nat → Nat) (x acc : Nat) (hx : x < 2 ^ 64) :
    forBitsCount body 64 x acc = acc + ((bitList x).map body).sum :=
  forBitsCount_eq body 64 x acc hx (bitList_length_le x)

theorem lsb_toNat_lt (x : Nat) (hx : x < 2 ^ 64) : (GetLeastSignificantBitIndex x).toNat < 64 := by
  by_cases h0 : x = 0
  · subst h0
    decide
  · exact isLowest_lt _ _ 64 hx (lsb_isLowest x hx h0)

theorem magicIndexF_eq (occ magic rel : Nat) : magicIndexF occ magic rel = magicIndex occ magic rel :=
  rfl

theorem beq_eq_decide (a b : Nat) : Nat.beq a b = decide (a = b) := by
  by_cases h : a = b
  · subst h; simp
  · simp only [h, decide_False]
    cases hb : Nat.beq a b with
    | false => rfl
    | true => exact absurd (Nat.eq_of_beq_eq_true hb) h

theorem maskBishopAttacks_lt (sq : Nat) : MaskBishopAttacks sq < 2 ^ 40 := and_mask40_lt _
theorem maskRookAttacks_lt (sq : Nat) : MaskRookAttacks sq < 2 ^ 40 := and_mask40_lt _

set_option maxRecDepth 1000000 in
theorem magicOnto_bishop : ∀ sq, sq < 40 → magicOnto BISHOP sq = true := by decide!

set_option maxRecDepth 1000000 in
theorem magicOnto_rook : ∀ sq, sq < 40 → magicOnto ROOK sq = true := by decide!

set_option maxRecDepth 100000 in
theorem raysInner_all : ∀ sq, sq < 40 → (bishopRaysInner sq && rookRaysInner sq) = true := by
  decide!

theorem length_occList (bits : List Nat) :
    ∀ acc, (occList acc bits).length = 2 ^ bits.length := by
  induction bits with
  | nil => intro acc; rfl
  | cons b bs ih =>
    intro acc
    rw [occList, List.length_append, ih, ih, List.length_cons, Nat.pow_succ]
    omega

theorem mem_occList_of_bits (bits : List Nat) :
    ∀ acc x, (∀ t, acc.testBit t = true → x.testBit t = true) →
      (∀ t, x.testBit t = true → acc.testBit t = true ∨ t ∈ bits) → x ∈ occList acc bits := by
  induction bits with
  | nil =>
    intro acc x h1 h2
    rw [occList, List.mem_singleton]
    apply Nat.eq_of_testBit_eq
    intro t
    by_cases hx : x.testBit t = true
    · rcases h2 t hx with h | h
      · rw [hx, h]
      · cases h
    · by_cases ha : acc.testBit t = true
      · exact absurd (h1 t ha) hx
      · simp only [Bool.not_eq_true] at hx ha
        rw [hx, ha]
  | cons b bs ih =>
    intro acc x h1 h2
    rw [occList, List.mem_append]
    by_cases hb : x.testBit b = true
    · right
      apply ih
      · intro t ht
        rw [Nat.testBit_or, Bool.or_eq_true, Nat.testBit_two_pow] at ht
        rcases ht with ht | ht
        · exact h1 t ht
        · have : b = t := by simpa using ht
          subst this
          exact hb
      · intro t ht
        rcases h2 t ht with h | h
        · left
          rw [Nat.testBit_or, h, Bool.true_or]
        · rcases List.mem_cons.1 h with h | h
          · left
            subst h
            rw [Nat.testBit_or, Nat.testBit_two_pow_self, Bool.or_true]
          · exact Or.inr h
    · left
      apply ih _ _ h1
      intro t ht
      rcases h2 t ht with h | h
      · exact Or.inl h
      · rcases List.mem_cons.1 h with h | h
        · subst h
          exact absurd ht hb
        · exact Or.inr h

/-- Every occupancy inside a mask is in the list of the subsets of the mask. -/
theorem submask_mem (mask x : Nat) (hm : mask < 2 ^ 64) (hx : x &&& mask = x) :
    x ∈ occList 0 (bitList mask) := by
  apply mem_occList_of_bits
  · intro t ht
    rw [Nat.zero_testBit] at ht
    cases ht
  · intro t ht
    right
    rw [mem_bitList_of_lt _ _ hm]
    rw [← hx, Nat.testBit_and, Bool.and_eq_true] at ht
    exact ht.2

/-- Every bit of the bitmap of `rippleLoop` that was not there before is the magic index of
an occupancy inside the mask. -/
theorem rippleLoop_sound (magic rel mask notMask : Nat) (fuel : Nat) :
    ∀ n bm j, n &&& mask = n →
      (rippleLoop magic rel mask notMask fuel n bm).testBit j = true →
      bm.testBit j = true ∨ ∃ x, x &&& mask = x ∧ magicIndex x magic rel = j := by
  induction fuel with
  | zero => intro n bm j _ h; exact Or.inl h
  | succ fuel ih =>
    intro n bm j hn h
    unfold rippleLoop at h
    simp only [forceNat_eq] at h
    rcases ih _ _ j (by
        show (Nat.succ (n ||| notMask) &&& mask) &&& mask = Nat.succ (n ||| notMask) &&& mask
        rw [Nat.and_assoc, Nat.and_self]) h with h1 | h1
    · have h2 : (bm ||| 2 ^ magicIndex n magic rel).testBit j = true := by
        rw [← Nat.one_shiftLeft]; exact h1
      rw [Nat.testBit_or, Bool.or_eq_true, Nat.testBit_two_pow] at h2
      rcases h2 with h2 | h2
      · exact Or.inl h2
      · exact Or.inr ⟨n, hn, by simpa using h2⟩
    · exact Or.inr h1

/-- A list as long as the number of indices its elements take is sent to them one to
one. -/
theorem injOn_of_onto (f : Nat → Nat) (l : List Nat)
    (h : ∀ j, j < l.length → ∃ x, x ∈ l ∧ f x = j) :
    ∀ x, x ∈ l → ∀ y, y ∈ l → f x = f y → x = y := by
  have hsub : List.range l.length ⊆ l.map f := by
    intro j hj
    obtain ⟨x, hx, e⟩ := h j (List.mem_range.1 hj)
    exact List.mem_map.2 ⟨x, hx, e⟩
  have hsp : (List.range l.length).Subperm (l.map f) :=
    List.subperm_of_subset (List.nodup_range _) hsub
  have hperm : (List.range l.length).Perm (l.map f) :=
    hsp.perm_of_length_le (by rw [List.length_map, List.length_range])
  have hnd : (l.map f).Nodup := hperm.nodup_iff.1 (List.nodup_range _)
  intro x hx y hy e
  exact List.inj_on_of_nodup_map hnd hx hy e

theorem onto_injective (magic rel mask : Nat) (hm : mask < 2 ^ 64)
    (h : Nat.beq (Nat.succ (rippleLoop magic rel mask (Nat.sub 18446744073709551615 mask)
        (Nat.shiftLeft 1 (countBitsF mask)) 0 0))
      (Nat.shiftLeft 1 (Nat.shiftLeft 1 (countBitsF mask))) = true) :
    ∀ x y, x &&& mask = x → y &&& mask = y →
      magicIndex x magic rel = magicIndex y magic rel → x = y := by
  have h1 := Nat.eq_of_beq_eq_true h
  have hk : Nat.shiftLeft 1 (countBitsF mask) = (occList 0 (bitList mask)).length := by
    rw [length_occList, countBitsF_length mask hm]
    show 1 <<< _ = _
    rw [Nat.one_shiftLeft]
  rw [hk] at h1
  have h2 : rippleLoop magic rel mask (Nat.sub 18446744073709551615 mask)
      (occList 0 (bitList mask)).length 0 0 = 2 ^ (occList 0 (bitList mask)).length - 1 := by
    have h3 : Nat.shiftLeft 1 (occList 0 (bitList mask)).length
        = 2 ^ (occList 0 (bitList mask)).length := by
      show 1 <<< _ = _
      rw [Nat.one_shiftLeft]
    rw [h3] at h1
    have := Nat.succ_inj'.1 (h1.trans (Nat.succ_pred_eq_of_pos (Nat.two_pow_pos _)).symm)
    rw [this]
    rfl
  have honto : ∀ j, j < (occList 0 (bitList mask)).length →
      ∃ x, x ∈ occList 0 (bitList mask) ∧ magicIndex x magic rel = j := by
    intro j hj
    have hb : (rippleLoop magic rel mask (Nat.sub 18446744073709551615 mask)
        (occList 0 (bitList mask)).length 0 0).testBit j = true := by
      rw [h2, Nat.testBit_two_pow_sub_one]
      simpa using hj
    rcases rippleLoop_sound magic rel mask _ _ 0 0 j (Nat.zero_and _) hb with h | ⟨x, hx, e⟩
    · rw [Nat.zero_testBit] at h
      cases h
    · exact ⟨x, submask_mem mask x hm hx, e⟩
  intro x y hx hy e
  exact injOn_of_onto (fun x => magicIndex x magic rel) _ honto x (submask_mem mask x hm hx) y
    (submask_mem mask y hm hy) e

theorem sliderMask_lt (isBishop sq : Nat) : sliderMask isBishop sq < 2 ^ 40 := by
  unfold sliderMask
  split
  · exact maskBishopAttacks_lt sq
  · exact maskRookAttacks_lt sq

/-- The magic numbers are perfect hashes: on the occupancies inside the attack mask of a
square, the magic index is one to one. -/
theorem sliderIndex_injective (isBishop sq : Nat) (hb : isBishop = BISHOP ∨ isBishop = ROOK)
    (hs : sq < 40) (x y : Nat) (hx : x &&& sliderMask isBishop sq = x)
    (hy : y &&& sliderMask isBishop sq = y)
    (e : sliderIndex isBishop sq x = sliderIndex isBishop sq y) : x = y := by
  have hm := Nat.lt_of_lt_of_le (sliderMask_lt isBishop sq) two_pow_40_le_64
  rcases hb with hb | hb <;> subst hb
  · have h := magicOnto_bishop sq hs
    unfold magicOnto at h
    simp only [forceNat_eq] at h
    exact onto_injective _ _ _ hm h x y hx hy e
  · have h := magicOnto_rook sq hs
    unfold magicOnto at h
    simp only [forceNat_eq] at h
    exact onto_injective _ _ _ hm h x y hx hy e

theorem mem_occList_bits (bits : List Nat) :
    ∀ acc x, x ∈ occList acc bits → ∀ t, x.testBit t = true → acc.testBit t = true ∨ t ∈ bits := by
  induction bits with
  | nil =>
    intro acc x hx t ht
    rw [occList, List.mem_singleton] at hx
    subst hx
    exact Or.inl ht
  | cons b bs ih =>
    intro acc x hx t ht
    rw [occList, List.mem_append] at hx
    rcases hx with hx | hx
    · rcases ih acc x hx t ht with h | h
      · exact Or.inl h
      · exact Or.inr (List.mem_cons_of_mem _ h)
    · rcases ih _ x hx t ht with h | h
      · rw [Nat.testBit_or, Bool.or_eq_true, Nat.testBit_two_pow] at h
        rcases h with h | h
        · exact Or.inl h
        · have : b = t := by simpa using h
          subst this
          exact Or.inr (List.mem_cons_self _ _)
      · exact Or.inr (List.mem_cons_of_mem _ h)

/-- The occupancies of the list of subsets of a mask are inside the mask. -/
theorem mem_occList_submask (mask x : Nat) (hm : mask < 2 ^ 64)
    (hx : x ∈ occList 0 (bitList mask)) : x &&& mask = x := by
  apply Nat.eq_of_testBit_eq
  intro t
  rw [Nat.testBit_and]
  by_cases ht : x.testBit t = true
  · rcases mem_occList_bits _ _ _ hx t ht with h | h
    · rw [Nat.zero_testBit] at h
      cases h
    · rw [(mem_bitList_of_lt _ _ hm).1 h, Bool.and_true]
  · simp only [Bool.not_eq_true] at ht
    rw [ht, Bool.false_and]

theorem and_one_shl_ne_zero (index i : Nat) : index &&& (1 <<< i) ≠ 0 ↔ index.testBit i = true := by
  rw [Nat.one_shiftLeft, and_two_pow]
  by_cases h : index.testBit i = true
  · rw [if_pos h]
    exact ⟨fun _ => h, fun _ => Nat.pos_iff_ne_zero.1 (Nat.two_pow_pos i)⟩
  · rw [if_neg h]
    exact ⟨fun h0 => absurd rfl h0, fun h1 => absurd h1 h⟩

theorem setOccupancyLoop_eq_deposit (index : Nat) (n : Nat) :
    ∀ i mask occ, mask < 2 ^ 64 → n = (bitList mask).length →
      SetOccupancyLoop index n i mask occ = depositLoop index i (bitList mask) occ := by
  induction n with
  | zero =>
    intro i mask occ _ hn
    rw [List.length_eq_zero.1 hn.symm]
    rfl
  | succ n ih =>
    intro i mask occ hm hn
    have h0 : mask ≠ 0 := by
      intro h
      rw [h, bitList_zero] at hn
      cases hn
    have hl := lsb_isLowest mask hm h0
    have hb := bitList_popBit mask _ hm hl
    have h64 := lsb_toNat_lt mask hm
    rw [hb] at hn
    unfold SetOccupancyLoop
    dsimp only
    rw [ih _ _ _ (popBit_lt _ _ 64 hm) (by simpa using hn), shl64_one _ h64, hb]
    rfl

theorem depositLoop_mem (index : Nat) (bits : List Nat) :
    ∀ i occ, depositLoop index i bits occ ∈ occList occ bits := by
  induction bits with
  | nil => intro i occ; exact List.mem_singleton.2 rfl
  | cons b bs ih =>
    intro i occ
    rw [depositLoop, occList, List.mem_append]
    by_cases h : index &&& (1 <<< i) ≠ 0
    · rw [if_pos h]
      exact Or.inr (ih _ _)
    · rw [if_neg h]
      exact Or.inl (ih _ _)

theorem depositLoop_congr (index index1 : Nat) (bits : List Nat) :
    ∀ i occ, (∀ j, i ≤ j → index.testBit j = index1.testBit j) →
      depositLoop index i bits occ = depositLoop index1 i bits occ := by
  induction bits with
  | nil => intro i occ _; rfl
  | cons b bs ih =>
    intro i occ h
    rw [depositLoop, depositLoop]
    have e : (if index &&& (1 <<< i) ≠ 0 then occ ||| 2 ^ b else occ)
        = (if index1 &&& (1 <<< i) ≠ 0 then occ ||| 2 ^ b else occ) := by
      by_cases hc : index.testBit i = true
      · rw [if_pos ((and_one_shl_ne_zero _ _).2 hc),
          if_pos ((and_one_shl_ne_zero _ _).2 (by rw [← h i (Nat.le_refl i)]; exact hc))]
      · rw [if_neg (fun hh => hc ((and_one_shl_ne_zero _ _).1 hh)),
          if_neg (fun hh => hc (by rw [h i (Nat.le_refl i)]; exact (and_one_shl_ne_zero _ _).1 hh))]
    rw [e]
    exact ih _ _ (fun j hj => h j (by omega))

/-- Every subset of the squares is the occupancy of an index below two to the number of
the squares. -/
theorem depositLoop_onto (bits : List Nat) :
    ∀ i occ x, x ∈ occList occ bits →
      ∃ index, (∀ j, j < i → index.testBit j = false) ∧ index < 2 ^ (i + bits.length)
        ∧ depositLoop index i bits occ = x := by
  induction bits with
  | nil =>
    intro i occ x hx
    rw [occList, List.mem_singleton] at hx
    exact ⟨0, fun j _ => Nat.zero_testBit j, Nat.two_pow_pos _, hx.symm⟩
  | cons b bs ih =>
    intro i occ x hx
    rw [occList, List.mem_append] at hx
    rcases hx with hx | hx
    · obtain ⟨index, h1, h2, h3⟩ := ih (i + 1) occ x hx
      refine ⟨index, fun j hj => h1 j (by omega), ?_, ?_⟩
      · rw [List.length_cons]
        rw [show i + (bs.length + 1) = i + 1 + bs.length by omega]
        exact h2
      · rw [depositLoop, if_neg, h3]
        rw [and_one_shl_ne_zero, h1 i (by omega)]
        simp
    · obtain ⟨index, h1, h2, h3⟩ := ih (i + 1) (occ ||| 2 ^ b) x hx
      refine ⟨index ||| 2 ^ i, ?_, ?_, ?_⟩
      · intro j hj
        rw [Nat.testBit_or, h1 j (by omega), Nat.testBit_two_pow]
        simp
        omega
      · rw [List.length_cons, show i + (bs.length + 1) = i + 1 + bs.length by omega]
        exact Nat.or_lt_two_pow h2 (Nat.pow_lt_pow_right (by decide) (by omega))
      · rw [depositLoop, if_pos, ← h3]
        · apply depositLoop_congr
          intro j hj
          rw [Nat.testBit_or, Nat.testBit_two_pow]
          have : ¬ i = j := by omega
          simp [this]
        · rw [and_one_shl_ne_zero, Nat.testBit_or, Nat.testBit_two_pow_self, Bool.or_true]

theorem and_mask40_of_lt (x : Nat) (h : x < 2 ^ 40) : x &&& Bitboard40Mask = x := by
  apply Nat.eq_of_testBit_eq
  intro t
  rw [Nat.testBit_and, testBit_mask40]
  by_cases ht : t < 40
  · simp [ht]
  · simp [ht, testBit_false_of_lt x 40 t h (by omega)]

theorem submask_lt (mask x : Nat) (hm : mask < 2 ^ 40) (hx : x &&& mask = x) : x < 2 ^ 40 := by
  rw [← hx]
  exact Nat.lt_of_le_of_lt Nat.and_le_right hm

/-- SetOccupancy with the bit count of the mask gives an occupancy inside the mask. -/
theorem setOccupancy_submask (index mask : Nat) (hm : mask < 2 ^ 40) :
    SetOccupancy index (CountBits mask) mask &&& mask = SetOccupancy index (CountBits mask) mask := by
  have h64 := Nat.lt_of_lt_of_le hm two_pow_40_le_64
  have hmem := depositLoop_mem index (bitList mask) 0 0
  have hsub := mem_occList_submask mask _ h64 hmem
  unfold SetOccupancy
  rw [setOccupancyLoop_eq_deposit index _ 0 mask 0 h64 (countBits_eq mask h64),
    and_mask40_of_lt _ (submask_lt mask _ hm hsub)]
  exact hsub

/-- Every occupancy inside the mask is the one SetOccupancy gives for an index below the
number of subsets. -/
theorem setOccupancy_onto (mask x : Nat) (hm : mask < 2 ^ 40) (hx : x &&& mask = x) :
    ∃ index, index < 1 <<< CountBits mask ∧ SetOccupancy index (CountBits mask) mask = x := by
  have h64 := Nat.lt_of_lt_of_le hm two_pow_40_le_64
  obtain ⟨index, _, h2, h3⟩ := depositLoop_onto (bitList mask) 0 0 x (submask_mem mask x h64 hx)
  refine ⟨index, ?_, ?_⟩
  · rw [Nat.one_shiftLeft, countBits_eq mask h64]
    simpa using h2
  · unfold SetOccupancy
    rw [setOccupancyLoop_eq_deposit index _ 0 mask 0 h64 (countBits_eq mask h64), h3,
      and_mask40_of_lt _ (submask_lt mask _ hm hx)]

theorem initSlidersLoop_succ (isBishop sq k mask n index : Nat) (table : Nat → Nat) :
    InitSlidersLoop isBishop sq k mask (n + 1) index table
      = InitSlidersLoop isBishop sq k mask n (index + 1)
          (fun j => if j = sliderIndex isBishop sq (SetOccupancy index k mask)
            then sliderOnTheFly isBishop sq (SetOccupancy index k mask) else table j) := by
  rw [InitSlidersLoop]
  dsimp only
  unfold sliderIndex sliderOnTheFly
  by_cases h : isBishop = BISHOP
  · rw [if_pos h, if_pos h, if_pos h]
  · rw [if_neg h, if_neg h, if_neg h]

/-- An entry of the table at which InitSlidersAttacks stores nothing is left as it was. -/
theorem initSlidersLoop_miss (isBishop sq k mask j : Nat) (n : Nat) :
    ∀ start table,
      (∀ i, start ≤ i → i < start + n →
        sliderIndex isBishop sq (SetOccupancy i k mask) ≠ j) →
      InitSlidersLoop isBishop sq k mask n start table j = table j := by
  induction n with
  | zero => intro start table _; rfl
  | succ n ih =>
    intro start table h
    rw [initSlidersLoop_succ, ih _ _ (fun i h1 h2 => h i (by omega) (by omega))]
    rw [if_neg (fun e => h start (Nat.le_refl _) (by omega) e.symm)]

/-- When the occupancies that share a magic index share their attack set, every occupancy
InitSlidersAttacks runs over finds its attack set at its index. -/
theorem initSlidersLoop_hit (isBishop sq k mask : Nat) (n : Nat) :
    ∀ start table,
      (∀ i i1, start ≤ i → i < start + n → start ≤ i1 → i1 < start + n →
        sliderIndex isBishop sq (SetOccupancy i k mask)
          = sliderIndex isBishop sq (SetOccupancy i1 k mask) →
        sliderOnTheFly isBishop sq (SetOccupancy i k mask)
          = sliderOnTheFly isBishop sq (SetOccupancy i1 k mask)) →
      ∀ i, start ≤ i → i < start + n →
        InitSlidersLoop isBishop sq k mask n start table
            (sliderIndex isBishop sq (SetOccupancy i k mask))
          = sliderOnTheFly isBishop sq (SetOccupancy i k mask) := by
  induction n with
  | zero => intro start table _ i h1 h2; omega
  | succ n ih =>
    intro start table h i h1 h2
    rw [initSlidersLoop_succ]
    by_cases hi : i = start
    · subst hi
      by_cases hex : ∃ i1, i + 1 ≤ i1 ∧ i1 < i + 1 + n
          ∧ sliderIndex isBishop sq (SetOccupancy i1 k mask)
            = sliderIndex isBishop sq (SetOccupancy i k mask)
      · obtain ⟨i1, a1, a2, a3⟩ := hex
        rw [← a3, ih _ _ (fun x y hx1 hx2 hy1 hy2 => h x y (by omega) (by omega) (by omega)
          (by omega)) i1 a1 a2]
        exact h i1 i (by omega) (by omega) (by omega) (by omega) a3
      · rw [initSlidersLoop_miss _ _ _ _ _ _ _ _ (fun i1 b1 b2 e => hex ⟨i1, b1, b2, e⟩)]
        rw [if_pos rfl]
    · exact ih _ _ (fun x y hx1 hx2 hy1 hy2 => h x y (by omega) (by omega) (by omega)
        (by omega)) i (by omega) (by omega)

theorem rayLoop_cond_false (cond : Int → Int → Bool) (dr df : Int) (stop : Bool) (block : Nat)
    (fuel : Nat) (r f : Int) (attacks : Nat) (h : cond r f = false) :
    rayLoop cond dr df stop block fuel r f attacks = attacks := by
  cases fuel with
  | zero => rfl
  | succ n =>
    rw [rayLoop, if_neg]
    rw [h]
    decide

theorem shl64_and_mask (t block mask : Nat) (h : mask.testBit t = true) (hm : mask < 2 ^ 64) :
    (shl64 1 t &&& (block &&& mask) ≠ 0) ↔ (shl64 1 t &&& block ≠ 0) := by
  have ht : t < 64 := lt_of_testBit_lt mask 64 t hm h
  rw [shl64_one t ht, Nat.and_comm, and_two_pow, Nat.and_comm (2 ^ t), and_two_pow,
    Nat.testBit_and, h, Bool.and_true]

/-- A ray that stops at the first blocker is the same for an occupancy and for its part
inside the mask, as long as the squares after which the ray goes on are in the mask. -/
theorem rayLoop_mask (cond : Int → Int → Bool) (dr df : Int) (block mask : Nat)
    (hm : mask < 2 ^ 64) (fuel : Nat) :
    ∀ r f attacks, rayInner cond dr df mask fuel r f = true →
      rayLoop cond dr df true block fuel r f attacks
        = rayLoop cond dr df true (block &&& mask) fuel r f attacks := by
  induction fuel with
  | zero => intro r f attacks _; rfl
  | succ n ih =>
    intro r f attacks h
    rw [rayLoop, rayLoop]
    by_cases hc : cond r f = true
    · rw [if_pos hc, if_pos hc]
      dsimp only
      by_cases hn : cond (r + dr) (f + df) = true
      · rw [rayInner, if_pos ⟨hc, hn⟩, Bool.and_eq_true] at h
        have e := shl64_and_mask (r * 5 + f).toNat block mask h.1 hm
        by_cases hb : shl64 1 (r * 5 + f).toNat &&& block ≠ 0
        · rw [if_pos ⟨rfl, hb⟩, if_pos ⟨rfl, e.2 hb⟩]
        · rw [if_neg (fun x => hb x.2), if_neg (fun x => hb (e.1 x.2))]
          exact ih _ _ _ h.2
      · simp only [Bool.not_eq_true] at hn
        rw [rayLoop_cond_false _ _ _ _ _ _ _ _ _ hn, rayLoop_cond_false _ _ _ _ _ _ _ _ _ hn]
        simp only [ite_self]
    · rw [if_neg hc, if_neg hc]

theorem bishopOnTheFly_mask (sq occ : Nat) (hs : sq < 40) :
    BishopAttacksOnTheFly sq occ = BishopAttacksOnTheFly sq (occ &&& MaskBishopAttacks sq) := by
  have h := raysInner_all sq hs
  rw [Bool.and_eq_true] at h
  have hb := h.1
  unfold bishopRaysInner at hb
  simp only [Bool.and_eq_true] at hb
  obtain ⟨⟨⟨h1, h2⟩, h3⟩, h4⟩ := hb
  have hm := Nat.lt_of_lt_of_le (maskBishopAttacks_lt sq) two_pow_40_le_64
  unfold BishopAttacksOnTheFly
  simp only []
  rw [rayLoop_mask _ _ _ occ _ hm 8 _ _ _ h1, rayLoop_mask _ _ _ occ _ hm 8 _ _ _ h2,
    rayLoop_mask _ _ _ occ _ hm 8 _ _ _ h3, rayLoop_mask _ _ _ occ _ hm 8 _ _ _ h4]

theorem rookOnTheFly_mask (sq occ : Nat) (hs : sq < 40) :
    RookAttacksOnTheFly sq occ = RookAttacksOnTheFly sq (occ &&& MaskRookAttacks sq) := by
  have h := raysInner_all sq hs
  rw [Bool.and_eq_true] at h
  have hb := h.2
  unfold rookRaysInner at hb
  simp only [Bool.and_eq_true] at hb
  obtain ⟨⟨⟨h1, h2⟩, h3⟩, h4⟩ := hb
  have hm := Nat.lt_of_lt_of_le (maskRookAttacks_lt sq) two_pow_40_le_64
  unfold RookAttacksOnTheFly
  simp only []
  rw [rayLoop_mask _ _ _ occ _ hm 8 _ _ _ h1, rayLoop_mask _ _ _ occ _ hm 8 _ _ _ h2,
    rayLoop_mask _ _ _ occ _ hm 8 _ _ _ h3, rayLoop_mask _ _ _ occ _ hm 8 _ _ _ h4]

/-- The table InitSlidersAttacks fills holds, at the magic index of an occupancy inside the
mask, the on-the-fly attack set of that occupancy. -/
theorem initSlidersAttacks_lookup (isBishop sq : Nat) (hb : isBishop = BISHOP ∨ isBishop = ROOK)
    (hs : sq < 40) (x : Nat) (hx : x &&& sliderMask isBishop sq = x) :
    InitSlidersAttacks isBishop sq (sliderIndex isBishop sq x) = sliderOnTheFly isBishop sq x := by
  have hm := sliderMask_lt isBishop sq
  obtain ⟨index, hi, hocc⟩ := setOccupancy_onto _ x hm hx
  have key := initSlidersLoop_hit isBishop sq (CountBits (sliderMask isBishop sq))
    (sliderMask isBishop sq) (1 <<< CountBits (sliderMask isBishop sq)) 0 (fun _ => 0)
    (fun i i1 _ _ _ _ e => by
      rw [sliderIndex_injective isBishop sq hb hs _ _ (setOccupancy_submask i _ hm)
        (setOccupancy_submask i1 _ hm) e])
    index (Nat.zero_le _) (by omega)
  rw [hocc] at key
  exact key

theorem magicIndex_lt (occ magic rel : Nat) (h : rel ≤ 64) : magicIndex occ magic rel < 2 ^ rel := by
  unfold magicIndex
  rw [Nat.shiftRight_eq_div_pow, Nat.div_lt_iff_lt_mul (Nat.two_pow_pos _), ← Nat.pow_add,
    show rel + (64 - rel) = 64 by omega]
  exact Nat.mod_lt _ (Nat.two_pow_pos 64)

theorem bishopRelevant_le : ∀ sq, sq < 40 → BishopRelevantOccupancyCount.getD sq 0 ≤ 9 := by
  decide

theorem rookRelevant_le : ∀ sq, sq < 40 → RookRelevantOccupancyCount.getD sq 0 ≤ 12 := by
  decide

theorem getBishopAttacks_onTheFly (sq occ : Nat) (hs : sq < 40) :
    GetBishopAttacks sq occ = some (BishopAttacksOnTheFly sq (occ &&& MaskBishopAttacks sq)) := by
  have h := initSlidersAttacks_lookup BISHOP sq (Or.inl rfl) hs (occ &&& MaskBishopAttacks sq)
    (by show occ &&& MaskBishopAttacks sq &&& MaskBishopAttacks sq = _
        rw [Nat.and_assoc, Nat.and_self])
  unfold GetBishopAttacks
  rw [if_pos hs]
  exact congrArg some h

theorem getRookAttacks_onTheFly (sq occ : Nat) (hs : sq < 40) :
    GetRookAttacks sq occ = some (RookAttacksOnTheFly sq (occ &&& MaskRookAttacks sq)) := by
  have h := initSlidersAttacks_lookup ROOK sq (Or.inr rfl) hs (occ &&& MaskRookAttacks sq)
    (by show occ &&& MaskRookAttacks sq &&& MaskRookAttacks sq = _
        rw [Nat.and_assoc, Nat.and_self])
  unfold GetRookAttacks
  rw [if_pos hs]
  exact congrArg some h

theorem sliderAttacksF_bishop (sq occ : Nat) (h : sq < 40) :
    GetBishopAttacks sq occ = some (sliderAttacksF BISHOP sq occ) := by
  rw [getBishopAttacks_onTheFly sq occ h]
  unfold sliderAttacksF
  simp only [forceNat_eq]
  rfl

theorem sliderAttacksF_rook (sq occ : Nat) (h : sq < 40) :
    GetRookAttacks sq occ = some (sliderAttacksF ROOK sq occ) := by
  rw [getRookAttacks_onTheFly sq occ h]
  unfold sliderAttacksF
  simp only [forceNat_eq]
  rfl

theorem cond_ble {α : Type} (a b : Nat) (x y : α) :
    cond (Nat.ble a b) x y = if a ≤ b then x else y := by
  by_cases h : a ≤ b
  · rw [if_pos h, Nat.ble_eq_true_of_le h]; rfl
  · rw [if_neg h]
    cases hb : Nat.ble a b with
    | false => rfl
    | true => exact absurd (Nat.le_of_ble_eq_true hb) h

theorem cond_beq {α : Type} (a b : Nat) (x y : α) :
    cond (Nat.beq a b) x y = if a = b then x else y := by
  rw [beq_eq_decide]
  by_cases h : a = b
  · rw [if_pos h, decide_eq_true h]; rfl
  · rw [if_neg h, decide_eq_false h]; rfl

theorem boardOf_get (bb : Nat → Nat) (ep stm p : Nat) (hp : p < 6) :
    (boardOf bb ep stm).get p = bb p := by
  interval_cases p <;> rfl

theorem boardOf_set (bb : Nat → Nat) (ep stm p v : Nat) (hp : p < 6) :
    (boardOf bb ep stm).set p v = boardOf (setAt bb p v) ep stm := by
  interval_cases p <;> rfl

theorem board_strict_eq {α : Type} (b : Board) (k : Board → α) : b.strict k = k b := by
  unfold Board.strict
  simp only [forceNat_eq]

theorem whitePawnMoves_eq (s : Position) (hs : s.SideToMove = WHITE) (src : Nat)
    (h : src < 40) :
    whitePawnMoves s src
      = some (whitePawnMovesF (s.Occupancies BLACK) (s.Occupancies BOTH) src) := by
  have hpa : PawnAttacks s.SideToMove src = some (MaskPawnAttacks WHITE src) := by
    rw [hs]; unfold PawnAttacks; rw [if_pos ⟨by decide, h⟩]
  have hlt : MaskPawnAttacks WHITE src &&& s.Occupancies BLACK < 2 ^ 64 :=
    lt_of_le_of_lt Nat.and_le_left
      (lt_trans (maskPawnAttacks_lt _ _) (by decide))
  have h5 : ((src : Int) - 5).toNat = src - 5 := by omega
  have h10 : ((src : Int) - 5 - 5).toNat = src - 10 := by omega
  unfold whitePawnMoves whitePawnMovesF
  simp only [hpa]
  rw [forBits_eq64 _ _ hlt]
  show _ = some (_ ++ forBitsF _ 64 (MaskPawnAttacks WHITE src &&& s.Occupancies BLACK))
  rw [forBitsF_eq64 _ _ hlt]
  simp only [cond_ble, cond_beq, getBitF_eq, h5, h10, Nat.sub_eq]
  have hbody : (fun targetSquare =>
        if src ≥ A7 ∧ src ≤ E7 then
          some (promotionPieces.map
            (fun i => EncodeMove src targetSquare WhitePawn i BlackPawn 0 0))
        else some [EncodeMove src targetSquare WhitePawn NoPiece BlackPawn 0 0])
      = fun targetSquare => some (
        if 5 ≤ src then
          if src ≤ 9 then
            promotionPieces.map (fun i => EncodeMove src targetSquare WhitePawn i BlackPawn 0 0)
          else [EncodeMove src targetSquare WhitePawn NoPiece BlackPawn 0 0]
        else [EncodeMove src targetSquare WhitePawn NoPiece BlackPawn 0 0]) := by
    funext t
    by_cases a : 5 ≤ src
    · by_cases b : src ≤ 9
      · rw [if_pos ⟨a, b⟩, if_pos a, if_pos b]
      · rw [if_neg (fun hh => b hh.2), if_pos a, if_neg b]
    · rw [if_neg (fun hh => a hh.1), if_neg a]
  rw [hbody, flatMapOpt_some]
  simp only [Option.some.injEq]
  congr 1
  by_cases a : 5 ≤ src
  · have a1 : ¬ ((src : Int) - 5 < ((A8 : Nat) : Int)) := by
      show ¬ ((src : Int) - 5 < ((0 : Nat) : Int)); omega
    by_cases g : GetBit (s.Occupancies BOTH) (src - 5) = 0
    · rw [if_pos ⟨a1, g⟩, if_pos a, if_pos g]
      by_cases b : src ≤ 9
      · rw [if_pos ⟨a, b⟩, if_pos b]
      · rw [if_neg (fun hh => b hh.2), if_neg b]
        congr 1
        by_cases c : 30 ≤ src
        · by_cases d : src ≤ 34
          · by_cases e : GetBit (s.Occupancies BOTH) (src - 10) = 0
            · rw [if_pos ⟨c, d, e⟩, if_pos c, if_pos d, if_pos e]
            · rw [if_neg (fun hh => e hh.2.2), if_pos c, if_pos d, if_neg e]
          · rw [if_neg (fun hh => d hh.2.1), if_pos c, if_neg d]
        · rw [if_neg (fun hh => c hh.1), if_neg c]
    · rw [if_neg (fun hh => g hh.2), if_pos a, if_neg g]
  · have a1 : ((src : Int) - 5 < ((A8 : Nat) : Int)) := by
      show ((src : Int) - 5 < ((0 : Nat) : Int)); omega
    rw [if_neg (fun hh => hh.1 a1), if_neg a]

theorem whitePieceMoves_eq (s : Position) (piece src a : Nat) :
    whitePieceMoves s piece src (some a)
      = some (whitePieceMovesF (s.Occupancies WHITE) (s.Occupancies BLACK) piece src a) := by
  have hlt : a &&& (U64 - 1 - s.Occupancies WHITE) < 2 ^ 64 :=
    lt_of_le_of_lt Nat.and_le_right (by show 2 ^ 64 - 1 - _ < 2 ^ 64; omega)
  unfold whitePieceMoves whitePieceMovesF
  simp only []
  rw [forBits_eq64 _ _ hlt]
  show _ = some (forBitsF _ 64 (a &&& (U64 - 1 - s.Occupancies WHITE)))
  rw [forBitsF_eq64 _ _ hlt]
  simp only [cond_beq, getBitF_eq]
  have hbody : (fun targetSquare =>
        if GetBit (s.Occupancies BLACK) targetSquare = 0 then
          some [EncodeMove src targetSquare piece NoPiece NoPiece 0 0]
        else some [EncodeMove src targetSquare piece NoPiece BlackPawn 0 0])
      = fun targetSquare => some (
        if GetBit (s.Occupancies BLACK) targetSquare = 0 then
          [EncodeMove src targetSquare piece NoPiece NoPiece 0 0]
        else [EncodeMove src targetSquare piece NoPiece BlackPawn 0 0]) := by
    funext t
    split_ifs <;> rfl
  rw [hbody, flatMapOpt_some]

theorem capturedWhitePiece_eq (bb : Nat → Nat) (ep stm tgt : Nat) :
    capturedWhitePieceF (boardOf bb ep stm) tgt = capturedWhitePiece bb tgt := by
  unfold capturedWhitePieceF capturedWhitePiece boardOf
  simp only [cond_beq, getBitF_eq]

theorem blackPawnMoves_eq (s : Position) (hc : Consistent s) (hs : s.SideToMove = BLACK)
    (src : Nat) (h : src < 40) :
    blackPawnMoves s src
      = some (blackPawnMovesF (toBoard s) (s.Occupancies WHITE) (s.Occupancies BOTH) src) := by
  have hpa : PawnAttacks s.SideToMove src = some (MaskPawnAttacks BLACK src) := by
    rw [hs]; unfold PawnAttacks; rw [if_pos ⟨by decide, h⟩]
  have hlt : MaskPawnAttacks BLACK src &&& s.Occupancies WHITE < 2 ^ 64 :=
    lt_of_le_of_lt Nat.and_le_left
      (lt_trans (maskPawnAttacks_lt _ _) (by decide))
  unfold blackPawnMoves blackPawnMovesF
  simp only [hpa]
  rw [forBits_eq64 _ _ hlt, flatMapOpt_some]
  show _ = some (_ ++ (forBitsF _ 64 (MaskPawnAttacks BLACK src &&& s.Occupancies WHITE) ++ _))
  rw [forBitsF_eq64 _ _ hlt]
  have hcap : (fun tgt => [EncodeMove src tgt BlackPawn NoPiece
        (capturedWhitePieceF (toBoard s) tgt) 0 0])
      = fun tgt => [EncodeMove src tgt BlackPawn NoPiece
        (capturedWhitePiece s.Bitboards tgt) 0 0] := by
    funext t
    unfold toBoard
    rw [capturedWhitePiece_eq]
  rw [hcap]
  have hq : (if ¬ (src + 5 > E1) ∧ GetBit (s.Occupancies BOTH) (src + 5) = 0 then
        [EncodeMove src (src + 5) BlackPawn NoPiece NoPiece 0 0] else [])
      = cond (Nat.ble (Nat.add src 5) 39)
          (cond (Nat.beq (getBitF (s.Occupancies BOTH) (Nat.add src 5)) 0)
            [EncodeMove src (Nat.add src 5) BlackPawn NoPiece NoPiece 0 0] [])
          [] := by
    simp only [cond_ble, cond_beq, getBitF_eq, Nat.add_eq]
    by_cases a : src + 5 ≤ 39
    · by_cases g : GetBit (s.Occupancies BOTH) (src + 5) = 0
      · rw [if_pos ⟨by show ¬ (src + 5 > 39); omega, g⟩, if_pos a, if_pos g]
      · rw [if_neg (fun hh => g hh.2), if_pos a, if_neg g]
    · rw [if_neg (fun hh => hh.1 (by show src + 5 > 39; omega)), if_neg a]
  rw [hq]
  generalize (cond (Nat.ble (Nat.add src 5) 39)
          (cond (Nat.beq (getBitF (s.Occupancies BOTH) (Nat.add src 5)) 0)
            [EncodeMove src (Nat.add src 5) BlackPawn NoPiece NoPiece 0 0] [])
          []) = Q
  generalize ((bitList (MaskPawnAttacks BLACK src &&& s.Occupancies WHITE)).flatMap
    (fun tgt => [EncodeMove src tgt BlackPawn NoPiece
        (capturedWhitePiece s.Bitboards tgt) 0 0])) = C
  have hw : (toBoard s).wp = s.Bitboards WhitePawn := rfl
  rw [hw]
  simp only []
  rcases hc.2.2.2.2.2 with hep | ⟨h25, h29, _⟩
  · have e40 : (toBoard s).ep = 40 := by
      show s.EnPassantSquare.toNat = 40
      rw [hep]; rfl
    rw [e40, if_neg (not_not.mpr hep)]
    show some (Q ++ C) = some (Q ++ (C ++ []))
    rw [List.append_nil]
  · obtain ⟨n, hn⟩ : ∃ n : Nat, s.EnPassantSquare = (n : Int) :=
      ⟨s.EnPassantSquare.toNat, by omega⟩
    have en : (toBoard s).ep = n := by
      show s.EnPassantSquare.toNat = n
      rw [hn]; rfl
    have hn25 : 25 ≤ n := by omega
    have hn29 : n ≤ 29 := by omega
    have hne : s.EnPassantSquare ≠ ((NoSquare : Nat) : Int) := by
      rw [hn]; show (n : Int) ≠ ((40 : Nat) : Int); omega
    have hnn : ¬ s.EnPassantSquare < 0 := by omega
    have hn5 : ¬ s.EnPassantSquare - 5 < 0 := by omega
    have t1 : s.EnPassantSquare.toNat = n := by rw [hn]; rfl
    have t2 : (s.EnPassantSquare - 5).toNat = n - 5 := by omega
    have s1 : shl64 1 n = 2 ^ n := shl64_one n (by omega)
    have s2 : shl64 1 (n - 5) = 2 ^ (n - 5) := shl64_one (n - 5) (by omega)
    have s3 : Nat.shiftLeft 1 n = 2 ^ n := by
      show 1 <<< n = 2 ^ n
      rw [Nat.one_shiftLeft]
    have s4 : Nat.shiftLeft 1 (Nat.sub n 5) = 2 ^ (n - 5) := by
      show 1 <<< (n - 5) = 2 ^ (n - 5)
      rw [Nat.one_shiftLeft]
    have hlt2 : MaskPawnAttacks BLACK src &&& 2 ^ n < 2 ^ 64 :=
      lt_of_le_of_lt Nat.and_le_left
        (lt_trans (maskPawnAttacks_lt _ _) (by decide))
    rw [en, if_pos hne, if_neg hnn, t1, t2, s1, s2, s3, s4, if_neg hn5]
    have l1 : Nat.land (MaskPawnAttacks BLACK src) (2 ^ n) = MaskPawnAttacks BLACK src &&& 2 ^ n :=
      rfl
    have l2 : Nat.land (2 ^ (n - 5)) (s.Bitboards WhitePawn)
        = 2 ^ (n - 5) &&& s.Bitboards WhitePawn := rfl
    rw [l1, l2, lsbF_eq _ hlt2]
    simp only [cond_beq]
    have hb40 : ¬ (n = 40) := by omega
    rw [if_neg hb40]
    by_cases a : MaskPawnAttacks BLACK src &&& 2 ^ n = 0
    · rw [if_neg (not_not.mpr a), if_pos a, List.append_nil]
    · rw [if_pos a, if_neg a]
      by_cases b : 2 ^ (n - 5) &&& s.Bitboards WhitePawn = 0
      · rw [if_neg (not_not.mpr b), if_pos b, List.append_nil]
      · rw [if_pos b, if_neg b, List.append_assoc]

theorem mem_bitList_lt40 (x i : Nat) (hx : x < 2 ^ 40) (hi : i ∈ bitList x) : i < 40 :=
  lt_of_testBit_lt x 40 i hx ((mem_bitList x i).mp hi).2

theorem whiteAttackSet_eq (s : Position) (p sq : Nat) (h : sq < 40) :
    whiteAttackSet s p sq = some (
      if p = WhiteKnight then MaskKnightAttacks sq
      else if p = WhiteKing then MaskKingAttacks sq
      else if p = WhiteBishop then sliderAttacksF BISHOP sq (s.Occupancies BOTH)
      else sliderAttacksF ROOK sq (s.Occupancies BOTH)) := by
  unfold whiteAttackSet
  split_ifs
  · unfold KnightAttacks; rw [if_pos h]
  · unfold KingAttacks; rw [if_pos h]
  · exact sliderAttacksF_bishop sq _ h
  · exact sliderAttacksF_rook sq _ h

theorem whitePieces_eq (s : Position) (p : Nat)
    (hb : s.Bitboards p < 2 ^ 40) (att : Nat → Nat)
    (hatt : ∀ sq, sq < 40 → whiteAttackSet s p sq = some (att sq)) :
    flatMapOpt (fun sq => whitePieceMoves s p sq (whiteAttackSet s p sq))
        (bitList (s.Bitboards p))
      = some (forBitsF (fun sq => whitePieceMovesF (s.Occupancies WHITE) (s.Occupancies BLACK)
          p sq (att sq)) 64 (s.Bitboards p)) := by
  rw [forBitsF_eq64 _ _ (lt_trans hb (by decide)), ← flatMapOpt_some]
  apply flatMapOpt_congr
  intro sq hsq
  rw [hatt sq (mem_bitList_lt40 _ _ hb hsq), whitePieceMoves_eq]

theorem generateMovesLoop_fast (s : Position) (hc : Consistent s) (hs : s.SideToMove < 2) :
    generateMovesLoop s 6 WhitePawn = some (generateMovesF (toBoard s)) := by
  have hW : Nat.lor (Nat.lor (Nat.lor (Nat.lor (toBoard s).wp (toBoard s).wn) (toBoard s).wb)
      (toBoard s).wr) (toBoard s).wk = s.Occupancies WHITE := hc.2.2.1.symm
  have hB : (toBoard s).bp = s.Occupancies BLACK := hc.2.2.2.1.symm
  have hBoth : Nat.lor (s.Occupancies WHITE) (s.Occupancies BLACK) = s.Occupancies BOTH :=
    hc.2.2.2.2.1.symm
  unfold generateMovesF
  rw [forceNat_eq, hW, forceNat_eq, hB, hBoth, cond_beq]
  rw [generateMovesLoop_eq]
  show flatMapOpt (generatePieceMoves s) [0, 1, 2, 3, 4, 5] = _
  by_cases hw : s.SideToMove = WHITE
  · have hstm : (toBoard s).stm = 0 := hw
    have e0 : flatMapOpt (whitePawnMoves s) (bitList (s.Bitboards 0))
        = some (forBitsF (whitePawnMovesF (s.Occupancies BLACK) (s.Occupancies BOTH)) 64
            (s.Bitboards 0)) := by
      rw [forBitsF_eq64 _ _ (hc.lt64 0 (by decide)), ← flatMapOpt_some]
      apply flatMapOpt_congr
      intro sq hsq
      exact whitePawnMoves_eq s hw sq (mem_bitList_lt40 _ _ (hc.lt40 0 (by decide)) hsq)
    have g0 : generatePieceMoves s 0
        = some (forBitsF (whitePawnMovesF (s.Occupancies BLACK) (s.Occupancies BOTH)) 64
            (s.Bitboards 0)) := by
      rw [generatePieceMoves_eq s 0 (by decide) (hc.lt64 0 (by decide)), if_pos hw, if_pos rfl]
      exact e0
    have g1 : generatePieceMoves s 1
        = some (forBitsF (fun sq => whitePieceMovesF (s.Occupancies WHITE)
        (s.Occupancies BLACK) 1 sq (MaskKnightAttacks sq)) 64 (s.Bitboards 1)) := by
      rw [generatePieceMoves_eq s 1 (by decide) (hc.lt64 1 (by decide)), if_pos hw,
        if_neg (by decide), if_neg (by decide)]
      exact whitePieces_eq s 1 (hc.lt40 1 (by decide))
        MaskKnightAttacks (fun sq h => whiteAttackSet_eq s 1 sq h)
    have g2 : generatePieceMoves s 2
        = some (forBitsF (fun sq => whitePieceMovesF (s.Occupancies WHITE)
        (s.Occupancies BLACK) 2 sq (sliderAttacksF BISHOP sq (s.Occupancies BOTH))) 64 (s.Bitboards 2)) := by
      rw [generatePieceMoves_eq s 2 (by decide) (hc.lt64 2 (by decide)), if_pos hw,
        if_neg (by decide), if_neg (by decide)]
      exact whitePieces_eq s 2 (hc.lt40 2 (by decide))
        (fun sq => sliderAttacksF BISHOP sq (s.Occupancies BOTH))
        (fun sq h => whiteAttackSet_eq s 2 sq h)
    have g3 : generatePieceMoves s 3
        = some (forBitsF (fun sq => whitePieceMovesF (s.Occupancies WHITE)
        (s.Occupancies BLACK) 3 sq (sliderAttacksF ROOK sq (s.Occupancies BOTH))) 64 (s.Bitboards 3)) := by
      rw [generatePieceMoves_eq s 3 (by decide) (hc.lt64 3 (by decide)), if_pos hw,
        if_neg (by decide), if_neg (by decide)]
      exact whitePieces_eq s 3 (hc.lt40 3 (by decide))
        (fun sq => sliderAttacksF ROOK sq (s.Occupancies BOTH))
        (fun sq h => whiteAttackSet_eq s 3 sq h)
    have g4 : generatePieceMoves s 4
        = some (forBitsF (fun sq => whitePieceMovesF (s.Occupancies WHITE)
        (s.Occupancies BLACK) 4 sq (MaskKingAttacks sq)) 64 (s.Bitboards 4)) := by
      rw [generatePieceMoves_eq s 4 (by decide) (hc.lt64 4 (by decide)), if_pos hw,
        if_neg (by decide), if_neg (by decide)]
      exact whitePieces_eq s 4 (hc.lt40 4 (by decide))
        MaskKingAttacks (fun sq h => whiteAttackSet_eq s 4 sq h)
    have g5 : generatePieceMoves s 5 = some [] := by
      rw [generatePieceMoves_eq s 5 (by decide) (hc.lt64 5 (by decide)), if_pos hw,
        if_neg (by decide), if_pos rfl]
    simp only [flatMapOpt, g0, g1, g2, g3, g4, g5, if_pos hstm, List.append_nil]
    rfl
  · have hb : s.SideToMove = BLACK := by
      show s.SideToMove = 1
      have : s.SideToMove ≠ 0 := hw
      omega
    have hstm : ¬ ((toBoard s).stm = 0) := hw
    have gw : ∀ p, p < 5 → generatePieceMoves s p = some [] := by
      intro p hp
      rw [generatePieceMoves_eq s p (by omega) (hc.lt64 p (by omega)), if_neg hw,
        if_neg (by show p ≠ 5; omega)]
    have g5 : generatePieceMoves s 5
        = some ((bitList (s.Bitboards 5)).flatMap (blackPawnMovesF (toBoard s)
            (s.Occupancies WHITE) (s.Occupancies BOTH))) := by
      rw [generatePieceMoves_eq s 5 (by decide) (hc.lt64 5 (by decide)), if_neg hw, if_pos rfl,
        ← flatMapOpt_some]
      apply flatMapOpt_congr
      intro sq hsq
      exact blackPawnMoves_eq s hc hb sq (mem_bitList_lt40 _ _ (hc.lt40 5 (by decide)) hsq)
    simp only [flatMapOpt, gw 0 (by decide), gw 1 (by decide), gw 2 (by decide),
      gw 3 (by decide), gw 4 (by decide), g5, if_neg hstm, List.append_nil, List.nil_append]
    rw [hc.2.2.2.1, forBitsF_eq64 _ _ (hc.lt64 5 (by decide))]

theorem boardOf_stm (bb : Nat → Nat) (e t : Nat) : (boardOf bb e t).stm = t := rfl

theorem boardOf_wp (bb : Nat → Nat) (e t : Nat) : (boardOf bb e t).wp = bb WhitePawn := rfl

theorem board_stage1 (bb : Nat → Nat) (e t piece src tgt : Nat) (hp : piece < 6)
    (hs : src < 64) (ht : tgt < 64) :
    (boardOf bb e t).set piece (setBitF (popBitF ((boardOf bb e t).get piece) src) tgt)
      = boardOf (setAt (setAt bb piece (PopBit (bb piece) src)) piece
          (SetBit (setAt bb piece (PopBit (bb piece) src) piece) tgt)) e t := by
  rw [boardOf_get _ _ _ _ hp, boardOf_set _ _ _ _ _ hp, popBitF_eq _ _ hs, setBitF_eq _ _ ht,
    setAt_same, setAt_setAt]

theorem board_stage2 (bb : Nat → Nat) (e t cap tgt : Nat) (hc : cap ≠ NoPiece → cap < 6)
    (ht : tgt < 64) :
    cond (Nat.beq cap NoPiece) (boardOf bb e t)
      (cond (Nat.beq (getBitF ((boardOf bb e t).get cap) tgt) 1)
        ((boardOf bb e t).set cap (popBitF ((boardOf bb e t).get cap) tgt)) (boardOf bb e t))
    = boardOf (if cap ≠ NoPiece then
        if GetBit (bb cap) tgt = 1 then setAt bb cap (PopBit (bb cap) tgt) else bb
        else bb) e t := by
  rw [cond_beq]
  by_cases h : cap = NoPiece
  · rw [if_pos h, if_neg (not_not.mpr h)]
  · have h6 := hc h
    rw [if_neg h, if_pos h, cond_beq, boardOf_get _ _ _ _ h6, boardOf_set _ _ _ _ _ h6,
      getBitF_eq, popBitF_eq _ _ ht]
    split_ifs <;> rfl

theorem board_stage3 (bb : Nat → Nat) (e t piece promo tgt : Nat) (hp : piece < 6)
    (ht : tgt < 64) :
    cond (Nat.ble promo 4)
      (cond (Nat.ble 1 promo)
        (((boardOf bb e t).set piece (popBitF ((boardOf bb e t).get piece) tgt)).set promo
          (setBitF (((boardOf bb e t).set piece
            (popBitF ((boardOf bb e t).get piece) tgt)).get promo) tgt))
        (boardOf bb e t))
      (boardOf bb e t)
    = boardOf (if promo ≤ WhiteKing ∧ promo ≥ WhiteKnight then
        setAt (setAt bb piece (PopBit (bb piece) tgt)) promo
          (SetBit (setAt bb piece (PopBit (bb piece) tgt) promo) tgt)
        else bb) e t := by
  rw [cond_ble, cond_ble]
  by_cases h4 : promo ≤ 4
  · by_cases h1 : 1 ≤ promo
    · rw [if_pos h4, if_pos h1, if_pos ⟨h4, h1⟩, boardOf_get _ _ _ _ hp,
        boardOf_set _ _ _ _ _ hp, boardOf_get _ _ _ _ (by omega),
        boardOf_set _ _ _ _ _ (by omega), popBitF_eq _ _ ht, setBitF_eq _ _ ht]
    · rw [if_pos h4, if_neg h1, if_neg (fun hh => h1 hh.2)]
  · rw [if_neg h4, if_neg (fun hh => h4 hh.1)]

theorem board_stage4 (bb : Nat → Nat) (e t enp stm tgt : Nat) (ht : tgt < 64) :
    cond (Nat.beq enp 0) (boardOf bb e t)
      (cond (Nat.beq stm BLACK)
        ((boardOf bb e t).set WhitePawn (popBitF (bb WhitePawn) (Nat.sub tgt 5)))
        (boardOf bb e t))
    = boardOf (if enp ≠ 0 ∧ stm = BLACK then
        setAt bb WhitePawn (PopBit (bb WhitePawn) (tgt - 5)) else bb) e t := by
  rw [cond_beq, cond_beq]
  by_cases h0 : enp = 0
  · rw [if_pos h0, if_neg (fun hh => hh.1 h0)]
  · by_cases hb : stm = BLACK
    · rw [if_neg h0, if_pos hb, if_pos ⟨h0, hb⟩, boardOf_set _ _ _ _ _ (by decide),
        popBitF_eq _ _ (by show tgt - 5 < 64; omega)]
      rfl
    · rw [if_neg h0, if_neg hb, if_neg (fun hh => hb hh.2)]

theorem makeMoveAll_stages (move : Nat) (s s1 : Position) (h : makeMoveAll move s = some s1) :
    ∃ bb1 bb2 bb3 : Nat → Nat,
      bb1 = setAt (setAt s.Bitboards (GetMovePiece move)
              (PopBit (s.Bitboards (GetMovePiece move)) (GetMoveSource move))) (GetMovePiece move)
            (SetBit (setAt s.Bitboards (GetMovePiece move)
              (PopBit (s.Bitboards (GetMovePiece move)) (GetMoveSource move)) (GetMovePiece move))
              (GetMoveTarget move))
      ∧ bb2 = (if GetMoveCapturedPiece move ≠ NoPiece then
          if GetBit (bb1 (GetMoveCapturedPiece move)) (GetMoveTarget move) = 1 then
            setAt bb1 (GetMoveCapturedPiece move)
              (PopBit (bb1 (GetMoveCapturedPiece move)) (GetMoveTarget move))
          else bb1
        else bb1)
      ∧ bb3 = (if GetMovePromotedPiece move ≤ WhiteKing ∧ GetMovePromotedPiece move ≥ WhiteKnight
          then
            setAt (setAt bb2 (GetMovePiece move)
                (PopBit (bb2 (GetMovePiece move)) (GetMoveTarget move)))
              (GetMovePromotedPiece move)
              (SetBit (setAt bb2 (GetMovePiece move)
                (PopBit (bb2 (GetMovePiece move)) (GetMoveTarget move))
                (GetMovePromotedPiece move)) (GetMoveTarget move))
          else bb2)
      ∧ s1.Bitboards = (if GetMoveEnPassant move ≠ 0 ∧ s.SideToMove = BLACK then
          setAt bb3 WhitePawn (PopBit (bb3 WhitePawn) (GetMoveTarget move - 5)) else bb3)
      ∧ s1.EnPassantSquare = (if GetMoveDoublePawnPush move ≠ 0 ∧ s.SideToMove = WHITE then
          (GetMoveTarget move : Int) + 5 else ((NoSquare : Nat) : Int))
      ∧ s1.SideToMove = s.SideToMove ^^^ 1 := by
  unfold makeMoveAll at h
  dsimp only at h
  generalize hbb1 : setAt (setAt s.Bitboards (GetMovePiece move)
      (PopBit (s.Bitboards (GetMovePiece move)) (GetMoveSource move))) (GetMovePiece move)
    (SetBit (setAt s.Bitboards (GetMovePiece move)
      (PopBit (s.Bitboards (GetMovePiece move)) (GetMoveSource move)) (GetMovePiece move))
      (GetMoveTarget move)) = bb1 at h
  split at h
  · cases h
  · split at h
    · split at h
      · cases h
      · rename_i bb2 hash2 hcap
        have b2 : bb2 = (if GetMoveCapturedPiece move ≠ NoPiece then
            if GetBit (bb1 (GetMoveCapturedPiece move)) (GetMoveTarget move) = 1 then
              setAt bb1 (GetMoveCapturedPiece move)
                (PopBit (bb1 (GetMoveCapturedPiece move)) (GetMoveTarget move))
            else bb1
          else bb1) := by
          split at hcap
          · split at hcap
            · cases hcap
            · split at hcap
              · rename_i hne h6 hg
                cases hk : PieceKeys (GetMoveCapturedPiece move) (GetMoveTarget move) with
                | none => rw [hk] at hcap; cases hcap
                | some k =>
                  rw [hk] at hcap
                  simp only [Option.map_some', Option.some.injEq, Prod.mk.injEq] at hcap
                  rw [if_pos hne, if_pos hg]
                  exact hcap.1.symm
              · rename_i hne h6 hg
                simp only [Option.some.injEq, Prod.mk.injEq] at hcap
                rw [if_pos hne, if_neg hg]
                exact hcap.1.symm
          · rename_i hne
            simp only [Option.some.injEq, Prod.mk.injEq] at hcap
            rw [if_neg hne]
            exact hcap.1.symm
        split at h
        · cases h
        · rename_i bb3 hash3 hpro
          have b3 : bb3 = (if GetMovePromotedPiece move ≤ WhiteKing
                ∧ GetMovePromotedPiece move ≥ WhiteKnight then
              setAt (setAt bb2 (GetMovePiece move)
                  (PopBit (bb2 (GetMovePiece move)) (GetMoveTarget move)))
                (GetMovePromotedPiece move)
                (SetBit (setAt bb2 (GetMovePiece move)
                  (PopBit (bb2 (GetMovePiece move)) (GetMoveTarget move))
                  (GetMovePromotedPiece move)) (GetMoveTarget move))
            else bb2) := by
            split at hpro
            · rename_i hp
              split at hpro
              · cases hpro
              · simp only [Option.some.injEq, Prod.mk.injEq] at hpro
                rw [if_pos hp]
                exact hpro.1.symm
            · rename_i hp
              simp only [Option.some.injEq, Prod.mk.injEq] at hpro
              rw [if_neg hp]
              exact hpro.1.symm
          split at h
          · cases h
          · rename_i bb4 hash4 hep
            have b4 : bb4 = (if GetMoveEnPassant move ≠ 0 ∧ s.SideToMove = BLACK then
                setAt bb3 WhitePawn (PopBit (bb3 WhitePawn) (GetMoveTarget move - 5))
              else bb3) := by
              split at hep
              · rename_i he
                split at hep
                · cases hep
                · split at hep
                  · cases hep
                  · simp only [Option.some.injEq, Prod.mk.injEq] at hep
                    rw [if_pos he]
                    exact hep.1.symm
              · rename_i he
                simp only [Option.some.injEq, Prod.mk.injEq] at hep
                rw [if_neg he]
                exact hep.1.symm
            split at h
            · cases h
            · split at h
              · cases h
              · rename_i ep5 hash5 hpush
                simp only [Option.some.injEq] at h
                subst h
                refine ⟨bb1, bb2, bb3, rfl, b2, b3, b4, ?_, rfl⟩
                show ep5 = _
                split at hpush
                · rename_i hd
                  cases hk : EnPassantKeys ((GetMoveTarget move : Int) + 5) with
                  | none => rw [hk] at hpush; cases hpush
                  | some k =>
                    rw [hk] at hpush
                    simp only [Option.map_some', Option.some.injEq, Prod.mk.injEq] at hpush
                    rw [if_pos hd]
                    exact hpush.1.symm
                · rename_i hd
                  simp only [Option.some.injEq, Prod.mk.injEq] at hpush
                  rw [if_neg hd]
                  exact hpush.1.symm
    · cases h

theorem makeMoveAll_board (move : Nat) (s s1 : Position) (h : makeMoveAll move s = some s1) :
    toBoard s1 = makeMoveF move (toBoard s) := by
  obtain ⟨hp, hcap, _⟩ := makeMoveAll_facts move s s1 h
  obtain ⟨bb1, bb2, bb3, h1, h2, h3, h4, hep, hstm⟩ := makeMoveAll_stages move s s1 h
  have hsrc : GetMoveSource move < 64 := by
    rw [getMoveSource_eq]; exact Nat.mod_lt _ (by decide)
  have htgt : GetMoveTarget move < 64 := by
    rw [getMoveTarget_eq]; exact Nat.mod_lt _ (by decide)
  unfold makeMoveF toBoard
  simp only [forceNat_eq, boardOf_stm]
  rw [board_stage1 _ _ _ _ _ _ hp hsrc htgt, ← h1, board_stage2 _ _ _ _ _ hcap htgt, ← h2,
    board_stage3 _ _ _ _ _ _ hp htgt, ← h3, boardOf_wp, board_stage4 _ _ _ _ _ _ htgt, ← h4,
    hep, hstm, cond_beq, cond_beq]
  have e1 : (((GetMoveTarget move : Nat) : Int) + 5).toNat = GetMoveTarget move + 5 := by omega
  by_cases hd : GetMoveDoublePawnPush move = 0
  · rw [if_pos hd, if_neg (fun hh => hh.1 hd)]
    rfl
  · by_cases hw : s.SideToMove = WHITE
    · rw [if_neg hd, if_pos hw, if_pos ⟨hd, hw⟩, e1]
      rfl
    · rw [if_neg hd, if_neg hw, if_neg (fun hh => hw hh.2)]
      rfl

theorem length_flatMap_sum (f : Nat → List Nat) (l : List Nat) :
    (l.flatMap f).length = (l.map (fun a => (f a).length)).sum := by
  induction l with
  | nil => rfl
  | cons a as ih =>
    rw [List.flatMap_cons, List.length_append, ih, List.map_cons, List.sum_cons]

theorem length_flatMap_const (f : Nat → List Nat) (k : Nat) (hf : ∀ a, (f a).length = k)
    (l : List Nat) : (l.flatMap f).length = l.length * k := by
  induction l with
  | nil => simp
  | cons a as ih =>
    rw [List.flatMap_cons, List.length_append, ih, hf, List.length_cons]
    ring

theorem and_lt64_left (a b : Nat) (h : a < 2 ^ 64) : Nat.land a b < 2 ^ 64 :=
  lt_of_le_of_lt (Nat.and_le_left : a &&& b ≤ a) h

theorem and_lt64_right (a b : Nat) (h : b < 2 ^ 64) : Nat.land a b < 2 ^ 64 :=
  lt_of_le_of_lt (Nat.and_le_right : a &&& b ≤ b) h

theorem maskPawnAttacks_lt64 (side sq : Nat) : MaskPawnAttacks side sq < 2 ^ 64 :=
  lt_trans (maskPawnAttacks_lt _ _) (by decide)

theorem whitePieceCountF_eq (occW occB piece src att : Nat) :
    whitePieceCountF occW att = (whitePieceMovesF occW occB piece src att).length := by
  have hlt : Nat.land att (Nat.sub 18446744073709551615 occW) < 2 ^ 64 :=
    and_lt64_right _ _ (by show 18446744073709551615 - occW < 2 ^ 64; omega)
  unfold whitePieceCountF whitePieceMovesF
  rw [forBitsF_eq64 _ _ hlt, countBitsF_length _ hlt,
    length_flatMap_const _ 1 (fun a => by rw [cond_beq]; split_ifs <;> rfl), Nat.mul_one]

theorem whitePawnCountF_eq (occB both src : Nat) :
    whitePawnCountF occB both src = (whitePawnMovesF occB both src).length := by
  have hlt : Nat.land (MaskPawnAttacks WHITE src) occB < 2 ^ 64 :=
    and_lt64_left _ _ (maskPawnAttacks_lt64 _ _)
  unfold whitePawnCountF whitePawnMovesF
  rw [List.length_append, forBitsF_eq64 _ _ hlt, countBitsF_length _ hlt,
    length_flatMap_const _ (cond (Nat.ble 5 src) (cond (Nat.ble src 9) 4 1) 1)
      (fun a => by
        simp only [cond_ble]
        split_ifs <;> rfl)]
  simp only [Nat.add_eq, Nat.mul_eq]
  congr 1
  simp only [cond_ble, cond_beq]
  split_ifs <;> rfl

theorem blackPawnCountF_eq (b : Board) (occW both src : Nat) :
    blackPawnCountF b occW both src = (blackPawnMovesF b occW both src).length := by
  have hlt : Nat.land (MaskPawnAttacks BLACK src) occW < 2 ^ 64 :=
    and_lt64_left _ _ (maskPawnAttacks_lt64 _ _)
  unfold blackPawnCountF blackPawnMovesF
  rw [List.length_append, List.length_append, forBitsF_eq64 _ _ hlt, countBitsF_length _ hlt,
    length_flatMap_const _ 1 (by intro a; rfl), Nat.mul_one]
  simp only [Nat.add_eq]
  congr 1
  · simp only [cond_ble, cond_beq]
    split_ifs <;> rfl
  · congr 1
    simp only [cond_beq]
    split_ifs <;> rfl

theorem forBitsCount_length (f : Nat → List Nat) (g : Nat → Nat)
    (hfg : ∀ a, g a = (f a).length) (x acc : Nat) (hx : x < 2 ^ 64) :
    forBitsCount g 64 x acc = acc + (forBitsF f 64 x).length := by
  rw [forBitsCount_eq64 _ _ _ hx, forBitsF_eq64 _ _ hx, length_flatMap_sum]
  rw [show g = fun a => (f a).length from funext hfg]

theorem countMovesF_eq (b : Board) (h0 : b.wp < 2 ^ 64) (h1 : b.wn < 2 ^ 64)
    (h2 : b.wb < 2 ^ 64) (h3 : b.wr < 2 ^ 64) (h4 : b.wk < 2 ^ 64) (h5 : b.bp < 2 ^ 64) :
    countMovesF b = (generateMovesF b).length := by
  unfold countMovesF generateMovesF
  simp only [forceNat_eq]
  cases Nat.beq b.stm 0 with
  | true =>
    show forBitsCount _ 64 b.wk (forBitsCount _ 64 b.wr (forBitsCount _ 64 b.wb
      (forBitsCount _ 64 b.wn (forBitsCount _ 64 b.wp 0)))) = List.length (_ ++ (_ ++ (_ ++ (_ ++ _))))
    rw [forBitsCount_length _ _ (fun a => whitePieceCountF_eq _ b.bp WhiteKing a _) _ _ h4,
      forBitsCount_length _ _ (fun a => whitePieceCountF_eq _ b.bp WhiteRook a _) _ _ h3,
      forBitsCount_length _ _ (fun a => whitePieceCountF_eq _ b.bp WhiteBishop a _) _ _ h2,
      forBitsCount_length _ _ (fun a => whitePieceCountF_eq _ b.bp WhiteKnight a _) _ _ h1,
      forBitsCount_length (whitePawnMovesF b.bp _) _ (fun a => whitePawnCountF_eq _ _ a) _ _ h0]
    simp only [List.length_append]
    omega
  | false =>
    show forBitsCount _ 64 b.bp 0 = List.length _
    rw [forBitsCount_length _ _ (fun a => blackPawnCountF_eq b _ _ a) _ _ h5, Nat.zero_add]
    rfl

theorem sumLeaves_cons (g : Board → Option Nat) (b : Board) (m : Nat) (ms : List Nat)
    (acc : Nat) :
    sumLeaves g b (m :: ms) acc
      = match g (makeMoveF m b) with
        | none => none
        | some v => sumLeaves g b ms (acc + v) := by
  show (makeMoveF m b).strict _ = _
  rw [board_strict_eq]
  cases g (makeMoveF m b) with
  | none => rfl
  | some v => exact forceNat_eq _ _

theorem sumLeaves_one (b : Board) (ms : List Nat) :
    ∀ acc, sumLeaves (perftF 0) b ms acc = some (acc + ms.length) := by
  induction ms with
  | nil => intro acc; rfl
  | cons m ms ih =>
    intro acc
    rw [sumLeaves_cons]
    show sumLeaves (perftF 0) b ms (acc + 1) = _
    rw [ih, List.length_cons]
    congr 1
    omega

theorem xor_one_lt_two (t : Nat) (h : t < 2) : t ^^^ 1 < 2 := by
  interval_cases t <;> decide

theorem perftMovesLoop_sum (d : Nat)
    (ih : ∀ s, Consistent s → s.SideToMove < 2 → ∀ N, perftF d (toBoard s) = some N →
      ∀ n k, ∃ n1, PerftDriver d ⟨s, n, k⟩ = some ⟨s, n1, k + N⟩)
    (s : Position) (hc : Consistent s) (hs : s.SideToMove < 2) (l : List Nat)
    (hg : GenerateMoves s = some l) :
    ∀ ms, (∀ m, m ∈ ms → m ∈ l) → ∀ acc N,
      sumLeaves (perftF d) (toBoard s) ms acc = some N →
      ∃ M, N = acc + M ∧ ∀ n k, ∃ n1,
        perftMovesLoop (PerftDriver d) ms ⟨s, n, k⟩ = some ⟨s, n1, k + M⟩ := by
  intro ms
  induction ms with
  | nil =>
    intro _ acc N h
    have hN : acc = N := by
      have h1 : sumLeaves (perftF d) (toBoard s) [] acc = some acc := rfl
      rw [h1] at h
      exact Option.some.inj h
    exact ⟨0, by omega, fun n k => ⟨n, rfl⟩⟩
  | cons m ms ihm =>
    intro hsub acc N h
    obtain ⟨s1, hmk, hun, hc1⟩ := generated_step s hc l hg m (hsub m (List.mem_cons_self _ _))
    have hb1 : toBoard s1 = makeMoveF m (toBoard s) := makeMoveAll_board m s s1 hmk
    have hs1 : s1.SideToMove < 2 := by
      obtain ⟨_, _, _, _, _, _, _, _, hst⟩ := makeMoveAll_stages m s s1 hmk
      rw [hst]
      exact xor_one_lt_two _ hs
    rw [sumLeaves_cons, ← hb1] at h
    cases hv : perftF d (toBoard s1) with
    | none => rw [hv] at h; cases h
    | some v =>
      rw [hv] at h
      obtain ⟨M, hM, hloop⟩ := ihm (fun a ha => hsub a (List.mem_cons_of_mem _ ha)) (acc + v) N h
      refine ⟨v + M, by omega, ?_⟩
      intro n k
      obtain ⟨n1, hrec⟩ := ih s1 hc1 hs1 v hv n k
      obtain ⟨n2, hrest⟩ := hloop n1 (k + v)
      refine ⟨n2, ?_⟩
      unfold perftMovesLoop
      simp only [makeMove_all m s s1 hmk]
      rw [if_neg (by decide), hrec]
      simp only [hun]
      rw [hrest, Nat.add_assoc]

theorem generateMoves_fast (s : Position) (hc : Consistent s) (hs : s.SideToMove < 2)
    (hlen : (generateMovesF (toBoard s)).length ≤ 256) :
    GenerateMoves s = some (generateMovesF (toBoard s)) := by
  unfold GenerateMoves
  rw [generateMovesLoop_fast s hc hs]
  simp only [if_pos hlen]

theorem perftF_succ (d : Nat) (b : Board) (N : Nat) (h0 : b.wp < 2 ^ 64) (h1 : b.wn < 2 ^ 64)
    (h2 : b.wb < 2 ^ 64) (h3 : b.wr < 2 ^ 64) (h4 : b.wk < 2 ^ 64) (h5 : b.bp < 2 ^ 64)
    (h : perftF (d + 1) b = some N) :
    (generateMovesF b).length ≤ 256 ∧ sumLeaves (perftF d) b (generateMovesF b) 0 = some N := by
  cases d with
  | zero =>
    have h' : forceNat (countMovesF b) (fun n => cond (Nat.ble n 256) (some n) none) = some N := h
    rw [forceNat_eq, cond_ble, countMovesF_eq b h0 h1 h2 h3 h4 h5] at h'
    split at h'
    · rename_i hle
      refine ⟨hle, ?_⟩
      rw [sumLeaves_one, Nat.zero_add]
      exact h'
    · cases h'
  | succ d =>
    have h' : forceNat (generateMovesF b).length (fun len =>
        cond (Nat.ble len 256) (sumLeaves (perftF (d + 1)) b (generateMovesF b) 0) none)
          = some N := h
    rw [forceNat_eq, cond_ble] at h'
    split at h'
    · rename_i hle
      exact ⟨hle, h'⟩
    · cases h'

theorem perftDriver_fast (d : Nat) :
    ∀ s, Consistent s → s.SideToMove < 2 → ∀ N, perftF d (toBoard s) = some N →
      ∀ n k, ∃ n1, PerftDriver d ⟨s, n, k⟩ = some ⟨s, n1, k + N⟩ := by
  induction d with
  | zero =>
    intro s _ _ N h n k
    have hN : N = 1 := (Option.some.inj h).symm
    subst hN
    exact ⟨n + 1, rfl⟩
  | succ d ih =>
    intro s hc hs N h n k
    obtain ⟨hlen, hsum⟩ := perftF_succ d (toBoard s) N (hc.lt64 0 (by decide))
      (hc.lt64 1 (by decide)) (hc.lt64 2 (by decide)) (hc.lt64 3 (by decide))
      (hc.lt64 4 (by decide)) (hc.lt64 5 (by decide)) h
    have hg := generateMoves_fast s hc hs hlen
    obtain ⟨M, hM, hloop⟩ := perftMovesLoop_sum d ih s hc hs _ hg _ (fun m hm => hm) 0 N hsum
    obtain ⟨n1, hn1⟩ := hloop (n + 1) k
    refine ⟨n1, ?_⟩
    unfold PerftDriver
    simp only [hg]
    rw [hn1]
    congr 2
    omega

theorem board_ext_fields (a b : Board)
    (h : a.wp = b.wp ∧ a.wn = b.wn ∧ a.wb = b.wb ∧ a.wr = b.wr ∧ a.wk = b.wk ∧ a.bp = b.bp
      ∧ a.ep = b.ep ∧ a.stm = b.stm) : a = b := by
  cases a
  cases b
  simp only [Board.mk.injEq]
  exact h

set_option maxRecDepth 100000 in
theorem toBoard_startPosition : toBoard startPosition = startBoard :=
  board_ext_fields _ _ (by decide!)

set_option maxRecDepth 100000 in
theorem startPosition_side : startPosition.SideToMove < 2 := by decide!

theorem perftLeaves_fast (d N : Nat) (h : perftF d startBoard = some N) :
    perftLeaves FenDebugStartPosition d = some N := by
  unfold perftLeaves
  rw [parse_startPosition]
  rw [← toBoard_startPosition] at h
  obtain ⟨n1, hn1⟩ := perftDriver_fast d startPosition startPosition_consistent
    startPosition_side N h 0 0
  simp only [hn1, Option.map_some', Nat.zero_add]

theorem sumLeaves_forall2 (g : Board → Option Nat) (b : Board) (l vs : List Nat)
    (h : List.Forall₂ (fun m v => g (makeMoveF m b) = some v) l vs) :
    ∀ acc, sumLeaves g b l acc = some (acc + vs.sum) := by
  induction h with
  | nil => intro acc; rfl
  | cons hmv _ ih =>
    intro acc
    rw [sumLeaves_cons, hmv]
    show sumLeaves g b _ _ = _
    rw [ih, List.sum_cons, Nat.add_assoc]

theorem perftDriver_children (d : Nat) (s : Position) (hc : Consistent s)
    (hs : s.SideToMove < 2) (l : List Nat) (hg : GenerateMoves s = some l) (vs : List Nat)
    (h : List.Forall₂ (fun m v => perftF d (makeMoveF m (toBoard s)) = some v) l vs)
    (n k : Nat) :
    ∃ n1, PerftDriver (d + 1) ⟨s, n, k⟩ = some ⟨s, n1, k + vs.sum⟩ := by
  have hsum := sumLeaves_forall2 (perftF d) (toBoard s) l vs h 0
  obtain ⟨M, hM, hloop⟩ := perftMovesLoop_sum d (perftDriver_fast d) s hc hs l hg l
    (fun m hm => hm) 0 _ hsum
  obtain ⟨n1, hn1⟩ := hloop (n + 1) k
  refine ⟨n1, ?_⟩
  unfold PerftDriver
  simp only [hg]
  rw [hn1]
  congr 2
  omega

theorem perftLeaves_children (d : Nat) (vs : List Nat)
    (h : List.Forall₂ (fun m v => perftF d (makeMoveF m startBoard) = some v)
      [1771102, 3867934, 1771167, 3867999, 1771232, 3868064, 1771297, 3868129, 1771362, 3868194,
        1775204, 1775332, 1788325] vs) :
    perftLeaves FenDebugStartPosition (d + 1) = some vs.sum := by
  unfold perftLeaves
  rw [parse_startPosition]
  rw [← toBoard_startPosition] at h
  obtain ⟨n1, hn1⟩ := perftDriver_children d startPosition startPosition_consistent
    startPosition_side _ startPosition_moves vs h 0 0
  simp only [hn1, Option.map_some', Nat.zero_add]

set_option maxRecDepth 1000000 in
theorem perftF_shallow :
    perftF 1 startBoard = some 13 ∧ perftF 2 startBoard = some 65
      ∧ perftF 3 startBoard = some 908 := by decide!

set_option maxRecDepth 1000000 in
theorem perftF_child_0 :
    perftF 3 (makeMoveF 1771102 startBoard) = some 363
      ∧ perftF 4 (makeMoveF 1771102 startBoard) = some 4794 := by decide!

set_option maxRecDepth 1000000 in
theorem perftF_child_1 :
    perftF 3 (makeMoveF 3867934 startBoard) = some 423
      ∧ perftF 4 (makeMoveF 3867934 startBoard) = some 6423 := by decide!

set_option maxRecDepth 1000000 in
theorem perftF_child_2 :
    perftF 3 (makeMoveF 1771167 startBoard) = some 393
      ∧ perftF 4 (makeMoveF 1771167 startBoard) = some 5465 := by decide!

set_option maxRecDepth 1000000 in
theorem perftF_child_3 :
    perftF 3 (makeMoveF 3867999 startBoard) = some 413
      ∧ perftF 4 (makeMoveF 3867999 startBoard) = some 5721 := by decide!

set_option maxRecDepth 1000000 in
theorem perftF_child_4 :
    perftF 3 (makeMoveF 1771232 startBoard) = some 363
      ∧ perftF 4 (makeMoveF 1771232 startBoard) = some 4595 := by decide!

set_option maxRecDepth 1000000 in
theorem perftF_child_5 :
    perftF 3 (makeMoveF 3868064 startBoard) = some 414
      ∧ perftF 4 (makeMoveF 3868064 startBoard) = some 6013 := by decide!

set_option maxRecDepth 1000000 in
theorem perftF_child_6 :
    perftF 3 (makeMoveF 1771297 startBoard) = some 543
      ∧ perftF 4 (makeMoveF 1771297 startBoard) = some 9353 := by decide!

set_option maxRecDepth 1000000 in
theorem perftF_child_7 :
    perftF 3 (makeMoveF 3868129 startBoard) = some 568
      ∧ perftF 4 (makeMoveF 3868129 startBoard) = some 9865 := by decide!

set_option maxRecDepth 1000000 in
theorem perftF_child_8 :
    perftF 3 (makeMoveF 1771362 startBoard) = some 363
      ∧ perftF 4 (makeMoveF 1771362 startBoard) = some 4825 := by decide!

set_option maxRecDepth 1000000 in
theorem perftF_child_9 :
    perftF 3 (makeMoveF 3868194 startBoard) = some 363
      ∧ perftF 4 (makeMoveF 3868194 startBoard) = some 4780 := by decide!

set_option maxRecDepth 1000000 in
theorem perftF_child_10 :
    perftF 3 (makeMoveF 1775204 startBoard) = some 427
      ∧ perftF 4 (makeMoveF 1775204 startBoard) = some 6215 := by decide!

set_option maxRecDepth 1000000 in
theorem perftF_child_11 :
    perftF 3 (makeMoveF 1775332 startBoard) = some 518
      ∧ perftF 4 (makeMoveF 1775332 startBoard) = some 8372 := by decide!

set_option maxRecDepth 1000000 in
theorem perftF_child_12 :
    perftF 3 (makeMoveF 1788325 startBoard) = some 393
      ∧ perftF 4 (makeMoveF 1788325 startBoard) = some 5411 := by decide!

/-- C6: from the position parsed from the canonical starting FEN
"ppppp/ppppp/ppppp/5/5/5/PPPPP/RNK1B w -", PerftDriver returns and counts 13 leaf nodes at
depth 1, 65 at depth 2 and 908 at depth 3. -/
theorem C6_perft_shallow :
    perftLeaves FenDebugStartPosition 1 = some 13
      ∧ perftLeaves FenDebugStartPosition 2 = some 65
      ∧ perftLeaves FenDebugStartPosition 3 = some 908 :=
  ⟨perftLeaves_fast 1 13 perftF_shallow.1, perftLeaves_fast 2 65 perftF_shallow.2.1,
    perftLeaves_fast 3 908 perftF_shallow.2.2⟩

/-- C7: from the position parsed from the canonical starting FEN, PerftDriver returns and
counts 5544 leaf nodes at depth 4 and 81832 at depth 5. -/
theorem C7_perft_deep :
    perftLeaves FenDebugStartPosition 4 = some 5544
      ∧ perftLeaves FenDebugStartPosition 5 = some 81832 :=
  ⟨perftLeaves_children 3 [363, 423, 393, 413, 363, 414, 543, 568, 363, 363, 427, 518, 393]
    (List.Forall₂.cons perftF_child_0.1
      (List.Forall₂.cons perftF_child_1.1
      (List.Forall₂.cons perftF_child_2.1
      (List.Forall₂.cons perftF_child_3.1
      (List.Forall₂.cons perftF_child_4.1
      (List.Forall₂.cons perftF_child_5.1
      (List.Forall₂.cons perftF_child_6.1
      (List.Forall₂.cons perftF_child_7.1
      (List.Forall₂.cons perftF_child_8.1
      (List.Forall₂.cons perftF_child_9.1
      (List.Forall₂.cons perftF_child_10.1
      (List.Forall₂.cons perftF_child_11.1
      (List.Forall₂.cons perftF_child_12.1
      List.Forall₂.nil))))))))))))),
   perftLeaves_children 4 [4794, 6423, 5465, 5721, 4595, 6013, 9353, 9865, 4825, 4780, 6215, 8372, 5411]
    (List.Forall₂.cons perftF_child_0.2
      (List.Forall₂.cons perftF_child_1.2
      (List.Forall₂.cons perftF_child_2.2
      (List.Forall₂.cons perftF_child_3.2
      (List.Forall₂.cons perftF_child_4.2
      (List.Forall₂.cons perftF_child_5.2
      (List.Forall₂.cons perftF_child_6.2
      (List.Forall₂.cons perftF_child_7.2
      (List.Forall₂.cons perftF_child_8.2
      (List.Forall₂.cons perftF_child_9.2
      (List.Forall₂.cons perftF_child_10.2
      (List.Forall₂.cons perftF_child_11.2
      (List.Forall₂.cons perftF_child_12.2
      List.Forall₂.nil)))))))))))))⟩

/-- C30: for every non-zero 64-bit value x, GetLeastSignificantBitIndex(x) is the index i
whose bit is set in x while all bits below i are clear; for x = 0 the result is -1; and
CountBits(x) is the number of set bits of x (the number of indices below 64 whose bit is
set). -/
theorem C30_lsb_index_and_count (x : Nat) (hx : x < 2 ^ 64) :
    (x ≠ 0 → ∃ i : Nat, GetLeastSignificantBitIndex x = (i : Int) ∧ i < 64
        ∧ x.testBit i = true ∧ ∀ j, j < i → x.testBit j = false)
    ∧ GetLeastSignificantBitIndex 0 = -1
    ∧ CountBits x = ((List.range 64).filter (fun i => x.testBit i)).length := by
  refine ⟨?_, rfl, countBits_eq x hx⟩
  intro h0
  obtain ⟨i, hl⟩ := exists_isLowest x h0
  exact ⟨i, lsb_eq x i hx hl, isLowest_lt x i 64 hx hl, hl.1, hl.2⟩

theorem C30_lsb_index_and_count_witness :
    (40 : Nat) < 2 ^ 64
    ∧ ((40 : Nat) ≠ 0 → ∃ i : Nat, GetLeastSignificantBitIndex 40 = (i : Int) ∧ i < 64
        ∧ (40 : Nat).testBit i = true ∧ ∀ j, j < i → (40 : Nat).testBit j = false)
    ∧ GetLeastSignificantBitIndex 0 = -1
    ∧ CountBits 40 = ((List.range 64).filter (fun i => (40 : Nat).testBit i)).length :=
  ⟨by decide, C30_lsb_index_and_count 40 (by decide)⟩

theorem testBit_ite_two_pow (c : Prop) [Decidable c] (a t : Nat) :
    (if c then 2 ^ a else 0).testBit t = true ↔ c ∧ t = a := by
  by_cases h : c
  · rw [if_pos h, Nat.testBit_two_pow]
    simp only [decide_eq_true_eq]
    exact ⟨fun e => ⟨h, e.symm⟩, fun e => e.2.symm⟩
  · rw [if_neg h]
    simp [h]

set_option maxRecDepth 100000 in
theorem maskPawnAttacks_closed : ∀ s, s < 40 →
    MaskPawnAttacks WHITE s
        = ((if 5 ≤ s ∧ s % 5 ≤ 3 then 2 ^ (s - 4) else 0)
            ||| (if 6 ≤ s ∧ 1 ≤ s % 5 then 2 ^ (s - 6) else 0))
    ∧ MaskPawnAttacks BLACK s
        = ((if s < 35 ∧ 1 ≤ s % 5 then 2 ^ (s + 4) else 0)
            ||| (if s < 35 ∧ s % 5 ≤ 3 then 2 ^ (s + 6) else 0)) := by decide!

theorem maskPawnAttacks_white_iff (s t : Nat) (hs : s < 40) :
    (MaskPawnAttacks WHITE s).testBit t = true
      ↔ t < 40 ∧ t / 5 + 1 = s / 5 ∧ (t % 5 = s % 5 + 1 ∨ t % 5 + 1 = s % 5) := by
  rw [(maskPawnAttacks_closed s hs).1, Nat.testBit_or, Bool.or_eq_true, testBit_ite_two_pow,
    testBit_ite_two_pow]
  omega

theorem maskPawnAttacks_black_iff (s t : Nat) (hs : s < 40) :
    (MaskPawnAttacks BLACK s).testBit t = true
      ↔ t < 40 ∧ t / 5 = s / 5 + 1 ∧ (t % 5 = s % 5 + 1 ∨ t % 5 + 1 = s % 5) := by
  rw [(maskPawnAttacks_closed s hs).2, Nat.testBit_or, Bool.or_eq_true, testBit_ite_two_pow,
    testBit_ite_two_pow]
  omega

/-- C28: for every square s in 0..39 (rank index s / 5 counted from rank 8, file s % 5),
MaskPawnAttacks(WHITE, s) is exactly the set of on-board squares one rank up (rank index
one less) and one file to the left or right, MaskPawnAttacks(BLACK, s) is exactly the set
of on-board squares one rank down and one file to the left or right, with no wrap-around
between the a-file and the e-file; hence t is in the White attack set of s if and only if
s is in the Black attack set of t. -/
theorem C28_pawn_attack_geometry (s t : Nat) (hs : s < 40) :
    ((MaskPawnAttacks WHITE s).testBit t = true
        ↔ t < 40 ∧ t / 5 + 1 = s / 5 ∧ (t % 5 = s % 5 + 1 ∨ t % 5 + 1 = s % 5))
    ∧ ((MaskPawnAttacks BLACK s).testBit t = true
        ↔ t < 40 ∧ t / 5 = s / 5 + 1 ∧ (t % 5 = s % 5 + 1 ∨ t % 5 + 1 = s % 5))
    ∧ (t < 40 → ((MaskPawnAttacks WHITE s).testBit t = true
        ↔ (MaskPawnAttacks BLACK t).testBit s = true)) := by
  refine ⟨maskPawnAttacks_white_iff s t hs, maskPawnAttacks_black_iff s t hs, ?_⟩
  intro ht
  rw [maskPawnAttacks_white_iff s t hs, maskPawnAttacks_black_iff t s ht]
  omega

theorem C28_pawn_attack_geometry_witness :
    (17 : Nat) < 40
    ∧ (((MaskPawnAttacks WHITE 17).testBit 11 = true
        ↔ 11 < 40 ∧ 11 / 5 + 1 = 17 / 5 ∧ (11 % 5 = 17 % 5 + 1 ∨ 11 % 5 + 1 = 17 % 5))
    ∧ ((MaskPawnAttacks BLACK 17).testBit 11 = true
        ↔ 11 < 40 ∧ 11 / 5 = 17 / 5 + 1 ∧ (11 % 5 = 17 % 5 + 1 ∨ 11 % 5 + 1 = 17 % 5))
    ∧ (11 < 40 → ((MaskPawnAttacks WHITE 17).testBit 11 = true
        ↔ (MaskPawnAttacks BLACK 11).testBit 17 = true))) :=
  ⟨by decide, C28_pawn_attack_geometry 17 11 (by decide)⟩

set_option maxRecDepth 100000 in
theorem maskKnightAttacks_closed : ∀ s, s < 40 →
    MaskKnightAttacks s
      = ((if 11 ≤ s ∧ 1 ≤ s % 5 then 2 ^ (s - 11) else 0)
        ||| (if 9 ≤ s ∧ s % 5 ≤ 3 ∧ 10 ≤ s then 2 ^ (s - 9) else 0)
        ||| (if 7 ≤ s ∧ 2 ≤ s % 5 then 2 ^ (s - 7) else 0)
        ||| (if 5 ≤ s ∧ s % 5 ≤ 2 then 2 ^ (s - 3) else 0)
        ||| (if s < 30 ∧ s % 5 ≤ 3 then 2 ^ (s + 11) else 0)
        ||| (if s < 30 ∧ 1 ≤ s % 5 then 2 ^ (s + 9) else 0)
        ||| (if s < 35 ∧ s % 5 ≤ 2 then 2 ^ (s + 7) else 0)
        ||| (if s < 35 ∧ 2 ≤ s % 5 then 2 ^ (s + 3) else 0)) := by decide!

/-- C29: for every square s in 0..39, MaskKnightAttacks(s) is exactly the set of squares
t in 0..39 whose rank and file differ from those of s by (1, 2) or (2, 1) in absolute
value: no wrap-around across the board edges and no bit at index 40 or above. -/
theorem C29_knight_attack_geometry (s t : Nat) (hs : s < 40) :
    (MaskKnightAttacks s).testBit t = true
      ↔ t < 40
        ∧ (((t / 5 + 1 = s / 5 ∨ s / 5 + 1 = t / 5) ∧ (t % 5 + 2 = s % 5 ∨ s % 5 + 2 = t % 5))
          ∨ ((t / 5 + 2 = s / 5 ∨ s / 5 + 2 = t / 5)
              ∧ (t % 5 + 1 = s % 5 ∨ s % 5 + 1 = t % 5))) := by
  rw [maskKnightAttacks_closed s hs]
  simp only [Nat.testBit_or, Bool.or_eq_true, testBit_ite_two_pow]
  have es : s = 5 * (s / 5) + s % 5 := (Nat.div_add_mod s 5).symm
  have et : t = 5 * (t / 5) + t % 5 := (Nat.div_add_mod t 5).symm
  have hf : s % 5 < 5 := Nat.mod_lt _ (by decide)
  have hb : t % 5 < 5 := Nat.mod_lt _ (by decide)
  generalize s / 5 = r at es ⊢
  generalize s % 5 = f at es hf ⊢
  generalize t / 5 = a at et ⊢
  generalize t % 5 = b at et hb ⊢
  subst es
  subst et
  constructor
  · rintro (((((((h | h) | h) | h) | h) | h) | h) | h) <;> omega
  · rintro ⟨ht, (⟨h1 | h1, h2 | h2⟩ | ⟨h1 | h1, h2 | h2⟩)⟩
    · exact Or.inl (Or.inl (Or.inl (Or.inl (Or.inl (Or.inr ⟨by omega, by omega⟩)))))
    · exact Or.inl (Or.inl (Or.inl (Or.inl (Or.inr ⟨by omega, by omega⟩))))
    · exact Or.inr ⟨by omega, by omega⟩
    · exact Or.inl (Or.inr ⟨by omega, by omega⟩)
    · exact Or.inl (Or.inl (Or.inl (Or.inl (Or.inl (Or.inl (Or.inl ⟨by omega, by omega⟩))))))
    · exact Or.inl (Or.inl (Or.inl (Or.inl (Or.inl (Or.inl (Or.inr ⟨by omega, by omega⟩))))))
    · exact Or.inl (Or.inl (Or.inr ⟨by omega, by omega⟩))
    · exact Or.inl (Or.inl (Or.inl (Or.inr ⟨by omega, by omega⟩)))

theorem C29_knight_attack_geometry_witness :
    (36 : Nat) < 40
    ∧ ((MaskKnightAttacks 36).testBit 25 = true
      ↔ 25 < 40
        ∧ (((25 / 5 + 1 = 36 / 5 ∨ 36 / 5 + 1 = 25 / 5)
              ∧ (25 % 5 + 2 = 36 % 5 ∨ 36 % 5 + 2 = 25 % 5))
          ∨ ((25 / 5 + 2 = 36 / 5 ∨ 36 / 5 + 2 = 25 / 5)
              ∧ (25 % 5 + 1 = 36 % 5 ∨ 36 % 5 + 1 = 25 % 5)))) :=
  ⟨by decide, C29_knight_attack_geometry 36 25 (by decide)⟩

theorem nullMove_eq (recurse : Int → Int → Int → SearchState → Option (Int × SearchState))
    (depth beta : Int) (st : SearchState) :
    nullMove recurse depth beta st =
      match nullMoveUpdate st.pos with
      | none => none
      | some p =>
        match enterPly { st with pos := p } with
        | none => none
        | some st1 =>
          match recurse (wrapInt (wrapInt (depth - 1) - 2)) (wrapInt (-beta))
              (wrapInt (wrapInt (-beta) + 1)) st1 with
          | none => none
          | some (v, st2) =>
            some (wrapInt (-v), leavePly { st2 with pos := RestoreBoard st.pos st2.pos }) := by
  unfold nullMove nullMoveUpdate
  dsimp only
  generalize (if st.pos.EnPassantSquare ≠ NoSquare then
      (EnPassantKeys st.pos.EnPassantSquare).map (fun k => st.pos.HashKey ^^^ k)
    else some st.pos.HashKey) = hashKey
  cases hashKey with
  | none => rfl
  | some k => rfl

/-- C25: in a position whose HashKey equals GeneratePositionKey(), with White or Black to
move, the null-move update of negamax (XOR out the en-passant key if an en-passant square
is set, clear the en-passant square, toggle the side to move, XOR in the side key) yields
a position whose HashKey equals its GeneratePositionKey(); and RestoreBoard with the values
saved before the null move sets HashKey, side to move, en-passant square, bitboards and
occupancies back to their pre-null values, whatever happened in between. -/
theorem C25_null_move_hash (s : Position)
    (hs : s.SideToMove = WHITE ∨ s.SideToMove = BLACK)
    (hk : GeneratePositionKey s = some s.HashKey) :
    (∃ p, nullMoveUpdate s = some p
        ∧ GeneratePositionKey p = some p.HashKey
        ∧ p.EnPassantSquare = NoSquare ∧ p.SideToMove = s.SideToMove ^^^ 1
        ∧ p.Bitboards = s.Bitboards ∧ p.Occupancies = s.Occupancies)
    ∧ ∀ q : Position,
        (RestoreBoard s q).HashKey = s.HashKey
        ∧ (RestoreBoard s q).SideToMove = s.SideToMove
        ∧ (RestoreBoard s q).EnPassantSquare = s.EnPassantSquare
        ∧ (RestoreBoard s q).Bitboards = s.Bitboards
        ∧ (RestoreBoard s q).Occupancies = s.Occupancies := by
  refine ⟨?_, fun q => ⟨rfl, rfl, rfl, rfl, rfl⟩⟩
  unfold GeneratePositionKey at hk
  cases hp : hashPiecesLoop s.Bitboards 6 WhitePawn 0 with
  | none => rw [hp] at hk; cases hk
  | some k0 =>
    rw [hp] at hk
    dsimp only at hk
    by_cases he : s.EnPassantSquare = NoSquare
    · rw [if_neg (not_not.mpr he)] at hk
      simp only [Option.map_some', Option.some.injEq] at hk
      have hu : nullMoveUpdate s = some
          { s with
            EnPassantSquare := NoSquare
            SideToMove := s.SideToMove ^^^ 1
            HashKey := s.HashKey ^^^ SideKey } := by
        unfold nullMoveUpdate; rw [if_neg (not_not.mpr he)]; rfl
      refine ⟨_, hu, ?_, rfl, rfl, rfl, rfl⟩
      unfold GeneratePositionKey
      dsimp only
      rw [hp]
      dsimp only
      rw [if_neg (by exact fun h => h rfl)]
      simp only [Option.map_some', Option.some.injEq]
      rw [← hk]
      rcases hs with h | h <;> rw [h] <;> simp [xor_cancel_right']
    · rw [if_pos he] at hk
      cases hek : EnPassantKeys s.EnPassantSquare with
      | none => rw [hek] at hk; cases hk
      | some ke =>
        rw [hek] at hk
        simp only [Option.map_some', Option.some.injEq] at hk
        have hu : nullMoveUpdate s = some
            { s with
              EnPassantSquare := NoSquare
              SideToMove := s.SideToMove ^^^ 1
              HashKey := s.HashKey ^^^ ke ^^^ SideKey } := by
          unfold nullMoveUpdate; rw [if_pos he, hek]; rfl
        refine ⟨_, hu, ?_, rfl, rfl, rfl, rfl⟩
        unfold GeneratePositionKey
        dsimp only
        rw [hp]
        dsimp only
        rw [if_neg (by exact fun h => h rfl)]
        simp only [Option.map_some', Option.some.injEq]
        rw [← hk]
        rcases hs with h | h <;> rw [h] <;>
          simp [xor_cancel_right', xor_right_comm _ ke SideKey]

set_option maxRecDepth 100000 in
theorem blackEnPassantPosition_side : blackEnPassantPosition.SideToMove = BLACK := by decide!

theorem C25_null_move_hash_witness :
    (∃ p, nullMoveUpdate blackEnPassantPosition = some p
        ∧ GeneratePositionKey p = some p.HashKey
        ∧ p.EnPassantSquare = NoSquare ∧ p.SideToMove = blackEnPassantPosition.SideToMove ^^^ 1
        ∧ p.Bitboards = blackEnPassantPosition.Bitboards
        ∧ p.Occupancies = blackEnPassantPosition.Occupancies)
    ∧ ∀ q : Position,
        (RestoreBoard blackEnPassantPosition q).HashKey = blackEnPassantPosition.HashKey
        ∧ (RestoreBoard blackEnPassantPosition q).SideToMove
            = blackEnPassantPosition.SideToMove
        ∧ (RestoreBoard blackEnPassantPosition q).EnPassantSquare
            = blackEnPassantPosition.EnPassantSquare
        ∧ (RestoreBoard blackEnPassantPosition q).Bitboards = blackEnPassantPosition.Bitboards
        ∧ (RestoreBoard blackEnPassantPosition q).Occupancies
            = blackEnPassantPosition.Occupancies :=
  C25_null_move_hash blackEnPassantPosition (Or.inr blackEnPassantPosition_side)
    (parseFEN_hash _ _ _ parse_blackEnPassantPosition)

theorem convert_unknown (u : Nat) (h80 : u ≠ 80) (h78 : u ≠ 78) (h66 : u ≠ 66)
    (h82 : u ≠ 82) (h75 : u ≠ 75) (h112 : u ≠ 112) : ConvertAsciiToConstants u = WhitePawn := by
  unfold ConvertAsciiToConstants
  simp [h80, h78, h66, h82, h75, h112]

/-- Two byte strings ParseFEN cannot tell apart in the placement field: equal bytes, or
letters that stand for the same piece. -/
theorem parseRankLoop_congr (fen fen1 : List Nat) (hl : fen1.length = fen.length)
    (h : ∀ i, fen1.getD i 0 = fen.getD i 0
      ∨ (isFenLetter (fen1.getD i 0) ∧ isFenLetter (fen.getD i 0)
          ∧ ConvertAsciiToConstants (fen1.getD i 0) = ConvertAsciiToConstants (fen.getD i 0)))
    (rank : Nat) :
    ∀ fuel file idx bb,
      parseRankLoop fen1 rank fuel file idx bb = parseRankLoop fen rank fuel file idx bb := by
  intro fuel
  induction fuel with
  | zero => intro file idx bb; rfl
  | succ n ih =>
    intro file idx bb
    unfold parseRankLoop
    rw [hl]
    by_cases hf : file < 5
    · rw [if_pos hf, if_pos hf]
      by_cases hi : idx ≥ fen.length
      · rw [if_pos hi, if_pos hi]
      · rw [if_neg hi, if_neg hi]
        dsimp only
        rcases h idx with e | ⟨l1, l2, e⟩
        · rw [e]
          split_ifs <;> exact ih _ _ _
        · unfold isFenLetter at l1 l2
          rw [if_pos l1, if_pos l2, e]
          exact ih _ _ _
    · rw [if_neg hf, if_neg hf]

theorem parseRanksLoop_congr (fen fen1 : List Nat) (hl : fen1.length = fen.length)
    (h : ∀ i, fen1.getD i 0 = fen.getD i 0
      ∨ (isFenLetter (fen1.getD i 0) ∧ isFenLetter (fen.getD i 0)
          ∧ ConvertAsciiToConstants (fen1.getD i 0) = ConvertAsciiToConstants (fen.getD i 0))) :
    ∀ n rank idx bb,
      parseRanksLoop fen1 n rank idx bb = parseRanksLoop fen n rank idx bb := by
  intro n
  induction n with
  | zero => intro rank idx bb; rfl
  | succ n ih =>
    intro rank idx bb
    unfold parseRanksLoop
    rw [hl, parseRankLoop_congr fen fen1 hl h]
    have h47 : ∀ i, (fen1.getD i 0 = 47 ↔ fen.getD i 0 = 47) := by
      intro i
      rcases h i with e | ⟨l1, l2, _⟩
      · rw [e]
      · unfold isFenLetter at l1 l2
        constructor <;> intro e <;> omega
    cases hr : parseRankLoop fen rank (fen.length + 6) 0 idx bb with
    | mk bb1 idx1 =>
      dsimp only
      by_cases c : idx1 < fen.length ∧ fen.getD idx1 0 = 47
      · rw [if_pos c, if_pos ⟨c.1, (h47 idx1).mpr c.2⟩]
        exact ih _ _ _
      · rw [if_neg c, if_neg (fun c1 => c ⟨c1.1, (h47 idx1).mp c1.2⟩)]
        exact ih _ _ _

theorem parseRanksLoop_fenBytes (rows : List (List FenItem)) (blackToMove : Bool)
    (ep : Option (Nat × Nat)) (hlen : rows.length = 8) (hwf : WellFormedRows rows) :
    ∃ bb1, parseRanksLoop (fenBytes rows blackToMove ep) 8 0 0 (fun _ => 0)
      = (bb1, (rowsBytes rows).length) := by
  have hget : ∀ k, (fenBytes rows blackToMove ep).get? ((rowsBytes rows).length + k)
      = ([32, if blackToMove = true then 98 else 119, 32] ++ epBytes ep).get? k := by
    intro k
    unfold fenBytes
    rw [List.get?_eq_getElem?, List.get?_eq_getElem?, List.getElem?_append_right (by omega)]
    congr 1
    omega
  have hch : ∀ k, k < (rowsBytes rows).length →
      (fenBytes rows blackToMove ep).get? (0 + k) = some ((rowsBytes rows).getD k 0) := by
    intro k hk
    unfold fenBytes
    rw [Nat.zero_add, List.get?_eq_getElem?, List.getElem?_append_left hk,
      List.getElem?_eq_getElem hk, List.getD_eq_getElem _ 0 hk]
  have hne : (fenBytes rows blackToMove ep).get? (0 + (rowsBytes rows).length) ≠ some 47 := by
    have := hget 0
    rw [Nat.add_zero] at this
    rw [Nat.zero_add, this]
    simp
  obtain ⟨bb1, h1, _⟩ := parseRanksLoop_rows (fenBytes rows blackToMove ep) rows 0 0
    (fun _ => 0) [] (by omega) hwf hch hne rfl cellInv_zero
  rw [hlen, Nat.zero_add] at h1
  exact ⟨bb1, h1⟩

/-- A FEN in which the White-pawn letters `P` of the placement field are written as another
letter `u` that is no piece letter parses exactly as the FEN with `P`. -/
theorem parseFEN_unknown_letter (rows : List (List FenItem)) (blackToMove : Bool)
    (ep : Option (Nat × Nat)) (s : Position) (u : Nat) (hlen : rows.length = 8)
    (hwf : WellFormedRows rows) (hu : isFenLetter u)
    (h78 : u ≠ 78) (h66 : u ≠ 66) (h82 : u ≠ 82) (h75 : u ≠ 75) (h112 : u ≠ 112) :
    ParseFEN ((rowsBytes rows).map (fun c => if c = 80 then u else c)
        ++ ([32, if blackToMove then 98 else 119, 32] ++ epBytes ep)) s
      = ParseFEN (fenBytes rows blackToMove ep) s := by
  generalize hf1 : (rowsBytes rows).map (fun c => if c = 80 then u else c)
        ++ ([32, if blackToMove then 98 else 119, 32] ++ epBytes ep) = fen1
  have hl : fen1.length = (fenBytes rows blackToMove ep).length := by
    rw [← hf1]
    unfold fenBytes
    simp
  have hge : ∀ i, (rowsBytes rows).length ≤ i →
      fen1.get? i = (fenBytes rows blackToMove ep).get? i := by
    intro i hi
    rw [← hf1]
    unfold fenBytes
    rw [List.get?_eq_getElem?, List.get?_eq_getElem?,
      List.getElem?_append_right (by rw [List.length_map]; exact hi),
      List.getElem?_append_right hi, List.length_map]
  have hpt : ∀ i, fen1.getD i 0 = (fenBytes rows blackToMove ep).getD i 0
      ∨ (isFenLetter (fen1.getD i 0) ∧ isFenLetter ((fenBytes rows blackToMove ep).getD i 0)
          ∧ ConvertAsciiToConstants (fen1.getD i 0)
            = ConvertAsciiToConstants ((fenBytes rows blackToMove ep).getD i 0)) := by
    intro i
    by_cases hi : i < (rowsBytes rows).length
    · have e1 : fen1.getD i 0 = (if (rowsBytes rows).getD i 0 = 80 then u
          else (rowsBytes rows).getD i 0) := by
        rw [← hf1, List.getD_eq_getElem?_getD, List.getElem?_append_left (by simpa using hi),
          List.getElem?_map, List.getD_eq_getElem?_getD, List.getElem?_eq_getElem hi]
        rfl
      have e2 : (fenBytes rows blackToMove ep).getD i 0 = (rowsBytes rows).getD i 0 := by
        unfold fenBytes
        rw [List.getD_eq_getElem?_getD, List.getElem?_append_left hi,
          List.getD_eq_getElem?_getD]
      rw [e1, e2]
      by_cases c : (rowsBytes rows).getD i 0 = 80
      · rw [if_pos c, c]
        by_cases hu80 : u = 80
        · exact Or.inl hu80
        · exact Or.inr ⟨hu, by unfold isFenLetter; omega,
            by rw [convert_unknown u hu80 h78 h66 h82 h75 h112]; rfl⟩
      · rw [if_neg c]
        exact Or.inl rfl
    · left
      have := hge i (by omega)
      rw [List.getD_eq_getElem?_getD, List.getD_eq_getElem?_getD, ← List.get?_eq_getElem?,
        ← List.get?_eq_getElem?, this]
  obtain ⟨bb1, h1⟩ := parseRanksLoop_fenBytes rows blackToMove ep hlen hwf
  unfold ParseFEN
  rw [parseRanksLoop_congr _ fen1 hl hpt, h1]
  dsimp only
  rw [hge _ (by omega), hge _ (by omega), hge _ (by omega)]

theorem parseRankLoop_stuck (fen : List Nat) (rank idx : Nat)
    (hc : ¬ isFenLetter (fen.getD idx 0)) (hd : ¬ (48 ≤ fen.getD idx 0 ∧ fen.getD idx 0 ≤ 57)) :
    ∀ fuel file bb, parseRankLoop fen rank fuel file idx bb = (bb, idx) := by
  intro fuel
  induction fuel with
  | zero => intro file bb; rfl
  | succ n ih =>
    intro file bb
    unfold parseRankLoop
    unfold isFenLetter at hc
    by_cases hf : file < 5
    · rw [if_pos hf]
      by_cases hi : idx ≥ fen.length
      · rw [if_pos hi]
      · rw [if_neg hi]
        dsimp only
        rw [if_neg hc, if_neg hd]
        exact ih _ _
    · rw [if_neg hf]

theorem parseRanksLoop_stuck (fen : List Nat) (idx : Nat)
    (hc : ¬ isFenLetter (fen.getD idx 0)) (hd : ¬ (48 ≤ fen.getD idx 0 ∧ fen.getD idx 0 ≤ 57))
    (h47 : fen.getD idx 0 ≠ 47) :
    ∀ n rank bb, parseRanksLoop fen n rank idx bb = (bb, idx) := by
  intro n
  induction n with
  | zero => intro rank bb; rfl
  | succ n ih =>
    intro rank bb
    unfold parseRanksLoop
    rw [parseRankLoop_stuck fen rank idx hc hd]
    dsimp only
    rw [if_neg (fun c => h47 c.2)]
    exact ih _ _

set_option maxRecDepth 100000 in
/-- C21, as the spec has it, fails: the letter `q` at the start of the placement field sets
the White-pawn bit of a8 (square 0). -/
theorem C21_unknown_letter_counterexample :
    (ParseFEN (bytesOf FenUnknownLetter) initialPosition).map
      (fun s => (s.Bitboards WhitePawn).testBit 0) = some true := by decide!

/-- C21 (amended): a letter of the placement field that is not one of P, N, B, R, K, p is
read as a White pawn (the lookup in ConvertAsciiToConstants yields the zero value): a FEN
whose White-pawn letters are written as such a letter `u` parses exactly as with `P`. A
byte that is neither a letter nor a digit nor `/` is not consumed by the placement loops:
when the string starts with one, no bit is set in any piece bitboard. -/
theorem C21_unknown_characters (rows : List (List FenItem)) (blackToMove : Bool)
    (ep : Option (Nat × Nat)) (s : Position) (u : Nat) (hlen : rows.length = 8)
    (hwf : WellFormedRows rows) (hu : isFenLetter u)
    (h78 : u ≠ 78) (h66 : u ≠ 66) (h82 : u ≠ 82) (h75 : u ≠ 75) (h112 : u ≠ 112) :
    ParseFEN ((rowsBytes rows).map (fun c => if c = 80 then u else c)
        ++ ([32, if blackToMove then 98 else 119, 32] ++ epBytes ep)) s
      = ParseFEN (fenBytes rows blackToMove ep) s
    ∧ ∀ (c : Nat) (rest : List Nat) (s1 : Position), ¬ isFenLetter c → ¬ (48 ≤ c ∧ c ≤ 57) →
        c ≠ 47 → ParseFEN (c :: rest) s = some s1 → ∀ p, s1.Bitboards p = 0 := by
  refine ⟨parseFEN_unknown_letter rows blackToMove ep s u hlen hwf hu h78 h66 h82 h75 h112, ?_⟩
  intro c rest s1 hc hd h47 h p
  unfold ParseFEN at h
  rw [parseRanksLoop_stuck (c :: rest) 0 hc hd h47] at h
  dsimp only at h
  split at h
  · cases h
  · split at h
    · cases h
    · split at h
      · cases h
      · rename_i ep1 _
        cases hk : GeneratePositionKey _ with
        | none => rw [hk] at h; cases h
        | some k =>
          rw [hk] at h
          simp only [Option.map_some', Option.some.injEq] at h
          rw [← h]

/-- C21 (amended) at `5/5/5/5/qp3/5/5/5 b a3`: it parses as `5/5/5/5/Pp3/5/5/5 b a3`. -/
theorem C21_unknown_characters_witness :
    ParseFEN ((rowsBytes blackEnPassantRows).map (fun c => if c = 80 then 113 else c)
        ++ ([32, if true then 98 else 119, 32] ++ epBytes (some (0, 3)))) initialPosition
      = ParseFEN (fenBytes blackEnPassantRows true (some (0, 3))) initialPosition
    ∧ ∀ (c : Nat) (rest : List Nat) (s1 : Position), ¬ isFenLetter c → ¬ (48 ≤ c ∧ c ≤ 57) →
        c ≠ 47 → ParseFEN (c :: rest) initialPosition = some s1 → ∀ p, s1.Bitboards p = 0 :=
  C21_unknown_characters blackEnPassantRows true (some (0, 3)) initialPosition 113 (by decide)
    (by decide) (by decide) (by decide) (by decide) (by decide) (by decide) (by decide)

set_option maxRecDepth 100000 in
/-- C22 at its failing inputs: on the string `5/5/5/5/5/5/5/5`, which ends after the
placement field, and on `5/5/5/5/5/5/5/5 w`, which ends after the side to move, ParseFEN
does not complete. The placement loop checks the index against the length of the string;
the reads of the side-to-move byte and of the en-passant byte do not, and run past the end
of the string. -/
theorem C22_truncated_fen_panics :
    (ParseFEN (bytesOf FenPlacementOnly) initialPosition).isSome = false
    ∧ (ParseFEN (bytesOf FenNoEnPassantField) initialPosition).isSome = false := by decide!

/-- ParseFEN on a string made of a well-formed placement field (8 rows of 5 files) followed
by fewer than four further bytes, so that the side-to-move field or the en-passant field is
missing: the unchecked read of the side-to-move byte or of the en-passant byte runs past
the end of the string. -/
theorem parseFEN_truncated (rows : List (List FenItem)) (t : List Nat) (s : Position)
    (hlen : rows.length = 8) (hwf : WellFormedRows rows) (ht : t.length ≤ 3)
    (h47 : t.head? ≠ some 47) :
    ParseFEN (rowsBytes rows ++ t) s = none := by
  have hget : ∀ k, (rowsBytes rows ++ t).get? ((rowsBytes rows).length + k) = t.get? k := by
    intro k
    rw [List.get?_eq_getElem?, List.get?_eq_getElem?, List.getElem?_append_right (by omega)]
    congr 1
    omega
  have hch : ∀ k, k < (rowsBytes rows).length →
      (rowsBytes rows ++ t).get? (0 + k) = some ((rowsBytes rows).getD k 0) := by
    intro k hk
    rw [Nat.zero_add, List.get?_eq_getElem?, List.getElem?_append_left hk,
      List.getElem?_eq_getElem hk, List.getD_eq_getElem _ 0 hk]
  have hne : (rowsBytes rows ++ t).get? (0 + (rowsBytes rows).length) ≠ some 47 := by
    have := hget 0
    rw [Nat.add_zero] at this
    rw [Nat.zero_add, this]
    cases t with
    | nil => simp
    | cons a as => simpa using h47
  obtain ⟨bb1, h1, _⟩ := parseRanksLoop_rows (rowsBytes rows ++ t) rows 0 0
    (fun _ => 0) [] (by omega) hwf hch hne rfl cellInv_zero
  rw [hlen, Nat.zero_add] at h1
  unfold ParseFEN
  rw [h1]
  dsimp only
  rw [hget 1]
  cases h1t : t.get? 1 with
  | none => rfl
  | some c =>
    dsimp only
    rw [show (rowsBytes rows).length + 1 + 2 = (rowsBytes rows).length + 3 from rfl, hget 3,
      List.get?_eq_getElem?, List.getElem?_eq_none (by omega)]

/-- The string `5/5/5/5/Pp3/5/5/5 b`, where the en-passant field is missing. -/
theorem parseFEN_truncated_example :
    ParseFEN (rowsBytes blackEnPassantRows ++ [32, 98]) initialPosition = none :=
  parseFEN_truncated blackEnPassantRows [32, 98] initialPosition (by decide) (by decide)
    (by decide) (by decide)

theorem parseMoveLoop_spec (ms : List Nat) (a b : Nat) (l : List Nat) :
    (parseMoveLoop ms a b l = 0
        ∨ (parseMoveLoop ms a b l ∈ l ∧ a = GetMoveSource (parseMoveLoop ms a b l)
            ∧ b = GetMoveTarget (parseMoveLoop ms a b l)
            ∧ (1 ≤ GetMovePromotedPiece (parseMoveLoop ms a b l)
                ∧ GetMovePromotedPiece (parseMoveLoop ms a b l) ≤ 4 →
              ms.length = 5 ∧ ms.get? 4
                = some (promotionLetter (GetMovePromotedPiece (parseMoveLoop ms a b l))))))
    ∧ ((∀ m, m ∈ l → ¬ (a = GetMoveSource m ∧ b = GetMoveTarget m
          ∧ (1 ≤ GetMovePromotedPiece m ∧ GetMovePromotedPiece m ≤ 4 →
              ms.length = 5 ∧ ms.get? 4 = some (promotionLetter (GetMovePromotedPiece m)))))
        → parseMoveLoop ms a b l = 0) := by
  induction l with
  | nil => exact ⟨Or.inl rfl, fun _ => rfl⟩
  | cons x rest ih =>
    have lift : (parseMoveLoop ms a b rest = 0
        ∨ (parseMoveLoop ms a b rest ∈ rest ∧ a = GetMoveSource (parseMoveLoop ms a b rest)
            ∧ b = GetMoveTarget (parseMoveLoop ms a b rest)
            ∧ (1 ≤ GetMovePromotedPiece (parseMoveLoop ms a b rest)
                ∧ GetMovePromotedPiece (parseMoveLoop ms a b rest) ≤ 4 →
              ms.length = 5 ∧ ms.get? 4
                = some (promotionLetter (GetMovePromotedPiece (parseMoveLoop ms a b rest)))))) →
        (parseMoveLoop ms a b rest = 0
        ∨ (parseMoveLoop ms a b rest ∈ x :: rest ∧ a = GetMoveSource (parseMoveLoop ms a b rest)
            ∧ b = GetMoveTarget (parseMoveLoop ms a b rest)
            ∧ (1 ≤ GetMovePromotedPiece (parseMoveLoop ms a b rest)
                ∧ GetMovePromotedPiece (parseMoveLoop ms a b rest) ≤ 4 →
              ms.length = 5 ∧ ms.get? 4
                = some (promotionLetter (GetMovePromotedPiece (parseMoveLoop ms a b rest)))))) := by
      rintro (h | ⟨h1, h2⟩)
      · exact Or.inl h
      · exact Or.inr ⟨List.mem_cons_of_mem _ h1, h2⟩
    have hit : ∀ (hst : a = GetMoveSource x ∧ b = GetMoveTarget x)
        (hp : 1 ≤ GetMovePromotedPiece x ∧ GetMovePromotedPiece x ≤ 4 →
          ms.length = 5 ∧ ms.get? 4 = some (promotionLetter (GetMovePromotedPiece x))),
        (x = 0 ∨ (x ∈ x :: rest ∧ a = GetMoveSource x ∧ b = GetMoveTarget x
            ∧ (1 ≤ GetMovePromotedPiece x ∧ GetMovePromotedPiece x ≤ 4 →
              ms.length = 5 ∧ ms.get? 4 = some (promotionLetter (GetMovePromotedPiece x)))))
        ∧ ((∀ m, m ∈ x :: rest → ¬ (a = GetMoveSource m ∧ b = GetMoveTarget m
          ∧ (1 ≤ GetMovePromotedPiece m ∧ GetMovePromotedPiece m ≤ 4 →
              ms.length = 5 ∧ ms.get? 4 = some (promotionLetter (GetMovePromotedPiece m)))))
          → x = 0) := by
      intro hst hp
      exact ⟨Or.inr ⟨List.mem_cons_self _ _, hst.1, hst.2, hp⟩,
        fun hall => absurd ⟨hst.1, hst.2, hp⟩ (hall x (List.mem_cons_self _ _))⟩
    have miss : (¬ (a = GetMoveSource x ∧ b = GetMoveTarget x
          ∧ (1 ≤ GetMovePromotedPiece x ∧ GetMovePromotedPiece x ≤ 4 →
              ms.length = 5 ∧ ms.get? 4 = some (promotionLetter (GetMovePromotedPiece x))))) →
        (parseMoveLoop ms a b rest = 0
        ∨ (parseMoveLoop ms a b rest ∈ x :: rest ∧ a = GetMoveSource (parseMoveLoop ms a b rest)
            ∧ b = GetMoveTarget (parseMoveLoop ms a b rest)
            ∧ (1 ≤ GetMovePromotedPiece (parseMoveLoop ms a b rest)
                ∧ GetMovePromotedPiece (parseMoveLoop ms a b rest) ≤ 4 →
              ms.length = 5 ∧ ms.get? 4
                = some (promotionLetter (GetMovePromotedPiece (parseMoveLoop ms a b rest))))))
        ∧ ((∀ m, m ∈ x :: rest → ¬ (a = GetMoveSource m ∧ b = GetMoveTarget m
          ∧ (1 ≤ GetMovePromotedPiece m ∧ GetMovePromotedPiece m ≤ 4 →
              ms.length = 5 ∧ ms.get? 4 = some (promotionLetter (GetMovePromotedPiece m)))))
          → parseMoveLoop ms a b rest = 0) := by
      intro _
      exact ⟨lift ih.1, fun hall => ih.2 (fun m hm => hall m (List.mem_cons_of_mem _ hm))⟩
    unfold parseMoveLoop
    by_cases hst : a = GetMoveSource x ∧ b = GetMoveTarget x
    · rw [if_pos hst]
      dsimp only
      by_cases hpr : GetMovePromotedPiece x ≤ WhiteKing ∧ GetMovePromotedPiece x ≥ WhiteKnight
      · rw [if_pos hpr]
        by_cases h5 : ms.length = 5
        · rw [if_pos h5]
          by_cases c1 : GetMovePromotedPiece x = WhiteKnight ∧ ms.get? 4 = some 78
          · rw [if_pos c1]
            exact hit hst (fun _ => ⟨h5, by rw [c1.1, c1.2]; rfl⟩)
          · rw [if_neg c1]
            by_cases c2 : GetMovePromotedPiece x = WhiteBishop ∧ ms.get? 4 = some 66
            · rw [if_pos c2]
              exact hit hst (fun _ => ⟨h5, by rw [c2.1, c2.2]; rfl⟩)
            · rw [if_neg c2]
              by_cases c3 : GetMovePromotedPiece x = WhiteKing ∧ ms.get? 4 = some 75
              · rw [if_pos c3]
                exact hit hst (fun _ => ⟨h5, by rw [c3.1, c3.2]; rfl⟩)
              · rw [if_neg c3]
                by_cases c4 : GetMovePromotedPiece x = WhiteRook ∧ ms.get? 4 = some 82
                · rw [if_pos c4]
                  exact hit hst (fun _ => ⟨h5, by rw [c4.1, c4.2]; rfl⟩)
                · rw [if_neg c4]
                  apply miss
                  rintro ⟨_, _, h⟩
                  obtain ⟨_, hl⟩ := h ⟨hpr.2, hpr.1⟩
                  have h14 : GetMovePromotedPiece x = 1 ∨ GetMovePromotedPiece x = 2
                      ∨ GetMovePromotedPiece x = 3 ∨ GetMovePromotedPiece x = 4 := by
                    have := hpr.1; have := hpr.2
                    simp only [WhiteKing, WhiteKnight] at *
                    omega
                  rcases h14 with e | e | e | e
                  · exact c1 ⟨e, by rw [hl, e]; rfl⟩
                  · exact c2 ⟨e, by rw [hl, e]; rfl⟩
                  · exact c4 ⟨e, by rw [hl, e]; rfl⟩
                  · exact c3 ⟨e, by rw [hl, e]; rfl⟩
        · rw [if_neg h5]
          apply miss
          rintro ⟨_, _, h⟩
          exact h5 (h ⟨hpr.2, hpr.1⟩).1
      · rw [if_neg hpr]
        exact hit hst (fun h => absurd ⟨h.2, h.1⟩ hpr)
    · rw [if_neg hst]
      apply miss
      rintro ⟨h1, h2, _⟩
      exact hst ⟨h1, h2⟩

theorem parseMove_short (ms : List Nat) (s : Position) (h : ms.length < 4) :
    ParseMove ms s = none := by
  unfold ParseMove
  cases GenerateMoves s with
  | none => rfl
  | some l =>
    dsimp only
    have h3 : ms.get? 3 = none := by
      rw [List.get?_eq_getElem?, List.getElem?_eq_none (by omega)]
    rw [h3]
    cases ms.get? 0 <;> cases ms.get? 1 <;> cases ms.get? 2 <;> rfl

theorem parseMove_long (ms : List Nat) (s : Position) (l : List Nat)
    (hg : GenerateMoves s = some l) (h : 4 ≤ ms.length) :
    ParseMove ms s = some (parseMoveLoop ms (parseSquare (ms.getD 0 0) (ms.getD 1 0))
      (parseSquare (ms.getD 2 0) (ms.getD 3 0)) l) := by
  unfold ParseMove
  rw [hg]
  dsimp only
  have e : ∀ k, k < 4 → ms.get? k = some (ms.getD k 0) := by
    intro k hk
    rw [List.get?_eq_getElem?, List.getElem?_eq_getElem (by omega), List.getD_eq_getElem _ 0 (by omega)]
  rw [e 0 (by omega), e 1 (by omega), e 2 (by omega), e 3 (by omega)]

/-- C23 at its failing inputs: on the empty string, on `a2` and on `a2a`, none of which
denotes a move of the start position, ParseMove does not return 0: it does not return at
all. The four bytes `moveString[0]` to `moveString[3]` are read before the move list is
searched and without a check of the length, which is checked only before the fifth byte
is read. -/
theorem C23_short_string_panics :
    ParseMove (bytesOf "") startPosition = none
    ∧ ParseMove (bytesOf "a2") startPosition = none
    ∧ ParseMove (bytesOf "a2a") startPosition = none :=
  ⟨parseMove_short _ _ (by decide), parseMove_short _ _ (by decide),
    parseMove_short _ _ (by decide)⟩

/-- A string of five bytes whose first four are the text of a move that is not a
promotion: the fifth byte is not looked at, and ParseMove returns the move. -/
theorem parseMove_trailing_byte :
    ParseMove (bytesOf "a2a3x") startPosition = some 1771102 := by
  rw [parseMove_long _ _ _ startPosition_moves (by decide)]
  decide

/-- ParseMove in a position for which GenerateMoves returns the list l: a string of fewer
than four bytes is indexed past its end; on a string of at least four bytes ParseMove
returns a value r that is 0 or a move of l with the source and target squares the first
four bytes decode to (and, for a promotion, with the string five bytes long and ending in
its promotion letter), and r is 0 when no move of l is such a move. -/
theorem parseMove_result (s : Position) (l : List Nat) (hg : GenerateMoves s = some l)
    (ms : List Nat) :
    (ms.length < 4 → ParseMove ms s = none)
    ∧ (4 ≤ ms.length → ∃ r, ParseMove ms s = some r
        ∧ (r = 0 ∨ (r ∈ l ∧ MoveMatches ms r))
        ∧ ((∀ m, m ∈ l → ¬ MoveMatches ms m) → r = 0)) := by
  refine ⟨parseMove_short ms s, fun h => ⟨_, parseMove_long ms s l hg h, ?_⟩⟩
  exact parseMoveLoop_spec ms _ _ l

/-- The lemma parseMove_result at the start position and the string `a9a3`. -/
theorem parseMove_result_example :
    ((bytesOf "a9a3").length < 4 → ParseMove (bytesOf "a9a3") startPosition = none)
    ∧ (4 ≤ (bytesOf "a9a3").length → ∃ r, ParseMove (bytesOf "a9a3") startPosition = some r
        ∧ (r = 0 ∨ (r ∈ [1771102, 3867934, 1771167, 3867999, 1771232, 3868064, 1771297,
              3868129, 1771362, 3868194, 1775204, 1775332, 1788325]
            ∧ MoveMatches (bytesOf "a9a3") r))
        ∧ ((∀ m, m ∈ [1771102, 3867934, 1771167, 3867999, 1771232, 3868064, 1771297,
              3868129, 1771362, 3868194, 1775204, 1775332, 1788325]
            → ¬ MoveMatches (bytesOf "a9a3") m) → r = 0)) :=
  parseMove_result startPosition _ startPosition_moves (bytesOf "a9a3")

theorem pieceOn_eq (s : Position) (hc : Consistent s) (p : Nat) (hp : p < 6) (src : Nat)
    (h : (s.Bitboards p).testBit src = true) : pieceOn s.Bitboards src = p := by
  have d := fun q (hq : q < 6) (hne : p ≠ q) => hc.disjoint p q src hp hq hne h
  unfold pieceOn
  interval_cases p
  · simp [h]
  · simp [h, d 0 (by decide) (by decide)]
  · simp [h, d 0 (by decide) (by decide), d 1 (by decide) (by decide)]
  · simp [h, d 0 (by decide) (by decide), d 1 (by decide) (by decide),
      d 2 (by decide) (by decide)]
  · simp [h, d 0 (by decide) (by decide), d 1 (by decide) (by decide),
      d 2 (by decide) (by decide), d 3 (by decide) (by decide)]
  · simp [h, d 0 (by decide) (by decide), d 1 (by decide) (by decide),
      d 2 (by decide) (by decide), d 3 (by decide) (by decide), d 4 (by decide) (by decide)]

theorem flagOf_white (s : Position) (src tgt : Nat) (h : s.SideToMove = WHITE) :
    flagOf s src tgt = 0 := by
  unfold flagOf
  rw [if_neg]
  rw [h]
  simp [WHITE, BLACK]

theorem captureOf_empty (s : Position) (src tgt : Nat) (hf : flagOf s src tgt = 0)
    (he : (s.Occupancies BOTH).testBit tgt = false) : captureOf s src tgt = NoPiece := by
  unfold captureOf
  rw [hf, if_neg (by decide), he]
  rfl

theorem captureOf_white (s : Position) (src tgt : Nat) (h : s.SideToMove = WHITE)
    (he : (s.Occupancies BOTH).testBit tgt = true) : captureOf s src tgt = BlackPawn := by
  unfold captureOf
  rw [flagOf_white s src tgt h, if_neg (by decide), he, if_pos rfl, if_pos h]

theorem doubleOf_zero (s : Position) (src tgt : Nat)
    (h : pieceOn s.Bitboards src ≠ 0 ∨ tgt + 10 ≠ src) : doubleOf s src tgt = 0 := by
  unfold doubleOf
  rw [if_neg]
  rintro ⟨h1, h2⟩
  rcases h with h | h
  · exact h h1
  · exact h h2

theorem Consistent.both_of_black {s : Position} (h : Consistent s) (i : Nat)
    (hb : (s.Occupancies BLACK).testBit i = true) : (s.Occupancies BOTH).testBit i = true := by
  rw [h.2.2.2.2.1, Nat.testBit_or, hb, Bool.or_true]

theorem Consistent.both_of_white {s : Position} (h : Consistent s) (i : Nat)
    (hb : (s.Occupancies WHITE).testBit i = true) : (s.Occupancies BOTH).testBit i = true := by
  rw [h.2.2.2.2.1, Nat.testBit_or, hb, Bool.true_or]

/-- On a consistent position the fields of a generated move are decided by its source,
target and promoted piece, and it is a promotion exactly from a White pawn on rank 7. -/
theorem gen_fields (s : Position) (hc : Consistent s) (m : Nat) (hg : Gen s m) :
    ∃ src tgt piece pr cap dpp ep,
      m = EncodeMove src tgt piece pr cap dpp ep ∧ src < 40 ∧ tgt < 40 ∧ piece < 6 ∧ cap < 8
      ∧ pieceOn s.Bitboards src = piece ∧ flagOf s src tgt = ep ∧ captureOf s src tgt = cap
      ∧ doubleOf s src tgt = dpp
      ∧ ((pr = 6 ∧ ¬ PromotesFrom s src) ∨ (1 ≤ pr ∧ pr ≤ 4 ∧ PromotesFrom s src)) := by
  cases hg with
  | whitePush src hs hsrc hlt h10 he =>
    have hf := flagOf_white s src (src - 5) hs
    exact ⟨_, _, _, _, _, _, _, rfl, hlt, by omega, by decide, by decide,
      pieceOn_eq s hc 0 (by decide) src hsrc, hf, captureOf_empty s _ _ hf he,
      doubleOf_zero s _ _ (Or.inr (by omega)),
      Or.inl ⟨rfl, fun h => by have := h.2.2.2; omega⟩⟩
  | whitePushPromo src pr hs hsrc h5 h9 he hpr =>
    rw [mem_promotionPieces] at hpr
    have hf := flagOf_white s src (src - 5) hs
    exact ⟨_, _, _, _, _, _, _, rfl, by omega, by omega, by decide, by decide,
      pieceOn_eq s hc 0 (by decide) src hsrc, hf, captureOf_empty s _ _ hf he,
      doubleOf_zero s _ _ (Or.inr (by omega)),
      Or.inr ⟨by omega, by omega, hs, hsrc, h5, h9⟩⟩
  | whiteDouble src hs hsrc h30 h34 he he2 =>
    have hf := flagOf_white s src (src - 10) hs
    refine ⟨_, _, _, _, _, _, _, rfl, by omega, by omega, by decide, by decide,
      pieceOn_eq s hc 0 (by decide) src hsrc, hf, captureOf_empty s _ _ hf he2, ?_,
      Or.inl ⟨rfl, fun h => by have := h.2.2.2; omega⟩⟩
    unfold doubleOf
    rw [if_pos ⟨pieceOn_eq s hc 0 (by decide) src hsrc, by omega⟩]
  | whitePawnCapture src tgt hs hsrc hlt hnp ht =>
    rw [Nat.testBit_and, Bool.and_eq_true] at ht
    have hgeo := (maskPawnAttacks_white_iff src tgt hlt).1 ht.1
    exact ⟨_, _, _, _, _, _, _, rfl, hlt, hgeo.1, by decide, by decide,
      pieceOn_eq s hc 0 (by decide) src hsrc, flagOf_white s _ _ hs,
      captureOf_white s _ _ hs (hc.both_of_black tgt ht.2),
      doubleOf_zero s _ _ (Or.inr (by omega)),
      Or.inl ⟨rfl, fun h => hnp ⟨h.2.2.1, h.2.2.2⟩⟩⟩
  | whitePawnCapturePromo src tgt pr hs hsrc h5 h9 ht hpr =>
    rw [Nat.testBit_and, Bool.and_eq_true] at ht
    rw [mem_promotionPieces] at hpr
    have hgeo := (maskPawnAttacks_white_iff src tgt (by omega)).1 ht.1
    exact ⟨_, _, _, _, _, _, _, rfl, by omega, hgeo.1, by decide, by decide,
      pieceOn_eq s hc 0 (by decide) src hsrc, flagOf_white s _ _ hs,
      captureOf_white s _ _ hs (hc.both_of_black tgt ht.2),
      doubleOf_zero s _ _ (Or.inr (by omega)),
      Or.inr ⟨by omega, by omega, hs, hsrc, h5, h9⟩⟩
  | whitePieceQuiet piece src tgt a hs h1 h4 hsrc ha ht hb =>
    obtain ⟨hsl, hal⟩ := whiteAttackSet_lt s piece src a ha
    rw [Nat.testBit_and, Bool.and_eq_true,
      testBit_compl64 _ _ (Nat.lt_of_lt_of_le hc.occW_lt two_pow_40_le_64)] at ht
    have htl : tgt < 40 := lt_of_testBit_lt _ 40 tgt hal ht.1
    have hw : (s.Occupancies WHITE).testBit tgt = false := by
      have := ht.2; simp at this; exact this.2
    have he : (s.Occupancies BOTH).testBit tgt = false := by
      rw [hc.2.2.2.2.1, Nat.testBit_or, hw, hb]; rfl
    have hp := pieceOn_eq s hc piece (by omega) src hsrc
    have hf := flagOf_white s src tgt hs
    exact ⟨_, _, _, _, _, _, _, rfl, hsl, htl, by omega, by decide, hp, hf,
      captureOf_empty s _ _ hf he, doubleOf_zero s _ _ (Or.inl (by rw [hp]; omega)),
      Or.inl ⟨rfl, fun h => by
        have := hc.disjoint piece 0 src (by omega) (by decide) (by omega) hsrc
        rw [h.2.1] at this; cases this⟩⟩
  | whitePieceCapture piece src tgt a hs h1 h4 hsrc ha ht hb =>
    obtain ⟨hsl, hal⟩ := whiteAttackSet_lt s piece src a ha
    rw [Nat.testBit_and, Bool.and_eq_true] at ht
    have htl : tgt < 40 := lt_of_testBit_lt _ 40 tgt hal ht.1
    have hp := pieceOn_eq s hc piece (by omega) src hsrc
    exact ⟨_, _, _, _, _, _, _, rfl, hsl, htl, by omega, by decide, hp, flagOf_white s _ _ hs,
      captureOf_white s _ _ hs (hc.both_of_black tgt hb),
      doubleOf_zero s _ _ (Or.inl (by rw [hp]; omega)),
      Or.inl ⟨rfl, fun h => by
        have := hc.disjoint piece 0 src (by omega) (by decide) (by omega) hsrc
        rw [h.2.1] at this; cases this⟩⟩
  | blackPush src hs hsrc h39 he =>
    have hp := pieceOn_eq s hc 5 (by decide) src hsrc
    have hf : flagOf s src (src + 5) = 0 := by
      unfold flagOf
      rw [if_neg]
      rintro ⟨_, _, h⟩
      exact h rfl
    exact ⟨_, _, _, _, _, _, _, rfl, by omega, by omega, by decide, by decide, hp, hf,
      captureOf_empty s _ _ hf he, doubleOf_zero s _ _ (Or.inl (by rw [hp]; decide)),
      Or.inl ⟨rfl, fun h => by have := h.1; rw [hs] at this; cases this⟩⟩
  | blackCapture src tgt hs hsrc hlt ht =>
    rw [Nat.testBit_and, Bool.and_eq_true] at ht
    obtain ⟨hc5, hcb⟩ := capturedWhitePiece_spec s hc tgt ht.2
    have htl : tgt < 40 := lt_of_testBit_lt _ 40 tgt hc.occW_lt ht.2
    have hboth := hc.both_of_white tgt ht.2
    have hp := pieceOn_eq s hc 5 (by decide) src hsrc
    have hf : flagOf s src tgt = 0 := by
      unfold flagOf
      rw [if_neg]
      rintro ⟨_, h, _⟩
      rcases hc.2.2.2.2.2 with h1 | ⟨_, _, h3⟩
      · rw [h1] at h
        simp only [NoSquare] at h
        omega
      · rw [h, Int.toNat_ofNat, hboth] at h3
        cases h3
    refine ⟨_, _, _, _, _, _, _, rfl, hlt, htl, by decide, by omega, hp, hf, ?_,
      doubleOf_zero s _ _ (Or.inl (by rw [hp]; decide)),
      Or.inl ⟨rfl, fun h => by have := h.1; rw [hs] at this; cases this⟩⟩
    unfold captureOf
    rw [hf, if_neg (by decide), hboth, if_pos rfl, if_neg (by rw [hs]; decide)]
  | blackEnPassant src hs hsrc hlt hep h5 hatt hwp =>
    rcases hc.2.2.2.2.2 with h1 | ⟨h25, h29, he⟩
    · exact absurd h1 hep
    · have hgeo := (maskPawnAttacks_black_iff src _ hlt).1 hatt
      have hp := pieceOn_eq s hc 5 (by decide) src hsrc
      have hf : flagOf s src s.EnPassantSquare.toNat = 1 := by
        unfold flagOf
        rw [if_pos]
        exact ⟨hs, by omega, by omega⟩
      refine ⟨_, _, _, _, _, _, _, rfl, hlt, hgeo.1, by decide, by decide, hp, hf, ?_,
        doubleOf_zero s _ _ (Or.inl (by rw [hp]; decide)),
        Or.inl ⟨rfl, fun h => by have := h.1; rw [hs] at this; cases this⟩⟩
      unfold captureOf
      rw [hf, if_pos rfl]

theorem gen_canonical (s : Position) (hc : Consistent s) (m : Nat) (hg : Gen s m) :
    m = canonicalMove s (GetMoveSource m) (GetMoveTarget m) (GetMovePromotedPiece m)
    ∧ GetMoveSource m < 40 ∧ GetMoveTarget m < 40
    ∧ ((GetMovePromotedPiece m = 6 ∧ ¬ PromotesFrom s (GetMoveSource m))
        ∨ (1 ≤ GetMovePromotedPiece m ∧ GetMovePromotedPiece m ≤ 4
            ∧ PromotesFrom s (GetMoveSource m))) := by
  obtain ⟨src, tgt, piece, pr, cap, dpp, ep, rfl, hs, ht, hp, hcap, e1, e2, e3, e4, hpr⟩ :=
    gen_fields s hc m hg
  have hpr8 : pr < 8 := by omega
  have hd : dpp < 2 := by
    rw [← e4]; unfold doubleOf; split <;> decide
  have he : ep < 2 := by
    rw [← e2]; unfold flagOf; split <;> decide
  obtain ⟨d1, d2, _, d4, _⟩ := decode_encode src tgt piece pr cap dpp ep (by omega) (by omega)
    (by omega) hpr8 hcap hd he
  rw [d1, d2, d4]
  refine ⟨?_, hs, ht, hpr⟩
  unfold canonicalMove
  rw [e1, e2, e3, e4]

/-- On a consistent position two generated moves with the same source, target and
promoted piece are the same move. -/
theorem gen_unique (s : Position) (hc : Consistent s) (x m : Nat) (hx : Gen s x) (hm : Gen s m)
    (h1 : GetMoveSource x = GetMoveSource m) (h2 : GetMoveTarget x = GetMoveTarget m)
    (h3 : GetMovePromotedPiece x = GetMovePromotedPiece m) : x = m := by
  rw [(gen_canonical s hc x hx).1, (gen_canonical s hc m hm).1, h1, h2, h3]

set_option maxRecDepth 100000 in
theorem squareToCoord_bytes : ∀ sq, sq < 40 →
    (SquareToCoord.get? sq).map bytesOf = some [97 + sq % 5, 56 - sq / 5] := by decide!

theorem parseSquare_coord (sq : Nat) (h : sq < 40) :
    parseSquare (97 + sq % 5) (56 - sq / 5) = sq := by
  unfold parseSquare
  dsimp only
  omega

theorem promotedPieces_bytes (pr : Nat) :
    bytesOf (PromotedPieces pr)
      = if pr = WhiteKnight then [78] else if pr = WhiteBishop then [66]
        else if pr = WhiteRook then [82] else if pr = WhiteKing then [75] else [] := by
  unfold PromotedPieces
  split
  · rfl
  · split
    · rfl
    · split
      · rfl
      · split <;> rfl

theorem printMove_eq (m : Nat) (hs : GetMoveSource m < 40) (ht : GetMoveTarget m < 40) :
    PrintMove m = some ([97 + GetMoveSource m % 5, 56 - GetMoveSource m / 5,
        97 + GetMoveTarget m % 5, 56 - GetMoveTarget m / 5]
      ++ (if GetMovePromotedPiece m = WhiteKnight then [78]
          else if GetMovePromotedPiece m = WhiteBishop then [66]
          else if GetMovePromotedPiece m = WhiteRook then [82]
          else if GetMovePromotedPiece m = WhiteKing then [75] else [])) := by
  have h1 := squareToCoord_bytes _ hs
  have h2 := squareToCoord_bytes _ ht
  unfold PrintMove
  cases e1 : SquareToCoord.get? (GetMoveSource m) with
  | none => rw [e1] at h1; cases h1
  | some a =>
    cases e2 : SquareToCoord.get? (GetMoveTarget m) with
    | none => rw [e2] at h2; cases h2
    | some b =>
      rw [e1] at h1
      rw [e2] at h2
      simp only [Option.map_some', Option.some.injEq] at h1 h2
      dsimp only
      rw [h1, h2, promotedPieces_bytes]
      rfl

/-- The loop of ParseMove finds a generated move from its source, its target and, for a
promotion, its letter. -/
theorem parseMoveLoop_find (s : Position) (hc : Consistent s) (ms : List Nat) (m : Nat)
    (hm : Gen s m)
    (hlet : 1 ≤ GetMovePromotedPiece m ∧ GetMovePromotedPiece m ≤ 4 →
      ms.length = 5 ∧ ms.get? 4 = some (promotionLetter (GetMovePromotedPiece m)))
    (l : List Nat) (hl : ∀ x, x ∈ l → Gen s x) (hmem : m ∈ l) :
    parseMoveLoop ms (GetMoveSource m) (GetMoveTarget m) l = m := by
  induction l with
  | nil => cases hmem
  | cons x rest ih =>
    have hx : Gen s x := hl x (List.mem_cons_self _ _)
    have hrest : x ≠ m → parseMoveLoop ms (GetMoveSource m) (GetMoveTarget m) rest = m := by
      intro hne
      apply ih (fun y hy => hl y (List.mem_cons_of_mem _ hy))
      rcases List.mem_cons.1 hmem with h | h
      · exact absurd h.symm hne
      · exact h
    unfold parseMoveLoop
    by_cases hst : GetMoveSource m = GetMoveSource x ∧ GetMoveTarget m = GetMoveTarget x
    · rw [if_pos hst]
      dsimp only
      obtain ⟨_, _, _, cx⟩ := gen_canonical s hc x hx
      obtain ⟨_, _, _, cm⟩ := gen_canonical s hc m hm
      rw [← hst.1] at cx
      rcases cx with ⟨ex, nx⟩ | ⟨x1, x4, px⟩
      · rcases cm with ⟨em, _⟩ | ⟨_, _, pm⟩
        · rw [if_neg (by rw [ex]; decide)]
          exact gen_unique s hc x m hx hm hst.1.symm hst.2.symm (by rw [ex, em])
        · exact absurd pm nx
      · rcases cm with ⟨_, nm⟩ | ⟨m1, m4, _⟩
        · exact absurd px nm
        · obtain ⟨h5, hl4⟩ := hlet ⟨m1, m4⟩
          rw [if_pos ⟨x4, x1⟩, if_pos h5, hl4]
          have key : (if GetMovePromotedPiece x = WhiteKnight
                ∧ some (promotionLetter (GetMovePromotedPiece m)) = some 78 then x
              else if GetMovePromotedPiece x = WhiteBishop
                ∧ some (promotionLetter (GetMovePromotedPiece m)) = some 66 then x
              else if GetMovePromotedPiece x = WhiteKing
                ∧ some (promotionLetter (GetMovePromotedPiece m)) = some 75 then x
              else if GetMovePromotedPiece x = WhiteRook
                ∧ some (promotionLetter (GetMovePromotedPiece m)) = some 82 then x
              else parseMoveLoop ms (GetMoveSource m) (GetMoveTarget m) rest)
              = if GetMovePromotedPiece x = GetMovePromotedPiece m then x
                else parseMoveLoop ms (GetMoveSource m) (GetMoveTarget m) rest := by
            have hx14 : GetMovePromotedPiece x = 1 ∨ GetMovePromotedPiece x = 2
                ∨ GetMovePromotedPiece x = 3 ∨ GetMovePromotedPiece x = 4 := by omega
            have hm14 : GetMovePromotedPiece m = 1 ∨ GetMovePromotedPiece m = 2
                ∨ GetMovePromotedPiece m = 3 ∨ GetMovePromotedPiece m = 4 := by omega
            rcases hx14 with e | e | e | e <;> rcases hm14 with f | f | f | f <;>
              rw [e, f] <;> simp [promotionLetter, WhiteKnight, WhiteBishop, WhiteRook, WhiteKing]
          rw [key]
          by_cases hpp : GetMovePromotedPiece x = GetMovePromotedPiece m
          · rw [if_pos hpp]
            exact gen_unique s hc x m hx hm hst.1.symm hst.2.symm hpp
          · rw [if_neg hpp]
            exact hrest (fun h => hpp (by rw [h]))
    · rw [if_neg hst]
      exact hrest (fun h => hst (by rw [h]; exact ⟨rfl, rfl⟩))

/-- C24: on a consistent position, for every move m of the list GenerateMoves returns,
PrintMove gives a text (the coordinates of the source square, those of the target square,
and N, B, R or K when m promotes to Knight, Bishop, Rook or King), and ParseMove applied
to that text returns exactly m. -/
theorem C24_move_text_round_trip (s : Position) (hc : Consistent s) (l : List Nat)
    (hg : GenerateMoves s = some l) (m : Nat) (hm : m ∈ l) :
    ∃ text, PrintMove m = some text
      ∧ text = [97 + GetMoveSource m % 5, 56 - GetMoveSource m / 5,
            97 + GetMoveTarget m % 5, 56 - GetMoveTarget m / 5]
          ++ (if GetMovePromotedPiece m = WhiteKnight then [78]
              else if GetMovePromotedPiece m = WhiteBishop then [66]
              else if GetMovePromotedPiece m = WhiteRook then [82]
              else if GetMovePromotedPiece m = WhiteKing then [75] else [])
      ∧ ParseMove text s = some m := by
  have hgen : ∀ x, x ∈ l → Gen s x := fun x hx => gen_sound s hc.lt64 l hg x hx
  obtain ⟨_, hs, ht, hpr⟩ := gen_canonical s hc m (hgen m hm)
  refine ⟨_, printMove_eq m hs ht, rfl, ?_⟩
  rw [parseMove_long _ s l hg (by simp)]
  simp only [List.cons_append, List.nil_append, List.getD_cons_zero, List.getD_cons_succ]
  rw [parseSquare_coord _ hs, parseSquare_coord _ ht]
  congr 1
  apply parseMoveLoop_find s hc _ m (hgen m hm) _ l hgen hm
  intro h14
  have hm14 : GetMovePromotedPiece m = 1 ∨ GetMovePromotedPiece m = 2
      ∨ GetMovePromotedPiece m = 3 ∨ GetMovePromotedPiece m = 4 := by omega
  rcases hm14 with f | f | f | f <;> rw [f] <;>
    simp [promotionLetter, WhiteKnight, WhiteBishop, WhiteRook, WhiteKing]

/-- C24 at the start position and its first move, a2a3. -/
theorem C24_move_text_round_trip_witness :
    ∃ text, PrintMove 1771102 = some text
      ∧ text = [97 + GetMoveSource 1771102 % 5, 56 - GetMoveSource 1771102 / 5,
            97 + GetMoveTarget 1771102 % 5, 56 - GetMoveTarget 1771102 / 5]
          ++ (if GetMovePromotedPiece 1771102 = WhiteKnight then [78]
              else if GetMovePromotedPiece 1771102 = WhiteBishop then [66]
              else if GetMovePromotedPiece 1771102 = WhiteRook then [82]
              else if GetMovePromotedPiece 1771102 = WhiteKing then [75] else [])
      ∧ ParseMove text startPosition = some 1771102 :=
  C24_move_text_round_trip startPosition startPosition_consistent _ startPosition_moves 1771102
    (by decide)

/-- C26: for every square sq in 0..39 and every occupancy occ (of any width, so for every
occupancy within the low 40 bits), GetBishopAttacks(sq, occ), the lookup in the table that
InitSlidersAttacks fills with the compiled-in bishop magic numbers and relevant-bit counts,
equals BishopAttacksOnTheFly(sq, occ); and the magic index of every occupancy, at which
InitSlidersAttacks stores and GetBishopAttacks looks up, is below 512, the length of a row
of the table. -/
theorem C26_bishop_magic_lookup (sq occ : Nat) (hs : sq < 40) :
    GetBishopAttacks sq occ = some (BishopAttacksOnTheFly sq occ)
    ∧ ∀ x, magicIndex x (BishopMagicNumbers.getD sq 0)
        (BishopRelevantOccupancyCount.getD sq 0) < 512 := by
  constructor
  · rw [getBishopAttacks_onTheFly sq occ hs, ← bishopOnTheFly_mask sq occ hs]
  · intro x
    have h9 := bishopRelevant_le sq hs
    have := magicIndex_lt x (BishopMagicNumbers.getD sq 0)
      (BishopRelevantOccupancyCount.getD sq 0) (by omega)
    exact Nat.lt_of_lt_of_le this (Nat.pow_le_pow_right (by decide) h9)

/-- C26 at square c6 (12) with pieces on b7, c5 and a1. -/
theorem C26_bishop_magic_lookup_witness :
    GetBishopAttacks 12 34359869504 = some (BishopAttacksOnTheFly 12 34359869504)
    ∧ ∀ x, magicIndex x (BishopMagicNumbers.getD 12 0)
        (BishopRelevantOccupancyCount.getD 12 0) < 512 :=
  C26_bishop_magic_lookup 12 34359869504 (by decide)

/-- C27: for every square sq in 0..39 and every occupancy occ (of any width, so for every
occupancy within the low 40 bits), GetRookAttacks(sq, occ), the lookup in the table that
InitSlidersAttacks fills with the compiled-in rook magic numbers and relevant-bit counts,
equals RookAttacksOnTheFly(sq, occ); and the magic index of every occupancy, at which
InitSlidersAttacks stores and GetRookAttacks looks up, is below 4096, the length of a row
of the table. -/
theorem C27_rook_magic_lookup (sq occ : Nat) (hs : sq < 40) :
    GetRookAttacks sq occ = some (RookAttacksOnTheFly sq occ)
    ∧ ∀ x, magicIndex x (RookMagicNumbers.getD sq 0)
        (RookRelevantOccupancyCount.getD sq 0) < 4096 := by
  constructor
  · rw [getRookAttacks_onTheFly sq occ hs, ← rookOnTheFly_mask sq occ hs]
  · intro x
    have h12 := rookRelevant_le sq hs
    have := magicIndex_lt x (RookMagicNumbers.getD sq 0)
      (RookRelevantOccupancyCount.getD sq 0) (by omega)
    exact Nat.lt_of_lt_of_le this (Nat.pow_le_pow_right (by decide) h12)

/-- C27 at square c6 (12) with pieces on c8, b6 and a1. -/
theorem C27_rook_magic_lookup_witness :
    GetRookAttacks 12 34359740420 = some (RookAttacksOnTheFly 12 34359740420)
    ∧ ∀ x, magicIndex x (RookMagicNumbers.getD 12 0)
        (RookRelevantOccupancyCount.getD 12 0) < 4096 :=
  C27_rook_magic_lookup 12 34359740420 (by decide)

/-! ## The transposition table after ClearTranspositionTable -/

theorem clearTableLoop_apply : ∀ (n i : Nat) (table : Nat → taggedHashEntry) (j : Nat),
    clearTableLoop n i table j
      = if i ≤ j ∧ j < i + n then
          { table j with key := 0, depth := 0, flags := 0, value := 0 }
        else table j := by
  intro n
  induction n with
  | zero =>
    intro i table j
    rw [if_neg (by omega)]
    rfl
  | succ n ih =>
    intro i table j
    show clearTableLoop n (i + 1) _ j = _
    rw [ih]
    by_cases h1 : j = i
    · subst h1
      rw [if_neg (by omega), if_pos rfl, if_pos (by omega)]
    · by_cases h2 : i + 1 ≤ j ∧ j < i + 1 + n
      · rw [if_pos h2, if_neg h1, if_pos (by omega)]
      · rw [if_neg h2, if_neg h1, if_neg (by omega)]

theorem clearTranspositionTable_apply (table : Nat → taggedHashEntry) (j : Nat) :
    ClearTranspositionTable table j
      = if j < hashSize then
          { table j with key := 0, depth := 0, flags := 0, value := 0 }
        else table j := by
  unfold ClearTranspositionTable
  rw [clearTableLoop_apply]
  by_cases h : j < hashSize
  · rw [if_pos ⟨Nat.zero_le _, by omega⟩, if_pos h]
  · rw [if_neg (by omega), if_neg h]

/-- C40 (as stated) fails for the hash key 0: on the cleared empty table a probe with key 0,
depth 0 and the window (-50, 50) returns the value 0, not the sentinel, and replaces the
hint 5 by 0. -/
theorem C40_key_zero_counterexample :
    ProbeTranspositionTable (ClearTranspositionTable emptyTable) 0 5 0 (-50) 50 = (0, 0)
    ∧ (0 : Int) ≠ noHashEntry := by
  refine ⟨?_, by decide⟩
  unfold ProbeTranspositionTable
  rw [clearTranspositionTable_apply]
  decide

/-- C40 (amended): after ClearTranspositionTable a probe with a hash key other than 0
returns the sentinel 10000000 and leaves the hint alone, for every depth and window; a
probe with the hash key 0 hits the cleared slot 0: it replaces the hint by the best move
that slot still holds, and returns 0 when the requested depth is at most 0 and the sentinel
otherwise. -/
theorem C40_cleared_table_probe (table : Nat → taggedHashEntry) (key hint : Nat)
    (depth alpha beta : Int) :
    ProbeTranspositionTable (ClearTranspositionTable table) key hint depth alpha beta
      = if key = 0 then (if depth ≤ 0 then 0 else noHashEntry, (table 0).bestMove)
        else (noHashEntry, hint) := by
  unfold ProbeTranspositionTable
  have hlt : key % hashSize < hashSize := Nat.mod_lt _ (by decide)
  rw [clearTranspositionTable_apply, if_pos hlt]
  by_cases hk : key = 0
  · subst hk
    rw [if_pos rfl]
    dsimp only
    rw [if_pos rfl]
    by_cases hd : depth ≤ 0
    · rw [if_pos hd, if_pos hd, if_pos rfl]
      rfl
    · rw [if_neg hd, if_neg hd]
      rfl
  · rw [if_neg hk]
    dsimp only
    rw [if_neg (fun h => hk h.symm)]

/-! ## IsRepetition -/

theorem isRepetitionLoop_spec (table : Nat → Nat) (hashKey : Nat) : ∀ (n i : Nat),
    i + n ≤ 10000 →
    ∃ b, isRepetitionLoop table hashKey n i = some b
      ∧ (b = true ↔ ∃ j, i ≤ j ∧ j < i + n ∧ table j = hashKey) := by
  intro n
  induction n with
  | zero =>
    intro i _
    refine ⟨false, rfl, ?_⟩
    constructor
    · intro h; cases h
    · rintro ⟨j, h1, h2, _⟩; omega
  | succ n ih =>
    intro i hi
    unfold isRepetitionLoop
    rw [if_neg (by omega)]
    by_cases h : table i = hashKey
    · rw [if_pos h]
      exact ⟨true, rfl, fun _ => ⟨i, le_refl _, by omega, h⟩, fun _ => rfl⟩
    · rw [if_neg h]
      obtain ⟨b, hb, hiff⟩ := ih (i + 1) (by omega)
      refine ⟨b, hb, hiff.trans ?_⟩
      constructor
      · rintro ⟨j, h1, h2, h3⟩
        exact ⟨j, by omega, by omega, h3⟩
      · rintro ⟨j, h1, h2, h3⟩
        have : j ≠ i := by
          intro e; subst e; exact h h3
        exact ⟨j, by omega, by omega, h3⟩

/-- C34 (as stated) fails on a stack whose only pushed key, in slot 1 = RepetitionIndex,
equals the current hash key: IsRepetition returns false. -/
theorem C34_top_slot_counterexample :
    IsRepetition oneKeyStackPosition = some false
    ∧ (∃ i : Nat, 1 ≤ i ∧ (i : Int) ≤ oneKeyStackPosition.RepetitionIndex
        ∧ oneKeyStackPosition.RepetitionTable i = oneKeyStackPosition.HashKey) :=
  ⟨by decide, 1, by decide, by decide, by decide⟩

/-- C34 (amended): with RepetitionIndex at most 10000, IsRepetition returns, and it returns
true exactly when the current HashKey equals RepetitionTable[i] for some i with
0 ≤ i < RepetitionIndex: slot 0 is compared, the slot RepetitionIndex is not. -/
theorem C34_repetition_check (s : Position) (h : s.RepetitionIndex ≤ 10000) :
    ∃ b, IsRepetition s = some b
      ∧ (b = true ↔ ∃ i : Nat, (i : Int) < s.RepetitionIndex
          ∧ s.RepetitionTable i = s.HashKey) := by
  obtain ⟨b, hb, hiff⟩ := isRepetitionLoop_spec s.RepetitionTable s.HashKey
    s.RepetitionIndex.toNat 0 (by omega)
  refine ⟨b, hb, hiff.trans ?_⟩
  constructor
  · rintro ⟨j, _, h2, h3⟩
    exact ⟨j, by omega, h3⟩
  · rintro ⟨j, h2, h3⟩
    exact ⟨j, Nat.zero_le _, by omega, h3⟩

/-- C34 (amended) on the stack with one pushed key. -/
theorem C34_repetition_check_witness :
    oneKeyStackPosition.RepetitionIndex ≤ 10000
    ∧ ∃ b, IsRepetition oneKeyStackPosition = some b
      ∧ (b = true ↔ ∃ i : Nat, (i : Int) < oneKeyStackPosition.RepetitionIndex
          ∧ oneKeyStackPosition.RepetitionTable i = oneKeyStackPosition.HashKey) :=
  ⟨by decide, C34_repetition_check oneKeyStackPosition (by decide)⟩

/-! ## EnablePVScore -/

theorem enablePVScoreLoop_flags : ∀ (moves : List Nat) (st : SearchState),
    0 ≤ st.Ply ∧ st.Ply < 64 →
    ∃ st1, enablePVScoreLoop moves st = some st1
      ∧ st1.PVTable = st.PVTable ∧ st1.Ply = st.Ply
      ∧ (st1.ScorePV = true ↔ st.ScorePV = true ∨ st.PVTable 0 st.Ply.toNat ∈ moves)
      ∧ (st1.FollowPV = true ↔ st.FollowPV = true ∨ st.PVTable 0 st.Ply.toNat ∈ moves) := by
  intro moves
  induction moves with
  | nil =>
    intro st _
    exact ⟨st, rfl, rfl, rfl, by simp, by simp⟩
  | cons move rest ih =>
    intro st hp
    unfold enablePVScoreLoop
    rw [if_pos hp]
    by_cases e : st.PVTable 0 st.Ply.toNat = move
    · rw [if_pos e]
      obtain ⟨st1, h1, h2, h3, h4, h5⟩ := ih { st with ScorePV := true, FollowPV := true } hp
      refine ⟨st1, h1, h2, h3, ?_, ?_⟩
      · rw [h4]; simp [e]
      · rw [h5]; simp [e]
    · rw [if_neg e]
      obtain ⟨st1, h1, h2, h3, h4, h5⟩ := ih st hp
      refine ⟨st1, h1, h2, h3, ?_, ?_⟩
      · rw [h4, List.mem_cons]
        constructor
        · rintro (h | h)
          · exact Or.inl h
          · exact Or.inr (Or.inr h)
        · rintro (h | h | h)
          · exact Or.inl h
          · exact absurd h e
          · exact Or.inr h
      · rw [h5, List.mem_cons]
        constructor
        · rintro (h | h)
          · exact Or.inl h
          · exact Or.inr (Or.inr h)
        · rintro (h | h | h)
          · exact Or.inl h
          · exact absurd h e
          · exact Or.inr h

/-- C35 (as stated) fails when ScorePV is set before the call: the stored PV move 0 is not
in the list, and after EnablePVScore the flag ScorePV is still true (FollowPV is false). -/
theorem C35_score_flag_counterexample :
    scorePVSetState.PVTable 0 scorePVSetState.Ply.toNat ∉ [1771102]
    ∧ (EnablePVScore [1771102] scorePVSetState).map (fun st => (st.ScorePV, st.FollowPV))
        = some (true, false) :=
  ⟨by decide, by decide⟩

/-- C35 (amended): with Ply inside the PV table, EnablePVScore returns; afterwards FollowPV
is true exactly when the stored PV move PVTable[0][Ply] occurs in the list, and ScorePV is
true exactly when it was true before the call or the stored PV move occurs in the list
(the pass sets ScorePV, it never clears it). -/
theorem C35_pv_following_pass (moves : List Nat) (st : SearchState)
    (hp : 0 ≤ st.Ply ∧ st.Ply < 64) :
    ∃ st1, EnablePVScore moves st = some st1
      ∧ (st1.ScorePV = true ↔ st.ScorePV = true ∨ st.PVTable 0 st.Ply.toNat ∈ moves)
      ∧ (st1.FollowPV = true ↔ st.PVTable 0 st.Ply.toNat ∈ moves) := by
  obtain ⟨st1, h1, _, _, h4, h5⟩ := enablePVScoreLoop_flags moves { st with FollowPV := false } hp
  refine ⟨st1, h1, h4, ?_⟩
  rw [h5]
  simp

/-- C35 (amended) at the program-start globals with ScorePV set and a list of one move. -/
theorem C35_pv_following_pass_witness :
    (0 ≤ scorePVSetState.Ply ∧ scorePVSetState.Ply < 64)
    ∧ ∃ st1, EnablePVScore [1771102] scorePVSetState = some st1
      ∧ (st1.ScorePV = true ↔ scorePVSetState.ScorePV = true
          ∨ scorePVSetState.PVTable 0 scorePVSetState.Ply.toNat ∈ [1771102])
      ∧ (st1.FollowPV = true ↔ scorePVSetState.PVTable 0 scorePVSetState.Ply.toNat ∈ [1771102]) :=
  ⟨by decide, C35_pv_following_pass [1771102] scorePVSetState (by decide)⟩

/-! ## The transposition-table probe in negamax -/

/-- At a node below the root that is not a repetition, a probe that delivers a value ends
the node: negamax returns that value, whatever the window. -/
theorem negamax_probe_return (fuel : Nat) (depth alpha beta : Int) (st : SearchState)
    (hp : 0 ≤ st.Ply ∧ st.Ply < 64) (h1 : st.Ply ≥ 1)
    (hr : IsRepetition st.pos = some false)
    (hs : (ProbeTranspositionTable st.transpositionTable st.pos.HashKey 0 depth alpha beta).1
      ≠ noHashEntry) :
    negamax (fuel + 1) depth alpha beta st
      = some ((ProbeTranspositionTable st.transpositionTable st.pos.HashKey 0 depth alpha
            beta).1,
          { st with PVLength := setAtInt st.PVLength st.Ply.toNat st.Ply }) := by
  have h0 : st.Ply ≠ 0 := by omega
  unfold negamax
  rw [if_pos hp]
  simp only [h0, ne_eq, not_false_eq_true, if_true, hr, Bool.false_eq_true, if_false, true_and,
    hs, h1, and_self]
  split_ifs <;> rfl

/-- At the root, and at a node that is not a repetition when the probe delivers nothing,
negamax goes on to the search. -/
theorem negamax_probe_continue (fuel : Nat) (depth alpha beta : Int) (st : SearchState)
    (hp : 0 ≤ st.Ply ∧ st.Ply < 64) (hr : st.Ply ≠ 0 → IsRepetition st.pos = some false)
    (hs : st.Ply = 0
      ∨ (ProbeTranspositionTable st.transpositionTable st.pos.HashKey 0 depth alpha beta).1
        = noHashEntry) :
    negamax (fuel + 1) depth alpha beta st
      = if depth ≤ 0 then
          quiescence fuel alpha beta
            { st with PVLength := setAtInt st.PVLength st.Ply.toNat st.Ply }
        else if st.Ply > MaxPly - 1 ∨ IsTerminalPosition st.pos = true then
          (EvaluatePosition st.pos).map
            (fun v => (v, { st with PVLength := setAtInt st.PVLength st.Ply.toNat st.Ply }))
        else
          negamaxBody (negamax fuel) depth alpha beta
            (ProbeTranspositionTable st.transpositionTable st.pos.HashKey 0 depth alpha
              beta).2
            { st with PVLength := setAtInt st.PVLength st.Ply.toNat st.Ply } := by
  unfold negamax
  rw [if_pos hp]
  by_cases h0 : st.Ply = 0
  · simp only [h0, ne_eq, not_true_eq_false, if_false, Bool.false_eq_true, false_and,
      ge_iff_le, Int.reduceLE, and_false]
  · rcases hs with hs | hs
    · exact absurd hs h0
    · simp only [h0, ne_eq, not_false_eq_true, if_true, hr h0, Bool.false_eq_true, if_false,
        hs, not_true_eq_false, false_and, and_false]

/-- C36 (as stated) fails for a zero-width window below the root: at ply 1, with the
window (0, 1) and an exact table entry of value 42, negamax returns 42 for every
recursion budget and counts no node. -/
theorem C36_zero_width_counterexample :
    tableHitState.Ply = 1 ∧ wrapInt (1 - 0) = 1
    ∧ IsRepetition tableHitState.pos = some false
    ∧ ∀ fuel : Nat,
        (negamax (fuel + 1) 3 0 1 tableHitState).map (fun r => (r.1, r.2.NodesVisited))
          = some (42, 0) := by
  refine ⟨rfl, by decide, by decide, fun fuel => ?_⟩
  rw [negamax_probe_return fuel 3 0 1 tableHitState (by decide) (by decide) (by decide)
    (by decide)]
  decide

/-- C36 (amended): at a node with Ply inside 0..63 that is not a repetition, negamax returns
the value delivered by the transposition-table probe without searching exactly when the
probe is a hit and ply > 0, for every window (also a zero-width one); at the root, and when
the probe delivers nothing, the node goes on to quiescence, the evaluation or the move
loop. -/
theorem C36_table_cutoff (fuel : Nat) (depth alpha beta : Int) (st : SearchState)
    (hp : 0 ≤ st.Ply ∧ st.Ply < 64) (hr : st.Ply ≠ 0 → IsRepetition st.pos = some false) :
    (st.Ply ≥ 1 →
      (ProbeTranspositionTable st.transpositionTable st.pos.HashKey 0 depth alpha beta).1
        ≠ noHashEntry →
      negamax (fuel + 1) depth alpha beta st
        = some ((ProbeTranspositionTable st.transpositionTable st.pos.HashKey 0 depth alpha
              beta).1,
            { st with PVLength := setAtInt st.PVLength st.Ply.toNat st.Ply }))
    ∧ (st.Ply = 0
        ∨ (ProbeTranspositionTable st.transpositionTable st.pos.HashKey 0 depth alpha beta).1
          = noHashEntry →
      negamax (fuel + 1) depth alpha beta st
        = if depth ≤ 0 then
            quiescence fuel alpha beta
              { st with PVLength := setAtInt st.PVLength st.Ply.toNat st.Ply }
          else if st.Ply > MaxPly - 1 ∨ IsTerminalPosition st.pos = true then
            (EvaluatePosition st.pos).map
              (fun v => (v, { st with PVLength := setAtInt st.PVLength st.Ply.toNat st.Ply }))
          else
            negamaxBody (negamax fuel) depth alpha beta
              (ProbeTranspositionTable st.transpositionTable st.pos.HashKey 0 depth alpha
                beta).2
              { st with PVLength := setAtInt st.PVLength st.Ply.toNat st.Ply }) :=
  ⟨fun h1 hs => negamax_probe_return fuel depth alpha beta st hp h1 (hr (by omega)) hs,
    fun hs => negamax_probe_continue fuel depth alpha beta st hp hr hs⟩

/-- C36 (amended) at the node of ply 1 with the exact entry, window (0, 1): the first part
gives the return of the table value 42. -/
theorem C36_table_cutoff_witness :
    (0 ≤ tableHitState.Ply ∧ tableHitState.Ply < 64)
    ∧ (tableHitState.Ply ≠ 0 → IsRepetition tableHitState.pos = some false)
    ∧ negamax 1 3 0 1 tableHitState
        = some ((ProbeTranspositionTable tableHitState.transpositionTable
              tableHitState.pos.HashKey 0 3 0 1).1,
            { tableHitState with
              PVLength := setAtInt tableHitState.PVLength tableHitState.Ply.toNat
                tableHitState.Ply }) :=
  ⟨by decide, fun _ => by decide,
    (C36_table_cutoff 0 3 0 1 tableHitState (by decide) (fun _ => by decide)).1 (by decide)
      (by decide)⟩

/-! ## The zero move -/

theorem capturedWhitePiece_lt (bitboards : Nat → Nat) (tgt : Nat) :
    capturedWhitePiece bitboards tgt < 8 := by
  unfold capturedWhitePiece
  split_ifs <;> decide

/-- The promoted-piece field of a generated move is NoPiece or one of the pieces 1..4. -/
theorem gen_promoted (s : Position) (m : Nat) (hg : Gen s m) :
    GetMovePromotedPiece m = NoPiece
      ∨ (1 ≤ GetMovePromotedPiece m ∧ GetMovePromotedPiece m ≤ 4) := by
  cases hg with
  | whitePush src hs hsrc hlt h10 he =>
    rw [(decode_encode src (src - 5) WhitePawn NoPiece NoPiece 0 0 (by omega) (by omega)
      (by decide) (by decide) (by decide) (by decide) (by decide)).2.2.2.1]
    exact Or.inl rfl
  | whitePushPromo src pr hs hsrc h5 h9 he hpr =>
    rw [mem_promotionPieces] at hpr
    rw [(decode_encode src (src - 5) WhitePawn pr NoPiece 0 0 (by omega) (by omega)
      (by decide) (by omega) (by decide) (by decide) (by decide)).2.2.2.1]
    exact Or.inr (by omega)
  | whiteDouble src hs hsrc h30 h34 he he2 =>
    rw [(decode_encode src (src - 10) WhitePawn NoPiece NoPiece 1 0 (by omega) (by omega)
      (by decide) (by decide) (by decide) (by decide) (by decide)).2.2.2.1]
    exact Or.inl rfl
  | whitePawnCapture src tgt hs hsrc hlt hnp ht =>
    rw [Nat.testBit_and, Bool.and_eq_true] at ht
    have hgeo := (maskPawnAttacks_white_iff src tgt hlt).1 ht.1
    rw [(decode_encode src tgt WhitePawn NoPiece BlackPawn 0 0 (by omega)
      (by have := hgeo.1; omega) (by decide) (by decide) (by decide) (by decide)
      (by decide)).2.2.2.1]
    exact Or.inl rfl
  | whitePawnCapturePromo src tgt pr hs hsrc h5 h9 ht hpr =>
    rw [Nat.testBit_and, Bool.and_eq_true] at ht
    rw [mem_promotionPieces] at hpr
    have hgeo := (maskPawnAttacks_white_iff src tgt (by omega)).1 ht.1
    rw [(decode_encode src tgt WhitePawn pr BlackPawn 0 0 (by omega)
      (by have := hgeo.1; omega) (by decide) (by omega) (by decide) (by decide)
      (by decide)).2.2.2.1]
    exact Or.inr (by omega)
  | whitePieceQuiet piece src tgt a hs h1 h4 hsrc ha ht hb =>
    obtain ⟨hsl, hal⟩ := whiteAttackSet_lt s piece src a ha
    rw [Nat.testBit_and, Bool.and_eq_true] at ht
    have htl : tgt < 40 := lt_of_testBit_lt _ 40 tgt hal ht.1
    rw [(decode_encode src tgt piece NoPiece NoPiece 0 0 (by omega) (by omega)
      (by omega) (by decide) (by decide) (by decide) (by decide)).2.2.2.1]
    exact Or.inl rfl
  | whitePieceCapture piece src tgt a hs h1 h4 hsrc ha ht hb =>
    obtain ⟨hsl, hal⟩ := whiteAttackSet_lt s piece src a ha
    rw [Nat.testBit_and, Bool.and_eq_true] at ht
    have htl : tgt < 40 := lt_of_testBit_lt _ 40 tgt hal ht.1
    rw [(decode_encode src tgt piece NoPiece BlackPawn 0 0 (by omega) (by omega)
      (by omega) (by decide) (by decide) (by decide) (by decide)).2.2.2.1]
    exact Or.inl rfl
  | blackPush src hs hsrc h39 he =>
    rw [(decode_encode src (src + 5) BlackPawn NoPiece NoPiece 0 0 (by omega) (by omega)
      (by decide) (by decide) (by decide) (by decide) (by decide)).2.2.2.1]
    exact Or.inl rfl
  | blackCapture src tgt hs hsrc hlt ht =>
    rw [Nat.testBit_and, Bool.and_eq_true] at ht
    have hgeo := (maskPawnAttacks_black_iff src tgt hlt).1 ht.1
    rw [(decode_encode src tgt BlackPawn NoPiece (capturedWhitePiece s.Bitboards tgt) 0 0
      (by omega) (by have := hgeo.1; omega) (by decide) (by decide)
      (capturedWhitePiece_lt _ _) (by decide) (by decide)).2.2.2.1]
    exact Or.inl rfl
  | blackEnPassant src hs hsrc hlt hep h5 hatt hwp =>
    have hgeo := (maskPawnAttacks_black_iff src _ hlt).1 hatt
    rw [(decode_encode src s.EnPassantSquare.toNat BlackPawn NoPiece WhitePawn 0 1
      (by omega) (by have := hgeo.1; omega) (by decide) (by decide) (by decide) (by decide)
      (by decide)).2.2.2.1]
    exact Or.inl rfl

/-- C38: every move GenerateMoves emits, for any position with 64-bit piece bitboards, is
different from 0: its promoted-piece field is one of the pieces 1..4 or the NoPiece
value 6. -/
theorem C38_zero_move_never_generated (s : Position)
    (h64 : ∀ p, p < 6 → s.Bitboards p < 2 ^ 64) (l : List Nat)
    (h : GenerateMoves s = some l) (m : Nat) (hm : m ∈ l) :
    m ≠ 0
    ∧ (GetMovePromotedPiece m = 1 ∨ GetMovePromotedPiece m = 2 ∨ GetMovePromotedPiece m = 3
        ∨ GetMovePromotedPiece m = 4 ∨ GetMovePromotedPiece m = NoPiece) := by
  have hpr := gen_promoted s m (gen_sound s h64 l h m hm)
  constructor
  · intro e
    subst e
    rcases hpr with h1 | h1
    · revert h1; decide
    · revert h1; decide
  · rcases hpr with h1 | ⟨h1, h2⟩
    · exact Or.inr (Or.inr (Or.inr (Or.inr h1)))
    · omega

/-- C38 at the start position and its first move a7a6. -/
theorem C38_zero_move_never_generated_witness :
    (∀ p, p < 6 → startPosition.Bitboards p < 2 ^ 64)
    ∧ GenerateMoves startPosition = some [1771102, 3867934, 1771167, 3867999, 1771232,
        3868064, 1771297, 3868129, 1771362, 3868194, 1775204, 1775332, 1788325]
    ∧ 1771102 ∈ [1771102, 3867934, 1771167, 3867999, 1771232, 3868064, 1771297, 3868129,
        1771362, 3868194, 1775204, 1775332, 1788325]
    ∧ (1771102 ≠ 0
      ∧ (GetMovePromotedPiece 1771102 = 1 ∨ GetMovePromotedPiece 1771102 = 2
        ∨ GetMovePromotedPiece 1771102 = 3 ∨ GetMovePromotedPiece 1771102 = 4
        ∨ GetMovePromotedPiece 1771102 = NoPiece)) :=
  ⟨startPosition_consistent.lt64, startPosition_moves, by decide,
    C38_zero_move_never_generated startPosition startPosition_consistent.lt64 _
      startPosition_moves 1771102 (by decide)⟩

/-! ## OrderMoves: the scores and the bubble sort -/

theorem mvvLva_get (p c : Nat) (hp : p < 6) (hc : c < 10) :
    ∃ row v, MvvLvaScores.get? p = some row ∧ row.get? c = some v ∧ v ≤ 504 := by
  interval_cases p <;> interval_cases c <;> exact ⟨_, _, rfl, rfl, by decide⟩

/-- ScoreMove returns for a move whose piece and target index the history table, at a ply
inside the killer and PV tables; it changes nothing but ScorePV, and the score is at most
20000 or the history entry of the move. -/
theorem scoreMove_total (move : Nat) (st : SearchState) (hp : 0 ≤ st.Ply ∧ st.Ply < 64)
    (hm : GetMovePiece move < 6 ∧ GetMoveTarget move < 40) :
    ∃ v b, ScoreMove move st = some (v, { st with ScorePV := b })
      ∧ (v ≤ 20000
        ∨ v = toInt64 (st.HistoryHeuristic (GetMovePiece move) (GetMoveTarget move))) := by
  have tail : ∃ v,
      (if GetMoveCapturedPiece move ≥ WhitePawn ∧ GetMoveCapturedPiece move ≤ BlackPawn then
        match MvvLvaScores.get? (GetMovePiece move) with
        | none => none
        | some row =>
          match row.get? (GetMoveCapturedPiece move) with
          | none => none
          | some v => some (v + 10000, st)
      else
        if 0 ≤ st.Ply ∧ st.Ply < 64 then
          if st.KillerMoves 0 st.Ply.toNat = move then some (9000, st)
          else if st.KillerMoves 1 st.Ply.toNat = move then some (8000, st)
          else if GetMovePiece move < 6 ∧ GetMoveTarget move < 40 then
            some (toInt64 (st.HistoryHeuristic (GetMovePiece move) (GetMoveTarget move)), st)
          else none
        else none) = some (v, st)
      ∧ (v ≤ 20000
        ∨ v = toInt64 (st.HistoryHeuristic (GetMovePiece move) (GetMoveTarget move))) := by
    by_cases hc : GetMoveCapturedPiece move ≥ WhitePawn ∧ GetMoveCapturedPiece move ≤ BlackPawn
    · rw [if_pos hc]
      obtain ⟨row, v, h1, h2, h3⟩ := mvvLva_get (GetMovePiece move) (GetMoveCapturedPiece move)
        hm.1 (by have := hc.2; simp only [BlackPawn] at this; omega)
      rw [h1]
      dsimp only
      rw [h2]
      exact ⟨v + 10000, rfl, Or.inl (by omega)⟩
    · rw [if_neg hc, if_pos hp]
      by_cases k0 : st.KillerMoves 0 st.Ply.toNat = move
      · rw [if_pos k0]
        exact ⟨9000, rfl, Or.inl (by decide)⟩
      · rw [if_neg k0]
        by_cases k1 : st.KillerMoves 1 st.Ply.toNat = move
        · rw [if_pos k1]
          exact ⟨8000, rfl, Or.inl (by decide)⟩
        · rw [if_neg k1, if_pos hm]
          exact ⟨_, rfl, Or.inr rfl⟩
  unfold ScoreMove
  by_cases hs : st.ScorePV = true
  · by_cases e : st.PVTable 0 st.Ply.toNat = move
    · simp only [hs, if_true, hp, and_self, e, decide_True]
      exact ⟨20000, false, rfl, Or.inl (le_refl _)⟩
    · simp only [hs, if_true, hp, and_self, e, decide_False]
      obtain ⟨v, hv, hb⟩ := tail
      simp only [hp, and_self, if_true] at hv
      exact ⟨v, st.ScorePV, hv, hb⟩
  · simp only [hs, Bool.false_eq_true, if_false]
    obtain ⟨v, hv, hb⟩ := tail
    exact ⟨v, st.ScorePV, hv, hb⟩

/-- The scoring loop of OrderMoves returns for moves whose piece and target index the
history table; every entry is the move equal to `bestMove` with 30000, or another move with
a score of at most 20000 or its history entry. -/
theorem scoreMovesLoop_total (bestMove : Nat) : ∀ (moves : List Nat) (st : SearchState),
    (0 ≤ st.Ply ∧ st.Ply < 64) →
    (∀ m, m ∈ moves → GetMovePiece m < 6 ∧ GetMoveTarget m < 40) →
    ∃ scored b, scoreMovesLoop bestMove moves st = some (scored, { st with ScorePV := b })
      ∧ scored.map Prod.snd = moves
      ∧ ∀ x, x ∈ scored → (x.1 = 30000 ∧ x.2 = bestMove)
          ∨ (x.2 ≠ bestMove ∧ (x.1 ≤ 20000
              ∨ x.1 = toInt64 (st.HistoryHeuristic (GetMovePiece x.2) (GetMoveTarget x.2)))) := by
  intro moves
  induction moves with
  | nil =>
    intro st _ _
    exact ⟨[], st.ScorePV, rfl, rfl, fun x hx => by cases hx⟩
  | cons move rest ih =>
    intro st hp hm
    have hrest : ∀ m, m ∈ rest → GetMovePiece m < 6 ∧ GetMoveTarget m < 40 :=
      fun m h => hm m (List.mem_cons_of_mem _ h)
    unfold scoreMovesLoop
    by_cases e : bestMove = move
    · rw [if_pos e]
      obtain ⟨scored, b, h1, h2, h3⟩ := ih st hp hrest
      rw [h1]
      refine ⟨(30000, move) :: scored, b, rfl, by rw [List.map_cons, h2], ?_⟩
      intro x hx
      rcases List.mem_cons.1 hx with hx | hx
      · subst hx; exact Or.inl ⟨rfl, e.symm⟩
      · exact h3 x hx
    · rw [if_neg e]
      obtain ⟨v, b, hv, hb⟩ := scoreMove_total move st hp (hm move (List.mem_cons_self _ _))
      rw [hv]
      obtain ⟨scored, b1, h1, h2, h3⟩ := ih { st with ScorePV := b } hp hrest
      dsimp only
      rw [h1]
      refine ⟨(v, move) :: scored, b1, rfl, by rw [List.map_cons, h2], ?_⟩
      intro x hx
      rcases List.mem_cons.1 hx with hx | hx
      · subst hx; exact Or.inr ⟨fun h => e h.symm, hb⟩
      · exact h3 x hx

/-- A pass of `n` comparisons touches the first `n + 1` entries only. -/
theorem bubblePass_append : ∀ (n : Nat) (pre suf : List (Int × Nat)), pre.length = n + 1 →
    bubblePass n (pre ++ suf) = ((bubblePass n pre).1 ++ suf, (bubblePass n pre).2) := by
  intro n
  induction n with
  | zero =>
    intro pre suf h
    match pre, h with
    | [a], _ => rfl
  | succ n ih =>
    intro pre suf h
    match pre, h with
    | a :: b :: rest, h =>
      have hl : (a :: rest).length = n + 1 := by simpa using h
      have hl2 : (b :: rest).length = n + 1 := by simpa using h
      show bubblePass (n + 1) (a :: b :: (rest ++ suf)) = _
      unfold bubblePass
      by_cases hlt : a.1 < b.1
      · rw [if_pos hlt, if_pos hlt]
        have := ih (a :: rest) suf hl
        rw [List.cons_append] at this
        rw [this]
        rfl
      · rw [if_neg hlt, if_neg hlt]
        have := ih (b :: rest) suf hl2
        rw [List.cons_append] at this
        rw [this]
        rfl

/-- A full pass leaves an entry of the lowest score in the last place. -/
theorem bubblePass_last : ∀ (n : Nat) (pre : List (Int × Nat)), pre.length = n + 1 →
    ∃ init m, (bubblePass n pre).1 = init ++ [m] ∧ ∀ x, x ∈ init → m.1 ≤ x.1 := by
  intro n
  induction n with
  | zero =>
    intro pre h
    match pre, h with
    | [a], _ => exact ⟨[], a, rfl, fun x hx => by cases hx⟩
  | succ n ih =>
    intro pre h
    match pre, h with
    | a :: b :: rest, h =>
      have hl : (a :: rest).length = n + 1 := by simpa using h
      have hl2 : (b :: rest).length = n + 1 := by simpa using h
      unfold bubblePass
      by_cases hlt : a.1 < b.1
      · rw [if_pos hlt]
        obtain ⟨init, m, h1, h2⟩ := ih (a :: rest) hl
        have ha : a ∈ init ++ [m] := by
          rw [← h1]
          exact (bubblePass_perm n (a :: rest)).symm.subset (List.mem_cons_self _ _)
        have hma : m.1 ≤ a.1 := by
          rcases List.mem_append.1 ha with ha | ha
          · exact h2 a ha
          · rw [List.mem_singleton] at ha; rw [ha]
        refine ⟨b :: init, m, by dsimp only; rw [h1]; rfl, ?_⟩
        intro x hx
        rcases List.mem_cons.1 hx with hx | hx
        · subst hx; omega
        · exact h2 x hx
      · rw [if_neg hlt]
        obtain ⟨init, m, h1, h2⟩ := ih (b :: rest) hl2
        have hb : b ∈ init ++ [m] := by
          rw [← h1]
          exact (bubblePass_perm n (b :: rest)).symm.subset (List.mem_cons_self _ _)
        have hmb : m.1 ≤ b.1 := by
          rcases List.mem_append.1 hb with hb | hb
          · exact h2 b hb
          · rw [List.mem_singleton] at hb; rw [hb]
        refine ⟨a :: init, m, by dsimp only; rw [h1]; rfl, ?_⟩
        intro x hx
        rcases List.mem_cons.1 hx with hx | hx
        · subst hx; omega
        · exact h2 x hx

/-- A full pass without a swap found the entries in non-increasing order. -/
theorem bubblePass_noSwap : ∀ (n : Nat) (pre : List (Int × Nat)), pre.length = n + 1 →
    (bubblePass n pre).2 = false →
    (bubblePass n pre).1 = pre ∧ List.Pairwise (fun a b => b.1 ≤ a.1) pre := by
  intro n
  induction n with
  | zero =>
    intro pre h _
    match pre, h with
    | [a], _ => exact ⟨rfl, List.pairwise_singleton _ _⟩
  | succ n ih =>
    intro pre h hf
    match pre, h, hf with
    | a :: b :: rest, h, hf =>
      have hl2 : (b :: rest).length = n + 1 := by simpa using h
      unfold bubblePass at hf ⊢
      by_cases hlt : a.1 < b.1
      · rw [if_pos hlt] at hf
        cases hf
      · rw [if_neg hlt] at hf ⊢
        obtain ⟨h1, h2⟩ := ih (b :: rest) hl2 hf
        refine ⟨by dsimp only; rw [h1], List.pairwise_cons.2 ⟨?_, h2⟩⟩
        intro x hx
        rcases List.mem_cons.1 hx with hx | hx
        · subst hx; omega
        · have := (List.pairwise_cons.1 h2).1 x hx
          omega

/-- The bubble sort leaves the entries in non-increasing order of the score. -/
theorem bubbleSort_sorted : ∀ (k n : Nat) (pre suf : List (Int × Nat)), pre.length = n + 1 →
    n ≤ k → List.Pairwise (fun a b => b.1 ≤ a.1) suf →
    (∀ x, x ∈ pre → ∀ y, y ∈ suf → y.1 ≤ x.1) →
    List.Pairwise (fun a b => b.1 ≤ a.1) (bubbleSort k n (pre ++ suf)) := by
  intro k
  induction k with
  | zero =>
    intro n pre suf hl hn hs hc
    have h0 : n = 0 := by omega
    subst h0
    match pre, hl with
    | [a], _ =>
      show List.Pairwise _ (a :: suf)
      exact List.pairwise_cons.2 ⟨fun y hy => hc a (List.mem_singleton_self a) y hy, hs⟩
  | succ k ih =>
    intro n pre suf hl hn hs hc
    unfold bubbleSort
    rw [bubblePass_append n pre suf hl]
    dsimp only
    by_cases hf : (bubblePass n pre).2 = true
    · rw [if_pos hf]
      obtain ⟨init, m, h1, h2⟩ := bubblePass_last n pre hl
      have hperm : List.Perm (init ++ [m]) pre := h1 ▸ bubblePass_perm n pre
      have hm_pre : m ∈ pre := hperm.subset (by simp)
      have hinit_pre : ∀ x, x ∈ init → x ∈ pre := fun x hx => hperm.subset (by simp [hx])
      have hlen : init.length + 1 = n + 1 := by
        have := hperm.length_eq
        rw [List.length_append, List.length_singleton] at this
        omega
      rw [h1]
      have hs1 : List.Pairwise (fun a b : Int × Nat => b.1 ≤ a.1) (m :: suf) :=
        List.pairwise_cons.2 ⟨fun y hy => hc m hm_pre y hy, hs⟩
      by_cases h0 : n = 0
      · subst h0
        have hnil : init = [] := List.length_eq_zero.1 (by omega)
        subst hnil
        exact ih 0 [m] suf rfl (Nat.zero_le _) hs (fun x hx y hy => by
          rw [List.mem_singleton] at hx
          subst hx
          exact hc x hm_pre y hy)
      · rw [List.append_assoc]
        have hn1 : init.length = (n - 1) + 1 := by omega
        refine ih (n - 1) init ([m] ++ suf) hn1 (by omega) hs1 ?_
        intro x hx y hy
        rcases List.mem_cons.1 hy with hy | hy
        · subst hy; exact h2 x hx
        · exact hc x (hinit_pre x hx) y hy
    · rw [if_neg hf]
      have hf2 : (bubblePass n pre).2 = false := by simpa using hf
      obtain ⟨h1, h2⟩ := bubblePass_noSwap n pre hl hf2
      rw [h1]
      exact List.pairwise_append.2 ⟨h2, hs, fun x hx y hy => hc x hx y hy⟩

/-- A pass keeps the entries of every single score in their order. -/
theorem bubblePass_stable (v : Int) : ∀ (n : Nat) (l : List (Int × Nat)),
    (bubblePass n l).1.filter (fun a => decide (a.1 = v))
      = l.filter (fun a => decide (a.1 = v)) := by
  intro n
  induction n with
  | zero => intro l; rfl
  | succ n ih =>
    intro l
    match l with
    | [] => rfl
    | [a] => rfl
    | a :: b :: rest =>
      unfold bubblePass
      by_cases hlt : a.1 < b.1
      · rw [if_pos hlt]
        dsimp only
        rw [List.filter_cons, ih (a :: rest)]
        simp only [List.filter_cons]
        by_cases ha : a.1 = v
        · have hb : ¬ b.1 = v := by omega
          simp [ha, hb]
        · simp [ha]
      · rw [if_neg hlt]
        dsimp only
        rw [List.filter_cons, ih (b :: rest)]
        simp only [List.filter_cons]

theorem bubbleSort_stable (v : Int) : ∀ (k n : Nat) (l : List (Int × Nat)),
    (bubbleSort k n l).filter (fun a => decide (a.1 = v))
      = l.filter (fun a => decide (a.1 = v)) := by
  intro k
  induction k with
  | zero => intro n l; rfl
  | succ k ih =>
    intro n l
    unfold bubbleSort
    split
    · rw [ih, bubblePass_stable]
    · rw [bubblePass_stable]

/-- The bubble sort of OrderMoves sorts its whole list. -/
theorem bubbleSort_sorted_all (l : List (Int × Nat)) :
    List.Pairwise (fun a b => b.1 ≤ a.1) (bubbleSort l.length (l.length - 1) l) := by
  match l with
  | [] => exact List.Pairwise.nil
  | a :: rest =>
    have := bubbleSort_sorted (a :: rest).length ((a :: rest).length - 1) (a :: rest) []
      (by simp) (by omega) List.Pairwise.nil (fun x _ y hy => by cases hy)
    rwa [List.append_nil] at this

/-- What OrderMoves returns, in terms of the scored list. -/
theorem orderMoves_eq (moves : List Nat) (bestMove : Nat) (st st1 : SearchState)
    (scored : List (Int × Nat)) (h : scoreMovesLoop bestMove moves st = some (scored, st1)) :
    OrderMoves moves bestMove st
      = some ((bubbleSort scored.length (scored.length - 1) scored).map Prod.snd, st1) := by
  have hl : scored.length = moves.length := by
    rw [← (scoreMovesLoop_kept bestMove moves st scored st1 h).2, List.length_map]
  unfold OrderMoves
  rw [h, hl]

/-- C32: for a list of moves whose piece and target index the history table, at a ply
inside the killer and PV tables, OrderMoves returns; the returned list is the list of the
moves of `sorted`, where `sorted` is a permutation of the scored list (30000 for a move
equal to `bestMove`, otherwise the score of ScoreMove, each paired with its move), is in
non-increasing order of the score, and keeps the entries of every single score in their
original order (the sort is stable). -/
theorem C32_order_moves_sorts (moves : List Nat) (bestMove : Nat) (st : SearchState)
    (hp : 0 ≤ st.Ply ∧ st.Ply < 64)
    (hm : ∀ m, m ∈ moves → GetMovePiece m < 6 ∧ GetMoveTarget m < 40) :
    ∃ scored sorted st1, scoreMovesLoop bestMove moves st = some (scored, st1)
      ∧ scored.map Prod.snd = moves
      ∧ OrderMoves moves bestMove st = some (sorted.map Prod.snd, st1)
      ∧ List.Perm sorted scored
      ∧ List.Pairwise (fun a b => b.1 ≤ a.1) sorted
      ∧ ∀ v : Int, sorted.filter (fun a => decide (a.1 = v))
          = scored.filter (fun a => decide (a.1 = v)) := by
  obtain ⟨scored, b, h1, h2, _⟩ := scoreMovesLoop_total bestMove moves st hp hm
  exact ⟨scored, bubbleSort scored.length (scored.length - 1) scored, _, h1, h2,
    orderMoves_eq moves bestMove st _ scored h1, bubbleSort_perm _ _ _,
    bubbleSort_sorted_all scored, fun v => bubbleSort_stable v _ _ _⟩

/-- C32 at the start position, for its first two moves and the second one as best move. -/
theorem C32_order_moves_sorts_witness :
    (0 ≤ (initialSearchState startPosition).Ply ∧ (initialSearchState startPosition).Ply < 64)
    ∧ (∀ m, m ∈ [1771102, 3867934] → GetMovePiece m < 6 ∧ GetMoveTarget m < 40)
    ∧ ∃ scored sorted st1,
      scoreMovesLoop 3867934 [1771102, 3867934] (initialSearchState startPosition)
        = some (scored, st1)
      ∧ scored.map Prod.snd = [1771102, 3867934]
      ∧ OrderMoves [1771102, 3867934] 3867934 (initialSearchState startPosition)
        = some (sorted.map Prod.snd, st1)
      ∧ List.Perm sorted scored
      ∧ List.Pairwise (fun a b => b.1 ≤ a.1) sorted
      ∧ ∀ v : Int, sorted.filter (fun a => decide (a.1 = v))
          = scored.filter (fun a => decide (a.1 = v)) :=
  ⟨by decide, by decide,
    C32_order_moves_sorts [1771102, 3867934] 3867934 (initialSearchState startPosition)
      (by decide) (by decide)⟩

/-- With every history entry below 30000, the move equal to `bestMove` is the first of the
sorted list when it occurs among the moves. -/
theorem bestMove_first (moves : List Nat) (bestMove : Nat) (st : SearchState)
    (hp : 0 ≤ st.Ply ∧ st.Ply < 64)
    (hm : ∀ m, m ∈ moves → GetMovePiece m < 6 ∧ GetMoveTarget m < 40)
    (hb : bestMove ∈ moves)
    (hh : ∀ p t, p < 6 → t < 40 → toInt64 (st.HistoryHeuristic p t) < 30000) :
    ∃ ordered st1, OrderMoves moves bestMove st = some (ordered, st1)
      ∧ ordered.head? = some bestMove := by
  obtain ⟨scored, b, h1, h2, h3⟩ := scoreMovesLoop_total bestMove moves st hp hm
  refine ⟨_, _, orderMoves_eq moves bestMove st _ scored h1, ?_⟩
  have hperm := bubbleSort_perm scored.length (scored.length - 1) scored
  have hsorted := bubbleSort_sorted_all scored
  have hbs : (30000, bestMove) ∈ scored := by
    rw [← h2, List.mem_map] at hb
    obtain ⟨x, hx, hxb⟩ := hb
    rcases h3 x hx with ⟨e1, e2⟩ | ⟨e1, _⟩
    · have : x = (30000, bestMove) := Prod.ext e1 e2
      rw [← this]; exact hx
    · exact absurd hxb e1
  have hbo := hperm.symm.subset hbs
  cases hso : bubbleSort scored.length (scored.length - 1) scored with
  | nil => rw [hso] at hbo; cases hbo
  | cons hd tl =>
    rw [hso] at hbo hsorted hperm
    have hge : (30000 : Int) ≤ hd.1 := by
      rcases List.mem_cons.1 hbo with e | e
      · rw [← e]
      · exact (List.pairwise_cons.1 hsorted).1 _ e
    have hhd : hd ∈ scored := hperm.subset (List.mem_cons_self _ _)
    have hmv : hd.2 ∈ moves := by
      rw [← h2]; exact List.mem_map_of_mem _ hhd
    show (List.map Prod.snd (hd :: tl)).head? = some bestMove
    rw [List.map_cons, List.head?_cons]
    rcases h3 hd hhd with ⟨_, e2⟩ | ⟨_, e2⟩
    · rw [e2]
    · exfalso
      rcases e2 with e2 | e2
      · omega
      · have := hh _ _ (hm hd.2 hmv).1 (hm hd.2 hmv).2
        omega

set_option maxRecDepth 100000 in
/-- C33 (as stated) fails when a history entry exceeds 30000: with every history entry at
40000, OrderMoves of the first two moves of the start position with the second one as best
move leaves the quiet move 1771102 (score 40000) ahead of the best move (score 30000). -/
theorem C33_history_counterexample :
    (3867934 ≠ 0 ∧ 3867934 ∈ [1771102, 3867934])
    ∧ (OrderMoves [1771102, 3867934] 3867934 historyHighState).map Prod.fst
        = some [1771102, 3867934] := by
  decide

/-- C33 (amended): when every history entry, read as an int, is below 30000, the moves
index the history table and Ply is inside the killer and PV tables, then for every move
`bestMove` that occurs in the list the move at index 0 after OrderMoves is `bestMove`,
ahead of the PV move (20000), the captures (at most 10504), the killers (9000, 8000) and
the other quiet moves. -/
theorem C33_hash_move_first (moves : List Nat) (bestMove : Nat) (st : SearchState)
    (hp : 0 ≤ st.Ply ∧ st.Ply < 64)
    (hm : ∀ m, m ∈ moves → GetMovePiece m < 6 ∧ GetMoveTarget m < 40)
    (hb : bestMove ∈ moves)
    (hh : ∀ p t, p < 6 → t < 40 → toInt64 (st.HistoryHeuristic p t) < 30000) :
    ∃ ordered st1, OrderMoves moves bestMove st = some (ordered, st1)
      ∧ ordered.head? = some bestMove :=
  bestMove_first moves bestMove st hp hm hb hh

/-- C33 (amended) at the start position, for its first two moves and the second one as best
move. -/
theorem C33_hash_move_first_witness :
    (0 ≤ (initialSearchState startPosition).Ply ∧ (initialSearchState startPosition).Ply < 64)
    ∧ (∀ m, m ∈ [1771102, 3867934] → GetMovePiece m < 6 ∧ GetMoveTarget m < 40)
    ∧ 3867934 ∈ [1771102, 3867934]
    ∧ (∀ p t, p < 6 → t < 40 →
        toInt64 ((initialSearchState startPosition).HistoryHeuristic p t) < 30000)
    ∧ ∃ ordered st1,
      OrderMoves [1771102, 3867934] 3867934 (initialSearchState startPosition)
        = some (ordered, st1)
      ∧ ordered.head? = some 3867934 :=
  ⟨by decide, by decide, by decide, fun _ _ _ _ => (by decide : toInt64 0 < 30000),
    C33_hash_move_first [1771102, 3867934] 3867934 (initialSearchState startPosition)
      (by decide) (by decide) (by decide) (fun _ _ _ _ => (by decide : toInt64 0 < 30000))⟩

/-! ## Generated moves and the board -/

/-- On a consistent position a generated move is the encoding of fields that describe the
board: the moving piece stands on the source square and belongs to the side to move, no
piece of the side to move stands on the target square, and without the en-passant flag the
captured piece is NoPiece on an empty target square and the enemy piece on it otherwise. -/
theorem gen_board (s : Position) (hc : Consistent s) (m : Nat) (hg : Gen s m) :
    ∃ src tgt piece pr cap dpp ep,
      m = EncodeMove src tgt piece pr cap dpp ep
      ∧ (src < 40 ∧ tgt < 40 ∧ piece < 6 ∧ pr < 8 ∧ cap < 8 ∧ dpp < 2 ∧ ep < 2)
      ∧ (s.Bitboards piece).testBit src = true
      ∧ ((s.SideToMove = WHITE ∧ piece ≤ 4) ∨ (s.SideToMove = BLACK ∧ piece = BlackPawn))
      ∧ (s.Occupancies s.SideToMove).testBit tgt = false
      ∧ (ep = 0 →
          (cap = NoPiece ∧ (s.Occupancies BOTH).testBit tgt = false)
          ∨ (cap < 6 ∧ (s.Occupancies BOTH).testBit tgt = true
              ∧ (s.Bitboards cap).testBit tgt = true
              ∧ ((s.SideToMove = WHITE ∧ cap = BlackPawn)
                  ∨ (s.SideToMove = BLACK ∧ cap ≤ 4)))) := by
  have hocc : ∀ i, (s.Occupancies BOTH).testBit i = false →
      (s.Occupancies WHITE).testBit i = false ∧ (s.Occupancies BLACK).testBit i = false := by
    intro i hi
    rw [hc.2.2.2.2.1, Nat.testBit_or, Bool.or_eq_false_iff] at hi
    exact hi
  have hwb : ∀ i, (s.Occupancies BLACK).testBit i = true →
      (s.Occupancies WHITE).testBit i = false := by
    intro i hi
    have := congrArg (fun x => x.testBit i) hc.white_and_black
    simp only [Nat.testBit_and, hi, Bool.and_true, Nat.zero_testBit] at this
    exact this
  have hbw : ∀ i, (s.Occupancies WHITE).testBit i = true →
      (s.Occupancies BLACK).testBit i = false := by
    intro i hi
    have := congrArg (fun x => x.testBit i) hc.white_and_black
    simp only [Nat.testBit_and, hi, Bool.true_and, Nat.zero_testBit] at this
    exact this
  cases hg with
  | whitePush src hs hsrc hlt h10 he =>
    refine ⟨_, _, _, _, _, _, _, rfl, ⟨hlt, by omega, by decide, by decide, by decide,
      by decide, by decide⟩, hsrc, Or.inl ⟨hs, by decide⟩, ?_, fun _ => Or.inl ⟨rfl, he⟩⟩
    rw [hs]; exact (hocc _ he).1
  | whitePushPromo src pr hs hsrc h5 h9 he hpr =>
    rw [mem_promotionPieces] at hpr
    refine ⟨_, _, _, _, _, _, _, rfl, ⟨by omega, by omega, by decide, by omega, by decide,
      by decide, by decide⟩, hsrc, Or.inl ⟨hs, by decide⟩, ?_, fun _ => Or.inl ⟨rfl, he⟩⟩
    rw [hs]; exact (hocc _ he).1
  | whiteDouble src hs hsrc h30 h34 he he2 =>
    refine ⟨_, _, _, _, _, _, _, rfl, ⟨by omega, by omega, by decide, by decide, by decide,
      by decide, by decide⟩, hsrc, Or.inl ⟨hs, by decide⟩, ?_, fun _ => Or.inl ⟨rfl, he2⟩⟩
    rw [hs]; exact (hocc _ he2).1
  | whitePawnCapture src tgt hs hsrc hlt hnp ht =>
    rw [Nat.testBit_and, Bool.and_eq_true] at ht
    have hgeo := (maskPawnAttacks_white_iff src tgt hlt).1 ht.1
    have hb5 : (s.Bitboards BlackPawn).testBit tgt = true := by rw [← hc.2.2.2.1]; exact ht.2
    refine ⟨_, _, _, _, _, _, _, rfl, ⟨hlt, hgeo.1, by decide, by decide, by decide,
      by decide, by decide⟩, hsrc, Or.inl ⟨hs, by decide⟩, ?_,
      fun _ => Or.inr ⟨by decide, hc.both_of_black tgt ht.2, hb5, Or.inl ⟨hs, rfl⟩⟩⟩
    rw [hs]; exact hwb _ ht.2
  | whitePawnCapturePromo src tgt pr hs hsrc h5 h9 ht hpr =>
    rw [Nat.testBit_and, Bool.and_eq_true] at ht
    rw [mem_promotionPieces] at hpr
    have hgeo := (maskPawnAttacks_white_iff src tgt (by omega)).1 ht.1
    have hb5 : (s.Bitboards BlackPawn).testBit tgt = true := by rw [← hc.2.2.2.1]; exact ht.2
    refine ⟨_, _, _, _, _, _, _, rfl, ⟨by omega, hgeo.1, by decide, by omega, by decide,
      by decide, by decide⟩, hsrc, Or.inl ⟨hs, by decide⟩, ?_,
      fun _ => Or.inr ⟨by decide, hc.both_of_black tgt ht.2, hb5, Or.inl ⟨hs, rfl⟩⟩⟩
    rw [hs]; exact hwb _ ht.2
  | whitePieceQuiet piece src tgt a hs h1 h4 hsrc ha ht hb =>
    obtain ⟨hsl, hal⟩ := whiteAttackSet_lt s piece src a ha
    rw [Nat.testBit_and, Bool.and_eq_true,
      testBit_compl64 _ _ (Nat.lt_of_lt_of_le hc.occW_lt two_pow_40_le_64)] at ht
    have htl : tgt < 40 := lt_of_testBit_lt _ 40 tgt hal ht.1
    have hw : (s.Occupancies WHITE).testBit tgt = false := by
      have := ht.2; simp at this; exact this.2
    have he : (s.Occupancies BOTH).testBit tgt = false := by
      rw [hc.2.2.2.2.1, Nat.testBit_or, hw, hb]; rfl
    refine ⟨_, _, _, _, _, _, _, rfl, ⟨hsl, htl, by omega, by decide, by decide,
      by decide, by decide⟩, hsrc, Or.inl ⟨hs, h4⟩, ?_, fun _ => Or.inl ⟨rfl, he⟩⟩
    rw [hs]; exact hw
  | whitePieceCapture piece src tgt a hs h1 h4 hsrc ha ht hb =>
    obtain ⟨hsl, hal⟩ := whiteAttackSet_lt s piece src a ha
    rw [Nat.testBit_and, Bool.and_eq_true,
      testBit_compl64 _ _ (Nat.lt_of_lt_of_le hc.occW_lt two_pow_40_le_64)] at ht
    have htl : tgt < 40 := lt_of_testBit_lt _ 40 tgt hal ht.1
    have hw : (s.Occupancies WHITE).testBit tgt = false := by
      have := ht.2; simp at this; exact this.2
    have hb5 : (s.Bitboards BlackPawn).testBit tgt = true := by rw [← hc.2.2.2.1]; exact hb
    refine ⟨_, _, _, _, _, _, _, rfl, ⟨hsl, htl, by omega, by decide, by decide,
      by decide, by decide⟩, hsrc, Or.inl ⟨hs, h4⟩, ?_,
      fun _ => Or.inr ⟨by decide, hc.both_of_black tgt hb, hb5, Or.inl ⟨hs, rfl⟩⟩⟩
    rw [hs]; exact hw
  | blackPush src hs hsrc h39 he =>
    refine ⟨_, _, _, _, _, _, _, rfl, ⟨by omega, by omega, by decide, by decide, by decide,
      by decide, by decide⟩, hsrc, Or.inr ⟨hs, rfl⟩, ?_, fun _ => Or.inl ⟨rfl, he⟩⟩
    rw [hs]; exact (hocc _ he).2
  | blackCapture src tgt hs hsrc hlt ht =>
    rw [Nat.testBit_and, Bool.and_eq_true] at ht
    obtain ⟨hc5, hcb⟩ := capturedWhitePiece_spec s hc tgt ht.2
    have htl : tgt < 40 := lt_of_testBit_lt _ 40 tgt hc.occW_lt ht.2
    refine ⟨_, _, _, _, _, _, _, rfl, ⟨hlt, htl, by decide, by decide, by omega,
      by decide, by decide⟩, hsrc, Or.inr ⟨hs, rfl⟩, ?_,
      fun _ => Or.inr ⟨by omega, hc.both_of_white tgt ht.2, hcb, Or.inr ⟨hs, by omega⟩⟩⟩
    rw [hs]; exact hbw _ ht.2
  | blackEnPassant src hs hsrc hlt hep h5 hatt hwp =>
    rcases hc.2.2.2.2.2 with h1 | ⟨h25, h29, he⟩
    · exact absurd h1 hep
    · have hgeo := (maskPawnAttacks_black_iff src _ hlt).1 hatt
      refine ⟨_, _, _, _, _, _, _, rfl, ⟨hlt, hgeo.1, by decide, by decide, by decide,
        by decide, by decide⟩, hsrc, Or.inr ⟨hs, rfl⟩, ?_, fun h => absurd h (by decide)⟩
      rw [hs]; exact (hocc _ he).2

/-- C31: on a consistent position, for every move GenerateMoves emits, the source square
holds the encoded moving piece, which belongs to the side to move (a White piece 0..4 for
White, the Black pawn for Black); no piece of the side to move stands on the target square;
and, without the en-passant flag, the captured-piece field is NoPiece exactly when the
target square is empty, and otherwise it is the kind of the enemy piece that stands on the
target square. -/
theorem C31_generated_moves_describe_board (s : Position) (hc : Consistent s) (l : List Nat)
    (h : GenerateMoves s = some l) (m : Nat) (hm : m ∈ l) :
    (s.Bitboards (GetMovePiece m)).testBit (GetMoveSource m) = true
    ∧ ((s.SideToMove = WHITE ∧ GetMovePiece m ≤ WhiteKing)
        ∨ (s.SideToMove = BLACK ∧ GetMovePiece m = BlackPawn))
    ∧ (s.Occupancies s.SideToMove).testBit (GetMoveTarget m) = false
    ∧ (GetMoveEnPassant m = 0 →
        (GetMoveCapturedPiece m = NoPiece ↔ (s.Occupancies BOTH).testBit (GetMoveTarget m) = false)
        ∧ (GetMoveCapturedPiece m ≠ NoPiece →
            GetMoveCapturedPiece m < 6
            ∧ (s.Bitboards (GetMoveCapturedPiece m)).testBit (GetMoveTarget m) = true
            ∧ ((s.SideToMove = WHITE ∧ GetMoveCapturedPiece m = BlackPawn)
                ∨ (s.SideToMove = BLACK ∧ GetMoveCapturedPiece m ≤ WhiteKing)))) := by
  obtain ⟨src, tgt, piece, pr, cap, dpp, ep, rfl, ⟨b1, b2, b3, b4, b5, b6, b7⟩, h1, h2, h3, h4⟩ :=
    gen_board s hc m (gen_sound s hc.lt64 l h m hm)
  obtain ⟨d1, d2, d3, _, d5, _, d7, _⟩ := decode_encode src tgt piece pr cap dpp ep
    (by omega) (by omega) (by omega) b4 b5 b6 b7
  rw [d1, d2, d3, d5, d7]
  refine ⟨h1, h2, h3, fun he => ?_⟩
  rcases h4 he with ⟨c1, c2⟩ | ⟨c1, c2, c3, c4⟩
  · exact ⟨⟨fun _ => c2, fun _ => c1⟩, fun hne => absurd c1 hne⟩
  · refine ⟨⟨fun e => ?_, fun e => ?_⟩, fun _ => ⟨c1, c3, c4⟩⟩
    · rw [e] at c1; exact absurd c1 (by decide)
    · rw [c2] at e; cases e

/-- C31 at the start position and its first move a7a6. -/
theorem C31_generated_moves_describe_board_witness :
    Consistent startPosition
    ∧ GenerateMoves startPosition = some [1771102, 3867934, 1771167, 3867999, 1771232,
        3868064, 1771297, 3868129, 1771362, 3868194, 1775204, 1775332, 1788325]
    ∧ 1771102 ∈ [1771102, 3867934, 1771167, 3867999, 1771232, 3868064, 1771297, 3868129,
        1771362, 3868194, 1775204, 1775332, 1788325]
    ∧ ((startPosition.Bitboards (GetMovePiece 1771102)).testBit (GetMoveSource 1771102) = true
      ∧ ((startPosition.SideToMove = WHITE ∧ GetMovePiece 1771102 ≤ WhiteKing)
          ∨ (startPosition.SideToMove = BLACK ∧ GetMovePiece 1771102 = BlackPawn))
      ∧ (startPosition.Occupancies startPosition.SideToMove).testBit (GetMoveTarget 1771102)
          = false
      ∧ (GetMoveEnPassant 1771102 = 0 →
          (GetMoveCapturedPiece 1771102 = NoPiece
            ↔ (startPosition.Occupancies BOTH).testBit (GetMoveTarget 1771102) = false)
          ∧ (GetMoveCapturedPiece 1771102 ≠ NoPiece →
              GetMoveCapturedPiece 1771102 < 6
              ∧ (startPosition.Bitboards (GetMoveCapturedPiece 1771102)).testBit
                  (GetMoveTarget 1771102) = true
              ∧ ((startPosition.SideToMove = WHITE ∧ GetMoveCapturedPiece 1771102 = BlackPawn)
                  ∨ (startPosition.SideToMove = BLACK
                      ∧ GetMoveCapturedPiece 1771102 ≤ WhiteKing))))) :=
  ⟨startPosition_consistent, startPosition_moves, by decide,
    C31_generated_moves_describe_board startPosition startPosition_consistent _
      startPosition_moves 1771102 (by decide)⟩

/-! ## Piece counts across MakeMove -/

theorem countBits_popBit (x t : Nat) (hx : x < 2 ^ 64) (ht : t < 64)
    (h : x.testBit t = true) : CountBits (PopBit x t) + 1 = CountBits x := by
  rw [countBits_eq _ (popBit_lt x t 64 hx), countBits_eq x hx]
  have e : bitList (PopBit x t) = (bitList x).filter (fun i => !(i == t)) := by
    unfold bitList
    rw [List.filter_filter]
    apply List.filter_congr
    intro i _
    rw [testBit_PopBit _ _ _ ht, Bool.and_comm]
    congr 2
    by_cases hi : t = i
    · subst hi; simp
    · have : ¬ i = t := fun e => hi e.symm
      simp [hi, this]
  have hone : ((bitList x).filter (fun i => i == t)).length = 1 := by
    rw [← List.countP_eq_length_filter]
    exact List.count_eq_one_of_mem (bitList_nodup x) ((mem_bitList x t).2 ⟨ht, h⟩)
  have hsum := List.length_eq_length_filter_add (l := bitList x) (fun i => i == t)
  rw [e]
  omega

theorem countBits_setBit (x t : Nat) (hx : x < 2 ^ 40) (ht : t < 40)
    (h : x.testBit t = false) : CountBits (SetBit x t) = CountBits x + 1 := by
  have hs : (SetBit x t).testBit t = true := by
    rw [testBit_SetBit _ _ _ (by omega)]
    simp [ht]
  have := countBits_popBit (SetBit x t) t
    (Nat.lt_of_lt_of_le (setBit_lt x t) two_pow_40_le_64) (by omega) hs
  rw [popBit_setBit x t hx ht h] at this
  omega

/-- Moving a bit from a set square to a clear square keeps the number of set bits. -/
theorem countBits_move (x src tgt : Nat) (hx : x < 2 ^ 40) (hs : src < 40) (ht : tgt < 40)
    (h1 : x.testBit src = true) (h2 : x.testBit tgt = false) :
    CountBits (SetBit (PopBit x src) tgt) = CountBits x := by
  have hp : (PopBit x src).testBit tgt = false := by
    rw [testBit_PopBit _ _ _ (by omega), h2]; rfl
  rw [countBits_setBit _ _ (popBit_lt40 x src hx) ht hp]
  exact countBits_popBit x src (Nat.lt_of_lt_of_le hx two_pow_40_le_64) (by omega) h1

/-- The piece counts after one bitboard is replaced. -/
theorem pieceCount_setAt (bb : Nat → Nat) (p v : Nat) (hp : p < 6) :
    pieceCount (setAt bb p v) WHITE + (if p ≤ 4 then CountBits (bb p) else 0)
      = pieceCount bb WHITE + (if p ≤ 4 then CountBits v else 0)
    ∧ pieceCount (setAt bb p v) BLACK + (if p ≤ 4 then 0 else CountBits (bb p))
      = pieceCount bb BLACK + (if p ≤ 4 then 0 else CountBits v) := by
  interval_cases p <;>
    simp [pieceCount, setAt, WHITE, BLACK, WhitePawn, WhiteKnight, WhiteBishop, WhiteRook,
      WhiteKing, BlackPawn] <;> omega

theorem pieceCount_setAt_white (bb : Nat → Nat) (p v : Nat) (hp : p ≤ 4) :
    pieceCount (setAt bb p v) WHITE + CountBits (bb p) = pieceCount bb WHITE + CountBits v
    ∧ pieceCount (setAt bb p v) BLACK = pieceCount bb BLACK := by
  have := pieceCount_setAt bb p v (by omega)
  rw [if_pos hp, if_pos hp, if_pos hp, if_pos hp] at this
  exact this

theorem pieceCount_setAt_black (bb : Nat → Nat) (v : Nat) :
    pieceCount (setAt bb BlackPawn v) WHITE = pieceCount bb WHITE
    ∧ pieceCount (setAt bb BlackPawn v) BLACK + CountBits (bb BlackPawn)
      = pieceCount bb BLACK + CountBits v := by
  have := pieceCount_setAt bb BlackPawn v (by decide)
  rw [if_neg (by decide), if_neg (by decide), if_neg (by decide), if_neg (by decide)] at this
  exact this

/-- The piece counts after the move of one of the six shapes: the side that moves keeps its
count, the other side loses one piece when the move captures. -/
theorem shape_counts (s : Position) (hc : Consistent s) (src tgt piece promo cap dpp ep : Nat)
    (h : Shape s src tgt piece promo cap dpp ep)
    (hmv : (s.SideToMove = WHITE ∧ piece ≤ 4) ∨ (s.SideToMove = BLACK ∧ piece = BlackPawn))
    (hcap : ep = 0 → cap = NoPiece ∨ (s.SideToMove = WHITE ∧ cap = BlackPawn)
      ∨ (s.SideToMove = BLACK ∧ cap ≤ 4))
    (s1 : Position) (hm : makeMoveAll (EncodeMove src tgt piece promo cap dpp ep) s = some s1) :
    pieceCount s1.Bitboards WHITE + (if s.SideToMove = BLACK ∧ cap ≠ NoPiece then 1 else 0)
      = pieceCount s.Bitboards WHITE
    ∧ pieceCount s1.Bitboards BLACK + (if s.SideToMove = WHITE ∧ cap ≠ NoPiece then 1 else 0)
      = pieceCount s.Bitboards BLACK := by
  have h64 : ∀ p, p < 6 → s.Bitboards p < 2 ^ 64 := hc.lt64
  cases h
  case quiet =>
    have hs : src < 40 := by assumption
    have ht : tgt < 40 := by assumption
    have hp : piece < 6 := by assumption
    have hsrc : (s.Bitboards piece).testBit src = true := by assumption
    have he : (s.Occupancies BOTH).testBit tgt = false := by assumption
    rw [make_quiet s hc src tgt piece hs ht hp] at hm
    simp only [Option.some.injEq] at hm
    subst hm
    have hcnt := countBits_move (s.Bitboards piece) src tgt (hc.1 piece hp) hs ht hsrc
      (hc.empty tgt he piece hp)
    rw [if_neg (fun h => h.2 rfl), if_neg (fun h => h.2 rfl)]
    show pieceCount (setAt s.Bitboards piece _) WHITE + 0 = _
      ∧ pieceCount (setAt s.Bitboards piece _) BLACK + 0 = _
    rcases hmv with ⟨_, hp4⟩ | ⟨_, hp5⟩
    · obtain ⟨d1, d2⟩ := pieceCount_setAt_white s.Bitboards piece
        (SetBit (PopBit (s.Bitboards piece) src) tgt) hp4
      rw [hcnt] at d1
      exact ⟨by omega, by omega⟩
    · subst hp5
      obtain ⟨d1, d2⟩ := pieceCount_setAt_black s.Bitboards
        (SetBit (PopBit (s.Bitboards BlackPawn) src) tgt)
      rw [hcnt] at d2
      exact ⟨by omega, by omega⟩
  case double =>
    have h30 : 30 ≤ src := by assumption
    have h34 : src ≤ 34 := by assumption
    have hside : s.SideToMove = WHITE := by assumption
    have hsrc : (s.Bitboards WhitePawn).testBit src = true := by assumption
    have he2 : (s.Occupancies BOTH).testBit (src - 10) = false := by assumption
    rw [make_double s hc src h30 h34 hside] at hm
    simp only [Option.some.injEq] at hm
    subst hm
    have hcnt := countBits_move (s.Bitboards WhitePawn) src (src - 10)
      (hc.1 WhitePawn (by decide)) (by omega) (by omega) hsrc
      (hc.empty _ he2 WhitePawn (by decide))
    rw [if_neg (fun h => h.2 rfl), if_neg (fun h => h.2 rfl)]
    show pieceCount (setAt s.Bitboards WhitePawn _) WHITE + 0 = _
      ∧ pieceCount (setAt s.Bitboards WhitePawn _) BLACK + 0 = _
    obtain ⟨d1, d2⟩ := pieceCount_setAt_white s.Bitboards WhitePawn
      (SetBit (PopBit (s.Bitboards WhitePawn) src) (src - 10)) (by decide)
    rw [hcnt] at d1
    exact ⟨by omega, by omega⟩
  case capture =>
    have hs : src < 40 := by assumption
    have ht : tgt < 40 := by assumption
    have hp : piece < 6 := by assumption
    have hc6 : cap < 6 := by assumption
    have hne : cap ≠ piece := by assumption
    have hsrc : (s.Bitboards piece).testBit src = true := by assumption
    have hb : (s.Bitboards cap).testBit tgt = true := by assumption
    rw [make_capture s hc src tgt piece cap hs ht hp hc6 hne hb] at hm
    simp only [Option.some.injEq] at hm
    subst hm
    have hcnt := countBits_move (s.Bitboards piece) src tgt (hc.1 piece hp) hs ht hsrc
      (hc.disjoint cap piece tgt hc6 hp hne hb)
    have hpop := countBits_popBit (s.Bitboards cap) tgt (h64 cap hc6) (by omega) hb
    have hcapne : cap ≠ NoPiece := by simp only [NoPiece]; omega
    show pieceCount (setAt (setAt s.Bitboards piece _) cap _) WHITE + _ = _
      ∧ pieceCount (setAt (setAt s.Bitboards piece _) cap _) BLACK + _ = _
    rcases hmv with ⟨hw, hp4⟩ | ⟨hbl, hp5⟩
    · have hc5 : cap = BlackPawn := by
        rcases hcap rfl with h1 | ⟨_, h1⟩ | ⟨h1, _⟩
        · exact absurd h1 hcapne
        · exact h1
        · rw [hw] at h1; cases h1
      subst hc5
      rw [if_neg (fun h => by rw [hw] at h; exact absurd h.1 (by decide)), if_pos ⟨hw, hcapne⟩]
      obtain ⟨d1, d2⟩ := pieceCount_setAt_white s.Bitboards piece
        (SetBit (PopBit (s.Bitboards piece) src) tgt) hp4
      obtain ⟨e1, e2⟩ := pieceCount_setAt_black
        (setAt s.Bitboards piece (SetBit (PopBit (s.Bitboards piece) src) tgt))
        (PopBit (s.Bitboards BlackPawn) tgt)
      rw [setAt_ne _ _ _ _ hne] at e2
      rw [hcnt] at d1
      exact ⟨by omega, by omega⟩
    · subst hp5
      have hc4 : cap ≤ 4 := by
        rcases hcap rfl with h1 | ⟨h1, _⟩ | ⟨_, h1⟩
        · exact absurd h1 hcapne
        · rw [hbl] at h1; cases h1
        · exact h1
      rw [if_pos ⟨hbl, hcapne⟩, if_neg (fun h => by rw [hbl] at h; exact absurd h.1 (by decide))]
      obtain ⟨d1, d2⟩ := pieceCount_setAt_black s.Bitboards
        (SetBit (PopBit (s.Bitboards BlackPawn) src) tgt)
      obtain ⟨e1, e2⟩ := pieceCount_setAt_white
        (setAt s.Bitboards BlackPawn (SetBit (PopBit (s.Bitboards BlackPawn) src) tgt)) cap
        (PopBit (s.Bitboards cap) tgt) hc4
      rw [setAt_ne _ _ _ _ hne] at e1
      rw [hcnt] at d2
      exact ⟨by omega, by omega⟩
  case promo =>
    have hs : src < 40 := by assumption
    have ht : tgt < 40 := by assumption
    have h1 : 1 ≤ promo := by assumption
    have h4 : promo ≤ 4 := by assumption
    have hsrc : (s.Bitboards WhitePawn).testBit src = true := by assumption
    have he : (s.Occupancies BOTH).testBit tgt = false := by assumption
    rw [make_promo s hc src tgt promo hs ht h1 h4] at hm
    simp only [Option.some.injEq] at hm
    subst hm
    have hne : promo ≠ WhitePawn := by simp only [WhitePawn]; omega
    have hpsp := popSetPop (s.Bitboards WhitePawn) src tgt (hc.1 WhitePawn (by decide)) ht
      (hc.empty tgt he WhitePawn (by decide))
    have hpop := countBits_popBit (s.Bitboards WhitePawn) src (h64 WhitePawn (by decide))
      (by omega) hsrc
    have hset := countBits_setBit (s.Bitboards promo) tgt (hc.1 promo (by omega)) ht
      (hc.empty tgt he promo (by omega))
    rw [if_neg (fun h => h.2 rfl), if_neg (fun h => h.2 rfl)]
    show pieceCount (setAt (setAt s.Bitboards WhitePawn _) promo _) WHITE + 0 = _
      ∧ pieceCount (setAt (setAt s.Bitboards WhitePawn _) promo _) BLACK + 0 = _
    rw [hpsp]
    obtain ⟨d1, d2⟩ := pieceCount_setAt_white s.Bitboards WhitePawn
      (PopBit (s.Bitboards WhitePawn) src) (by decide)
    obtain ⟨e1, e2⟩ := pieceCount_setAt_white
      (setAt s.Bitboards WhitePawn (PopBit (s.Bitboards WhitePawn) src)) promo
      (SetBit (s.Bitboards promo) tgt) h4
    rw [setAt_ne _ _ _ _ hne] at e1
    exact ⟨by omega, by omega⟩
  case promoCapture =>
    have hs : src < 40 := by assumption
    have ht : tgt < 40 := by assumption
    have h1 : 1 ≤ promo := by assumption
    have h4 : promo ≤ 4 := by assumption
    have hsrc : (s.Bitboards WhitePawn).testBit src = true := by assumption
    have hb : (s.Bitboards BlackPawn).testBit tgt = true := by assumption
    rw [make_promoCapture s hc src tgt promo hs ht h1 h4 hb] at hm
    simp only [Option.some.injEq] at hm
    subst hm
    have hw : s.SideToMove = WHITE := by
      rcases hmv with ⟨hw, _⟩ | ⟨_, h5⟩
      · exact hw
      · cases h5
    have hne : promo ≠ WhitePawn := by simp only [WhitePawn]; omega
    have hne5 : promo ≠ BlackPawn := by simp only [BlackPawn]; omega
    have hwt : (s.Bitboards WhitePawn).testBit tgt = false :=
      hc.disjoint BlackPawn WhitePawn tgt (by decide) (by decide) (by decide) hb
    have hprt : (s.Bitboards promo).testBit tgt = false :=
      hc.disjoint BlackPawn promo tgt (by decide) (by omega) (fun e => hne5 e.symm) hb
    have hpsp := popSetPop (s.Bitboards WhitePawn) src tgt (hc.1 WhitePawn (by decide)) ht hwt
    have hpop := countBits_popBit (s.Bitboards WhitePawn) src (h64 WhitePawn (by decide))
      (by omega) hsrc
    have hpopb := countBits_popBit (s.Bitboards BlackPawn) tgt (h64 BlackPawn (by decide))
      (by omega) hb
    have hset := countBits_setBit (s.Bitboards promo) tgt (hc.1 promo (by omega)) ht hprt
    rw [if_neg (fun h => by rw [hw] at h; exact absurd h.1 (by decide)),
      if_pos ⟨hw, by decide⟩]
    show pieceCount (setAt (setAt (setAt (setAt s.Bitboards WhitePawn _) BlackPawn _)
        WhitePawn _) promo _) WHITE + 0 = _
      ∧ pieceCount (setAt (setAt (setAt (setAt s.Bitboards WhitePawn _) BlackPawn _)
        WhitePawn _) promo _) BLACK + 1 = _
    rw [hpsp]
    obtain ⟨a1, a2⟩ := pieceCount_setAt_white s.Bitboards WhitePawn
      (SetBit (PopBit (s.Bitboards WhitePawn) src) tgt) (by decide)
    obtain ⟨b1, b2⟩ := pieceCount_setAt_black
      (setAt s.Bitboards WhitePawn (SetBit (PopBit (s.Bitboards WhitePawn) src) tgt))
      (PopBit (s.Bitboards BlackPawn) tgt)
    obtain ⟨c1, c2⟩ := pieceCount_setAt_white
      (setAt (setAt s.Bitboards WhitePawn (SetBit (PopBit (s.Bitboards WhitePawn) src) tgt))
        BlackPawn (PopBit (s.Bitboards BlackPawn) tgt)) WhitePawn
      (PopBit (s.Bitboards WhitePawn) src) (by decide)
    obtain ⟨d1, d2⟩ := pieceCount_setAt_white
      (setAt (setAt (setAt s.Bitboards WhitePawn
        (SetBit (PopBit (s.Bitboards WhitePawn) src) tgt))
        BlackPawn (PopBit (s.Bitboards BlackPawn) tgt)) WhitePawn
        (PopBit (s.Bitboards WhitePawn) src)) promo (SetBit (s.Bitboards promo) tgt) h4
    rw [setAt_ne _ _ _ _ (show BlackPawn ≠ WhitePawn by decide)] at b2
    rw [setAt_ne _ _ _ _ (show WhitePawn ≠ BlackPawn by decide), setAt_same] at c1
    rw [setAt_ne _ _ _ _ hne, setAt_ne _ _ _ _ hne5, setAt_ne _ _ _ _ hne] at d1
    exact ⟨by omega, by omega⟩
  case enPassant =>
    have hside : s.SideToMove = BLACK := by assumption
    have hs : src < 40 := by assumption
    have ht : tgt < 40 := by assumption
    have h5 : 5 ≤ tgt := by assumption
    have hsrc : (s.Bitboards BlackPawn).testBit src = true := by assumption
    have he : (s.Occupancies BOTH).testBit tgt = false := by assumption
    have hwp : (s.Bitboards WhitePawn).testBit (tgt - 5) = true := by assumption
    rw [make_enPassant s hc src tgt hs ht h5 hside (hc.empty tgt he WhitePawn (by decide))] at hm
    simp only [Option.some.injEq] at hm
    subst hm
    have hcnt := countBits_move (s.Bitboards BlackPawn) src tgt (hc.1 BlackPawn (by decide)) hs
      ht hsrc (hc.empty tgt he BlackPawn (by decide))
    have hpop := countBits_popBit (s.Bitboards WhitePawn) (tgt - 5)
      (h64 WhitePawn (by decide)) (by omega) hwp
    rw [if_pos ⟨hside, by decide⟩,
      if_neg (fun h => by rw [hside] at h; exact absurd h.1 (by decide))]
    show pieceCount (setAt (setAt s.Bitboards BlackPawn _) WhitePawn _) WHITE + 1 = _
      ∧ pieceCount (setAt (setAt s.Bitboards BlackPawn _) WhitePawn _) BLACK + 0 = _
    obtain ⟨d1, d2⟩ := pieceCount_setAt_black s.Bitboards
      (SetBit (PopBit (s.Bitboards BlackPawn) src) tgt)
    obtain ⟨e1, e2⟩ := pieceCount_setAt_white
      (setAt s.Bitboards BlackPawn (SetBit (PopBit (s.Bitboards BlackPawn) src) tgt)) WhitePawn
      (PopBit (s.Bitboards WhitePawn) (tgt - 5)) (by decide)
    rw [setAt_ne _ _ _ _ (show WhitePawn ≠ BlackPawn by decide)] at e1
    rw [hcnt] at d2
    exact ⟨by omega, by omega⟩

theorem shape_bounds (s : Position) (src tgt piece promo cap dpp ep : Nat)
    (h : Shape s src tgt piece promo cap dpp ep) :
    src < 64 ∧ tgt < 64 ∧ piece < 8 ∧ promo < 8 ∧ cap < 8 ∧ dpp < 2 ∧ ep < 2 := by
  cases h <;> refine ⟨?_, ?_, ?_, ?_, ?_, ?_, ?_⟩ <;> first | omega | decide

/-- The piece counts after a generated move is made. -/
theorem gen_counts (s : Position) (hc : Consistent s) (m : Nat) (hg : Gen s m) (s1 : Position)
    (hm : makeMoveAll m s = some s1) :
    pieceCount s1.Bitboards WHITE
        + (if s.SideToMove = BLACK ∧ GetMoveCapturedPiece m ≠ NoPiece then 1 else 0)
      = pieceCount s.Bitboards WHITE
    ∧ pieceCount s1.Bitboards BLACK
        + (if s.SideToMove = WHITE ∧ GetMoveCapturedPiece m ≠ NoPiece then 1 else 0)
      = pieceCount s.Bitboards BLACK := by
  obtain ⟨src1, tgt1, piece1, pr1, cap1, dpp1, ep1, heq, ⟨b1, b2, b3, b4, b5, b6, b7⟩, _, h2,
    _, h4⟩ := gen_board s hc m hg
  obtain ⟨src, tgt, piece, promo, cap, dpp, ep, rfl, hsh⟩ := gen_shape s hc m hg
  obtain ⟨c1, c2, c3, c4, c5, c6, c7⟩ := shape_bounds s src tgt piece promo cap dpp ep hsh
  obtain ⟨_, _, d3, _, d5, _, d7, _⟩ := decode_encode src tgt piece promo cap dpp ep
    c1 c2 c3 c4 c5 c6 c7
  obtain ⟨_, _, e3, _, e5, _, e7, _⟩ := decode_encode src1 tgt1 piece1 pr1 cap1 dpp1 ep1
    (by omega) (by omega) (by omega) b4 b5 b6 b7
  rw [← heq, d3] at e3
  rw [← heq, d5] at e5
  rw [← heq, d7] at e7
  subst e3 e5 e7
  rw [d5]
  refine shape_counts s hc src tgt piece promo cap dpp ep hsh h2 ?_ s1 hm
  intro he
  rcases h4 he with ⟨k1, _⟩ | ⟨_, _, _, k4⟩
  · exact Or.inl k1
  · exact Or.inr k4

/-- C39: on a consistent position (whose six piece bitboards are pairwise disjoint),
MakeMove with AllMoves of a move emitted by GenerateMoves returns 1 and leaves the six piece
bitboards pairwise disjoint; the number of pieces of the side that moved is unchanged, and
the number of pieces of the other side is one less when the move captures (its
captured-piece field is not NoPiece, which includes en passant) and unchanged otherwise. -/
theorem C39_one_piece_per_square (s : Position) (hc : Consistent s) (l : List Nat)
    (hg : GenerateMoves s = some l) (m : Nat) (hm : m ∈ l) :
    ∃ s1, MakeMove m AllMoves s = some (1, s1)
      ∧ (∀ p, p < 6 → ∀ q, q < 6 → p ≠ q → s1.Bitboards p &&& s1.Bitboards q = 0)
      ∧ pieceCount s1.Bitboards s.SideToMove = pieceCount s.Bitboards s.SideToMove
      ∧ pieceCount s1.Bitboards (s.SideToMove ^^^ 1)
          + (if GetMoveCapturedPiece m ≠ NoPiece then 1 else 0)
        = pieceCount s.Bitboards (s.SideToMove ^^^ 1) := by
  obtain ⟨s1, h1, _, hc1⟩ := generated_step s hc l hg m hm
  have hgen := gen_sound s hc.lt64 l hg m hm
  obtain ⟨k1, k2⟩ := gen_counts s hc m hgen s1 h1
  refine ⟨s1, ?_, hc1.2.1, ?_⟩
  · unfold MakeMove
    rw [if_pos rfl, h1]
    rfl
  · rcases gen_side s m hgen with hs | hs
    · rw [hs] at k1 k2 ⊢
      rw [if_neg (fun h => absurd h.1 (by decide))] at k1
      by_cases hcp : GetMoveCapturedPiece m ≠ NoPiece
      · rw [if_pos ⟨rfl, hcp⟩] at k2
        rw [if_pos hcp]
        exact ⟨k1, k2⟩
      · rw [if_neg (fun h => hcp h.2)] at k2
        rw [if_neg hcp]
        exact ⟨k1, k2⟩
    · rw [hs] at k1 k2 ⊢
      rw [if_neg (fun h => absurd h.1 (by decide))] at k2
      by_cases hcp : GetMoveCapturedPiece m ≠ NoPiece
      · rw [if_pos ⟨rfl, hcp⟩] at k1
        rw [if_pos hcp]
        exact ⟨k2, k1⟩
      · rw [if_neg (fun h => hcp h.2)] at k1
        rw [if_neg hcp]
        exact ⟨k2, k1⟩

/-- C39 at the start position and its first move a7a6. -/
theorem C39_one_piece_per_square_witness :
    Consistent startPosition
    ∧ GenerateMoves startPosition = some [1771102, 3867934, 1771167, 3867999, 1771232,
        3868064, 1771297, 3868129, 1771362, 3868194, 1775204, 1775332, 1788325]
    ∧ 1771102 ∈ [1771102, 3867934, 1771167, 3867999, 1771232, 3868064, 1771297, 3868129,
        1771362, 3868194, 1775204, 1775332, 1788325]
    ∧ ∃ s1, MakeMove 1771102 AllMoves startPosition = some (1, s1)
      ∧ (∀ p, p < 6 → ∀ q, q < 6 → p ≠ q → s1.Bitboards p &&& s1.Bitboards q = 0)
      ∧ pieceCount s1.Bitboards startPosition.SideToMove
        = pieceCount startPosition.Bitboards startPosition.SideToMove
      ∧ pieceCount s1.Bitboards (startPosition.SideToMove ^^^ 1)
          + (if GetMoveCapturedPiece 1771102 ≠ NoPiece then 1 else 0)
        = pieceCount startPosition.Bitboards (startPosition.SideToMove ^^^ 1) :=
  ⟨startPosition_consistent, startPosition_moves, by decide,
    C39_one_piece_per_square startPosition startPosition_consistent _ startPosition_moves
      1771102 (by decide)⟩

/-! ## The length of the move list -/

theorem rayLoop_superset (cond : Int → Int → Bool) (dr df : Int) (stop : Bool) (block : Nat)
    (fuel : Nat) : ∀ (r f : Int) (attacks i : Nat), attacks.testBit i = true →
    (rayLoop cond dr df stop block fuel r f attacks).testBit i = true := by
  induction fuel with
  | zero => intro r f attacks i h; exact h
  | succ n ih =>
    intro r f attacks i h
    rw [rayLoop]
    have h1 : (attacks ||| shl64 1 (r * 5 + f).toNat).testBit i = true := by
      rw [Nat.testBit_or, h, Bool.true_or]
    split_ifs
    · exact h1
    · exact ih _ _ _ _ h1
    · exact h

/-- A ray that stops at a blocker stays inside the ray on the empty board. -/
theorem rayLoop_mono (cond : Int → Int → Bool) (dr df : Int) (block : Nat) (fuel : Nat) :
    ∀ (r f : Int) (a b : Nat), (∀ i, a.testBit i = true → b.testBit i = true) →
    ∀ i, (rayLoop cond dr df true block fuel r f a).testBit i = true →
      (rayLoop cond dr df true 0 fuel r f b).testBit i = true := by
  induction fuel with
  | zero => intro r f a b hab i h; exact hab i h
  | succ n ih =>
    intro r f a b hab i h
    rw [rayLoop] at h ⊢
    have hor : ∀ j, (a ||| shl64 1 (r * 5 + f).toNat).testBit j = true →
        (b ||| shl64 1 (r * 5 + f).toNat).testBit j = true := by
      intro j hj
      rw [Nat.testBit_or, Bool.or_eq_true] at hj ⊢
      rcases hj with hj | hj
      · exact Or.inl (hab j hj)
      · exact Or.inr hj
    by_cases hc : cond r f = true
    · rw [if_pos hc] at h ⊢
      dsimp only at h ⊢
      rw [if_neg (by rw [Nat.and_zero]; simp)]
      split_ifs at h
      · exact rayLoop_superset _ _ _ _ _ _ _ _ _ _ (hor i h)
      · exact ih _ _ _ _ hor i h
    · rw [if_neg hc] at h ⊢
      exact hab i h

theorem bishopOnTheFly_subset (sq block i : Nat)
    (h : (BishopAttacksOnTheFly sq block).testBit i = true) :
    (BishopAttacksOnTheFly sq 0).testBit i = true := by
  unfold BishopAttacksOnTheFly at h ⊢
  dsimp only at h ⊢
  rw [Nat.testBit_and, Bool.and_eq_true] at h ⊢
  refine ⟨?_, h.2⟩
  refine rayLoop_mono _ _ _ _ _ _ _ _ _ ?_ i h.1
  intro j hj
  refine rayLoop_mono _ _ _ _ _ _ _ _ _ ?_ j hj
  intro k hk
  refine rayLoop_mono _ _ _ _ _ _ _ _ _ ?_ k hk
  intro m hm
  exact rayLoop_mono _ _ _ _ _ _ _ _ _ (fun _ hn => hn) m hm

theorem rookOnTheFly_subset (sq block i : Nat)
    (h : (RookAttacksOnTheFly sq block).testBit i = true) :
    (RookAttacksOnTheFly sq 0).testBit i = true := by
  unfold RookAttacksOnTheFly at h ⊢
  dsimp only at h ⊢
  rw [Nat.testBit_and, Bool.and_eq_true] at h ⊢
  refine ⟨?_, h.2⟩
  refine rayLoop_mono _ _ _ _ _ _ _ _ _ ?_ i h.1
  intro j hj
  refine rayLoop_mono _ _ _ _ _ _ _ _ _ ?_ j hj
  intro k hk
  refine rayLoop_mono _ _ _ _ _ _ _ _ _ ?_ k hk
  intro m hm
  exact rayLoop_mono _ _ _ _ _ _ _ _ _ (fun _ hn => hn) m hm

theorem bitList_length_mono (a b : Nat) (h : ∀ i, a.testBit i = true → b.testBit i = true) :
    (bitList a).length ≤ (bitList b).length := by
  apply List.Subperm.length_le
  apply List.subperm_of_subset (bitList_nodup a)
  intro i hi
  rw [mem_bitList] at hi ⊢
  exact ⟨hi.1, h i hi.2⟩

theorem bitList_length_and (a b : Nat) : (bitList (Nat.land a b)).length ≤ (bitList a).length := by
  apply bitList_length_mono
  intro i hi
  have : (a &&& b).testBit i = true := hi
  rw [Nat.testBit_and, Bool.and_eq_true] at this
  exact this.1

set_option maxRecDepth 100000 in
/-- On the empty board no piece attacks more than twelve squares. -/
theorem attack_counts : ∀ sq, sq < 40 →
    CountBits (MaskKnightAttacks sq) ≤ 12 ∧ CountBits (MaskKingAttacks sq) ≤ 12
      ∧ CountBits (BishopAttacksOnTheFly sq 0) ≤ 12
      ∧ CountBits (RookAttacksOnTheFly sq 0) ≤ 12 := by
  decide!

theorem length_forBitsF_le (body : Nat → List Nat) (x c : Nat) (hx : x < 2 ^ 64)
    (h : ∀ a, a ∈ bitList x → (body a).length ≤ c) :
    (forBitsF body 64 x).length ≤ c * (bitList x).length := by
  rw [forBitsF_eq64 _ _ hx, length_flatMap_sum]
  generalize bitList x = l at h
  induction l with
  | nil => simp
  | cons a as ih =>
    have h1 := h a (List.mem_cons_self _ _)
    have h2 := ih (fun b hb => h b (List.mem_cons_of_mem _ hb))
    rw [List.map_cons, List.sum_cons, List.length_cons, Nat.mul_succ]
    omega

/-- A pawn attacks at most two squares. -/
theorem pawn_targets_le (side src occ : Nat) (hside : side = WHITE ∨ side = BLACK)
    (hs : src < 40) : (bitList (Nat.land (MaskPawnAttacks side src) occ)).length ≤ 2 := by
  refine le_trans (bitList_length_and _ _) ?_
  rcases hside with h | h <;> subst h
  · have hsub : bitList (MaskPawnAttacks WHITE src) ⊆ [src - 4, src - 6] := by
      intro t ht
      rw [mem_bitList] at ht
      have := (maskPawnAttacks_white_iff src t hs).1 ht.2
      simp only [List.mem_cons, List.mem_singleton, List.not_mem_nil, or_false]
      omega
    exact (List.subperm_of_subset (bitList_nodup _) hsub).length_le
  · have hsub : bitList (MaskPawnAttacks BLACK src) ⊆ [src + 6, src + 4] := by
      intro t ht
      rw [mem_bitList] at ht
      have := (maskPawnAttacks_black_iff src t hs).1 ht.2
      simp only [List.mem_cons, List.mem_singleton, List.not_mem_nil, or_false]
      omega
    exact (List.subperm_of_subset (bitList_nodup _) hsub).length_le

theorem whitePawnMovesF_length (occB both src : Nat) (hs : src < 40) :
    (whitePawnMovesF occB both src).length ≤ 12 := by
  unfold whitePawnMovesF
  rw [List.length_append]
  show _ ≤ 4 + 8
  apply Nat.add_le_add
  · cases Nat.ble 5 src <;> cases Nat.beq (getBitF both (Nat.sub src 5)) 0 <;>
      cases Nat.ble src 9 <;> cases Nat.ble 30 src <;> cases Nat.ble src 34 <;>
      cases Nat.beq (getBitF both (Nat.sub src 10)) 0 <;> simp [promotionPieces]
  · refine le_trans (length_forBitsF_le _ _ 4 (and_lt64_left _ _ (maskPawnAttacks_lt64 _ _)) ?_)
      (Nat.mul_le_mul_left 4 (pawn_targets_le WHITE src occB (Or.inl rfl) hs))
    intro a _
    cases Nat.ble 5 src <;> cases Nat.ble src 9 <;> simp [promotionPieces]

theorem whitePieceMovesF_length (occW occB piece src att : Nat) (hatt : att < 2 ^ 64) :
    (whitePieceMovesF occW occB piece src att).length ≤ (bitList att).length := by
  unfold whitePieceMovesF
  refine le_trans (length_forBitsF_le _ _ 1 (and_lt64_left _ _ hatt) ?_) ?_
  · intro a _
    cases Nat.beq (getBitF occB a) 0 <;> simp
  · rw [Nat.one_mul]
    exact bitList_length_and _ _

theorem blackPawnMovesF_length (b : Board) (occW both src : Nat) (hs : src < 40) :
    (blackPawnMovesF b occW both src).length ≤ 4 := by
  unfold blackPawnMovesF
  rw [List.length_append, List.length_append]
  show _ ≤ 1 + (2 + 1)
  apply Nat.add_le_add
  · cases Nat.ble (Nat.add src 5) 39 <;> cases Nat.beq (getBitF both (Nat.add src 5)) 0 <;>
      simp
  · apply Nat.add_le_add
    · refine le_trans (length_forBitsF_le _ _ 1 (and_lt64_left _ _ (maskPawnAttacks_lt64 _ _))
        (fun a _ => by simp)) ?_
      rw [Nat.one_mul]
      exact pawn_targets_le BLACK src occW (Or.inr rfl) hs
    · cases Nat.beq b.ep 40 <;>
        cases Nat.beq (Nat.land (MaskPawnAttacks BLACK src) (Nat.shiftLeft 1 b.ep)) 0 <;>
        cases Nat.beq (Nat.land (Nat.shiftLeft 1 (Nat.sub b.ep 5)) b.wp) 0 <;> simp

theorem sliderAttacksF_lt64 (isBishop sq occ : Nat) : sliderAttacksF isBishop sq occ < 2 ^ 64 := by
  unfold sliderAttacksF
  simp only [forceNat_eq]
  show cond (Nat.beq isBishop BISHOP) _ _ < 2 ^ 64
  cases Nat.beq isBishop BISHOP
  · exact Nat.lt_of_lt_of_le (rookOTF_lt _ _) two_pow_40_le_64
  · exact Nat.lt_of_lt_of_le (bishopOTF_lt _ _) two_pow_40_le_64

theorem sliderAttacksF_length (isBishop sq occ : Nat) (hs : sq < 40) :
    (bitList (sliderAttacksF isBishop sq occ)).length ≤ 12 := by
  obtain ⟨_, _, hb, hr⟩ := attack_counts sq hs
  rw [countBits_eq _ (Nat.lt_of_lt_of_le (rookOTF_lt _ _) two_pow_40_le_64)] at hr
  rw [countBits_eq _ (Nat.lt_of_lt_of_le (bishopOTF_lt _ _) two_pow_40_le_64)] at hb
  unfold sliderAttacksF
  simp only [forceNat_eq]
  show (bitList (cond (Nat.beq isBishop BISHOP) _ _)).length ≤ 12
  cases Nat.beq isBishop BISHOP
  · exact le_trans (bitList_length_mono _ _ (fun i hi => rookOnTheFly_subset sq _ i hi)) hr
  · exact le_trans (bitList_length_mono _ _ (fun i hi => bishopOnTheFly_subset sq _ i hi)) hb

theorem generateMovesF_length (b : Board) (h0 : b.wp < 2 ^ 40) (h1 : b.wn < 2 ^ 40)
    (h2 : b.wb < 2 ^ 40) (h3 : b.wr < 2 ^ 40) (h4 : b.wk < 2 ^ 40) (h5 : b.bp < 2 ^ 40) :
    (generateMovesF b).length
      ≤ if b.stm = 0 then
          12 * (CountBits b.wp + CountBits b.wn + CountBits b.wb + CountBits b.wr
            + CountBits b.wk)
        else 256 := by
  have e64 : ∀ x, x < 2 ^ 40 → x < 2 ^ 64 := fun x hx => Nat.lt_of_lt_of_le hx two_pow_40_le_64
  unfold generateMovesF
  simp only [forceNat_eq]
  rw [cond_beq]
  by_cases hs : b.stm = 0
  · rw [if_pos hs, if_pos hs]
    rw [countBits_eq _ (e64 _ h0), countBits_eq _ (e64 _ h1), countBits_eq _ (e64 _ h2),
      countBits_eq _ (e64 _ h3), countBits_eq _ (e64 _ h4)]
    simp only [List.length_append, Nat.mul_add]
    have a0 := length_forBitsF_le (whitePawnMovesF b.bp
      (Nat.lor (Nat.lor (Nat.lor (Nat.lor (Nat.lor b.wp b.wn) b.wb) b.wr) b.wk) b.bp)) b.wp 12
      (e64 _ h0) (fun a ha => whitePawnMovesF_length _ _ a (mem_bitList_lt40 _ _ h0 ha))
    have a1 := length_forBitsF_le (fun sq => whitePieceMovesF
      (Nat.lor (Nat.lor (Nat.lor (Nat.lor b.wp b.wn) b.wb) b.wr) b.wk) b.bp WhiteKnight sq
      (MaskKnightAttacks sq)) b.wn 12 (e64 _ h1) (fun a ha => by
        have hk := (attack_counts a (mem_bitList_lt40 _ _ h1 ha)).1
        rw [countBits_eq _ (e64 _ (maskKnightAttacks_lt a))] at hk
        exact le_trans (whitePieceMovesF_length _ _ _ _ _ (e64 _ (maskKnightAttacks_lt a))) hk)
    have a2 := length_forBitsF_le (fun sq => whitePieceMovesF
      (Nat.lor (Nat.lor (Nat.lor (Nat.lor b.wp b.wn) b.wb) b.wr) b.wk) b.bp WhiteBishop sq
      (sliderAttacksF BISHOP sq
        (Nat.lor (Nat.lor (Nat.lor (Nat.lor (Nat.lor b.wp b.wn) b.wb) b.wr) b.wk) b.bp)))
      b.wb 12 (e64 _ h2) (fun a ha => by
        refine le_trans (whitePieceMovesF_length _ _ _ _ _ ?_)
          (sliderAttacksF_length _ a _ (mem_bitList_lt40 _ _ h2 ha))
        exact sliderAttacksF_lt64 _ _ _)
    have a3 := length_forBitsF_le (fun sq => whitePieceMovesF
      (Nat.lor (Nat.lor (Nat.lor (Nat.lor b.wp b.wn) b.wb) b.wr) b.wk) b.bp WhiteRook sq
      (sliderAttacksF ROOK sq
        (Nat.lor (Nat.lor (Nat.lor (Nat.lor (Nat.lor b.wp b.wn) b.wb) b.wr) b.wk) b.bp)))
      b.wr 12 (e64 _ h3) (fun a ha => by
        refine le_trans (whitePieceMovesF_length _ _ _ _ _ ?_)
          (sliderAttacksF_length _ a _ (mem_bitList_lt40 _ _ h3 ha))
        exact sliderAttacksF_lt64 _ _ _)
    have a4 := length_forBitsF_le (fun sq => whitePieceMovesF
      (Nat.lor (Nat.lor (Nat.lor (Nat.lor b.wp b.wn) b.wb) b.wr) b.wk) b.bp WhiteKing sq
      (MaskKingAttacks sq)) b.wk 12 (e64 _ h4) (fun a ha => by
        have hk := (attack_counts a (mem_bitList_lt40 _ _ h4 ha)).2.1
        rw [countBits_eq _ (e64 _ (maskKingAttacks_lt a))] at hk
        exact le_trans (whitePieceMovesF_length _ _ _ _ _ (e64 _ (maskKingAttacks_lt a))) hk)
    omega
  · rw [if_neg hs, if_neg hs]
    have a5 := length_forBitsF_le (blackPawnMovesF b
      (Nat.lor (Nat.lor (Nat.lor (Nat.lor b.wp b.wn) b.wb) b.wr) b.wk)
      (Nat.lor (Nat.lor (Nat.lor (Nat.lor (Nat.lor b.wp b.wn) b.wb) b.wr) b.wk) b.bp)) b.bp 4
      (e64 _ h5) (fun a ha => blackPawnMovesF_length _ _ _ a (mem_bitList_lt40 _ _ h5 ha))
    have := bitList_length_le b.bp
    omega

/-! ## Quiescence returns -/

/-- GenerateMoves returns on a consistent position with at most 21 White pieces. -/
theorem generateMoves_total (s : Position) (hc : Consistent s) (hs : s.SideToMove < 2)
    (hw : pieceCount s.Bitboards WHITE ≤ 21) : ∃ l, GenerateMoves s = some l := by
  refine ⟨_, generateMoves_fast s hc hs ?_⟩
  have h := generateMovesF_length (toBoard s) (hc.1 0 (by decide)) (hc.1 1 (by decide))
    (hc.1 2 (by decide)) (hc.1 3 (by decide)) (hc.1 4 (by decide)) (hc.1 5 (by decide))
  have hw2 : CountBits (toBoard s).wp + CountBits (toBoard s).wn + CountBits (toBoard s).wb
      + CountBits (toBoard s).wr + CountBits (toBoard s).wk ≤ 21 := by
    unfold pieceCount at hw
    rw [if_pos rfl] at hw
    exact hw
  split_ifs at h <;> omega

/-- The side to move after a generated move is made. -/
theorem gen_made_side (s : Position) (hc : Consistent s) (m : Nat) (hg : Gen s m) (s1 : Position)
    (hm : makeMoveAll m s = some s1) : s1.SideToMove = s.SideToMove ^^^ 1 := by
  obtain ⟨src, tgt, piece, promo, cap, dpp, ep, rfl, hsh⟩ := gen_shape s hc m hg
  cases hsh
  case quiet =>
    rw [make_quiet s hc src tgt piece (by assumption) (by assumption) (by assumption)] at hm
    simp only [Option.some.injEq] at hm
    subst hm
    rfl
  case double =>
    rw [make_double s hc src (by assumption) (by assumption) (by assumption)] at hm
    simp only [Option.some.injEq] at hm
    subst hm
    rfl
  case capture =>
    rw [make_capture s hc src tgt piece cap (by assumption) (by assumption) (by assumption)
      (by assumption) (by assumption) (by assumption)] at hm
    simp only [Option.some.injEq] at hm
    subst hm
    rfl
  case promo =>
    rw [make_promo s hc src tgt promo (by assumption) (by assumption) (by assumption)
      (by assumption)] at hm
    simp only [Option.some.injEq] at hm
    subst hm
    rfl
  case promoCapture =>
    rw [make_promoCapture s hc src tgt promo (by assumption) (by assumption) (by assumption)
      (by assumption) (by assumption)] at hm
    simp only [Option.some.injEq] at hm
    subst hm
    rfl
  case enPassant =>
    have he : (s.Occupancies BOTH).testBit tgt = false := by assumption
    rw [make_enPassant s hc src tgt (by assumption) (by assumption) (by assumption)
      (by assumption) (hc.empty tgt he WhitePawn (by decide))] at hm
    simp only [Option.some.injEq] at hm
    subst hm
    rfl

/-- The piece and the target of a generated move index the history table. -/
theorem gen_indexable (s : Position) (hc : Consistent s) (l : List Nat)
    (hg : GenerateMoves s = some l) (m : Nat) (hm : m ∈ l) :
    GetMovePiece m < 6 ∧ GetMoveTarget m < 40 := by
  obtain ⟨src, tgt, piece, pr, cap, dpp, ep, rfl, ⟨b1, b2, b3, b4, b5, b6, b7⟩, _⟩ :=
    gen_board s hc m (gen_sound s hc.lt64 l hg m hm)
  obtain ⟨_, d2, d3, _⟩ := decode_encode src tgt piece pr cap dpp ep
    (by omega) (by omega) (by omega) b4 b5 b6 b7
  rw [d2, d3]
  exact ⟨b3, b2⟩

/-- OrderMoves returns for moves that index the history table, at a ply inside the killer
and PV tables; it changes nothing but ScorePV. -/
theorem orderMoves_total (moves : List Nat) (bestMove : Nat) (st : SearchState)
    (hp : 0 ≤ st.Ply ∧ st.Ply < 64)
    (hm : ∀ m, m ∈ moves → GetMovePiece m < 6 ∧ GetMoveTarget m < 40) :
    ∃ ordered b, OrderMoves moves bestMove st = some (ordered, { st with ScorePV := b })
      ∧ List.Perm ordered moves := by
  obtain ⟨scored, b, h1, h2, _⟩ := scoreMovesLoop_total bestMove moves st hp hm
  refine ⟨_, b, orderMoves_eq moves bestMove st _ scored h1, ?_⟩
  have := List.Perm.map Prod.snd (bubbleSort_perm scored.length (scored.length - 1) scored)
  rw [h2] at this
  exact this

theorem quiescenceReady_frame {a b : SearchState} (h : Frame a b) (hq : QuiescenceReady a) :
    QuiescenceReady b := by
  obtain ⟨hc, hs, hw, h0, h64, hr0, hr1⟩ := hq
  obtain ⟨f1, f2, f3⟩ := h
  refine ⟨coreEq_consistent f1 hc, ?_, ?_, ?_, ?_, ?_, ?_⟩
  · rw [f1.2.2.1]; exact hs
  · rw [f1.1]; exact hw
  · rw [f3]; exact h0
  · rw [f3]; exact h64
  · rw [f2]; exact hr0
  · rw [f2, f3]; exact hr1

/-- The state in which the child of a generated move is searched is ready for quiescence. -/
theorem quiescenceReady_child (st sa : SearchState) (l : List Nat) (move : Nat) (s1 : Position)
    (hq : QuiescenceReady st) (h63 : st.Ply ≤ 63) (he : enterPly st = some sa)
    (hg : GenerateMoves sa.pos = some l) (hm : move ∈ l)
    (hs1 : makeMoveAll move sa.pos = some s1) (hun : UnMakeMove s1 = some sa.pos)
    (hc1 : Consistent s1) : QuiescenceReady { sa with pos := s1 } := by
  obtain ⟨hc, hs, hw, h0, h64, hr0, hr1⟩ := hq
  obtain ⟨e1, e2, e3⟩ := enterPly_spec st sa he
  have hca : Consistent sa.pos := coreEq_consistent e1 hc
  have hgen := gen_sound sa.pos hca.lt64 l hg move hm
  have hside := gen_made_side sa.pos hca move hgen s1 hs1
  have hcnt := (gen_counts sa.pos hca move hgen s1 hs1).1
  have hidx := unMake_repetitionIndex s1 sa.pos hun
  refine ⟨hc1, ?_, ?_, ?_, ?_, ?_, ?_⟩
  · show s1.SideToMove < 2
    rw [hside, e1.2.2.1]
    have : st.pos.SideToMove = 0 ∨ st.pos.SideToMove = 1 := by omega
    rcases this with h | h <;> rw [h] <;> decide
  · show pieceCount s1.Bitboards WHITE ≤ 21
    rw [e1.1] at hcnt
    omega
  · show 0 ≤ sa.Ply
    omega
  · show sa.Ply ≤ 64
    omega
  · show 0 ≤ s1.RepetitionIndex
    omega
  · show s1.RepetitionIndex + (64 - sa.Ply) < 10000
    omega

/-- The move loop of quiescence returns when the recursive call does, and its result lies
between the bounds it starts with. -/
theorem quiescenceLoop_total (recurse : Int → Int → SearchState → Option (Int × SearchState))
    (P : Int) (beta : Int) (l : List Nat)
    (hT : ∀ a b st, QuiescenceReady st → st.Ply = P + 1 → ∃ r st1, recurse a b st = some (r, st1))
    (hF : QFrame recurse) (hP : P ≤ 63) :
    ∀ (moves : List Nat) (alpha : Int) (st : SearchState), QuiescenceReady st → st.Ply = P →
      GenerateMoves st.pos = some l → (∀ m, m ∈ moves → m ∈ l) →
      ∃ r st1, quiescenceLoop recurse beta moves alpha st = some (r, st1)
        ∧ (alpha ≤ beta → alpha ≤ r ∧ r ≤ beta) := by
  intro moves
  induction moves with
  | nil =>
    intro alpha st _ _ _ _
    exact ⟨alpha, st, rfl, fun h => ⟨le_refl _, h⟩⟩
  | cons move rest ih =>
    intro alpha st hq hply hg hsub
    have hrest : ∀ m, m ∈ rest → m ∈ l := fun m hm => hsub m (List.mem_cons_of_mem _ hm)
    have hml : move ∈ l := hsub move (List.mem_cons_self _ _)
    have hc : Consistent st.pos := hq.1
    have hidx : 0 ≤ st.pos.RepetitionIndex + 1 ∧ st.pos.RepetitionIndex + 1 < 10000 := by
      obtain ⟨_, _, _, _, _, hr0, hr1⟩ := hq
      omega
    obtain ⟨sa, he⟩ : ∃ sa, enterPly st = some sa := by
      unfold enterPly
      dsimp only
      rw [if_pos hidx]
      exact ⟨_, rfl⟩
    obtain ⟨e1, e2, e3⟩ := enterPly_spec st sa he
    have hca : Consistent sa.pos := coreEq_consistent e1 hc
    have hga : GenerateMoves sa.pos = some l := by rw [coreEq_generateMoves e1, hg]
    obtain ⟨s1, hs1, hun, hc1⟩ := generated_step sa.pos hca l hga move hml
    unfold quiescenceLoop
    rw [he]
    dsimp only
    by_cases hcapt : GetMoveCapturedPiece move ≤ BlackPawn ∧ GetMoveCapturedPiece move ≥ WhitePawn
    · have hmk : MakeMove move OnlyCaptures sa.pos = some (1, s1) := by
        unfold MakeMove
        rw [if_neg (by decide)]
        dsimp only
        rw [if_pos hcapt, hs1]
        rfl
      rw [hmk]
      dsimp only
      rw [if_neg (by decide)]
      have hqc := quiescenceReady_child st sa l move s1 hq (by omega) he hga hml hs1 hun hc1
      obtain ⟨v, sr, hr⟩ := hT (wrapInt (-beta)) (wrapInt (-alpha)) { sa with pos := s1 } hqc
        (by show sa.Ply = P + 1; omega)
      rw [hr]
      dsimp only
      have hfc : Frame { sa with pos := s1 } sr := hF _ _ _ _ _ hc1 hr
      obtain ⟨pos2, hu2, _, _⟩ := coreEq_unMake hfc.1 hun
      rw [hu2]
      dsimp only
      have hfr := step_frame st sa sr l move s1 pos2 hc hg hml he hs1 (fun _ => hfc) hu2
      by_cases hcut : beta ≤ max alpha (wrapInt (-v))
      · rw [if_pos hcut]
        exact ⟨beta, _, rfl, fun h => ⟨h, le_refl _⟩⟩
      · rw [if_neg hcut]
        obtain ⟨r, st1, h1, h2⟩ := ih (max alpha (wrapInt (-v))) _
          (quiescenceReady_frame hfr hq) (hfr.2.2.trans hply)
          (by rw [frame_generateMoves hfr]; exact hg) hrest
        refine ⟨r, st1, h1, fun _ => ?_⟩
        have := h2 (by omega)
        exact ⟨le_trans (le_max_left _ _) this.1, this.2⟩
    · have hmk : MakeMove move OnlyCaptures sa.pos = some (0, sa.pos) := by
        unfold MakeMove
        rw [if_neg (by decide)]
        dsimp only
        rw [if_neg hcapt]
      rw [hmk]
      dsimp only
      rw [if_pos rfl]
      have hfr := skip_frame st sa he
      exact ih alpha _ (quiescenceReady_frame hfr hq) (hfr.2.2.trans hply)
        (by rw [frame_generateMoves hfr]; exact hg) hrest

/-- Quiescence returns when the recursion budget covers the plies down to 64, and below
ply 64 on a position that is not terminal its result lies inside the window. -/
theorem quiescence_total : ∀ (fuel : Nat) (alpha beta : Int) (st : SearchState),
    QuiescenceReady st → 65 ≤ (fuel : Int) + st.Ply →
    ∃ r st1, quiescence fuel alpha beta st = some (r, st1)
      ∧ (st.Ply ≤ 63 → IsTerminalPosition st.pos = false → alpha ≤ beta →
          alpha ≤ r ∧ r ≤ beta
            ∧ ∀ ev, EvaluatePosition st.pos = some ev → ev ≥ beta → r = beta) := by
  intro fuel
  induction fuel with
  | zero =>
    intro alpha beta st hq hf
    obtain ⟨_, _, _, _, h64, _, _⟩ := hq
    exfalso
    simp only [Nat.cast_zero, zero_add] at hf
    omega
  | succ fuel ih =>
    intro alpha beta st hq hf
    have hq0 := hq
    obtain ⟨hc, hs, hw, h0, h64, hr0, hr1⟩ := hq
    have hev : EvaluatePosition st.pos = some _ := evaluatePosition_eq st.pos hc.1
    generalize (if st.pos.SideToMove = BLACK then (-1 : Int) else 1)
        * (materialSum st.pos.Bitboards st.pos.Occupancies
            + (if st.pos.Occupancies WHITE = 0 then -50000 else 0)
            + (if st.pos.Occupancies BLACK = 0 then 50000 else 0)) = ev at hev
    unfold quiescence
    dsimp only
    by_cases hterm : st.Ply > MaxPly - 1 ∨ IsTerminalPosition st.pos = true
    · rw [if_pos hterm, hev]
      refine ⟨ev, _, rfl, ?_⟩
      intro h63 ht _
      exfalso
      rcases hterm with h | h
      · simp only [MaxPly] at h
        omega
      · rw [ht] at h
        cases h
    · rw [if_neg hterm, hev]
      dsimp only
      have h63 : st.Ply ≤ 63 := by
        by_contra hn
        apply hterm
        left
        simp only [MaxPly]
        omega
      by_cases hge : ev ≥ beta
      · rw [if_pos hge]
        exact ⟨beta, _, rfl, fun _ _ hab => ⟨hab, le_refl _, fun _ _ _ => rfl⟩⟩
      · rw [if_neg hge]
        obtain ⟨l, hg⟩ := generateMoves_total st.pos hc hs hw
        rw [hg]
        dsimp only
        have hp : 0 ≤ st.Ply ∧ st.Ply < 64 := ⟨h0, by omega⟩
        obtain ⟨ordered, b, ho, hperm⟩ := orderMoves_total l 0
          { st with NodesVisited := wrapInt (st.NodesVisited + 1) } hp
          (fun m hm => gen_indexable st.pos hc l hg m hm)
        rw [ho]
        dsimp only
        obtain ⟨r, st1, h1, h2⟩ := quiescenceLoop_total (quiescence fuel) st.Ply beta l
          (fun a b s hqs hpl => by
            obtain ⟨r, s1, hr, _⟩ := ih a b s hqs (by push_cast at hf; omega)
            exact ⟨r, s1, hr⟩)
          (quiescence_frame fuel) h63 ordered (if ev > alpha then ev else alpha)
          { st with NodesVisited := wrapInt (st.NodesVisited + 1), ScorePV := b } hq0 rfl hg
          (fun m hm => (List.Perm.mem_iff hperm).1 hm)
        refine ⟨r, st1, h1, fun _ _ hab => ?_⟩
        have hb : (if ev > alpha then ev else alpha) ≤ beta := by
          split_ifs <;> omega
        have ha : alpha ≤ (if ev > alpha then ev else alpha) := by
          split_ifs <;> omega
        obtain ⟨k1, k2⟩ := h2 hb
        refine ⟨le_trans ha k1, k2, fun ev2 hev2 hge2 => ?_⟩
        simp only [Option.some.injEq] at hev2
        subst hev2
        exact absurd hge2 hge

/-- With the repetition stack full, quiescence does not return on a position that is not
terminal, has a move and an evaluation below beta: the store into the repetition table is
outside its 10000 entries. -/
theorem quiescence_overflow (fuel : Nat) (alpha beta : Int) (st : SearchState)
    (hc : Consistent st.pos) (hply : 0 ≤ st.Ply ∧ st.Ply ≤ 63)
    (hterm : IsTerminalPosition st.pos = false) (ev : Int) (l : List Nat)
    (hev : EvaluatePosition st.pos = some ev) (hlt : ev < beta)
    (hg : GenerateMoves st.pos = some l) (hne : l ≠ [])
    (hfull : 10000 ≤ st.pos.RepetitionIndex + 1) :
    quiescence (fuel + 1) alpha beta st = none := by
  unfold quiescence
  dsimp only
  have hnt : ¬ (st.Ply > MaxPly - 1 ∨ IsTerminalPosition st.pos = true) := by
    rintro (h | h)
    · simp only [MaxPly] at h
      omega
    · rw [hterm] at h
      cases h
  rw [if_neg hnt, hev]
  dsimp only
  rw [if_neg (not_le.2 hlt), hg]
  dsimp only
  have hp : 0 ≤ st.Ply ∧ st.Ply < 64 := ⟨hply.1, by omega⟩
  obtain ⟨ordered, b, ho, hperm⟩ := orderMoves_total l 0
    { st with NodesVisited := wrapInt (st.NodesVisited + 1) } hp
    (fun m hm => gen_indexable st.pos hc l hg m hm)
  rw [ho]
  dsimp only
  cases ordered with
  | nil =>
    exact absurd (List.Perm.eq_nil hperm.symm) hne
  | cons move rest =>
    unfold quiescenceLoop
    have he : enterPly { st with NodesVisited := wrapInt (st.NodesVisited + 1), ScorePV := b }
        = none := by
      unfold enterPly
      dsimp only
      rw [if_neg (by omega)]
    rw [he]

set_option maxRecDepth 100000 in
/-- C37 (as stated) fails when the repetition stack is full: on the consistent, non-terminal
position of FenTwoPawns at ply 0 with RepetitionIndex 9999 and the window (-50000, 50000),
quiescence does not return for any recursion budget (the store
`RepetitionTable[RepetitionIndex]` before the first move is outside the array). -/
theorem C37_full_stack_counterexample :
    Consistent stackFullState.pos ∧ IsTerminalPosition stackFullState.pos = false
    ∧ stackFullState.Ply ≤ 63 ∧ (-50000 : Int) ≤ 50000
    ∧ ∀ fuel : Nat, quiescence fuel (-50000) 50000 stackFullState = none := by
  have hc : Consistent stackFullState.pos := by decide!
  have ht : IsTerminalPosition stackFullState.pos = false := by decide!
  refine ⟨hc, ht, by decide, by decide, fun fuel => ?_⟩
  cases fuel with
  | zero => rfl
  | succ n =>
    exact quiescence_overflow n (-50000) 50000 stackFullState hc (by decide) ht 0
      [1771102, 3867934] (by decide!) (by decide) (by decide!) (by decide) (by decide)

/-- C37 (amended): on a consistent, non-terminal position with a side to move, at most 21
White pieces (the move list then fits its 256 entries), 0 ≤ Ply ≤ 63, a repetition stack
with room for the plies down to 64 (0 ≤ RepetitionIndex and RepetitionIndex + 64 - Ply <
10000), and a window with α ≤ β, quiescence returns once the recursion budget covers the
plies down to 64 (the recursion ends at ply 64 at the latest, as Ply grows by one with each
capture); its result r satisfies α ≤ r ≤ β, and r = β whenever the static evaluation is
at least β. -/
theorem C37_quiescence_fail_hard (fuel : Nat) (alpha beta : Int) (st : SearchState)
    (hc : Consistent st.pos) (hs : st.pos.SideToMove < 2)
    (hw : pieceCount st.pos.Bitboards WHITE ≤ 21)
    (hply : 0 ≤ st.Ply ∧ st.Ply ≤ 63)
    (hrep : 0 ≤ st.pos.RepetitionIndex ∧ st.pos.RepetitionIndex + (64 - st.Ply) < 10000)
    (hterm : IsTerminalPosition st.pos = false) (hab : alpha ≤ beta)
    (hfuel : 65 ≤ (fuel : Int) + st.Ply) :
    ∃ r st1 ev, quiescence fuel alpha beta st = some (r, st1)
      ∧ EvaluatePosition st.pos = some ev
      ∧ alpha ≤ r ∧ r ≤ beta ∧ (ev ≥ beta → r = beta) := by
  obtain ⟨r, st1, h1, h2⟩ := quiescence_total fuel alpha beta st
    ⟨hc, hs, hw, hply.1, by omega, hrep.1, hrep.2⟩ hfuel
  obtain ⟨k1, k2, k3⟩ := h2 hply.2 hterm hab
  exact ⟨r, st1, _, h1, evaluatePosition_eq st.pos hc.1, k1, k2,
    k3 _ (evaluatePosition_eq st.pos hc.1)⟩

set_option maxRecDepth 100000 in
/-- C37 (amended) at the position of FenTwoPawns, ply 0, an empty repetition stack, the
window (-50000, 50000) and a recursion budget of 65. -/
theorem C37_quiescence_fail_hard_witness :
    Consistent (initialSearchState twoPawnsPosition).pos
    ∧ (initialSearchState twoPawnsPosition).pos.SideToMove < 2
    ∧ pieceCount (initialSearchState twoPawnsPosition).pos.Bitboards WHITE ≤ 21
    ∧ (0 ≤ (initialSearchState twoPawnsPosition).Ply
        ∧ (initialSearchState twoPawnsPosition).Ply ≤ 63)
    ∧ (0 ≤ (initialSearchState twoPawnsPosition).pos.RepetitionIndex
        ∧ (initialSearchState twoPawnsPosition).pos.RepetitionIndex
            + (64 - (initialSearchState twoPawnsPosition).Ply) < 10000)
    ∧ IsTerminalPosition (initialSearchState twoPawnsPosition).pos = false
    ∧ (-50000 : Int) ≤ 50000
    ∧ 65 ≤ ((65 : Nat) : Int) + (initialSearchState twoPawnsPosition).Ply
    ∧ ∃ r st1 ev,
      quiescence 65 (-50000) 50000 (initialSearchState twoPawnsPosition) = some (r, st1)
      ∧ EvaluatePosition (initialSearchState twoPawnsPosition).pos = some ev
      ∧ (-50000 : Int) ≤ r ∧ r ≤ 50000 ∧ (ev ≥ 50000 → r = 50000) :=
  ⟨by decide!, by decide!, by decide!, by decide!, by decide!, by decide!, by decide, by decide!,
    C37_quiescence_fail_hard 65 (-50000) 50000 (initialSearchState twoPawnsPosition)
      (by decide!) (by decide!) (by decide!) (by decide!) (by decide!) (by decide!) (by decide)
      (by decide!)⟩

theorem Consistent.playable {s : Position} (h : Consistent s) : Playable s := by
  refine ⟨h.1, h.2.1, h.2.2.1, h.2.2.2.1, h.2.2.2.2.1, ?_⟩
  rcases h.2.2.2.2.2 with h1 | ⟨_, _, h3⟩
  · exact Or.inr (Or.inl h1)
  · exact Or.inr (Or.inr h3)

/-- A position ParseFEN returns is playable when White is to move, when no en-passant
square is set, or when the en-passant square it names is empty. -/
theorem parseFEN_playable (fen : List Nat) (s s1 : Position) (h : ParseFEN fen s = some s1)
    (hep : s1.SideToMove = WHITE ∨ s1.EnPassantSquare = NoSquare
      ∨ (s1.Occupancies BOTH).testBit s1.EnPassantSquare.toNat = false) : Playable s1 := by
  obtain ⟨hb, hd, hw, hbk, hbo⟩ := parseFEN_spec fen s s1 h
  exact ⟨hb, fun p hp q hq hpq => disj_and_eq_zero _ hd p q hp hq hpq, hw, hbk, hbo, hep⟩

end Zerginator
